import Mathlib

/-! # Deep copy by reflection (`aws/awsutil/copy.go`)

A shallow embedding of `Copy`, `CopyOf` and `rcopy` together with the part of
Go's `reflect` package they call.

* Go types are finite trees (`Ty`); every type carries its optional declared
  name, and a declared name records whether the type has a `Read` method in
  the shape required by `io.Reader`.  Interface, channel and function types
  are not represented.  The fields of a struct type are named fields with
  ASCII names: embedded fields, whose fields `reflect` promotes, are not
  represented.  A recursive type declaration is represented by its
  unfoldings, one for each depth (`Sample.Link`): the traversal goes one level
  down the type with each call, so that under a recursion bound it never sees
  past the unfolding of that depth.
* Memory is a list of objects (`Heap`); an address is an index in it.  An
  object is a variable holding a value, or a map.  A pointer is the address
  of a variable, a slice a window into a variable that holds an array.
* A `reflect.Value` is a type, a place (a path into a variable, or a value
  held by the `Value` itself when it is not addressable) and the read-only
  mark that `reflect` puts on what was reached through an unexported field.
* A Go panic is a result (`Res.panic`), so is running out of recursion fuel.
-/

namespace Awsutil

/-! ## Types -/

/-- The predeclared basic types. -/
inductive Basic where
  | bool | int | int8 | int16 | int32 | int64
  | uint | uint8 | uint16 | uint32 | uint64 | uintptr
  | float32 | float64 | complex64 | complex128 | string
  deriving DecidableEq, Repr

/-- The kinds of `reflect.Kind`. -/
inductive Kind where
  | Invalid | Bool | Int | Int8 | Int16 | Int32 | Int64
  | Uint | Uint8 | Uint16 | Uint32 | Uint64 | Uintptr
  | Float32 | Float64 | Complex64 | Complex128
  | Array | Chan | Func | Interface | Map | Ptr | Slice | String | Struct
  | UnsafePointer
  deriving DecidableEq, Repr

/-- A declared type name; `reads` says that the declared type has a method
`Read([]byte) (int, error)`, which puts a pointer to it in `io.Reader`. -/
structure TName where
  name : String
  reads : Bool
  deriving DecidableEq, Repr

/-- Go types.  `nm` is the declared name, `none` for a type literal (and for
a predeclared basic type, which has its own name).  A struct type lists its
fields by name; all of them are named fields, none is embedded. -/
inductive Ty where
  | basic (nm : Option TName) (b : Basic)
  | ptr (nm : Option TName) (elem : Ty)
  | struct (nm : Option TName) (fields : List (String × Ty))
  | slice (nm : Option TName) (elem : Ty)
  | map (nm : Option TName) (key : Ty) (val : Ty)
  | array (nm : Option TName) (len : Nat) (elem : Ty)
  deriving Repr

mutual
/-- Decision procedure for equality of types. -/
def Ty.dec : (a b : Ty) → Decidable (a = b)
  | .basic n b, .basic n2 b2 =>
    if h1 : n = n2 then
      if h2 : b = b2 then isTrue (by rw [h1, h2])
      else isFalse (by intro e; cases e; exact h2 rfl)
    else isFalse (by intro e; cases e; exact h1 rfl)
  | .ptr n e, .ptr n2 e2 =>
    if h1 : n = n2 then
      match Ty.dec e e2 with
      | isTrue h2 => isTrue (by rw [h1, h2])
      | isFalse h2 => isFalse (by intro e; cases e; exact h2 rfl)
    else isFalse (by intro e; cases e; exact h1 rfl)
  | .struct n fs, .struct n2 fs2 =>
    if h1 : n = n2 then
      match Ty.decFields fs fs2 with
      | isTrue h2 => isTrue (by rw [h1, h2])
      | isFalse h2 => isFalse (by intro e; cases e; exact h2 rfl)
    else isFalse (by intro e; cases e; exact h1 rfl)
  | .slice n e, .slice n2 e2 =>
    if h1 : n = n2 then
      match Ty.dec e e2 with
      | isTrue h2 => isTrue (by rw [h1, h2])
      | isFalse h2 => isFalse (by intro e; cases e; exact h2 rfl)
    else isFalse (by intro e; cases e; exact h1 rfl)
  | .map n k v, .map n2 k2 v2 =>
    if h1 : n = n2 then
      match Ty.dec k k2 with
      | isTrue h2 =>
        match Ty.dec v v2 with
        | isTrue h3 => isTrue (by rw [h1, h2, h3])
        | isFalse h3 => isFalse (by intro e; cases e; exact h3 rfl)
      | isFalse h2 => isFalse (by intro e; cases e; exact h2 rfl)
    else isFalse (by intro e; cases e; exact h1 rfl)
  | .array n l e, .array n2 l2 e2 =>
    if h1 : n = n2 then
      if h0 : l = l2 then
        match Ty.dec e e2 with
        | isTrue h2 => isTrue (by rw [h1, h0, h2])
        | isFalse h2 => isFalse (by intro e; cases e; exact h2 rfl)
      else isFalse (by intro e; cases e; exact h0 rfl)
    else isFalse (by intro e; cases e; exact h1 rfl)
  | .basic _ _, .ptr _ _ => isFalse (by intro e; cases e)
  | .basic _ _, .struct _ _ => isFalse (by intro e; cases e)
  | .basic _ _, .slice _ _ => isFalse (by intro e; cases e)
  | .basic _ _, .map _ _ _ => isFalse (by intro e; cases e)
  | .basic _ _, .array _ _ _ => isFalse (by intro e; cases e)
  | .ptr _ _, .basic _ _ => isFalse (by intro e; cases e)
  | .ptr _ _, .struct _ _ => isFalse (by intro e; cases e)
  | .ptr _ _, .slice _ _ => isFalse (by intro e; cases e)
  | .ptr _ _, .map _ _ _ => isFalse (by intro e; cases e)
  | .ptr _ _, .array _ _ _ => isFalse (by intro e; cases e)
  | .struct _ _, .basic _ _ => isFalse (by intro e; cases e)
  | .struct _ _, .ptr _ _ => isFalse (by intro e; cases e)
  | .struct _ _, .slice _ _ => isFalse (by intro e; cases e)
  | .struct _ _, .map _ _ _ => isFalse (by intro e; cases e)
  | .struct _ _, .array _ _ _ => isFalse (by intro e; cases e)
  | .slice _ _, .basic _ _ => isFalse (by intro e; cases e)
  | .slice _ _, .ptr _ _ => isFalse (by intro e; cases e)
  | .slice _ _, .struct _ _ => isFalse (by intro e; cases e)
  | .slice _ _, .map _ _ _ => isFalse (by intro e; cases e)
  | .slice _ _, .array _ _ _ => isFalse (by intro e; cases e)
  | .map _ _ _, .basic _ _ => isFalse (by intro e; cases e)
  | .map _ _ _, .ptr _ _ => isFalse (by intro e; cases e)
  | .map _ _ _, .struct _ _ => isFalse (by intro e; cases e)
  | .map _ _ _, .slice _ _ => isFalse (by intro e; cases e)
  | .map _ _ _, .array _ _ _ => isFalse (by intro e; cases e)
  | .array _ _ _, .basic _ _ => isFalse (by intro e; cases e)
  | .array _ _ _, .ptr _ _ => isFalse (by intro e; cases e)
  | .array _ _ _, .struct _ _ => isFalse (by intro e; cases e)
  | .array _ _ _, .slice _ _ => isFalse (by intro e; cases e)
  | .array _ _ _, .map _ _ _ => isFalse (by intro e; cases e)
/-- Decision procedure for equality of field lists. -/
def Ty.decFields : (a b : List (String × Ty)) → Decidable (a = b)
  | [], [] => isTrue rfl
  | [], _ :: _ => isFalse (by intro e; cases e)
  | _ :: _, [] => isFalse (by intro e; cases e)
  | (s, t) :: r, (s2, t2) :: r2 =>
    if h1 : s = s2 then
      match Ty.dec t t2 with
      | isTrue h2 =>
        match Ty.decFields r r2 with
        | isTrue h3 => isTrue (by rw [h1, h2, h3])
        | isFalse h3 => isFalse (by intro e; cases e; exact h3 rfl)
      | isFalse h2 => isFalse (by intro e; cases e; exact h2 rfl)
    else isFalse (by intro e; cases e; exact h1 rfl)
end

instance : DecidableEq Ty := Ty.dec

/-- `Type.Kind()`. -/
def Ty.Kind : Ty → Kind
  | .basic _ .bool => .Bool
  | .basic _ .int => .Int
  | .basic _ .int8 => .Int8
  | .basic _ .int16 => .Int16
  | .basic _ .int32 => .Int32
  | .basic _ .int64 => .Int64
  | .basic _ .uint => .Uint
  | .basic _ .uint8 => .Uint8
  | .basic _ .uint16 => .Uint16
  | .basic _ .uint32 => .Uint32
  | .basic _ .uint64 => .Uint64
  | .basic _ .uintptr => .Uintptr
  | .basic _ .float32 => .Float32
  | .basic _ .float64 => .Float64
  | .basic _ .complex64 => .Complex64
  | .basic _ .complex128 => .Complex128
  | .basic _ .string => .String
  | .ptr _ _ => .Ptr
  | .struct _ _ => .Struct
  | .slice _ _ => .Slice
  | .map _ _ _ => .Map
  | .array _ _ _ => .Array

/-- The declared name of a type, when it has one of its own. -/
def Ty.declName : Ty → Option TName
  | .basic nm _ => nm
  | .ptr nm _ => nm
  | .struct nm _ => nm
  | .slice nm _ => nm
  | .map nm _ _ => nm
  | .array nm _ _ => nm

/-- Whether `Type.Name()` is non-empty: declared types and the predeclared
basic types. -/
def Ty.hasName : Ty → Bool
  | .basic _ _ => true
  | t => t.declName.isSome

/-- The underlying type: the declared name is dropped. -/
def Ty.underlying : Ty → Ty
  | .basic _ b => .basic none b
  | .ptr _ e => .ptr none e
  | .struct _ fs => .struct none fs
  | .slice _ e => .slice none e
  | .map _ k v => .map none k v
  | .array _ n e => .array none n e

/-- `Type.Elem()`: defined for arrays, maps, pointers and slices (channels are
not represented); it panics on every other kind, which is `none` here. -/
def Ty.Elem : Ty → Option Ty
  | .ptr _ e => some e
  | .slice _ e => some e
  | .map _ _ v => some v
  | .array _ _ e => some e
  | _ => none

/-- `haveIdenticalUnderlyingType` of package reflect. -/
def haveIdenticalUnderlyingType (T V : Ty) : Bool :=
  decide (T.underlying = V.underlying)

/-- `directlyAssignable(T, V)` of package reflect: a value of type `V` can be
stored in a variable of type `T`. -/
def directlyAssignable (T V : Ty) : Bool :=
  if T = V then true
  else if (T.hasName && V.hasName) || decide (T.Kind ≠ V.Kind) then false
  else haveIdenticalUnderlyingType T V

/-- Kinds of the signed integers. -/
def isIntKind : Kind → Bool
  | .Int | .Int8 | .Int16 | .Int32 | .Int64 => true
  | _ => false

/-- Kinds of the unsigned integers. -/
def isUintKind : Kind → Bool
  | .Uint | .Uint8 | .Uint16 | .Uint32 | .Uint64 | .Uintptr => true
  | _ => false

/-- Kinds of the floating-point numbers. -/
def isFloatKind : Kind → Bool
  | .Float32 | .Float64 => true
  | _ => false

/-- Kinds of the complex numbers. -/
def isComplexKind : Kind → Bool
  | .Complex64 | .Complex128 => true
  | _ => false

/-- A slice type whose element is the predeclared `uint8` or `int32`, the
target of a conversion from `string` (and its source the other way). -/
def Ty.isBytesOrRunes : Ty → Bool
  | .slice _ (.basic none .uint8) => true
  | .slice _ (.basic none .int32) => true
  | _ => false

/-- `Type.ConvertibleTo`: `src.ConvertibleTo dst` says that `convertOp(dst, src)`
of package reflect finds a conversion.  The conversions from a slice to an
array or to a pointer to an array are left out: `rcopy` asks for a conversion
only between two types of one kind other than pointer, struct, slice and
map. -/
def Ty.ConvertibleTo (src dst : Ty) : Bool :=
  let sk := src.Kind
  let dk := dst.Kind
  ((isIntKind sk || isUintKind sk) && (isIntKind dk || isUintKind dk || isFloatKind dk || dk == .String))
  || (isFloatKind sk && (isIntKind dk || isUintKind dk || isFloatKind dk))
  || (isComplexKind sk && isComplexKind dk)
  || (sk == .String && dst.isBytesOrRunes)
  || (dk == .String && src.isBytesOrRunes)
  || haveIdenticalUnderlyingType dst src
  || (match dst, src with
      | .ptr none e1, .ptr none e2 => haveIdenticalUnderlyingType e1 e2
      | _, _ => false)

/-- The type assertion `.(io.Reader)` on a value of pointer type `t`: the
method set of `*T` holds the methods declared on `T`; a declared pointer type
has no methods. -/
def Ty.isReader : Ty → Bool
  | .ptr none (.ptr _ _) => false
  | .ptr none e => match e.declName with
    | some n => n.reads
    | none => false
  | _ => false

/-! ## Values and memory -/

/-- The header of a non-nil slice: the variable holding the backing array,
the offset of element 0 in it, length and capacity. -/
structure SliceHdr where
  base : Nat
  off : Nat
  len : Nat
  cap : Nat
  deriving DecidableEq, Repr

/-- Values that fit in one word or header. Numbers of the floating-point and
complex kinds are kept as their bit pattern. -/
inductive Atom where
  | bool (b : Bool)
  | int (i : Int)
  | float (bits : Nat)
  | str (s : String)
  | ptr (a : Option Nat)
  | slice (hdr : Option SliceHdr)
  | map (a : Option Nat)
  deriving DecidableEq, Repr

/-- Values: an atom, or the fields of a struct or elements of an array, held
in line. -/
inductive Val where
  | atom (a : Atom)
  | agg (vs : List Val)
  deriving Repr

mutual
/-- Decision procedure for equality of values (Go's `==` on map keys). -/
def Val.dec : (a b : Val) → Decidable (a = b)
  | .atom x, .atom y =>
    if h : x = y then isTrue (by rw [h])
    else isFalse (by intro e; cases e; exact h rfl)
  | .agg xs, .agg ys =>
    match Val.decList xs ys with
    | isTrue h => isTrue (by rw [h])
    | isFalse h => isFalse (by intro e; cases e; exact h rfl)
  | .atom _, .agg _ => isFalse (by intro e; cases e)
  | .agg _, .atom _ => isFalse (by intro e; cases e)
/-- Decision procedure for equality of lists of values. -/
def Val.decList : (a b : List Val) → Decidable (a = b)
  | [], [] => isTrue rfl
  | [], _ :: _ => isFalse (by intro e; cases e)
  | _ :: _, [] => isFalse (by intro e; cases e)
  | x :: r, y :: r2 =>
    match Val.dec x y with
    | isTrue h2 =>
      match Val.decList r r2 with
      | isTrue h3 => isTrue (by rw [h2, h3])
      | isFalse h3 => isFalse (by intro e; cases e; exact h3 rfl)
    | isFalse h2 => isFalse (by intro e; cases e; exact h2 rfl)
end

instance : DecidableEq Val := Val.dec

mutual
/-- `reflect.Zero`: the zero value of a type. -/
def Ty.zero : Ty → Val
  | .basic _ .bool => .atom (.bool false)
  | .basic _ .string => .atom (.str "")
  | .basic _ .float32 => .atom (.float 0)
  | .basic _ .float64 => .atom (.float 0)
  | .basic _ .complex64 => .atom (.float 0)
  | .basic _ .complex128 => .atom (.float 0)
  | .basic _ _ => .atom (.int 0)
  | .ptr _ _ => .atom (.ptr none)
  | .slice _ _ => .atom (.slice none)
  | .map _ _ _ => .atom (.map none)
  | .struct _ fs => .agg (Ty.zeroFields fs)
  | .array _ n e => .agg (List.replicate n e.zero)
/-- The zero values of the fields of a struct type. -/
def Ty.zeroFields : List (String × Ty) → List Val
  | [] => []
  | f :: r => f.2.zero :: Ty.zeroFields r
end

/-- The value at a path of field and element indices inside a value. -/
def Val.get : Val → List Nat → Option Val
  | v, [] => some v
  | .agg vs, i :: p =>
    match vs[i]? with
    | some w => w.get p
    | none => none
  | .atom _, _ :: _ => none

/-- A value with the part at a path replaced. -/
def Val.put : Val → List Nat → Val → Option Val
  | _, [], x => some x
  | .agg vs, i :: p, x =>
    match vs[i]? with
    | some w =>
      match w.put p x with
      | some w2 => some (.agg (vs.set i w2))
      | none => none
    | none => none
  | .atom _, _ :: _, _ => none

/-- Whether the bits of a binary floating-point number with `ew` exponent
bits and `mw` fraction bits are a NaN: the exponent is all ones and the
fraction is not zero. -/
def nanBits (ew mw bits : Nat) : Bool :=
  (bits / 2 ^ mw) % 2 ^ ew == 2 ^ ew - 1 && bits % 2 ^ mw != 0

/-- Whether a number of a basic type, given by its bits, is a NaN or, for a
complex number (real part in the low half), has a part that is one. -/
def isNaN : Basic → Nat → Bool
  | .float32, n => nanBits 8 23 n
  | .float64, n => nanBits 11 52 n
  | .complex64, n => nanBits 8 23 (n % 2 ^ 32) || nanBits 8 23 (n / 2 ^ 32)
  | .complex128, n => nanBits 11 52 (n % 2 ^ 64) || nanBits 11 52 (n / 2 ^ 64)
  | _, _ => false

/-- Go's `==` on two floating-point numbers given by their bits: false when
one of them is a NaN, and the two zeros are equal. -/
def floatEq (ew mw x y : Nat) : Bool :=
  !nanBits ew mw x && !nanBits ew mw y &&
    (x % 2 ^ (ew + mw + 1) == y % 2 ^ (ew + mw + 1) ||
      (x % 2 ^ (ew + mw) == 0 && y % 2 ^ (ew + mw) == 0))

/-- Go's `==` on two values of a basic type. -/
def eqBasic : Basic → Val → Val → Bool
  | .float32, .atom (.float x), .atom (.float y) => floatEq 8 23 x y
  | .float64, .atom (.float x), .atom (.float y) => floatEq 11 52 x y
  | .complex64, .atom (.float x), .atom (.float y) =>
    floatEq 8 23 (x % 2 ^ 32) (y % 2 ^ 32) && floatEq 8 23 (x / 2 ^ 32) (y / 2 ^ 32)
  | .complex128, .atom (.float x), .atom (.float y) =>
    floatEq 11 52 (x % 2 ^ 64) (y % 2 ^ 64) && floatEq 11 52 (x / 2 ^ 64) (y / 2 ^ 64)
  | _, x, y => decide (x = y)

mutual
/-- Whether a value of a comparable type is not `==` to itself: it is a NaN,
or an array or struct that holds one in line.  A map never finds an entry
under such a key. -/
def hasNaN : Ty → Val → Bool
  | .basic _ b, .atom (.float n) => isNaN b n
  | .array _ _ e, .agg xs => xs.any (fun u => hasNaN e u)
  | .struct _ fs, .agg xs => hasNaNFields fs xs
  | _, _ => false
/-- See `hasNaN`: the fields of a struct, one by one. -/
def hasNaNFields : List (String × Ty) → List Val → Bool
  | f :: r, x :: xs => hasNaN f.2 x || hasNaNFields r xs
  | _, _ => false
end

/-- What an address holds: a variable, or a map with its entries in
insertion order, one entry for a key. -/
inductive Obj where
  | cell (v : Val)
  | map (kvs : List (Val × Val))
  deriving DecidableEq, Repr

/-- Memory: the object at address `a` is the `a`-th entry. -/
abbrev Heap := List Obj

/-- Why a call of `reflect` or of this package panics. -/
inductive Panic where
  | copyDstNil            -- "Copy dst cannot be nil"
  | nilType               -- method call on the nil `reflect.Type`
  | elemOfInvalidType     -- "reflect: Elem of invalid type"
  | setUnexported         -- "... using value obtained using unexported field"
  | setUnaddressable      -- "... using unaddressable value"
  | notAssignable         -- "value of type ... is not assignable to type ..."
  | interfaceUnexported   -- "cannot return value obtained from unexported field"
  | callOnWrongKind       -- "reflect: call of ... on ... Value"
  | callOnZeroValue       -- "reflect: call of ... on zero Value"
  | indexOutOfRange       -- "reflect: slice index out of range"
  | makeSliceLenCap       -- "reflect.MakeSlice: len > cap"
  | nilMapAssign          -- "assignment to entry in nil map"
  deriving DecidableEq, Repr

/-- The result of running a piece of the program: a value, a Go panic, a
memory that does not hold what the types say (`stuck`), or no recursion fuel
left (`nofuel`). -/
inductive Res (α : Type) where
  | ok (a : α)
  | panic (p : Panic)
  | stuck
  | nofuel
  deriving DecidableEq, Repr

/-- Sequencing of results. -/
def Res.bind {α β : Type} (r : Res α) (f : α → Res β) : Res β :=
  match r with
  | .ok a => f a
  | .panic p => .panic p
  | .stuck => .stuck
  | .nofuel => .nofuel

instance : Monad Res where
  pure := Res.ok
  bind := Res.bind

/-- The value of the variable at an address. -/
def Heap.cellAt (h : Heap) (a : Nat) : Res Val :=
  match h[a]? with
  | some (.cell v) => .ok v
  | _ => .stuck

/-- The entries of the map at an address. -/
def Heap.mapAt (h : Heap) (a : Nat) : Res (List (Val × Val)) :=
  match h[a]? with
  | some (.map kvs) => .ok kvs
  | _ => .stuck

/-- A new object; its address is the old size of the memory. -/
def Heap.alloc (h : Heap) (o : Obj) : Nat × Heap := (h.length, h ++ [o])

/-- Where a `reflect.Value` keeps its data: in memory (the value is
addressable), or with itself. -/
inductive Store where
  | mem (addr : Nat) (path : List Nat)
  | imm (v : Val)
  deriving DecidableEq, Repr

/-- A valid `reflect.Value`; the zero `Value` is `none : Option Value`. -/
structure Value where
  ty : Ty
  st : Store
  ro : Bool
  deriving DecidableEq, Repr

/-- `Value.Kind()`; `Invalid` for the zero `Value`. -/
def KindOf : Option Value → Kind
  | none => .Invalid
  | some v => v.ty.Kind

/-- The flagAddr bit. -/
def Value.addressable (v : Value) : Bool :=
  match v.st with
  | .mem _ _ => true
  | .imm _ => false

/-- `Value.CanSet()`: addressable and not reached through an unexported field;
false for the zero `Value`. -/
def CanSet : Option Value → Bool
  | none => false
  | some v => v.addressable && !v.ro

/-- The data a `Value` stands for at this moment. -/
def Value.load (h : Heap) (v : Value) : Res Val :=
  match v.st with
  | .imm x => .ok x
  | .mem a p => do
    let c ← h.cellAt a
    match c.get p with
    | some x => .ok x
    | none => .stuck

/-- Writing data at a path of a variable. -/
def Heap.store (h : Heap) (a : Nat) (p : List Nat) (x : Val) : Res Heap := do
  let c ← h.cellAt a
  match c.put p x with
  | some c2 => .ok (h.set a (.cell c2))
  | none => .stuck

/-- `reflect.ValueOf` of an interface value, which is nil or a type with a
value. -/
def ValueOf : Option (Ty × Val) → Option Value
  | none => none
  | some (t, v) => some ⟨t, .imm v, false⟩

/-- `Value.Interface()` as far as it can fail: it refuses a value reached
through an unexported field. -/
def Value.Interface (v : Value) : Res Unit :=
  if v.ro then .panic .interfaceUnexported else .ok ()

/-- `Value.Elem()` of a pointer: the variable pointed to, addressable, or the
zero `Value` for a nil pointer. -/
def Value.Elem (h : Heap) (v : Value) : Res (Option Value) :=
  match v.ty with
  | .ptr _ e => do
    let x ← v.load h
    match x with
    | .atom (.ptr none) => .ok none
    | .atom (.ptr (some a)) => .ok (some ⟨e, .mem a [], v.ro⟩)
    | _ => .stuck
  | _ => .panic .callOnWrongKind

/-- `Value.IsNil()` for pointers, slices and maps. -/
def Value.IsNil (h : Heap) (v : Value) : Res Bool := do
  let x ← v.load h
  match x with
  | .atom (.ptr a) => .ok a.isNone
  | .atom (.slice s) => .ok s.isNone
  | .atom (.map a) => .ok a.isNone
  | _ => .panic .callOnWrongKind

/-- `Value.Set(x)`: the receiver must be settable, `x` must not come from an
unexported field, and the type of `x` must be assignable to the receiver's. -/
def Value.Set (h : Heap) (v : Option Value) (x : Option Value) : Res Heap :=
  match v with
  | none => .panic .callOnZeroValue
  | some d =>
    if d.ro then .panic .setUnexported
    else match d.st with
      | .imm _ => .panic .setUnaddressable
      | .mem a p =>
        match x with
        | none => .panic .callOnZeroValue
        | some s =>
          if s.ro then .panic .setUnexported
          else if directlyAssignable d.ty s.ty then do
            let w ← s.load h
            h.store a p w
          else .panic .notAssignable

/-- `reflect.New(t)`: a pointer to a new zero variable of type `t`. -/
def New (h : Heap) (t : Ty) : Value × Heap :=
  let r := h.alloc (.cell t.zero)
  (⟨.ptr none t, .imm (.atom (.ptr (some r.1))), false⟩, r.2)

/-- `reflect.New(t).Elem()`: a new settable zero variable of type `t`. -/
def NewElem (h : Heap) (t : Ty) : Value × Heap :=
  let r := h.alloc (.cell t.zero)
  (⟨t, .mem r.1 [], false⟩, r.2)

/-- Whether a field name is exported.  Field names are ASCII identifiers
here; Go also exports a name that starts with an upper-case letter outside
ASCII. -/
def exported (name : String) : Bool := name.front.isUpper

/-- The position and type of the field with a given name, among the fields
that the struct type declares. -/
def findField (name : String) : List (String × Ty) → Option (Nat × Ty)
  | [] => none
  | f :: r =>
    if f.1 = name then some (0, f.2)
    else match findField name r with
      | some (i, t) => some (i + 1, t)
      | none => none

/-- `Value.FieldByName(name)` of a struct: the zero `Value` when there is no
such field; the field is read-only when it is unexported or the struct is.
The struct types represented have no embedded fields, so the field found is
one that the struct type declares and none is promoted. -/
def Value.FieldByName (v : Value) (name : String) : Res (Option Value) :=
  match v.ty with
  | .struct _ fs =>
    match findField name fs with
    | none => .ok none
    | some (i, t) =>
      match v.st with
      | .mem a p => .ok (some ⟨t, .mem a (p ++ [i]), v.ro || !exported name⟩)
      | .imm x =>
        match x.get [i] with
        | some w => .ok (some ⟨t, .imm w, v.ro || !exported name⟩)
        | none => .stuck
  | _ => .panic .callOnWrongKind

/-- The header of a slice value. -/
def Value.hdr (h : Heap) (v : Value) : Res (Option SliceHdr) := do
  let x ← v.load h
  match x with
  | .atom (.slice s) => .ok s
  | _ => .stuck

/-- `Value.Len()` of a slice. -/
def Value.Len (h : Heap) (v : Value) : Res Nat := do
  let s ← v.hdr h
  match s with
  | none => .ok 0
  | some s => .ok s.len

/-- `Value.Cap()` of a slice. -/
def Value.Cap (h : Heap) (v : Value) : Res Nat := do
  let s ← v.hdr h
  match s with
  | none => .ok 0
  | some s => .ok s.cap

/-- `reflect.MakeSlice(t, len, cap)`: a new zeroed backing array and a slice
over it. -/
def MakeSlice (h : Heap) (t : Ty) (len cap : Nat) : Res (Value × Heap) :=
  match t with
  | .slice _ e =>
    if len > cap then .panic .makeSliceLenCap
    else
      let r := h.alloc (.cell (.agg (List.replicate cap e.zero)))
      .ok (⟨t, .imm (.atom (.slice (some ⟨r.1, 0, len, cap⟩))), false⟩, r.2)
  | _ => .panic .callOnWrongKind

/-- `Value.Index(i)` of a slice: element `i`, always addressable. -/
def Value.Index (h : Heap) (v : Value) (i : Nat) : Res (Option Value) :=
  match v.ty with
  | .slice _ e => do
    let s ← v.hdr h
    match s with
    | none => .panic .indexOutOfRange
    | some s =>
      if i < s.len then .ok (some ⟨e, .mem s.base [s.off + i], v.ro⟩)
      else .panic .indexOutOfRange
  | _ => .panic .callOnWrongKind

/-- `reflect.MakeMap(t)`: a new empty map. -/
def MakeMap (h : Heap) (t : Ty) : Value × Heap :=
  let r := h.alloc (.map [])
  (⟨t, .imm (.atom (.map (some r.1))), false⟩, r.2)

/-- The entries of a map value; none for the nil map. -/
def Value.entries (h : Heap) (v : Value) : Res (List (Val × Val)) := do
  let x ← v.load h
  match x with
  | .atom (.map none) => .ok []
  | .atom (.map (some a)) => h.mapAt a
  | _ => .stuck

/-- The value stored under a key in a list of entries. -/
def lookup (k : Val) : List (Val × Val) → Option Val
  | [] => none
  | e :: r => if e.1 = k then some e.2 else lookup k r

/-- A list of entries with the value under a key set. -/
def insert (k x : Val) : List (Val × Val) → List (Val × Val)
  | [] => [(k, x)]
  | e :: r => if e.1 = k then (k, x) :: r else e :: insert k x r

/-- `Value.MapKeys()`: copies of the keys. -/
def Value.MapKeys (h : Heap) (v : Value) : Res (List Value) :=
  match v.ty with
  | .map _ kt _ => do
    let kvs ← v.entries h
    .ok (kvs.map (fun kv => ⟨kt, .imm kv.1, v.ro⟩))
  | _ => .panic .callOnWrongKind

/-- `Value.MapIndex(k)`: a copy of the value under the key, the zero `Value`
when the key is absent; a key that is not `==` to itself is never found. -/
def Value.MapIndex (h : Heap) (v : Value) (k : Value) : Res (Option Value) :=
  match v.ty with
  | .map _ kt vt =>
    if directlyAssignable kt k.ty then do
      let kvs ← v.entries h
      let kv ← k.load h
      if hasNaN kt kv then .ok none
      else match lookup kv kvs with
        | some x => .ok (some ⟨vt, .imm x, v.ro || k.ro⟩)
        | none => .ok none
    else .panic .notAssignable
  | _ => .panic .callOnWrongKind

/-- `Value.SetMapIndex(k, x)`: receiver, key and value must not come from an
unexported field, key and value must be assignable to the map's key and value
types, and the map must not be nil.  A key that is not `==` to itself gets a
new entry each time. -/
def Value.SetMapIndex (h : Heap) (v : Value) (k : Value) (x : Value) : Res Heap :=
  match v.ty with
  | .map _ kt vt =>
    if v.ro || k.ro then .panic .setUnexported
    else if !directlyAssignable kt k.ty then .panic .notAssignable
    else if x.ro then .panic .setUnexported
    else if !directlyAssignable vt x.ty then .panic .notAssignable
    else do
      let m ← v.load h
      let kv ← k.load h
      let xv ← x.load h
      match m with
      | .atom (.map none) => .panic .nilMapAssign
      | .atom (.map (some a)) => do
        let kvs ← h.mapAt a
        .ok (h.set a (.map (if hasNaN kt kv then kvs ++ [(kv, xv)] else insert kv xv kvs)))
      | _ => .stuck
  | _ => .panic .callOnWrongKind

/-! ## The program -/

/-- The loop of the struct case of `rcopy`: for every field of the
destination's type, in order, the source field of the same name, when there is
one, is copied into it by `rc` (which is `rcopy` one level down). -/
def copyFields (rc : Heap → Option Value → Option Value → Bool → Res Heap)
    (dst src : Value) : List (String × Ty) → Heap → Res Heap
  | [], h => .ok h
  | f :: rest, h => do
    let srcval ← src.FieldByName f.1
    match srcval with
    | some sv => do
      let dv ← dst.FieldByName f.1
      let h2 ← rc h dv (some sv) false
      copyFields rc dst src rest h2
    | none => copyFields rc dst src rest h

/-- The loop of the slice case of `rcopy` over the indices `i`, `i+1`, ... of
the `n` that remain. -/
def copyElems (rc : Heap → Option Value → Option Value → Bool → Res Heap)
    (dst src : Value) : Nat → Nat → Heap → Res Heap
  | 0, _, h => .ok h
  | n + 1, i, h => do
    let dv ← dst.Index h i
    let sv ← src.Index h i
    let h2 ← rc h dv sv false
    copyElems rc dst src n (i + 1) h2

/-- The loop of the map case of `rcopy` over the keys of the source. -/
def copyEntries (rc : Heap → Option Value → Option Value → Bool → Res Heap)
    (dst src : Value) : List Value → Heap → Res Heap
  | [], h => .ok h
  | k :: rest, h => do
    let v ← src.MapIndex h k
    match v with
    | none => .panic .callOnZeroValue
    | some sv => do
      let r := NewElem h sv.ty
      let h2 ← rc r.2 (some r.1) (some sv) false
      let h3 ← dst.SetMapIndex h2 k r.1
      copyEntries rc dst src rest h3

/-- The function `rcopy` of copy.go.  The first argument bounds the depth of
the recursion; the memory is passed in and the memory after the call is the
result. -/
def rcopy : Nat → Heap → Option Value → Option Value → Bool → Res Heap
  | 0, _, _, _, _ => .nofuel
  | fuel + 1, h, dst, src, root =>
    match src, dst with
    | none, _ => .ok h
    | some _, none => .ok h
    | some s, some d =>
      if s.ty.Kind ≠ d.ty.Kind then .ok h
      else match s.ty.Kind with
        | .Ptr => do
          s.Interface
          if s.ty.isReader then do
            let de ← d.Elem h
            if CanSet de then Value.Set h de (some s)
            else if CanSet (some d) then Value.Set h (some d) (some s)
            else .ok h
          else
            match s.ty.Elem with
            | none => .stuck
            | some e => do
              let isnil ← s.IsNil h
              let h1 ← (if CanSet (some d) && !isnil then
                  let r := New h e
                  Value.Set r.2 (some d) (some r.1)
                else .ok h)
              let se ← s.Elem h1
              match se with
              | some sv => do
                let de ← d.Elem h1
                rcopy fuel h1 de (some sv) root
              | none => .ok h1
        | .Struct => do
          let h1 ← (if !root then
              let r := NewElem h s.ty
              Value.Set r.2 (some d) (some r.1)
            else .ok h)
          match d.ty with
          | .struct _ fs => copyFields (rcopy fuel) d s fs h1
          | _ => .stuck
        | .Slice => do
          let n ← s.Len h
          let c ← s.Cap h
          let r ← MakeSlice h s.ty n c
          let h1 ← Value.Set r.2 (some d) (some r.1)
          let n2 ← s.Len h1
          copyElems (rcopy fuel) d s n2 0 h1
        | .Map => do
          let r := MakeMap h s.ty
          let h1 ← Value.Set r.2 (some d) (some r.1)
          let ks ← s.MapKeys h1
          copyEntries (rcopy fuel) d s ks h1
        | _ =>
          if !s.ty.ConvertibleTo d.ty then .ok h
          else Value.Set h (some d) (some s)

/-- The function `Copy` of copy.go; `dst` and `src` are interface values. -/
def Copy (fuel : Nat) (h : Heap) (dst src : Option (Ty × Val)) : Res Heap :=
  match ValueOf dst with
  | none => .panic .copyDstNil
  | some d => rcopy fuel h (some d) (ValueOf src) true

/-- The function `CopyOf` of copy.go: the interface value returned, and the
memory after the call. -/
def CopyOf (fuel : Nat) (h : Heap) (src : Option (Ty × Val)) :
    Res ((Ty × Val) × Heap) :=
  match src with
  | none => .panic .nilType
  | some (t, _) =>
    match t.Elem with
    | none => .panic .elemOfInvalidType
    | some e => do
      let dsti := New h e
      let h2 ← rcopy fuel dsti.2 (some dsti.1) (ValueOf src) true
      let dv ← dsti.1.load h2
      .ok ((dsti.1.ty, dv), h2)

/-! ## Notions used to state the properties -/

/-- A leaf of the traversal: a type whose kind is none of pointer, struct,
slice and map, which `rcopy` handles in its default case. -/
def Ty.isLeaf : Ty → Bool
  | .basic _ _ => true
  | .array _ _ _ => true
  | _ => false

mutual
/-- `reflect.DeepEqual` on two values of one type in one memory: a nil slice
or map differs from an empty one, a nil pointer from a pointer to anything;
numbers are compared with `==`, so a NaN differs from itself, and the values
of two maps are compared key by key through `MapIndex`. -/
def DeepEqual (h : Heap) : Ty → Val → Val → Bool
  | .basic _ b, x, y => eqBasic b x y
  | .ptr _ e, .atom (.ptr (some a)), .atom (.ptr (some b)) =>
    a == b || (match h[a]?, h[b]? with
      | some (.cell x), some (.cell y) => DeepEqual h e x y
      | _, _ => false)
  | .ptr _ _, .atom (.ptr none), .atom (.ptr none) => true
  | .ptr _ _, _, _ => false
  | .struct _ fs, .agg xs, .agg ys => DeepEqualFields h fs xs ys
  | .struct _ _, _, _ => false
  | .slice _ e, .atom (.slice (some s)), .atom (.slice (some t)) =>
    s.len == t.len && ((s.base == t.base && s.off == t.off) ||
      (match h[s.base]?, h[t.base]? with
        | some (.cell (.agg xs)), some (.cell (.agg ys)) =>
          (List.range s.len).all (fun i =>
            match xs[s.off + i]?, ys[t.off + i]? with
            | some x, some y => DeepEqual h e x y
            | _, _ => false)
        | _, _ => false))
  | .slice _ _, .atom (.slice none), .atom (.slice none) => true
  | .slice _ _, _, _ => false
  | .map _ kt vt, .atom (.map (some a)), .atom (.map (some b)) =>
    a == b || (match h[a]?, h[b]? with
      | some (.map kx), some (.map ky) =>
        kx.length == ky.length && kx.all (fun kv =>
          !hasNaN kt kv.1 &&
          (match lookup kv.1 ky with
          | some y => DeepEqual h vt kv.2 y
          | none => false))
      | _, _ => false)
  | .map _ _ _, .atom (.map none), .atom (.map none) => true
  | .map _ _ _, _, _ => false
  | .array _ _ e, .agg xs, .agg ys =>
    xs.length == ys.length && (List.range xs.length).all (fun i =>
      match xs[i]?, ys[i]? with
      | some x, some y => DeepEqual h e x y
      | _, _ => false)
  | .array _ _ _, _, _ => false
/-- Deep equality of the fields of two structs, field by field. -/
def DeepEqualFields (h : Heap) : List (String × Ty) → List Val → List Val → Bool
  | [], [], [] => true
  | f :: r, x :: xs, y :: ys => DeepEqual h f.2 x y && DeepEqualFields h r xs ys
  | _, _, _ => false
end

/-- The field names of a struct type. -/
def fieldNames (fs : List (String × Ty)) : List String := fs.map Prod.fst

mutual
/-- Every struct type on the way of the traversal (below pointers, struct
fields, slice elements and map values) has pairwise distinct field names, as
the Go compiler requires. -/
def Ty.namesOK : Ty → Bool
  | .basic _ _ => true
  | .array _ _ _ => true
  | .ptr _ e => e.namesOK
  | .slice _ e => e.namesOK
  | .map _ _ v => v.namesOK
  | .struct _ fs => decide (fieldNames fs).Nodup && Ty.fieldsOK fs
/-- See `Ty.namesOK`. -/
def Ty.fieldsOK : List (String × Ty) → Bool
  | [] => true
  | f :: r => f.2.namesOK && Ty.fieldsOK r
end

mutual
/-- No array type on the way of the traversal. -/
def Ty.noArray : Ty → Bool
  | .basic _ _ => true
  | .array _ _ _ => false
  | .ptr _ e => e.noArray
  | .slice _ e => e.noArray
  | .map _ _ v => v.noArray
  | .struct _ fs => Ty.noArrayFields fs
/-- See `Ty.noArray`. -/
def Ty.noArrayFields : List (String × Ty) → Bool
  | [] => true
  | f :: r => f.2.noArray && Ty.noArrayFields r
end

mutual
/-- The value `v` of type `t` is well formed in memory `h` and every variable
and map that belongs to it has its address in `[lo, hi)`.  What belongs to a
value: the variable a non-nil pointer points to, unless the pointer is an
`io.Reader`; the array under a slice; a map; and what belongs to the pointee,
to the fields of a struct, to the elements of an array or slice and to the
values of a map.  Map keys are not followed, but each is `==` to itself, so
that its entry can be found.  The length of a slice is at most its capacity
and its elements exist in the array under it. -/
def Owned (lo hi : Nat) (h : Heap) : Ty → Val → Bool
  | .basic _ _, _ => true
  | .ptr nm e, v =>
    (Ty.ptr nm e).isReader || (match v with
      | .atom (.ptr none) => true
      | .atom (.ptr (some a)) =>
        decide (lo ≤ a) && decide (a < hi) && (match h[a]? with
          | some (.cell u) => Owned lo hi h e u
          | _ => false)
      | _ => false)
  | .struct _ fs, .agg xs => OwnedFields lo hi h fs xs
  | .struct _ _, _ => false
  | .array _ _ e, .agg xs => xs.all (fun u => Owned lo hi h e u)
  | .array _ _ _, _ => false
  | .slice _ _, .atom (.slice none) => true
  | .slice _ e, .atom (.slice (some s)) =>
    decide (lo ≤ s.base) && decide (s.base < hi) && decide (s.len ≤ s.cap) &&
      (match h[s.base]? with
      | some (.cell (.agg es)) =>
        (List.range s.len).all (fun i =>
          match es[s.off + i]? with
          | some u => Owned lo hi h e u
          | none => false)
      | _ => false)
  | .slice _ _, _ => false
  | .map _ _ _, .atom (.map none) => true
  | .map _ kt vt, .atom (.map (some a)) =>
    decide (lo ≤ a) && decide (a < hi) && (match h[a]? with
      | some (.map kvs) =>
        kvs.all (fun kv =>
          !hasNaN kt kv.1 &&
          (match lookup kv.1 kvs with
          | some u => Owned lo hi h vt u
          | none => false))
      | _ => false)
  | .map _ _ _, _ => false
/-- See `Owned`: the fields of a struct, one by one. -/
def OwnedFields (lo hi : Nat) (h : Heap) : List (String × Ty) → List Val → Bool
  | [], [] => true
  | f :: r, x :: xs => Owned lo hi h f.2 x && OwnedFields lo hi h r xs
  | _, _ => false
end

mutual
/-- How deep the traversal goes into a value of a type: arrays and basic
types are leaves. -/
def Ty.depth : Ty → Nat
  | .basic _ _ => 0
  | .array _ _ _ => 0
  | .ptr _ e => e.depth + 1
  | .slice _ e => e.depth + 1
  | .map _ _ v => v.depth + 1
  | .struct _ fs => Ty.depthFields fs + 1
/-- The largest depth of a field type. -/
def Ty.depthFields : List (String × Ty) → Nat
  | [] => 0
  | f :: r => max f.2.depth (Ty.depthFields r)
end

mutual
/-- Every struct field on the way of the traversal is exported. -/
def Ty.exportedOnly : Ty → Bool
  | .basic _ _ => true
  | .array _ _ _ => true
  | .ptr _ e => e.exportedOnly
  | .slice _ e => e.exportedOnly
  | .map _ _ v => v.exportedOnly
  | .struct _ fs => Ty.exportedFields fs
/-- See `Ty.exportedOnly`. -/
def Ty.exportedFields : List (String × Ty) → Bool
  | [] => true
  | f :: r => exported f.1 && f.2.exportedOnly && Ty.exportedFields r
end

/-- One step from a value to a part of it. -/
inductive Sel where
  | field (name : String)
  | deref
  | index (i : Nat)
  | key (k : Val)
  deriving Repr

/-- The part of a value reached by a path of steps, with its type: a named
field of a struct, the pointee of a non-nil pointer that is not an
`io.Reader`, an element of a slice, the value under a key of a map. -/
def resolve (h : Heap) : Ty → Val → List Sel → Option (Ty × Val)
  | t, v, [] => some (t, v)
  | .struct _ fs, .agg xs, .field name :: r =>
    match findField name fs with
    | some (i, ft) =>
      match xs[i]? with
      | some u => resolve h ft u r
      | none => none
    | none => none
  | .ptr nm e, .atom (.ptr (some a)), .deref :: r =>
    if (Ty.ptr nm e).isReader then none
    else match h[a]? with
      | some (.cell u) => resolve h e u r
      | _ => none
  | .slice _ e, .atom (.slice (some s)), .index i :: r =>
    if i < s.len then
      match h[s.base]? with
      | some (.cell (.agg es)) =>
        match es[s.off + i]? with
        | some u => resolve h e u r
        | none => none
      | _ => none
    else none
  | .map _ _ vt, .atom (.map (some a)), .key k :: r =>
    match h[a]? with
    | some (.map kvs) =>
      match lookup k kvs with
      | some u => resolve h vt u r
      | none => none
    | _ => none
  | _, _, _ :: _ => none

mutual
/-- The value `v` has the shape of its type `t` and no number that belongs to
it is a NaN.  What belongs to a value is followed as far as the traversal and
`reflect.DeepEqual` can go: the pointee of a pointer that is not an
`io.Reader`, the fields of a struct, the elements of an array or slice, the
keys (in line) and values of a map. -/
def NoNaN (h : Heap) : Ty → Val → Bool
  | .basic _ b, .atom (.float n) => !isNaN b n
  | .basic _ _, _ => true
  | .ptr _ _, .atom (.ptr none) => true
  | .ptr nm e, .atom (.ptr (some a)) =>
    (Ty.ptr nm e).isReader || (match h[a]? with
      | some (.cell u) => NoNaN h e u
      | _ => false)
  | .ptr _ _, _ => false
  | .struct _ fs, .agg xs => NoNaNFields h fs xs
  | .struct _ _, _ => false
  | .array _ _ e, .agg xs => xs.all (fun u => NoNaN h e u)
  | .array _ _ _, _ => false
  | .slice _ _, .atom (.slice none) => true
  | .slice _ e, .atom (.slice (some s)) =>
    (match h[s.base]? with
      | some (.cell (.agg es)) =>
        (List.range s.len).all (fun i =>
          match es[s.off + i]? with
          | some u => NoNaN h e u
          | none => false)
      | _ => false)
  | .slice _ _, _ => false
  | .map _ _ _, .atom (.map none) => true
  | .map _ kt vt, .atom (.map (some a)) =>
    (match h[a]? with
      | some (.map kvs) =>
        kvs.all (fun kv =>
          !hasNaN kt kv.1 &&
          (match lookup kv.1 kvs with
          | some u => NoNaN h vt u
          | none => false))
      | _ => false)
  | .map _ _ _, _ => false
/-- See `NoNaN`: the fields of a struct, one by one. -/
def NoNaNFields (h : Heap) : List (String × Ty) → List Val → Bool
  | [], [] => true
  | f :: r, x :: xs => NoNaN h f.2 x && NoNaNFields h r xs
  | _, _ => false
end

/-- The source value `v` of type `t` nests at most `n` deep in memory `h`: the
traversal, which goes from a non-nil pointer that is not an `io.Reader` to its
pointee, from a struct to its fields, from a slice to its elements and from a
map to its values, takes at most `n` steps down from `v`.  A basic value, an
array, a nil pointer, an `io.Reader`, a struct without fields and an empty
slice or map nest 0 deep; on a cyclic source, no `n` will do for a type that
is unfolded more than `n` times. -/
def nests : Nat → Heap → Ty → Val → Bool
  | _, _, .basic _ _, _ => true
  | _, _, .array _ _ _, _ => true
  | n, h, .ptr nm e, v =>
    (Ty.ptr nm e).isReader || (match v with
      | .atom (.ptr (some a)) =>
        (match n with
        | 0 => false
        | m + 1 =>
          match h[a]? with
          | some (.cell u) => nests m h e u
          | _ => true)
      | _ => true)
  | n, h, .struct _ fs, v =>
    (match v with
      | .agg xs =>
        (match n with
        | 0 => fs.isEmpty
        | m + 1 => (fs.zip xs).all (fun fx => nests m h fx.1.2 fx.2))
      | _ => true)
  | n, h, .slice _ e, v =>
    (match v with
      | .atom (.slice (some s)) =>
        (match n with
        | 0 => s.len == 0
        | m + 1 =>
          match h[s.base]? with
          | some (.cell (.agg es)) =>
            (List.range s.len).all (fun i =>
              match es[s.off + i]? with
              | some u => nests m h e u
              | none => true)
          | _ => true)
      | _ => true)
  | n, h, .map _ _ vt, v =>
    (match v with
      | .atom (.map (some a)) =>
        (match h[a]? with
        | some (.map kvs) =>
          (match n with
          | 0 => kvs.isEmpty
          | m + 1 => kvs.all (fun kv =>
              match lookup kv.1 kvs with
              | some u => nests m h vt u
              | none => true))
        | _ => true)
      | _ => true)

mutual
/-- The source value `v` of type `t` does not reach the object at address `b`
in memory `h`: no pointer, slice or map that the traversal follows from `v`
(see `nests`) leads to `b`. -/
def apart (b : Nat) (h : Heap) : Ty → Val → Bool
  | .basic _ _, _ => true
  | .array _ _ _, _ => true
  | .ptr nm e, v =>
    (Ty.ptr nm e).isReader || (match v with
      | .atom (.ptr (some a)) =>
        a != b && (match h[a]? with
          | some (.cell u) => apart b h e u
          | _ => true)
      | _ => true)
  | .struct _ fs, .agg xs => apartFields b h fs xs
  | .struct _ _, _ => true
  | .slice _ e, .atom (.slice (some s)) =>
    s.base != b && (match h[s.base]? with
      | some (.cell (.agg es)) =>
        (List.range s.len).all (fun i =>
          match es[s.off + i]? with
          | some u => apart b h e u
          | none => true)
      | _ => true)
  | .slice _ _, _ => true
  | .map _ _ vt, .atom (.map (some a)) =>
    a != b && (match h[a]? with
      | some (.map kvs) =>
        kvs.all (fun kv =>
          match lookup kv.1 kvs with
          | some u => apart b h vt u
          | none => true)
      | _ => true)
  | .map _ _ _, _ => true
/-- See `apart`: the fields of a struct, one by one. -/
def apartFields (b : Nat) (h : Heap) : List (String × Ty) → List Val → Bool
  | f :: r, x :: xs => apart b h f.2 x && apartFields b h r xs
  | _, _ => true
end

/-- The place `sst` of a source `Value` stands for the data `vs`, held by the
`Value` itself or in a variable of memory `h0` other than the one at `b`. -/
def SrcOut (b : Nat) (h0 : Heap) (sst : Store) (vs : Val) : Prop :=
  match sst with
  | .imm v => v = vs
  | .mem a q => a ≠ b ∧ ∃ c, h0[a]? = some (.cell c) ∧ c.get q = some vs

mutual
/-- The value `y` of type `t` in memory `h` is a deep copy, made of variables
and maps with addresses in `[lo, hi)`, of the value `x` in memory `h0`: leaves
and pointers that are `io.Reader`s are equal; a nil pointer is copied as nil,
a non-nil one as a pointer to a copy of the pointee; a struct field by field;
a slice (nil or not) as a slice of the same length and capacity over a new
array that holds copies of the elements and zero values up to the capacity;
a map (nil or not) as a new map with the same keys, one entry for each, and
copies of the values. -/
def Image (lo hi : Nat) (h0 h : Heap) : Ty → Val → Val → Prop
  | .basic _ _, x, y => y = x
  | .array _ _ _, x, y => y = x
  | .ptr nm e, x, y =>
    if (Ty.ptr nm e).isReader then y = x
    else match x with
      | .atom (.ptr none) => y = .atom (.ptr none)
      | .atom (.ptr (some a)) =>
        ∃ a2 u w, y = .atom (.ptr (some a2)) ∧ lo ≤ a2 ∧ a2 < hi ∧
          h0[a]? = some (.cell u) ∧ h[a2]? = some (.cell w) ∧ Image lo hi h0 h e u w
      | _ => False
  | .struct _ fs, x, y =>
    ∃ xs ys, x = .agg xs ∧ y = .agg ys ∧ ImageFields lo hi h0 h fs xs ys
  | .slice _ e, x, y =>
    ∃ a2 es2, lo ≤ a2 ∧ a2 < hi ∧ h[a2]? = some (.cell (.agg es2)) ∧
      match x with
      | .atom (.slice none) => y = .atom (.slice (some ⟨a2, 0, 0, 0⟩)) ∧ es2 = []
      | .atom (.slice (some s)) =>
        y = .atom (.slice (some ⟨a2, 0, s.len, s.cap⟩)) ∧ es2.length = s.cap ∧
        ∃ es, h0[s.base]? = some (.cell (.agg es)) ∧
          (∀ i, i < s.len → ∃ u w, es[s.off + i]? = some u ∧ es2[i]? = some w ∧
            Image lo hi h0 h e u w) ∧
          (∀ i, s.len ≤ i → i < s.cap → es2[i]? = some e.zero)
      | _ => False
  | .map _ kt vt, x, y =>
    ∃ a2 kvs2, y = .atom (.map (some a2)) ∧ lo ≤ a2 ∧ a2 < hi ∧ h[a2]? = some (.map kvs2) ∧
      (kvs2.map Prod.fst).Nodup ∧ (∀ k, k ∈ kvs2.map Prod.fst → hasNaN kt k = false) ∧
      match x with
      | .atom (.map none) => kvs2 = []
      | .atom (.map (some a)) =>
        ∃ kvs, h0[a]? = some (.map kvs) ∧
          ∀ k, match lookup k kvs with
            | none => lookup k kvs2 = none
            | some u => ∃ w, lookup k kvs2 = some w ∧ Image lo hi h0 h vt u w
      | _ => False
/-- See `Image`: the fields of a struct, one by one. -/
def ImageFields (lo hi : Nat) (h0 h : Heap) : List (String × Ty) → List Val → List Val → Prop
  | [], [], [] => True
  | f :: r, x :: xs, y :: ys => Image lo hi h0 h f.2 x y ∧ ImageFields lo hi h0 h r xs ys
  | _, _, _ => False
end

/-! ## Notions used in the proofs -/

/-- Memory `h` holds below address `n` what `h0` holds there. -/
def Agree (n : Nat) (h h0 : Heap) : Prop := ∀ a, a < n → h[a]? = h0[a]?

/-- The place `sst` of a source `Value` stands for the data `vs`, held by the
`Value` itself or in a variable of memory `h0` below address `n`. -/
def SrcAt (n : Nat) (h0 : Heap) (sst : Store) (vs : Val) : Prop :=
  match sst with
  | .imm v => v = vs
  | .mem a q => a < n ∧ ∃ c, h0[a]? = some (.cell c) ∧ c.get q = some vs

/-- What one call `rc h dst src root` of the traversal does when source and
destination have the same type, neither is read-only, the source is well
formed in the part of memory below `n`, which is as in `h0`, and the
destination is a place at the path `p` of a variable at `b`, outside that
part, currently holding the zero value: memory only grows; of the old
variables only the one at `b` changes, and just at `p`; what is at `p`
afterwards is a deep copy of the source made of variables allocated during
the call. -/
def CopySpec (rc : Heap → Option Value → Option Value → Bool → Res Heap) : Prop :=
  ∀ (h0 : Heap) (n : Nat) (T : Ty) (h : Heap) (b : Nat) (p : List Nat) (sst : Store)
    (root : Bool) (h2 : Heap) (vs c : Val),
    rc h (some ⟨T, .mem b p, false⟩) (some ⟨T, sst, false⟩) root = .ok h2 →
    T.namesOK = true → n ≤ b → Agree n h h0 → SrcAt n h0 sst vs →
    Owned 0 n h0 T vs = true →
    h[b]? = some (.cell c) → c.get p = some T.zero →
    h.length ≤ h2.length ∧
    (∀ a, a < h.length → a ≠ b → h2[a]? = h[a]?) ∧
    ∃ w c2, c.put p w = some c2 ∧ h2[b]? = some (.cell c2) ∧
      Image h.length h2.length h0 h2 T vs w

/-- A call of the traversal on a read-only source and a read-only destination
of the same type, below the root, does not return. -/
def RoSpec (rc : Heap → Option Value → Option Value → Bool → Res Heap) : Prop :=
  ∀ (T : Ty) (h : Heap) (dst sst : Store) (h2 : Heap),
    rc h (some ⟨T, dst, true⟩) (some ⟨T, sst, true⟩) false ≠ .ok h2

/-- A call `rc h dst src root` of the traversal returns, in the situation of
`CopySpec`, when moreover the type is less than `k` deep and all fields on
the way are exported. -/
def CopyTotal (k : Nat) (rc : Heap → Option Value → Option Value → Bool → Res Heap) : Prop :=
  ∀ (h0 : Heap) (n : Nat) (T : Ty) (h : Heap) (b : Nat) (p : List Nat) (sst : Store)
    (root : Bool) (vs c : Val),
    T.depth < k → T.namesOK = true → T.exportedOnly = true → n ≤ b → Agree n h h0 →
    SrcAt n h0 sst vs → Owned 0 n h0 T vs = true →
    h[b]? = some (.cell c) → c.get p = some T.zero →
    ∃ h2, rc h (some ⟨T, .mem b p, false⟩) (some ⟨T, sst, false⟩) root = .ok h2

/-- One level of `rcopy`: the body of the function, with the recursive calls
made by `rc`; `rcopy (fuel + 1)` is `rcopyStep (rcopy fuel)`. -/
def rcopyStep (rc : Heap → Option Value → Option Value → Bool → Res Heap)
    (h : Heap) (dst src : Option Value) (root : Bool) : Res Heap :=
  match src, dst with
  | none, _ => .ok h
  | some _, none => .ok h
  | some s, some d =>
    if s.ty.Kind ≠ d.ty.Kind then .ok h
    else match s.ty.Kind with
      | .Ptr => do
        s.Interface
        if s.ty.isReader then do
          let de ← d.Elem h
          if CanSet de then Value.Set h de (some s)
          else if CanSet (some d) then Value.Set h (some d) (some s)
          else .ok h
        else
          match s.ty.Elem with
          | none => .stuck
          | some e => do
            let isnil ← s.IsNil h
            let h1 ← (if CanSet (some d) && !isnil then
                let r := New h e
                Value.Set r.2 (some d) (some r.1)
              else .ok h)
            let se ← s.Elem h1
            match se with
            | some sv => do
              let de ← d.Elem h1
              rc h1 de (some sv) root
            | none => .ok h1
      | .Struct => do
        let h1 ← (if !root then
            let r := NewElem h s.ty
            Value.Set r.2 (some d) (some r.1)
          else .ok h)
        match d.ty with
        | .struct _ fs => copyFields rc d s fs h1
        | _ => .stuck
      | .Slice => do
        let n ← s.Len h
        let c ← s.Cap h
        let r ← MakeSlice h s.ty n c
        let h1 ← Value.Set r.2 (some d) (some r.1)
        let n2 ← s.Len h1
        copyElems rc d s n2 0 h1
      | .Map => do
        let r := MakeMap h s.ty
        let h1 ← Value.Set r.2 (some d) (some r.1)
        let ks ← s.MapKeys h1
        copyEntries rc d s ks h1
      | _ =>
        if !s.ty.ConvertibleTo d.ty then .ok h
        else Value.Set h (some d) (some s)

/-- The value `c2` is `c` with at most the part at the path `p` replaced. -/
def Within (p : List Nat) (c c2 : Val) : Prop := c2 = c ∨ ∃ w, c.put p w = some c2

/-- Where one call `rc h dst src root` of the traversal writes when source and
destination have the same type, neither is read-only, and the destination is
the place at the path `p` of the variable at `b`, whatever it holds: memory
only grows, and of the old variables and maps only the variable at `b` can
change, and only at `p`. -/
def WriteSpec (rc : Heap → Option Value → Option Value → Bool → Res Heap) : Prop :=
  ∀ (T : Ty) (h : Heap) (b : Nat) (p : List Nat) (sst : Store) (root : Bool) (h2 : Heap)
    (c : Val),
    rc h (some ⟨T, .mem b p, false⟩) (some ⟨T, sst, false⟩) root = .ok h2 →
    h[b]? = some (.cell c) →
    h.length ≤ h2.length ∧ (∀ a, a < h.length → a ≠ b → h2[a]? = h[a]?) ∧
    ∃ c2, h2[b]? = some (.cell c2) ∧ Within p c c2

/-- Memory `h` holds what `h0` holds at every address of `h0` other than
`b`. -/
def AgreeOut (b : Nat) (h h0 : Heap) : Prop :=
  ∀ a, a < h0.length → a ≠ b → h[a]? = h0[a]?

/-- A call `rc h dst src root` of the traversal ends, by a return or by a
panic, when source and destination have the same type, neither is read-only,
the source is well formed in memory `h0`, nests at most `n` deep and does not
reach the variable at `b0`, memory is as in `h0` except at `b0` and in what
was allocated since, and the destination is a place in the variable at `b0`
or in a variable allocated since, whatever it holds. -/
def NestSpec (n : Nat) (rc : Heap → Option Value → Option Value → Bool → Res Heap) : Prop :=
  ∀ (h0 : Heap) (b0 : Nat) (T : Ty) (h : Heap) (b : Nat) (p : List Nat) (sst : Store)
    (root : Bool) (vs c : Val),
    (b = b0 ∨ h0.length ≤ b) → h0.length ≤ h.length → AgreeOut b0 h h0 →
    SrcOut b0 h0 sst vs → Owned 0 h0.length h0 T vs = true → apart b0 h0 T vs = true →
    nests n h0 T vs = true → h[b]? = some (.cell c) →
    rc h (some ⟨T, .mem b p, false⟩) (some ⟨T, sst, false⟩) root ≠ .nofuel

/-! ## Sample programs

Go declarations and the memory they run in, used to evaluate the code. -/

namespace Sample

/-- `int`. -/
def tInt : Ty := .basic none .int
/-- `int32`. -/
def tInt32 : Ty := .basic none .int32
/-- `int64`. -/
def tInt64 : Ty := .basic none .int64
/-- `string`. -/
def tString : Ty := .basic none .string
/-- `type MyInt int`. -/
def tMyInt : Ty := .basic (some ⟨"MyInt", false⟩) .int

/-- `type Foo struct { A int; B []string; C map[string]int }`. -/
def Foo : Ty :=
  .struct (some ⟨"Foo", false⟩)
    [("A", tInt), ("B", .slice none tString), ("C", .map none tString tInt)]

/-- Memory holding, at address 0, the variable `Foo{A: 1}`: `B` and `C` are
nil. -/
def fooHeap : Heap :=
  [.cell (.agg [.atom (.int 1), .atom (.slice none), .atom (.map none)])]

/-- The memory after `CopyOf(&foo)`: the copy is at address 1, its `B` is the
empty slice over the empty array at 2 and its `C` the empty map at 3. -/
def fooHeapAfter : Heap :=
  fooHeap ++
    [.cell (.agg [.atom (.int 1), .atom (.slice (some ⟨2, 0, 0, 0⟩)), .atom (.map (some 3))]),
     .cell (.agg []),
     .map []]

/-- `type Src struct { A int; B string; C int }` whose pointer type has a
method `Read`, so that `*Src` is an `io.Reader`. -/
def SrcReader : Ty :=
  .struct (some ⟨"Src", true⟩) [("A", tInt), ("B", tString), ("C", tInt)]

/-- `type Dst struct { A int; C int; D string }`. -/
def Dst : Ty :=
  .struct (some ⟨"Dst", false⟩) [("A", tInt), ("C", tInt), ("D", tString)]

/-- Memory with `src = Src{1, "b", 3}` at address 0 and the zero `Dst` at
address 1. -/
def subsetHeap : Heap :=
  [.cell (.agg [.atom (.int 1), .atom (.str "b"), .atom (.int 3)]),
   .cell (.agg [.atom (.int 0), .atom (.int 0), .atom (.str "")])]

/-- `struct { P *int }`. -/
def PInt : Ty := .struct none [("P", .ptr none tInt)]
/-- `struct { P *string }`. -/
def PString : Ty := .struct none [("P", .ptr none tString)]

/-- Memory with `src = struct{P *string}{&s}` at 0, `s = "x"` at 1 and the
zero `struct{P *int}` at 2. -/
def ptrHeap : Heap :=
  [.cell (.agg [.atom (.ptr (some 1))]), .cell (.atom (.str "x")),
   .cell (.agg [.atom (.ptr none)])]

/-- `struct { N MyInt }`. -/
def HasMyInt : Ty := .struct none [("N", tMyInt)]
/-- `struct { N int }`. -/
def HasInt : Ty := .struct none [("N", tInt)]

/-- Memory with `src = struct{N MyInt}{5}` at 0 and the zero `struct{N int}`
at 1. -/
def leafHeap : Heap := [.cell (.agg [.atom (.int 5)]), .cell (.agg [.atom (.int 0)])]

/-- Memory with an `int32` variable holding 5 at 0 and an `int64` variable
holding 0 at 1. -/
def widenHeap : Heap := [.cell (.atom (.int 5)), .cell (.atom (.int 0))]

/-- `type Pair [2]int`. -/
def tPair : Ty := .array (some ⟨"Pair", false⟩) 2 tInt
/-- `[2]int`. -/
def tArr2 : Ty := .array none 2 tInt
/-- `[3]int`. -/
def tArr3 : Ty := .array none 3 tInt

/-- Memory with a `[2]int` variable `{7, 8}` at 0 and a zero `Pair` variable
at 1. -/
def arrHeap : Heap :=
  [.cell (.agg [.atom (.int 7), .atom (.int 8)]), .cell (.agg [.atom (.int 0), .atom (.int 0)])]

/-- `type InnerD struct { X int; Y *int }`. -/
def InnerD : Ty := .struct (some ⟨"InnerD", false⟩) [("X", tInt), ("Y", .ptr none tInt)]
/-- `type InnerS struct { X int }`. -/
def InnerS : Ty := .struct (some ⟨"InnerS", false⟩) [("X", tInt)]
/-- `type OuterD struct { In InnerD }`. -/
def OuterD : Ty := .struct (some ⟨"OuterD", false⟩) [("In", InnerD)]
/-- `type OuterS struct { In InnerS }`. -/
def OuterS : Ty := .struct (some ⟨"OuterS", false⟩) [("In", InnerS)]

/-- Memory with `src = OuterS{In: InnerS{X: 1}}` at 0, an `int` 9 at 1 and
`dst = OuterD{In: InnerD{X: 4, Y: &nine}}` at 2. -/
def nestedHeap : Heap :=
  [.cell (.agg [.agg [.atom (.int 1)]]), .cell (.atom (.int 9)),
   .cell (.agg [.agg [.atom (.int 4), .atom (.ptr (some 1))]])]

/-- `type IDs []int`. -/
def tIDs : Ty := .slice (some ⟨"IDs", false⟩) tInt
/-- `type Nums []int`. -/
def tNums : Ty := .slice (some ⟨"Nums", false⟩) tInt

/-- Memory with the array `{1, 2}` at 0, an `IDs` variable that is a slice of
length and capacity 2 over it at 1, and a nil `Nums` variable at 2. -/
def sliceHeap : Heap :=
  [.cell (.agg [.atom (.int 1), .atom (.int 2)]),
   .cell (.atom (.slice (some ⟨0, 0, 2, 2⟩))),
   .cell (.atom (.slice none))]

/-- `type Ages map[string]int`. -/
def tAges : Ty := .map (some ⟨"Ages", false⟩) tString tInt
/-- `type Counts map[string]int`. -/
def tCounts : Ty := .map (some ⟨"Counts", false⟩) tString tInt

/-- Memory with the map `{"k": 7}` at 0, an `Ages` variable that refers to it
at 1, and a nil `Counts` variable at 2. -/
def mapHeap : Heap :=
  [.map [(.atom (.str "k"), .atom (.int 7))],
   .cell (.atom (.map (some 0))),
   .cell (.atom (.map none))]

/-- `type Leaf struct { P *int; N int }`. -/
def Leaf : Ty := .struct (some ⟨"Leaf", false⟩) [("P", .ptr none tInt), ("N", tInt)]

/-- `type Node struct { Items []Leaf; Index map[string]*Leaf; Q *int }`. -/
def Node : Ty :=
  .struct (some ⟨"Node", false⟩)
    [("Items", .slice none Leaf), ("Index", .map none tString (.ptr none Leaf)),
     ("Q", .ptr none tInt)]

/-- The value of the `Node` variable of `nodeHeap`. -/
def nodeVal : Val :=
  .agg [.atom (.slice (some ⟨1, 0, 1, 1⟩)), .atom (.map (some 2)), .atom (.ptr none)]

/-- Memory with, at 0, `Node{Items: []Leaf{{N: 5}}, Index: {"k": &leaf}}`, at 1
the array under `Items`, at 2 the map `Index` and at 3 `leaf = Leaf{N: 6}`;
the pointers `Q`, `Items[0].P` and `leaf.P` are nil. -/
def nodeHeap : Heap :=
  [.cell nodeVal,
   .cell (.agg [.agg [.atom (.ptr none), .atom (.int 5)]]),
   .map [(.atom (.str "k"), .atom (.ptr (some 3)))],
   .cell (.agg [.atom (.ptr none), .atom (.int 6)])]

/-- The value of the copy of the `Node` variable. -/
def nodeCopy : Val :=
  .agg [.atom (.slice (some ⟨5, 0, 1, 1⟩)), .atom (.map (some 7)), .atom (.ptr none)]

/-- The memory after `CopyOf(&node)`: the copy is at 4, its array at 5, its
map at 7 and the copy of `leaf` at 9; 6, 8 and 10 are the temporaries that
`reflect.New` made for zero values and for the map value. -/
def nodeHeapAfter : Heap :=
  nodeHeap ++
    [.cell nodeCopy,
     .cell (.agg [.agg [.atom (.ptr none), .atom (.int 5)]]),
     .cell (.agg [.atom (.ptr none), .atom (.int 0)]),
     .map [(.atom (.str "k"), .atom (.ptr (some 9)))],
     .cell (.atom (.ptr (some 9))),
     .cell (.agg [.atom (.ptr none), .atom (.int 6)]),
     .cell (.agg [.atom (.ptr none), .atom (.int 0)])]

/-- `type KeyPtr struct { K map[*int]string }`. -/
def KeyPtr : Ty := .struct (some ⟨"KeyPtr", false⟩) [("K", .map none (.ptr none tInt) tString)]

/-- Memory with `KeyPtr{K: {&seven: "v"}}` at 0, `seven = 7` at 1 and the map
at 2. -/
def keyHeap : Heap :=
  [.cell (.agg [.atom (.map (some 2))]), .cell (.atom (.int 7)),
   .map [(.atom (.ptr (some 1)), .atom (.str "v"))]]

/-- The memory after `CopyOf(&keyPtr)`: the copy is at 3 and its map at 4. -/
def keyHeapAfter : Heap :=
  keyHeap ++
    [.cell (.agg [.atom (.map (some 4))]),
     .map [(.atom (.ptr (some 1)), .atom (.str "v"))],
     .cell (.atom (.str "v"))]

/-- `type Hidden struct { n int }`, with an unexported field. -/
def Hidden : Ty := .struct (some ⟨"Hidden", false⟩) [("n", tInt)]

/-- Memory with `src = Hidden{n: 5}` at 0 and the zero `Hidden` at 1. -/
def hiddenHeap : Heap := [.cell (.agg [.atom (.int 5)]), .cell (.agg [.atom (.int 0)])]

/-- `type PtrArr struct { Ps [1]*int }`. -/
def PtrArr : Ty := .struct (some ⟨"PtrArr", false⟩) [("Ps", .array none 1 (.ptr none tInt))]

/-- Memory with `PtrArr{Ps: [1]*int{&seven}}` at 0 and `seven = 7` at 1. -/
def ptrArrHeap : Heap := [.cell (.agg [.agg [.atom (.ptr (some 1))]]), .cell (.atom (.int 7))]

/-- The memory `ptrArrHeap` with a zero `PtrArr` variable added at 2. -/
def ptrArrHeap2 : Heap := ptrArrHeap ++ [.cell (.agg [.agg [.atom (.ptr none)]])]

/-- `type Body struct { N int }` with a method `Read`, so that `*Body` is an
`io.Reader`. -/
def Body : Ty := .struct (some ⟨"Body", true⟩) [("N", tInt)]

/-- `struct { B **Body }`. -/
def HoldPP : Ty := .struct none [("B", .ptr none (.ptr none Body))]
/-- `struct { B *Body }`. -/
def HoldP : Ty := .struct none [("B", .ptr none Body)]

/-- Memory with `body = Body{N: 1}` at 0, a nil `*Body` variable `slot` at 1,
`dst = struct{B **Body}{&slot}` at 2 and `src = struct{B *Body}{&body}` at 3. -/
def streamHeap : Heap :=
  [.cell (.agg [.atom (.int 1)]), .cell (.atom (.ptr none)),
   .cell (.agg [.atom (.ptr (some 1))]), .cell (.agg [.atom (.ptr (some 0))])]

/-- `type Tree struct { P *int; In Leaf }`. -/
def Tree : Ty := .struct (some ⟨"Tree", false⟩) [("P", .ptr none tInt), ("In", Leaf)]

/-- Memory with `src = Tree{In: Leaf{N: 2}}` at 0, whose pointers `P` and
`In.P` are nil, `nine = 9` at 1 and `dst = Tree{P: &nine, In: Leaf{P: &nine,
N: 4}}` at 2. -/
def treeHeap : Heap :=
  [.cell (.agg [.atom (.ptr none), .agg [.atom (.ptr none), .atom (.int 2)]]),
   .cell (.atom (.int 9)),
   .cell (.agg [.atom (.ptr (some 1)), .agg [.atom (.ptr (some 1)), .atom (.int 4)]])]

/-- The memory after `Copy(&dst, &src)`: `dst.P` is still `&nine`, `dst.In` is
`Leaf{N: 2}` with a nil `P`; at 3 is the zero `Leaf` that `rcopy` made. -/
def treeHeapAfter : Heap :=
  [.cell (.agg [.atom (.ptr none), .agg [.atom (.ptr none), .atom (.int 2)]]),
   .cell (.atom (.int 9)),
   .cell (.agg [.atom (.ptr (some 1)), .agg [.atom (.ptr none), .atom (.int 2)]]),
   .cell (.agg [.atom (.ptr none), .atom (.int 0)])]

/-- `type Req struct { Body *Body; N int }`, whose field `Body` is an
`io.Reader`. -/
def Req : Ty := .struct (some ⟨"Req", false⟩) [("Body", .ptr none Body), ("N", tInt)]

/-- Memory with `body = Body{N: 1}` at 0 and `req = Req{Body: &body, N: 3}` at
1. -/
def reqHeap : Heap :=
  [.cell (.agg [.atom (.int 1)]), .cell (.agg [.atom (.ptr (some 0)), .atom (.int 3)])]

/-- The memory `reqHeap` with a zero `Req` variable added at 2. -/
def reqHeap2 : Heap := reqHeap ++ [.cell (.agg [.atom (.ptr none), .atom (.int 0)])]

/-- The memory after `CopyOf(&req)`, and after `Copy(&dst, &req)` into the
zero variable of `reqHeap2`: the `Req` at 2 has the pointer `&body` of the
source. -/
def reqHeapAfter : Heap := reqHeap ++ [.cell (.agg [.atom (.ptr (some 0)), .atom (.int 3)])]

/-- `float64`. -/
def tFloat : Ty := .basic none .float64

/-- `type Gauge struct { F float64 }`. -/
def Gauge : Ty := .struct (some ⟨"Gauge", false⟩) [("F", tFloat)]

/-- The bits of a `float64` NaN (`math.NaN()`). -/
def nanBits64 : Nat := 0x7FF8000000000001

/-- Memory with `Gauge{F: math.NaN()}` at 0. -/
def nanHeap : Heap := [.cell (.agg [.atom (.float nanBits64)])]

/-- The memory after `q := CopyOf(&gauge)`, with the copy at 1. -/
def nanHeap1 : Heap := nanHeap ++ [.cell (.agg [.atom (.float nanBits64)])]

/-- The memory after `CopyOf(q)`, with the copy of the copy at 2. -/
def nanHeap2 : Heap := nanHeap1 ++ [.cell (.agg [.atom (.float nanBits64)])]

/-- The bits of the `float64` 1.0. -/
def oneBits64 : Nat := 0x3FF0000000000000

/-- Memory with `Gauge{F: 1.0}` at 0. -/
def gaugeHeap : Heap := [.cell (.agg [.atom (.float oneBits64)])]

/-- The memory after `q := CopyOf(&gauge)`, with the copy at 1. -/
def gaugeHeap1 : Heap := gaugeHeap ++ [.cell (.agg [.atom (.float oneBits64)])]

/-- The memory after `CopyOf(q)`, with the copy of the copy at 2. -/
def gaugeHeap2 : Heap := gaugeHeap1 ++ [.cell (.agg [.atom (.float oneBits64)])]

/-- `type Link struct { Next *Link }`, unfolded `k` times: `Link (k + 1)` has
the field `Next` of type `*Link k`, and `Link 0` stands for the part of the
type that a traversal of less than `k` levels does not come to. -/
def Link : Nat → Ty
  | 0 => .struct (some ⟨"Link", false⟩) []
  | k + 1 => .struct (some ⟨"Link", false⟩) [("Next", .ptr none (Link k))]

/-- Memory with `a = Link{Next: &d}` at 0 and `d = Link{}` at 1. -/
def linkHeap : Heap := [.cell (.agg [.atom (.ptr (some 1))]), .cell (.agg [.atom (.ptr none)])]

/-- The memory of `linkHeap` with a new zero `Link` at 2. -/
def linkHeap2 : Heap := linkHeap ++ [.cell (.agg [.atom (.ptr none)])]

/-- Memory with the cyclic `a = Link{Next: &a}` at 0. -/
def ringHeap : Heap := [.cell (.agg [.atom (.ptr (some 0))])]

end Sample

/-! ## Unfolding lemmas -/

@[simp] theorem ok_bind {α β : Type} (a : α) (f : α → Res β) :
    (Res.ok a >>= f) = f a := rfl

@[simp] theorem panic_bind {α β : Type} (p : Panic) (f : α → Res β) :
    ((Res.panic p : Res α) >>= f) = .panic p := rfl

@[simp] theorem stuck_bind {α β : Type} (f : α → Res β) :
    ((Res.stuck : Res α) >>= f) = .stuck := rfl

@[simp] theorem nofuel_bind {α β : Type} (f : α → Res β) :
    ((Res.nofuel : Res α) >>= f) = .nofuel := rfl

/-- The default case of `rcopy`: a leaf source against a destination of the
same kind. -/
theorem rcopy_leaf (fuel : Nat) (h : Heap) (d s : Value) (root : Bool)
    (hl : s.ty.isLeaf = true) (hk : s.ty.Kind = d.ty.Kind) :
    rcopy (fuel + 1) h (some d) (some s) root =
      if !s.ty.ConvertibleTo d.ty then .ok h else Value.Set h (some d) (some s) := by
  obtain ⟨sty, sst, sro⟩ := s
  cases sty with
  | basic nm b => cases b <;> simp [rcopy, Ty.Kind] at hk ⊢ <;> simp [← hk]
  | array nm n e => simp [rcopy, Ty.Kind] at hk ⊢; simp [← hk]
  | _ => simp [Ty.isLeaf] at hl

theorem directlyAssignable_self (t : Ty) : directlyAssignable t t = true := by
  simp [directlyAssignable]

/-- What `Set` accepts, `ConvertibleTo` accepts. -/
theorem ConvertibleTo_of_assignable (s d : Ty) (h : directlyAssignable d s = true) :
    s.ConvertibleTo d = true := by
  have : haveIdenticalUnderlyingType d s = true := by
    unfold directlyAssignable at h
    by_cases e : d = s
    · subst e; simp [haveIdenticalUnderlyingType]
    · simp only [e, if_false] at h
      split at h
      · simp at h
      · exact h
  simp [Ty.ConvertibleTo, this]

/-- A leaf copied into a settable place of its own type is stored there. -/
theorem rcopy_leaf_same (fuel : Nat) (h : Heap) (t : Ty) (a : Nat) (p : List Nat)
    (sst : Store) (root : Bool) (hl : t.isLeaf = true) :
    rcopy (fuel + 1) h (some ⟨t, .mem a p, false⟩) (some ⟨t, sst, false⟩) root =
      (Value.load h ⟨t, sst, false⟩ >>= fun w => h.store a p w) := by
  rw [rcopy_leaf fuel h ⟨t, .mem a p, false⟩ ⟨t, sst, false⟩ root hl rfl]
  simp [ConvertibleTo_of_assignable, directlyAssignable_self, Value.Set]

/-! ## Paths inside a value -/

theorem set_same_of_getElem? {α : Type} : ∀ (l : List α) (i : Nat) (a : α),
    l[i]? = some a → l.set i a = l
  | [], _, _, h => by simp at h
  | x :: l, 0, a, h => by simp at h; simp [h]
  | x :: l, i + 1, a, h => by
    simp at h
    simp [set_same_of_getElem? l i a h]

theorem lt_of_getElem?_eq_some {α : Type} {l : List α} {i : Nat} {a : α}
    (h : l[i]? = some a) : i < l.length := by
  rcases Nat.lt_or_ge i l.length with h1 | h1
  · exact h1
  · rw [List.getElem?_eq_none h1] at h; cases h

theorem Val.get_nil (c : Val) : c.get [] = some c := by
  cases c <;> rfl

theorem Val.put_nil (c x : Val) : c.put [] x = some x := by
  cases c <;> rfl

theorem Val.get_agg_cons (vs : List Val) (i : Nat) (p : List Nat) :
    (Val.agg vs).get (i :: p) = (match vs[i]? with
      | some w => w.get p
      | none => none) := rfl

theorem Val.put_agg_cons (vs : List Val) (i : Nat) (p : List Nat) (x : Val) :
    (Val.agg vs).put (i :: p) x = (match vs[i]? with
      | some w =>
        match w.put p x with
        | some w2 => some (.agg (vs.set i w2))
        | none => none
      | none => none) := rfl

theorem Val.get_agg_one (vs : List Val) (i : Nat) : (Val.agg vs).get [i] = vs[i]? := by
  rw [Val.get_agg_cons]
  cases vs[i]? with
  | none => rfl
  | some w => simp [Val.get_nil]

theorem Val.put_agg_one (vs : List Val) (i : Nat) (x : Val) (hi : i < vs.length) :
    (Val.agg vs).put [i] x = some (.agg (vs.set i x)) := by
  rw [Val.put_agg_cons]
  simp [List.getElem?_eq_getElem hi, Val.put_nil]

/-- Reading what was written. -/
theorem Val.get_put_same : ∀ (p : List Nat) (c x c2 : Val),
    c.put p x = some c2 → c2.get p = some x
  | [], c, x, c2, h => by
    rw [Val.put_nil] at h; cases h; exact Val.get_nil _
  | i :: p, .atom _, x, c2, h => by simp [Val.put] at h
  | i :: p, .agg vs, x, c2, h => by
    rw [Val.put_agg_cons] at h
    cases hv : vs[i]? with
    | none => simp [hv] at h
    | some w =>
      simp only [hv] at h
      cases hw : w.put p x with
      | none => simp [hw] at h
      | some w2 =>
        simp only [hw, Option.some.injEq] at h
        subst h
        have hlt : i < vs.length := by
          rcases Nat.lt_or_ge i vs.length with h1 | h1
          · exact h1
          · rw [List.getElem?_eq_none h1] at hv; cases hv
        rw [Val.get_agg_cons, List.getElem?_set_self hlt]
        exact Val.get_put_same p w x w2 hw

/-- Writing back what is there changes nothing. -/
theorem Val.put_get_same : ∀ (p : List Nat) (c x : Val),
    c.get p = some x → c.put p x = some c
  | [], c, x, h => by
    rw [Val.get_nil] at h; cases h; exact Val.put_nil _ _
  | i :: p, .atom _, x, h => by simp [Val.get] at h
  | i :: p, .agg vs, x, h => by
    rw [Val.get_agg_cons] at h
    rw [Val.put_agg_cons]
    cases hv : vs[i]? with
    | none => simp [hv] at h
    | some w =>
      simp only [hv] at h ⊢
      rw [Val.put_get_same p w x h]
      simp only [Option.some.injEq, Val.agg.injEq]
      exact set_same_of_getElem? vs i w hv

/-- Reading below a path is reading at the path and then below. -/
theorem Val.get_append : ∀ (p q : List Nat) (c : Val),
    c.get (p ++ q) = (match c.get p with
      | some u => u.get q
      | none => none)
  | [], q, c => by simp [Val.get_nil]
  | i :: p, q, .atom _ => by simp [Val.get]
  | i :: p, q, .agg vs => by
    rw [List.cons_append, Val.get_agg_cons, Val.get_agg_cons]
    cases hv : vs[i]? with
    | none => rfl
    | some w => exact Val.get_append p q w

/-- Writing below a path that was just written is writing at the path. -/
theorem Val.put_append : ∀ (p q : List Nat) (c u c1 x : Val),
    c.put p u = some c1 →
    c1.put (p ++ q) x = (match u.put q x with
      | some u2 => c.put p u2
      | none => none)
  | [], q, c, u, c1, x, h => by
    rw [Val.put_nil] at h; cases h
    simp only [List.nil_append]
    cases u.put q x with
    | none => rfl
    | some u2 => simp [Val.put_nil]
  | i :: p, q, .atom _, u, c1, x, h => by simp [Val.put] at h
  | i :: p, q, .agg vs, u, c1, x, h => by
    rw [Val.put_agg_cons] at h
    cases hv : vs[i]? with
    | none => simp [hv] at h
    | some w =>
      simp only [hv] at h
      cases hw : w.put p u with
      | none => simp [hw] at h
      | some w2 =>
        simp only [hw, Option.some.injEq] at h
        subst h
        have hlt : i < vs.length := by
          rcases Nat.lt_or_ge i vs.length with h1 | h1
          · exact h1
          · rw [List.getElem?_eq_none h1] at hv; cases hv
        rw [List.cons_append, Val.put_agg_cons, List.getElem?_set_self hlt]
        simp only
        rw [Val.put_append p q w u w2 x hw]
        cases hu : u.put q x with
        | none => rfl
        | some u2 =>
          simp only
          rw [Val.put_agg_cons, hv]
          simp only
          cases w.put p u2 with
          | none => rfl
          | some w3 => simp [List.set_set]

/-- Writing a field of the struct at a path is writing the struct with that
field replaced. -/
theorem Val.put_field (p : List Nat) (c : Val) (vs : List Val) (j : Nat) (x : Val)
    (hg : c.get p = some (.agg vs)) (hj : j < vs.length) :
    c.put (p ++ [j]) x = c.put p (.agg (vs.set j x)) := by
  have h1 := Val.put_append p [j] c (.agg vs) c x (Val.put_get_same p c _ hg)
  rw [h1, Val.put_agg_one vs j x hj]

/-- Reading a field of the struct at a path. -/
theorem Val.get_field (p : List Nat) (c : Val) (vs : List Val) (j : Nat)
    (hg : c.get p = some (.agg vs)) :
    c.get (p ++ [j]) = vs[j]? := by
  rw [Val.get_append, hg]
  exact Val.get_agg_one vs j

/-! ## Memory and the operations of reflect -/

theorem lt_of_cell {h : Heap} {b : Nat} {o : Obj} (hb : h[b]? = some o) : b < h.length :=
  lt_of_getElem?_eq_some hb

theorem getElem?_alloc_old (h : Heap) (o : Obj) (a : Nat) (ha : a < h.length) :
    (h ++ [o])[a]? = h[a]? :=
  List.getElem?_append_left ha

theorem getElem?_alloc_new (h : Heap) (o : Obj) : (h ++ [o])[h.length]? = some o :=
  List.getElem?_concat_length h o

theorem getElem?_set_other (h : Heap) (b a : Nat) (o : Obj) (hne : a ≠ b) :
    (h.set b o)[a]? = h[a]? :=
  List.getElem?_set_ne (fun e => hne e.symm)

theorem getElem?_set_here (h : Heap) (b : Nat) (o : Obj) (hb : b < h.length) :
    (h.set b o)[b]? = some o :=
  List.getElem?_set_self hb

theorem put_of_get : ∀ (p : List Nat) (c u x : Val), c.get p = some u →
    ∃ c2, c.put p x = some c2
  | [], c, u, x, _ => ⟨x, Val.put_nil c x⟩
  | i :: p, .atom _, u, x, h => by simp [Val.get] at h
  | i :: p, .agg vs, u, x, h => by
    rw [Val.get_agg_cons] at h
    cases hv : vs[i]? with
    | none => simp [hv] at h
    | some w =>
      simp only [hv] at h
      obtain ⟨w2, hw2⟩ := put_of_get p w u x h
      exact ⟨.agg (vs.set i w2), by rw [Val.put_agg_cons, hv]; simp [hw2]⟩

theorem load_imm (h : Heap) (T : Ty) (v : Val) (ro : Bool) :
    Value.load h ⟨T, .imm v, ro⟩ = .ok v := rfl

theorem load_mem (h : Heap) (T : Ty) (b : Nat) (p : List Nat) (ro : Bool) (c v : Val)
    (hb : h[b]? = some (.cell c)) (hg : c.get p = some v) :
    Value.load h ⟨T, .mem b p, ro⟩ = .ok v := by
  simp [Value.load, Heap.cellAt, hb, hg]

theorem load_src (n : Nat) (h h0 : Heap) (T : Ty) (sst : Store) (ro : Bool) (vs : Val)
    (hs : SrcAt n h0 sst vs) (hag : Agree n h h0) :
    Value.load h ⟨T, sst, ro⟩ = .ok vs := by
  cases sst with
  | imm v => simp only [SrcAt] at hs; subst hs; rfl
  | mem a q =>
    obtain ⟨ha, c, hc, hg⟩ := hs
    exact load_mem h T a q ro c vs (by rw [hag a ha]; exact hc) hg

theorem store_ok (h : Heap) (b : Nat) (p : List Nat) (c x c2 : Val)
    (hb : h[b]? = some (.cell c)) (hp : c.put p x = some c2) :
    h.store b p x = .ok (h.set b (.cell c2)) := by
  simp [Heap.store, Heap.cellAt, hb, hp]

theorem Set_ok (h : Heap) (T T2 : Ty) (b : Nat) (p : List Nat) (s : Store) (c x c2 : Val)
    (ha : directlyAssignable T T2 = true)
    (hx : Value.load h ⟨T2, s, false⟩ = .ok x)
    (hb : h[b]? = some (.cell c)) (hp : c.put p x = some c2) :
    Value.Set h (some ⟨T, .mem b p, false⟩) (some ⟨T2, s, false⟩) =
      .ok (h.set b (.cell c2)) := by
  simp [Value.Set, ha, hx, store_ok h b p c x c2 hb hp]

theorem Agree.set {n : Nat} {h h0 : Heap} (hag : Agree n h h0) (b : Nat) (o : Obj)
    (hb : n ≤ b) : Agree n (h.set b o) h0 := by
  intro a ha
  rw [getElem?_set_other h b a o (by omega)]
  exact hag a ha

theorem Agree.alloc {n : Nat} {h h0 : Heap} (hag : Agree n h h0) (o : Obj)
    (hn : n ≤ h.length) : Agree n (h ++ [o]) h0 := by
  intro a ha
  rw [getElem?_alloc_old h o a (by omega)]
  exact hag a ha

theorem Agree.frame {n : Nat} {h h2 h0 : Heap} (hag : Agree n h h0) (b : Nat)
    (hb : n ≤ b) (hn : n ≤ h.length)
    (hfr : ∀ a, a < h.length → a ≠ b → h2[a]? = h[a]?) : Agree n h2 h0 := by
  intro a ha
  rw [hfr a (by omega) (by omega)]
  exact hag a ha

theorem Ty.ne_ptr_self (nm : Option TName) (T : Ty) : T ≠ Ty.ptr nm T := by
  intro h
  have := congrArg sizeOf h
  simp at this

theorem directlyAssignable_ptr_none (nm : Option TName) (e : Ty) :
    directlyAssignable (.ptr nm e) (.ptr none e) = true := by
  cases nm with
  | none => exact directlyAssignable_self _
  | some n =>
    simp [directlyAssignable, Ty.hasName, Ty.declName, Ty.Kind, haveIdenticalUnderlyingType,
      Ty.underlying]

mutual
theorem Image_weaken {lo hi lo2 hi2 : Nat} {h0 h h2 : Heap} (hlo : lo2 ≤ lo) (hhi : hi ≤ hi2)
    (hag : ∀ a, lo ≤ a → a < hi → h2[a]? = h[a]?) :
    ∀ (T : Ty) (x y : Val), Image lo hi h0 h T x y → Image lo2 hi2 h0 h2 T x y
  | .basic _ _, x, y, hi => by simpa [Image] using hi
  | .array _ _ _, x, y, hi => by simpa [Image] using hi
  | .ptr nm e, x, y, him => by
    unfold Image at him ⊢
    cases hr : (Ty.ptr nm e).isReader
    · simp only [hr, Bool.false_eq_true, if_false] at him ⊢
      split at him
      · exact him
      · obtain ⟨a2, u, w, hy, h1, h2', h3, h4, h5⟩ := him
        exact ⟨a2, u, w, hy, by omega, by omega, h3, by rw [hag a2 h1 h2']; exact h4,
          Image_weaken hlo hhi hag e u w h5⟩
      · exact him.elim
    · simpa [hr] using him
  | .struct _ fs, x, y, him => by
    unfold Image at him ⊢
    obtain ⟨xs, ys, hx, hy, hf⟩ := him
    exact ⟨xs, ys, hx, hy, ImageFields_weaken hlo hhi hag fs xs ys hf⟩
  | .slice _ e, x, y, him => by
    unfold Image at him ⊢
    obtain ⟨a2, es2, h1, h2', h3, hm⟩ := him
    refine ⟨a2, es2, by omega, by omega, by rw [hag a2 h1 h2']; exact h3, ?_⟩
    split at hm
    · exact hm
    · obtain ⟨hy, hl, es, he, hel, hz⟩ := hm
      refine ⟨hy, hl, es, he, ?_, hz⟩
      intro i hi'
      obtain ⟨u, w, hu, hw, hiw⟩ := hel i hi'
      exact ⟨u, w, hu, hw, Image_weaken hlo hhi hag e u w hiw⟩
    · exact hm
  | .map _ _ vt, x, y, him => by
    unfold Image at him ⊢
    obtain ⟨a2, kvs2, hy, h1, h2', h3, hnd, hnn, hm⟩ := him
    refine ⟨a2, kvs2, hy, by omega, by omega, by rw [hag a2 h1 h2']; exact h3, hnd, hnn, ?_⟩
    split at hm
    · exact hm
    · obtain ⟨kvs, hk, hall⟩ := hm
      refine ⟨kvs, hk, ?_⟩
      intro k
      have := hall k
      split at this
      · simpa using this
      · obtain ⟨w, hw, hiw⟩ := this
        exact ⟨w, hw, Image_weaken hlo hhi hag vt _ w hiw⟩
    · exact hm
theorem ImageFields_weaken {lo hi lo2 hi2 : Nat} {h0 h h2 : Heap} (hlo : lo2 ≤ lo)
    (hhi : hi ≤ hi2) (hag : ∀ a, lo ≤ a → a < hi → h2[a]? = h[a]?) :
    ∀ (fs : List (String × Ty)) (xs ys : List Val),
      ImageFields lo hi h0 h fs xs ys → ImageFields lo2 hi2 h0 h2 fs xs ys
  | [], [], [], _ => by simp [ImageFields]
  | f :: r, x :: xs, y :: ys, him => by
    unfold ImageFields at him ⊢
    exact ⟨Image_weaken hlo hhi hag f.2 x y him.1, ImageFields_weaken hlo hhi hag r xs ys him.2⟩
  | [], _ :: _, _, him => by simp [ImageFields] at him
  | [], [], _ :: _, him => by simp [ImageFields] at him
  | _ :: _, [], _, him => by simp [ImageFields] at him
  | _ :: _, _ :: _, [], him => by simp [ImageFields] at him
end

theorem Owned_ptr {lo hi : Nat} {h : Heap} {nm : Option TName} {e : Ty} {v : Val}
    (ho : Owned lo hi h (.ptr nm e) v = true) (hr : (Ty.ptr nm e).isReader = false) :
    v = .atom (.ptr none) ∨
      ∃ a u, v = .atom (.ptr (some a)) ∧ lo ≤ a ∧ a < hi ∧ h[a]? = some (.cell u) ∧
        Owned lo hi h e u = true := by
  unfold Owned at ho
  simp only [hr, Bool.false_or] at ho
  split at ho
  · exact Or.inl rfl
  · rename_i a
    right
    simp only [Bool.and_eq_true, decide_eq_true_eq] at ho
    obtain ⟨⟨h1, h2⟩, h3⟩ := ho
    split at h3
    · rename_i u hu
      exact ⟨a, u, rfl, h1, h2, hu, h3⟩
    · cases h3
  · cases ho

theorem leaf_case (fuel : Nat) (T : Ty) (hl : T.isLeaf = true)
    (h0 : Heap) (n : Nat) (h : Heap) (b : Nat) (p : List Nat) (sst : Store)
    (root : Bool) (h2 : Heap) (vs c : Val)
    (hret : rcopy (fuel + 1) h (some ⟨T, .mem b p, false⟩) (some ⟨T, sst, false⟩) root = .ok h2)
    (hag : Agree n h h0) (hsrc : SrcAt n h0 sst vs)
    (hb : h[b]? = some (.cell c)) (hz : c.get p = some T.zero)
    (him : ∀ lo hi h3 x, Image lo hi h0 h3 T x x) :
    h.length ≤ h2.length ∧
    (∀ a, a < h.length → a ≠ b → h2[a]? = h[a]?) ∧
    ∃ w c2, c.put p w = some c2 ∧ h2[b]? = some (.cell c2) ∧
      Image h.length h2.length h0 h2 T vs w := by
  rw [rcopy_leaf_same fuel h T b p sst root hl, load_src n h h0 T sst false vs hsrc hag] at hret
  obtain ⟨c2, hc2⟩ := put_of_get p c _ vs hz
  simp only [ok_bind, store_ok h b p c vs c2 hb hc2, Res.ok.injEq] at hret
  subst hret
  refine ⟨by simp, fun a _ hne => getElem?_set_other h b a _ hne, vs, c2, hc2,
    getElem?_set_here h b _ (lt_of_cell hb), him _ _ _ _⟩

theorem Elem_mem (h : Heap) (nm : Option TName) (e : Ty) (st : Store) (ro : Bool) (a : Nat)
    (hl : Value.load h ⟨.ptr nm e, st, ro⟩ = .ok (.atom (.ptr (some a)))) :
    Value.Elem h ⟨.ptr nm e, st, ro⟩ = .ok (some ⟨e, .mem a [], ro⟩) := by
  simp [Value.Elem, hl]

theorem Elem_nil (h : Heap) (nm : Option TName) (e : Ty) (st : Store) (ro : Bool)
    (hl : Value.load h ⟨.ptr nm e, st, ro⟩ = .ok (.atom (.ptr none))) :
    Value.Elem h ⟨.ptr nm e, st, ro⟩ = .ok none := by
  simp [Value.Elem, hl]

theorem IsNil_ptr (h : Heap) (T : Ty) (st : Store) (ro : Bool) (a : Option Nat)
    (hl : Value.load h ⟨T, st, ro⟩ = .ok (.atom (.ptr a))) :
    Value.IsNil h ⟨T, st, ro⟩ = .ok a.isNone := by
  simp [Value.IsNil, hl]

theorem rcopy_ptr_eq (fuel : Nat) (h : Heap) (nm : Option TName) (e : Ty) (b : Nat)
    (p : List Nat) (sst : Store) (root : Bool) :
    rcopy (fuel + 1) h (some ⟨.ptr nm e, .mem b p, false⟩) (some ⟨.ptr nm e, sst, false⟩) root =
      (if (Ty.ptr nm e).isReader then do
        let de ← Value.Elem h ⟨.ptr nm e, .mem b p, false⟩
        if CanSet de then Value.Set h de (some ⟨.ptr nm e, sst, false⟩)
        else Value.Set h (some ⟨.ptr nm e, .mem b p, false⟩) (some ⟨.ptr nm e, sst, false⟩)
      else do
        let isnil ← Value.IsNil h ⟨.ptr nm e, sst, false⟩
        let h1 ← (if !isnil then
            Value.Set (h ++ [.cell e.zero]) (some ⟨.ptr nm e, .mem b p, false⟩)
              (some ⟨.ptr none e, .imm (.atom (.ptr (some h.length))), false⟩)
          else .ok h)
        let se ← Value.Elem h1 ⟨.ptr nm e, sst, false⟩
        match se with
        | some sv => do
          let de ← Value.Elem h1 ⟨.ptr nm e, .mem b p, false⟩
          rcopy fuel h1 de (some sv) root
        | none => .ok h1) := by
  rw [rcopy]
  rfl

theorem ptr_case (fuel : Nat) (hrc : CopySpec (rcopy fuel)) (nm : Option TName) (e : Ty)
    (h0 : Heap) (n : Nat) (h : Heap) (b : Nat) (p : List Nat) (sst : Store)
    (root : Bool) (h2 : Heap) (vs c : Val)
    (hret : rcopy (fuel + 1) h (some ⟨.ptr nm e, .mem b p, false⟩)
      (some ⟨.ptr nm e, sst, false⟩) root = .ok h2)
    (hT : (Ty.ptr nm e).namesOK = true) (hnb : n ≤ b)
    (hag : Agree n h h0) (hsrc : SrcAt n h0 sst vs)
    (hown : Owned 0 n h0 (.ptr nm e) vs = true)
    (hb : h[b]? = some (.cell c)) (hz : c.get p = some (Ty.ptr nm e).zero) :
    h.length ≤ h2.length ∧
    (∀ a, a < h.length → a ≠ b → h2[a]? = h[a]?) ∧
    ∃ w c2, c.put p w = some c2 ∧ h2[b]? = some (.cell c2) ∧
      Image h.length h2.length h0 h2 (.ptr nm e) vs w := by
  have hbl : b < h.length := lt_of_cell hb
  have hls : ∀ h3, Agree n h3 h0 → Value.load h3 ⟨.ptr nm e, sst, false⟩ = .ok vs :=
    fun h3 ha => load_src n h3 h0 _ sst false vs hsrc ha
  rw [rcopy_ptr_eq] at hret
  cases hr : (Ty.ptr nm e).isReader with
  | true =>
    simp only [hr, if_true] at hret
    have hld : Value.load h ⟨.ptr nm e, .mem b p, false⟩ = .ok (.atom (.ptr none)) :=
      load_mem h _ b p false c _ hb hz
    obtain ⟨c2, hc2⟩ := put_of_get p c _ vs hz
    rw [Elem_nil h nm e _ false hld] at hret
    simp only [ok_bind, CanSet, Bool.false_eq_true, if_false] at hret
    rw [Set_ok h _ _ b p sst c vs c2 (directlyAssignable_self _) (hls h hag) hb hc2] at hret
    cases hret
    refine ⟨by simp, fun a _ hne => getElem?_set_other h b a _ hne, vs, c2, hc2,
      getElem?_set_here h b _ hbl, ?_⟩
    unfold Image
    simp [hr]
  | false =>
    simp only [hr, Bool.false_eq_true, if_false] at hret
    rcases Owned_ptr hown hr with hv | ⟨a, u, hv, _, han, hau, hou⟩
    · subst hv
      rw [IsNil_ptr h _ sst false none (hls h hag)] at hret
      simp only [Option.isNone_none, Bool.not_true, Bool.false_eq_true, if_false, ok_bind] at hret
      rw [Elem_nil h nm e sst false (hls h hag)] at hret
      simp only [ok_bind, Res.ok.injEq] at hret
      subst hret
      refine ⟨Nat.le_refl _, fun a _ _ => rfl, .atom (.ptr none), c,
        Val.put_get_same p c _ hz, hb, ?_⟩
      unfold Image
      simp [hr]
    · subst hv
      rw [IsNil_ptr h _ sst false (some a) (hls h hag)] at hret
      simp only [Option.isNone_some, Bool.not_false, if_true, ok_bind] at hret
      obtain ⟨c1, hc1⟩ := put_of_get p c _ (.atom (.ptr (some h.length))) hz
      have hb1 : (h ++ [Obj.cell e.zero])[b]? = some (.cell c) := by
        rw [getElem?_alloc_old h _ b hbl]; exact hb
      rw [Set_ok (h ++ [Obj.cell e.zero]) _ _ b p _ c _ c1 (directlyAssignable_ptr_none nm e)
        (load_imm _ _ _ _) hb1 hc1] at hret
      simp only [ok_bind] at hret
      have hag1 : Agree n ((h ++ [Obj.cell e.zero]).set b (.cell c1)) h0 :=
        (hag.alloc _ (by omega)).set b _ hnb
      rw [Elem_mem _ nm e sst false a (hls _ hag1)] at hret
      simp only [ok_bind] at hret
      have hb2 : ((h ++ [Obj.cell e.zero]).set b (.cell c1))[b]? = some (.cell c1) :=
        getElem?_set_here _ b _ (by simp; omega)
      rw [Elem_mem _ nm e (.mem b p) false h.length
        (load_mem _ _ b p false c1 _ hb2 (Val.get_put_same p c _ c1 hc1))] at hret
      have hnew : ((h ++ [Obj.cell e.zero]).set b (.cell c1))[h.length]? =
          some (.cell e.zero) := by
        rw [getElem?_set_other _ b _ _ (by omega)]
        exact getElem?_alloc_new h _
      have hTe : e.namesOK = true := by
        unfold Ty.namesOK at hT; exact hT
      obtain ⟨hlen, hfr, w, c2, hw, hc2, him⟩ :=
        hrc h0 n e _ h.length [] (.mem a []) root h2 u e.zero hret hTe (by omega) hag1
          ⟨han, u, hau, Val.get_nil u⟩ hou hnew (Val.get_nil _)
      rw [Val.put_nil] at hw
      cases hw
      simp only [List.length_set, List.length_append, List.length_singleton] at hlen hfr him
      refine ⟨by omega, ?_, .atom (.ptr (some h.length)), c1, hc1, ?_, ?_⟩
      · intro a2 ha2 hne
        rw [hfr a2 (by omega) (by omega), getElem?_set_other _ b _ _ hne,
          getElem?_alloc_old h _ a2 ha2]
      · rw [hfr b (by omega) (by omega)]
        exact hb2
      · unfold Image
        simp only [hr, Bool.false_eq_true, if_false]
        exact ⟨h.length, u, w, rfl, Nat.le_refl _, by omega, hau, hc2,
          Image_weaken (by omega) (Nat.le_refl _) (fun _ _ _ => rfl) e u w him⟩

theorem bind_eq_ok {α β : Type} {r : Res α} {f : α → Res β} {y : β}
    (h : (r >>= f) = .ok y) : ∃ a, r = .ok a ∧ f a = .ok y := by
  cases r with
  | ok a => exact ⟨a, rfl, h⟩
  | panic p => cases h
  | stuck => cases h
  | nofuel => cases h

theorem Val.put_put (p : List Nat) (c x c1 y : Val) (h : c.put p x = some c1) :
    c1.put p y = c.put p y := by
  have := Val.put_append p [] c x c1 y h
  simpa [Val.put_nil] using this

theorem findField_append (name : String) (t : Ty) :
    ∀ (done rest : List (String × Ty)), name ∉ fieldNames done →
      findField name (done ++ (name, t) :: rest) = some (done.length, t)
  | [], rest, _ => by simp [findField]
  | d :: done, rest, hn => by
    have h1 : d.1 ≠ name := by
      intro e; apply hn; simp [fieldNames, ← e]
    have h2 : name ∉ fieldNames done := by
      intro e; apply hn; simp only [fieldNames, List.map_cons, List.mem_cons]; exact Or.inr e
    simp [findField, h1, findField_append name t done rest h2]

theorem Owned_struct {lo hi : Nat} {h : Heap} {nm : Option TName}
    {fs : List (String × Ty)} {v : Val}
    (ho : Owned lo hi h (.struct nm fs) v = true) :
    ∃ xs, v = .agg xs ∧ OwnedFields lo hi h fs xs = true := by
  cases v with
  | atom a => simp [Owned] at ho
  | agg xs => exact ⟨xs, rfl, by simpa [Owned] using ho⟩

theorem OwnedFields_cons {lo hi : Nat} {h : Heap} {f : String × Ty}
    {r : List (String × Ty)} {xs : List Val}
    (ho : OwnedFields lo hi h (f :: r) xs = true) :
    ∃ x xr, xs = x :: xr ∧ Owned lo hi h f.2 x = true ∧ OwnedFields lo hi h r xr = true := by
  cases xs with
  | nil => simp [OwnedFields] at ho
  | cons x xr =>
    simp only [OwnedFields, Bool.and_eq_true] at ho
    exact ⟨x, xr, rfl, ho.1, ho.2⟩

theorem OwnedFields_nil {lo hi : Nat} {h : Heap} {xs : List Val}
    (ho : OwnedFields lo hi h [] xs = true) : xs = [] := by
  cases xs with
  | nil => rfl
  | cons x xr => simp [OwnedFields] at ho

theorem ImageFields_length {lo hi : Nat} {h0 h : Heap} :
    ∀ (fs : List (String × Ty)) (xs ys : List Val),
      ImageFields lo hi h0 h fs xs ys → xs.length = fs.length ∧ ys.length = fs.length
  | [], [], [], _ => ⟨rfl, rfl⟩
  | f :: r, x :: xs, y :: ys, him => by
    unfold ImageFields at him
    have := ImageFields_length r xs ys him.2
    simp [this.1, this.2]
  | [], _ :: _, _, him => by simp [ImageFields] at him
  | [], [], _ :: _, him => by simp [ImageFields] at him
  | _ :: _, [], _, him => by simp [ImageFields] at him
  | _ :: _, _ :: _, [], him => by simp [ImageFields] at him

theorem ImageFields_snoc {lo hi : Nat} {h0 h : Heap} (f : String × Ty) (x w : Val)
    (hi1 : Image lo hi h0 h f.2 x w) :
    ∀ (done : List (String × Ty)) (xd ws : List Val),
      ImageFields lo hi h0 h done xd ws →
      ImageFields lo hi h0 h (done ++ [f]) (xd ++ [x]) (ws ++ [w])
  | [], [], [], _ => by
    simp only [List.nil_append]
    unfold ImageFields
    exact ⟨hi1, by unfold ImageFields; trivial⟩
  | d :: done, y :: xd, z :: ws, him => by
    unfold ImageFields at him
    simp only [List.cons_append]
    unfold ImageFields
    exact ⟨him.1, ImageFields_snoc f x w hi1 done xd ws him.2⟩
  | [], _ :: _, _, him => by simp [ImageFields] at him
  | [], [], _ :: _, him => by simp [ImageFields] at him
  | _ :: _, [], _, him => by simp [ImageFields] at him
  | _ :: _, _ :: _, [], him => by simp [ImageFields] at him

theorem zero_struct (nm : Option TName) (fs : List (String × Ty)) :
    (Ty.struct nm fs).zero = .agg (Ty.zeroFields fs) := by
  rw [Ty.zero]

theorem zeroFields_cons (f : String × Ty) (r : List (String × Ty)) :
    Ty.zeroFields (f :: r) = f.2.zero :: Ty.zeroFields r := by
  rw [Ty.zeroFields]

theorem FieldByName_mem (nm : Option TName) (fs : List (String × Ty)) (a : Nat)
    (q : List Nat) (ro : Bool) (name : String) (j : Nat) (t : Ty)
    (hf : findField name fs = some (j, t)) :
    Value.FieldByName ⟨.struct nm fs, .mem a q, ro⟩ name =
      .ok (some ⟨t, .mem a (q ++ [j]), ro || !exported name⟩) := by
  simp [Value.FieldByName, hf]

theorem FieldByName_imm (nm : Option TName) (fs : List (String × Ty)) (xs : List Val)
    (ro : Bool) (name : String) (j : Nat) (t : Ty) (x : Val)
    (hf : findField name fs = some (j, t)) (hx : xs[j]? = some x) :
    Value.FieldByName ⟨.struct nm fs, .imm (.agg xs), ro⟩ name =
      .ok (some ⟨t, .imm x, ro || !exported name⟩) := by
  simp [Value.FieldByName, hf, Val.get_agg_one, hx]

/-- The field `name` of a source struct, as a `Value`. -/
theorem FieldByName_src (n : Nat) (h0 : Heap) (nm : Option TName)
    (fs : List (String × Ty)) (sst : Store) (xs : List Val) (name : String) (j : Nat)
    (t : Ty) (x : Val) (hs : SrcAt n h0 sst (.agg xs))
    (hf : findField name fs = some (j, t)) (hx : xs[j]? = some x) :
    ∃ sst2, Value.FieldByName ⟨.struct nm fs, sst, false⟩ name =
        .ok (some ⟨t, sst2, !exported name⟩) ∧ SrcAt n h0 sst2 x := by
  cases sst with
  | imm v =>
    simp only [SrcAt] at hs
    subst hs
    exact ⟨.imm x, by rw [FieldByName_imm nm fs xs false name j t x hf hx]; simp, rfl⟩
  | mem a q =>
    obtain ⟨ha, c, hc, hg⟩ := hs
    refine ⟨.mem a (q ++ [j]), by rw [FieldByName_mem nm fs a q false name j t hf]; simp,
      ha, c, hc, ?_⟩
    rw [Val.get_field q c xs j hg]; exact hx

theorem copyFields_nil (rc : Heap → Option Value → Option Value → Bool → Res Heap)
    (d s : Value) (h : Heap) : copyFields rc d s [] h = .ok h := rfl

theorem copyFields_cons (rc : Heap → Option Value → Option Value → Bool → Res Heap)
    (d s : Value) (f : String × Ty) (rest : List (String × Ty)) (h : Heap) :
    copyFields rc d s (f :: rest) h = (do
      let srcval ← s.FieldByName f.1
      match srcval with
      | some sv => do
        let dv ← d.FieldByName f.1
        let h2 ← rc h dv (some sv) false
        copyFields rc d s rest h2
      | none => copyFields rc d s rest h) := rfl

theorem getElem?_append_length {α : Type} (l r : List α) (x : α) :
    (l ++ x :: r)[l.length]? = some x := by
  rw [List.getElem?_append_right (Nat.le_refl _)]
  simp

theorem set_append_length {α : Type} (l r : List α) (x y : α) :
    (l ++ x :: r).set l.length y = l ++ y :: r := by
  rw [List.set_append_right _ _ (Nat.le_refl _)]
  simp

/-- The loop over the fields of a struct, from the field after `done` on. -/
theorem copyFields_spec (rc : Heap → Option Value → Option Value → Bool → Res Heap)
    (hrc : CopySpec rc) (hro : RoSpec rc) (h0 : Heap) (n : Nat) (nm : Option TName)
    (fs : List (String × Ty)) (b : Nat) (p : List Nat) (sst : Store) (lo : Nat)
    (hnd : (fieldNames fs).Nodup) (hnb : n ≤ b) (hblo : b < lo) :
    ∀ (rest done : List (String × Ty)) (h h2 : Heap) (c : Val) (xd xr ws : List Val),
      fs = done ++ rest →
      copyFields rc ⟨.struct nm fs, .mem b p, false⟩ ⟨.struct nm fs, sst, false⟩ rest h =
        .ok h2 →
      Ty.fieldsOK rest = true → lo ≤ h.length → Agree n h h0 →
      SrcAt n h0 sst (.agg (xd ++ xr)) → OwnedFields 0 n h0 rest xr = true →
      h[b]? = some (.cell c) → c.get p = some (.agg (ws ++ Ty.zeroFields rest)) →
      ImageFields lo h.length h0 h done xd ws →
      h.length ≤ h2.length ∧ (∀ a, a < h.length → a ≠ b → h2[a]? = h[a]?) ∧
      ∃ ws2 c2, c.put p (.agg ws2) = some c2 ∧ h2[b]? = some (.cell c2) ∧
        ImageFields lo h2.length h0 h2 fs (xd ++ xr) ws2
  | [], done, h, h2, c, xd, xr, ws, hfs, hret, _, _, _, _, hown, hb, hz, him => by
    rw [copyFields_nil] at hret
    cases hret
    have hxr := OwnedFields_nil hown
    subst hxr
    rw [Ty.zeroFields, List.append_nil] at hz
    rw [List.append_nil] at hfs ⊢
    subst hfs
    exact ⟨Nat.le_refl _, fun _ _ _ => rfl, ws, c, Val.put_get_same p c _ hz, hb, him⟩
  | f :: rest, done, h, h2, c, xd, xr, ws, hfs, hret, hok, hlo, hag, hsrc, hown, hb, hz,
      him => by
    obtain ⟨x, xr2, hxr, hox, hor⟩ := OwnedFields_cons hown
    subst hxr
    obtain ⟨hlx, hlw⟩ := ImageFields_length done xd ws him
    have hbl : b < h.length := lt_of_cell hb
    -- the field is found at position `done.length` on both sides
    have hnot : f.1 ∉ fieldNames done := by
      rw [hfs] at hnd
      simp only [fieldNames, List.map_append, List.map_cons] at hnd
      have := (List.nodup_append.mp hnd).2.2
      intro hmem
      exact this hmem (List.mem_cons_self _ _)
    have hfind : findField f.1 fs = some (done.length, f.2) := by
      rw [hfs]; exact findField_append f.1 f.2 done rest hnot
    have hxj : (xd ++ x :: xr2)[done.length]? = some x := by
      rw [← hlx]; exact getElem?_append_length xd xr2 x
    obtain ⟨sst2, hfb, hsrc2⟩ :=
      FieldByName_src n h0 nm fs sst (xd ++ x :: xr2) f.1 done.length f.2 x hsrc hfind hxj
    rw [copyFields_cons, hfb] at hret
    simp only [ok_bind] at hret
    rw [FieldByName_mem nm fs b p false f.1 done.length f.2 hfind] at hret
    simp only [ok_bind, Bool.false_or] at hret
    obtain ⟨h1, hrc1, hret1⟩ := bind_eq_ok hret
    cases hex : exported f.1 with
    | false =>
      rw [hex] at hrc1
      exact absurd hrc1 (hro f.2 h _ _ h1)
    | true =>
      rw [hex] at hrc1
      simp only [Bool.not_true] at hrc1
      simp only [Ty.fieldsOK, Bool.and_eq_true] at hok
      have hzj : c.get (p ++ [done.length]) = some f.2.zero := by
        rw [Val.get_field p c _ done.length hz, zeroFields_cons, ← hlw]
        exact getElem?_append_length ws _ _
      obtain ⟨hlen1, hfr1, w, c1, hw, hc1, hiw⟩ :=
        hrc h0 n f.2 h b (p ++ [done.length]) sst2 false h1 x c hrc1 hok.1 hnb hag hsrc2
          hox hb hzj
      have hput : c.put p (.agg (ws ++ w :: Ty.zeroFields rest)) = some c1 := by
        rw [← hw, Val.put_field p c _ done.length w hz
          (by rw [zeroFields_cons]; simp; omega), zeroFields_cons, ← hlw,
          set_append_length]
      have hag1 : Agree n h1 h0 := hag.frame b hnb (by omega) hfr1
      have him1 : ImageFields lo h1.length h0 h1 (done ++ [f]) (xd ++ [x]) (ws ++ [w]) := by
        apply ImageFields_snoc f x w
          (Image_weaken (by omega) (Nat.le_refl _) (fun _ _ _ => rfl) f.2 x w hiw)
        exact ImageFields_weaken (Nat.le_refl _) hlen1
          (fun a ha1 ha2 => hfr1 a ha2 (by omega)) done xd ws him
      obtain ⟨hlen2, hfr2, ws2, c2, hw2, hc2, him2⟩ :=
        copyFields_spec rc hrc hro h0 n nm fs b p sst lo hnd hnb hblo rest (done ++ [f]) h1 h2
          c1 (xd ++ [x]) xr2 (ws ++ [w]) (by rw [hfs]; simp) hret1 hok.2 (by omega) hag1
          (by simpa using hsrc) hor hc1
          (by rw [Val.get_put_same p c _ c1 hput]; simp) him1
      refine ⟨by omega, ?_, ws2, c2, ?_, hc2, by simpa using him2⟩
      · intro a ha hne
        rw [hfr2 a (by omega) hne, hfr1 a ha hne]
      · rw [← Val.put_put p c _ c1 (.agg ws2) hput]; exact hw2

theorem rcopy_struct_eq (fuel : Nat) (h : Heap) (nm : Option TName)
    (fs : List (String × Ty)) (b : Nat) (p : List Nat) (sst : Store) (root : Bool) :
    rcopy (fuel + 1) h (some ⟨.struct nm fs, .mem b p, false⟩)
        (some ⟨.struct nm fs, sst, false⟩) root =
      (do
        let h1 ← (if !root then
            Value.Set (h ++ [.cell (Ty.struct nm fs).zero])
              (some ⟨.struct nm fs, .mem b p, false⟩)
              (some ⟨.struct nm fs, .mem h.length [], false⟩)
          else .ok h)
        copyFields (rcopy fuel) ⟨.struct nm fs, .mem b p, false⟩ ⟨.struct nm fs, sst, false⟩
          fs h1) := by
  rw [rcopy]
  rfl

theorem struct_case (fuel : Nat) (hrc : CopySpec (rcopy fuel)) (hro : RoSpec (rcopy fuel))
    (nm : Option TName) (fs : List (String × Ty))
    (h0 : Heap) (n : Nat) (h : Heap) (b : Nat) (p : List Nat) (sst : Store)
    (root : Bool) (h2 : Heap) (vs c : Val)
    (hret : rcopy (fuel + 1) h (some ⟨.struct nm fs, .mem b p, false⟩)
      (some ⟨.struct nm fs, sst, false⟩) root = .ok h2)
    (hT : (Ty.struct nm fs).namesOK = true) (hnb : n ≤ b)
    (hag : Agree n h h0) (hsrc : SrcAt n h0 sst vs)
    (hown : Owned 0 n h0 (.struct nm fs) vs = true)
    (hb : h[b]? = some (.cell c)) (hz : c.get p = some (Ty.struct nm fs).zero) :
    h.length ≤ h2.length ∧
    (∀ a, a < h.length → a ≠ b → h2[a]? = h[a]?) ∧
    ∃ w c2, c.put p w = some c2 ∧ h2[b]? = some (.cell c2) ∧
      Image h.length h2.length h0 h2 (.struct nm fs) vs w := by
  have hbl : b < h.length := lt_of_cell hb
  obtain ⟨xs, hvs, hof⟩ := Owned_struct hown
  subst hvs
  rw [Ty.namesOK] at hT
  simp only [Bool.and_eq_true, decide_eq_true_eq] at hT
  rw [rcopy_struct_eq] at hret
  obtain ⟨h1, hh1, hret1⟩ := bind_eq_ok hret
  -- the memory after the destination was reset
  have hpre : h.length ≤ h1.length ∧ (∀ a, a < h.length → a ≠ b → h1[a]? = h[a]?) ∧
      h1[b]? = some (.cell c) := by
    cases root with
    | true =>
      simp only [Bool.not_true, Bool.false_eq_true, if_false, Res.ok.injEq] at hh1
      subst hh1
      exact ⟨Nat.le_refl _, fun _ _ _ => rfl, hb⟩
    | false =>
      simp only [Bool.not_false, if_true] at hh1
      have hb1 : (h ++ [Obj.cell (Ty.struct nm fs).zero])[b]? = some (.cell c) := by
        rw [getElem?_alloc_old h _ b hbl]; exact hb
      rw [Set_ok (h ++ [Obj.cell (Ty.struct nm fs).zero]) _ _ b p _ c _ c
        (directlyAssignable_self _)
        (load_mem _ _ h.length [] false _ _ (getElem?_alloc_new h _) (Val.get_nil _)) hb1
        (Val.put_get_same p c _ hz)] at hh1
      cases hh1
      refine ⟨by simp, ?_, getElem?_set_here _ b _ (by simp; omega)⟩
      intro a ha hne
      rw [getElem?_set_other _ b a _ hne, getElem?_alloc_old h _ a ha]
  obtain ⟨hlen1, hfr1, hb1⟩ := hpre
  have hag1 : Agree n h1 h0 := hag.frame b hnb (by omega) hfr1
  rw [zero_struct] at hz
  obtain ⟨hlen2, hfr2, ws2, c2, hw2, hc2, him2⟩ :=
    copyFields_spec (rcopy fuel) hrc hro h0 n nm fs b p sst h1.length hT.1 hnb (by omega)
      fs [] h1 h2 c [] xs [] rfl hret1 hT.2 (Nat.le_refl _) hag1 hsrc hof hb1 hz
      (by unfold ImageFields; trivial)
  refine ⟨by omega, ?_, .agg ws2, c2, hw2, hc2, ?_⟩
  · intro a ha hne
    rw [hfr2 a (by omega) hne, hfr1 a ha hne]
  · unfold Image
    exact ⟨xs, ws2, rfl, rfl,
      ImageFields_weaken hlen1 (Nat.le_refl _) (fun _ _ _ => rfl) fs xs ws2 him2⟩

theorem Owned_slice {lo hi : Nat} {h : Heap} {nm : Option TName} {e : Ty} {v : Val}
    (ho : Owned lo hi h (.slice nm e) v = true) :
    v = .atom (.slice none) ∨
      ∃ s es, v = .atom (.slice (some s)) ∧ lo ≤ s.base ∧ s.base < hi ∧
        h[s.base]? = some (.cell (.agg es)) ∧
        ∀ i, i < s.len → ∃ u, es[s.off + i]? = some u ∧ Owned lo hi h e u = true := by
  cases v with
  | agg xs => simp [Owned] at ho
  | atom a =>
    cases a with
    | slice so =>
      cases so with
      | none => exact Or.inl rfl
      | some s =>
        right
        rw [Owned] at ho
        simp only [Bool.and_eq_true, decide_eq_true_eq] at ho
        obtain ⟨⟨⟨h1, h2⟩, _⟩, h3⟩ := ho
        split at h3
        · rename_i es hes
          refine ⟨s, es, rfl, h1, h2, hes, ?_⟩
          intro i hi
          have := (List.all_eq_true.mp h3) i (List.mem_range.mpr hi)
          split at this
          · rename_i u hu; exact ⟨u, hu, this⟩
          · cases this
        · cases h3
    | _ => simp [Owned] at ho

theorem Owned_slice_cap {lo hi : Nat} {h : Heap} {nm : Option TName} {e : Ty}
    {s : SliceHdr} (ho : Owned lo hi h (.slice nm e) (.atom (.slice (some s))) = true) :
    s.len ≤ s.cap := by
  rw [Owned] at ho
  simp only [Bool.and_eq_true, decide_eq_true_eq] at ho
  exact ho.1.2

theorem hdr_of_load (h : Heap) (v : Value) (s : Option SliceHdr)
    (hl : v.load h = .ok (.atom (.slice s))) : v.hdr h = .ok s := by
  simp [Value.hdr, hl]

theorem Len_of_load (h : Heap) (v : Value) (s : SliceHdr)
    (hl : v.load h = .ok (.atom (.slice (some s)))) : v.Len h = .ok s.len := by
  simp [Value.Len, hdr_of_load h v _ hl]

theorem Cap_of_load (h : Heap) (v : Value) (s : SliceHdr)
    (hl : v.load h = .ok (.atom (.slice (some s)))) : v.Cap h = .ok s.cap := by
  simp [Value.Cap, hdr_of_load h v _ hl]

theorem Len_of_nil (h : Heap) (v : Value)
    (hl : v.load h = .ok (.atom (.slice none))) : v.Len h = .ok 0 := by
  simp [Value.Len, hdr_of_load h v _ hl]

theorem Cap_of_nil (h : Heap) (v : Value)
    (hl : v.load h = .ok (.atom (.slice none))) : v.Cap h = .ok 0 := by
  simp [Value.Cap, hdr_of_load h v _ hl]

theorem Index_of_load (h : Heap) (nm : Option TName) (e : Ty) (st : Store) (ro : Bool)
    (s : SliceHdr) (i : Nat) (hi : i < s.len)
    (hl : Value.load h ⟨.slice nm e, st, ro⟩ = .ok (.atom (.slice (some s)))) :
    Value.Index h ⟨.slice nm e, st, ro⟩ i = .ok (some ⟨e, .mem s.base [s.off + i], ro⟩) := by
  simp [Value.Index, hdr_of_load h _ _ hl, hi]

theorem MakeSlice_ok (h : Heap) (nm : Option TName) (e : Ty) (len cap : Nat)
    (hle : len ≤ cap) :
    MakeSlice h (.slice nm e) len cap =
      .ok (⟨.slice nm e, .imm (.atom (.slice (some ⟨h.length, 0, len, cap⟩))), false⟩,
        h ++ [.cell (.agg (List.replicate cap e.zero))]) := by
  simp [MakeSlice, Heap.alloc, Nat.not_lt.mpr hle]

theorem MakeSlice_panics (h : Heap) (nm : Option TName) (e : Ty) (len cap : Nat)
    (hlt : cap < len) :
    MakeSlice h (.slice nm e) len cap = .panic .makeSliceLenCap := by
  simp [MakeSlice, hlt]

theorem copyElems_zero (rc : Heap → Option Value → Option Value → Bool → Res Heap)
    (d s : Value) (i : Nat) (h : Heap) : copyElems rc d s 0 i h = .ok h := rfl

theorem copyElems_succ (rc : Heap → Option Value → Option Value → Bool → Res Heap)
    (d s : Value) (m i : Nat) (h : Heap) :
    copyElems rc d s (m + 1) i h = (do
      let dv ← d.Index h i
      let sv ← s.Index h i
      let h2 ← rc h dv sv false
      copyElems rc d s m (i + 1) h2) := rfl

theorem getElem?_append_replicate {α : Type} (ws : List α) (k : Nat) (z : α) (hk : 0 < k) :
    (ws ++ List.replicate k z)[ws.length]? = some z := by
  obtain ⟨k2, rfl⟩ : ∃ k2, k = k2 + 1 := ⟨k - 1, by omega⟩
  rw [List.replicate_succ]
  exact getElem?_append_length ws _ z

theorem set_append_replicate {α : Type} (ws : List α) (k : Nat) (z w : α) (hk : 0 < k) :
    (ws ++ List.replicate k z).set ws.length w = (ws ++ [w]) ++ List.replicate (k - 1) z := by
  obtain ⟨k2, rfl⟩ : ∃ k2, k = k2 + 1 := ⟨k - 1, by omega⟩
  rw [List.replicate_succ, set_append_length]
  simp

/-- The loop over the elements of a slice, from index `i` on. -/
theorem copyElems_spec (rc : Heap → Option Value → Option Value → Bool → Res Heap)
    (hrc : CopySpec rc) (h0 : Heap) (n : Nat) (nm : Option TName) (e : Ty)
    (b : Nat) (p : List Nat) (sst : Store) (s : SliceHdr) (es : List Val) (a1 : Nat)
    (c1 : Val) (he : e.namesOK = true) (hnb : n ≤ b) (hba : b < a1) (hcap : s.len ≤ s.cap)
    (hsrc : SrcAt n h0 sst (.atom (.slice (some s))))
    (hsb : s.base < n) (hes : h0[s.base]? = some (.cell (.agg es)))
    (hel : ∀ i, i < s.len → ∃ u, es[s.off + i]? = some u ∧ Owned 0 n h0 e u = true)
    (hc1 : c1.get p = some (.atom (.slice (some ⟨a1, 0, s.len, s.cap⟩)))) :
    ∀ (m i : Nat) (h h2 : Heap) (ws : List Val),
      copyElems rc ⟨.slice nm e, .mem b p, false⟩ ⟨.slice nm e, sst, false⟩ m i h = .ok h2 →
      i + m = s.len → a1 < h.length → Agree n h h0 →
      h[b]? = some (.cell c1) →
      h[a1]? = some (.cell (.agg (ws ++ List.replicate (s.cap - i) e.zero))) →
      ws.length = i →
      (∀ k, k < i → ∃ u w, es[s.off + k]? = some u ∧ ws[k]? = some w ∧
        Image (a1 + 1) h.length h0 h e u w) →
      h.length ≤ h2.length ∧ (∀ a, a < h.length → a ≠ a1 → h2[a]? = h[a]?) ∧
      ∃ ws2, ws2.length = s.len ∧
        h2[a1]? = some (.cell (.agg (ws2 ++ List.replicate (s.cap - s.len) e.zero))) ∧
        (∀ k, k < s.len → ∃ u w, es[s.off + k]? = some u ∧ ws2[k]? = some w ∧
          Image (a1 + 1) h2.length h0 h2 e u w)
  | 0, i, h, h2, ws, hret, him, _, _, _, ha1, hws, hims => by
    rw [copyElems_zero] at hret
    cases hret
    have : i = s.len := by omega
    subst this
    exact ⟨Nat.le_refl _, fun _ _ _ => rfl, ws, hws, ha1, hims⟩
  | m + 1, i, h, h2, ws, hret, him, hal, hag, hb, ha1, hws, hims => by
    have hi : i < s.len := by omega
    obtain ⟨u, hu, hou⟩ := hel i hi
    rw [copyElems_succ,
      Index_of_load h nm e (.mem b p) false ⟨a1, 0, s.len, s.cap⟩ i hi
        (load_mem h _ b p false c1 _ hb hc1),
      Index_of_load h nm e sst false s i hi (load_src n h h0 _ sst false _ hsrc hag)] at hret
    simp only [ok_bind, Nat.zero_add] at hret
    obtain ⟨h1, hrc1, hret1⟩ := bind_eq_ok hret
    have hzi : (Val.agg (ws ++ List.replicate (s.cap - i) e.zero)).get [i] = some e.zero := by
      rw [Val.get_agg_one, ← hws]
      exact getElem?_append_replicate ws _ _ (by omega)
    obtain ⟨hlen1, hfr1, w, c2, hw, hc2, hiw⟩ :=
      hrc h0 n e h a1 [i] (.mem s.base [s.off + i]) false h1 u _ hrc1 he (by omega) hag
        ⟨hsb, .agg es, hes, by rw [Val.get_agg_one]; exact hu⟩ hou ha1 hzi
    rw [Val.put_agg_one _ i w (by simp; omega)] at hw
    cases hw
    have hset : (ws ++ List.replicate (s.cap - i) e.zero).set i w =
        (ws ++ [w]) ++ List.replicate (s.cap - (i + 1)) e.zero := by
      rw [← hws, set_append_replicate ws _ _ w (by omega)]
      congr 2
    rw [hset] at hc2
    have hims1 : ∀ k, k < i + 1 → ∃ u w2, es[s.off + k]? = some u ∧
        (ws ++ [w])[k]? = some w2 ∧ Image (a1 + 1) h1.length h0 h1 e u w2 := by
      intro k hk
      rcases Nat.lt_or_ge k i with hki | hki
      · obtain ⟨u2, w2, hu2, hw2, hi2⟩ := hims k hki
        refine ⟨u2, w2, hu2, ?_, ?_⟩
        · rw [List.getElem?_append_left (by omega)]; exact hw2
        · exact Image_weaken (Nat.le_refl _) hlen1
            (fun a ha ha2 => hfr1 a ha2 (by omega)) e u2 w2 hi2
      · have hke : k = i := by omega
        subst hke
        refine ⟨u, w, hu, ?_, ?_⟩
        · rw [← hws]; exact getElem?_append_length ws [] w
        · exact Image_weaken (by omega) (Nat.le_refl _) (fun _ _ _ => rfl) e u w hiw
    obtain ⟨hlen2, hfr2, ws2, hws2, ha2, hims2⟩ :=
      copyElems_spec rc hrc h0 n nm e b p sst s es a1 c1 he hnb hba hcap hsrc hsb hes hel hc1
        m (i + 1) h1 h2 (ws ++ [w]) hret1 (by omega) (by omega)
        (hag.frame a1 (by omega) (by omega) hfr1)
        (by rw [hfr1 b (lt_of_cell hb) (by omega)]; exact hb) hc2 (by simp [hws]) hims1
    refine ⟨by omega, ?_, ws2, hws2, ha2, hims2⟩
    intro a ha hne
    rw [hfr2 a (by omega) hne, hfr1 a ha hne]

theorem rcopy_slice_eq (fuel : Nat) (h : Heap) (nm : Option TName) (e : Ty) (b : Nat)
    (p : List Nat) (sst : Store) (root : Bool) :
    rcopy (fuel + 1) h (some ⟨.slice nm e, .mem b p, false⟩)
        (some ⟨.slice nm e, sst, false⟩) root =
      (do
        let n ← Value.Len h ⟨.slice nm e, sst, false⟩
        let c ← Value.Cap h ⟨.slice nm e, sst, false⟩
        let r ← MakeSlice h (.slice nm e) n c
        let h1 ← Value.Set r.2 (some ⟨.slice nm e, .mem b p, false⟩) (some r.1)
        let n2 ← Value.Len h1 ⟨.slice nm e, sst, false⟩
        copyElems (rcopy fuel) ⟨.slice nm e, .mem b p, false⟩ ⟨.slice nm e, sst, false⟩
          n2 0 h1) := by
  rw [rcopy]
  rfl

theorem slice_case (fuel : Nat) (hrc : CopySpec (rcopy fuel))
    (nm : Option TName) (e : Ty)
    (h0 : Heap) (n : Nat) (h : Heap) (b : Nat) (p : List Nat) (sst : Store)
    (root : Bool) (h2 : Heap) (vs c : Val)
    (hret : rcopy (fuel + 1) h (some ⟨.slice nm e, .mem b p, false⟩)
      (some ⟨.slice nm e, sst, false⟩) root = .ok h2)
    (hT : (Ty.slice nm e).namesOK = true) (hnb : n ≤ b)
    (hag : Agree n h h0) (hsrc : SrcAt n h0 sst vs)
    (hown : Owned 0 n h0 (.slice nm e) vs = true)
    (hb : h[b]? = some (.cell c)) (hz : c.get p = some (Ty.slice nm e).zero) :
    h.length ≤ h2.length ∧
    (∀ a, a < h.length → a ≠ b → h2[a]? = h[a]?) ∧
    ∃ w c2, c.put p w = some c2 ∧ h2[b]? = some (.cell c2) ∧
      Image h.length h2.length h0 h2 (.slice nm e) vs w := by
  have hbl : b < h.length := lt_of_cell hb
  have he : e.namesOK = true := by rw [Ty.namesOK] at hT; exact hT
  have hls : ∀ h3, Agree n h3 h0 → Value.load h3 ⟨.slice nm e, sst, false⟩ = .ok vs :=
    fun h3 ha => load_src n h3 h0 _ sst false vs hsrc ha
  rw [rcopy_slice_eq] at hret
  -- what the allocation and the store of the new header do, for a length and capacity
  have hstep : ∀ (len cap : Nat), len ≤ cap →
      ∃ c1, c.put p (.atom (.slice (some ⟨h.length, 0, len, cap⟩))) = some c1 ∧
        Value.Set (h ++ [Obj.cell (.agg (List.replicate cap e.zero))])
          (some ⟨.slice nm e, .mem b p, false⟩)
          (some ⟨.slice nm e, .imm (.atom (.slice (some ⟨h.length, 0, len, cap⟩))), false⟩) =
        .ok ((h ++ [Obj.cell (.agg (List.replicate cap e.zero))]).set b (.cell c1)) := by
    intro len cap _
    obtain ⟨c1, hc1⟩ := put_of_get p c _ (.atom (.slice (some ⟨h.length, 0, len, cap⟩))) hz
    exact ⟨c1, hc1, Set_ok _ _ _ b p _ c _ c1 (directlyAssignable_self _) (load_imm _ _ _ _)
      (by rw [getElem?_alloc_old h _ b hbl]; exact hb) hc1⟩
  rcases Owned_slice hown with hv | ⟨s, es, hv, _, hsb, hes, hel⟩
  · subst hv
    rw [Len_of_nil h _ (hls h hag), Cap_of_nil h _ (hls h hag)] at hret
    simp only [ok_bind] at hret
    rw [MakeSlice_ok h nm e 0 0 (Nat.le_refl _)] at hret
    simp only [ok_bind] at hret
    obtain ⟨c1, hc1, hset⟩ := hstep 0 0 (Nat.le_refl _)
    rw [hset] at hret
    simp only [ok_bind] at hret
    have hag1 : Agree n ((h ++ [Obj.cell (.agg (List.replicate 0 e.zero))]).set b (.cell c1))
        h0 := (hag.alloc _ (by omega)).set b _ hnb
    rw [Len_of_nil _ _ (hls _ hag1)] at hret
    simp only [ok_bind, copyElems_zero, Res.ok.injEq] at hret
    subst hret
    refine ⟨by simp, ?_, _, c1, hc1, getElem?_set_here _ b _ (by simp; omega), ?_⟩
    · intro a ha hne
      rw [getElem?_set_other _ b a _ hne, getElem?_alloc_old h _ a ha]
    · unfold Image
      refine ⟨h.length, [], Nat.le_refl _, by simp, ?_, rfl, rfl⟩
      rw [getElem?_set_other _ b _ _ (by omega)]
      exact getElem?_alloc_new h _
  · subst hv
    rw [Len_of_load h _ s (hls h hag), Cap_of_load h _ s (hls h hag)] at hret
    simp only [ok_bind] at hret
    rcases Nat.lt_or_ge s.cap s.len with hlt | hcap
    · rw [MakeSlice_panics h nm e _ _ hlt] at hret
      cases hret
    · rw [MakeSlice_ok h nm e _ _ hcap] at hret
      simp only [ok_bind] at hret
      obtain ⟨c1, hc1, hset⟩ := hstep s.len s.cap hcap
      rw [hset] at hret
      simp only [ok_bind] at hret
      have hag1 : Agree n
          ((h ++ [Obj.cell (.agg (List.replicate s.cap e.zero))]).set b (.cell c1)) h0 :=
        (hag.alloc _ (by omega)).set b _ hnb
      rw [Len_of_load _ _ s (hls _ hag1)] at hret
      simp only [ok_bind] at hret
      have hnew : ((h ++ [Obj.cell (.agg (List.replicate s.cap e.zero))]).set b
          (.cell c1))[h.length]? = some (.cell (.agg ([] ++ List.replicate (s.cap - 0) e.zero))) := by
        rw [getElem?_set_other _ b _ _ (by omega)]
        exact getElem?_alloc_new h _
      obtain ⟨hlen2, hfr2, ws2, hws2, ha2, hims2⟩ :=
        copyElems_spec (rcopy fuel) hrc h0 n nm e b p sst s es h.length c1 he hnb hbl hcap
          hsrc hsb hes hel (Val.get_put_same p c _ c1 hc1) s.len 0 _ h2 [] hret (by omega)
          (by simp) hag1 (getElem?_set_here _ b _ (by simp; omega)) hnew rfl
          (fun k hk => absurd hk (Nat.not_lt_zero k))
      simp only [List.length_set, List.length_append, List.length_singleton] at hlen2 hfr2 hims2
      refine ⟨by omega, ?_, _, c1, hc1, ?_, ?_⟩
      · intro a ha hne
        rw [hfr2 a (by omega) (by omega), getElem?_set_other _ b a _ hne,
          getElem?_alloc_old h _ a ha]
      · rw [hfr2 b (by omega) (by omega)]
        exact getElem?_set_here _ b _ (by simp; omega)
      · unfold Image
        refine ⟨h.length, ws2 ++ List.replicate (s.cap - s.len) e.zero, Nat.le_refl _,
          by omega, ha2, rfl, by simp [hws2]; omega, es, hes, ?_, ?_⟩
        · intro i hi
          obtain ⟨u, w, hu, hw, hiw⟩ := hims2 i hi
          refine ⟨u, w, hu, ?_, Image_weaken (by omega) (Nat.le_refl _) (fun _ _ _ => rfl)
            e u w hiw⟩
          rw [List.getElem?_append_left (by omega)]; exact hw
        · intro i hi1 hi2
          rw [List.getElem?_append_right (by omega), List.getElem?_replicate]
          simp; omega

theorem lookup_mem (k u : Val) : ∀ (kvs : List (Val × Val)),
    lookup k kvs = some u → (k, u) ∈ kvs
  | [], h => by simp [lookup] at h
  | e :: r, h => by
    rw [lookup] at h
    split at h
    · rename_i he
      cases h
      rw [← he]
      exact List.mem_cons_self _ _
    · exact List.mem_cons_of_mem _ (lookup_mem k u r h)

theorem Owned_map {lo hi : Nat} {h : Heap} {nm : Option TName} {kt vt : Ty} {v : Val}
    (ho : Owned lo hi h (.map nm kt vt) v = true) :
    v = .atom (.map none) ∨
      ∃ a kvs, v = .atom (.map (some a)) ∧ lo ≤ a ∧ a < hi ∧ h[a]? = some (.map kvs) ∧
        ∀ k u, lookup k kvs = some u → Owned lo hi h vt u = true := by
  cases v with
  | agg xs => simp [Owned] at ho
  | atom x =>
    cases x with
    | map ao =>
      cases ao with
      | none => exact Or.inl rfl
      | some a =>
        right
        rw [Owned] at ho
        simp only [Bool.and_eq_true, decide_eq_true_eq] at ho
        obtain ⟨⟨h1, h2⟩, h3⟩ := ho
        split at h3
        · rename_i kvs hk
          refine ⟨a, kvs, rfl, h1, h2, hk, ?_⟩
          intro k u hku
          have := (List.all_eq_true.mp h3) (k, u) (lookup_mem k u kvs hku)
          simp only [hku, Bool.and_eq_true] at this
          exact this.2
        · cases h3
    | _ => simp [Owned] at ho

/-- The keys of a well-formed map are `==` to themselves. -/
theorem Owned_map_keys {lo hi : Nat} {h : Heap} {nm : Option TName} {kt vt : Ty} {a : Nat}
    {kvs : List (Val × Val)}
    (ho : Owned lo hi h (.map nm kt vt) (.atom (.map (some a))) = true)
    (ha : h[a]? = some (.map kvs)) :
    ∀ k, k ∈ kvs.map Prod.fst → hasNaN kt k = false := by
  rw [Owned] at ho
  simp only [Bool.and_eq_true, decide_eq_true_eq, ha] at ho
  intro k hk
  obtain ⟨kv, hkv, hkk⟩ := List.mem_map.mp hk
  have := (List.all_eq_true.mp ho.2) kv hkv
  simp only [Bool.and_eq_true, Bool.not_eq_true'] at this
  rw [← hkk]
  exact this.1

theorem lookup_of_key (k : Val) : ∀ (kvs : List (Val × Val)),
    k ∈ kvs.map Prod.fst → ∃ u, lookup k kvs = some u
  | [], h => by simp at h
  | e :: r, h => by
    rw [lookup]
    by_cases he : e.1 = k
    · exact ⟨e.2, by simp [he]⟩
    · simp only [he, if_false]
      apply lookup_of_key k r
      simp only [List.map_cons, List.mem_cons] at h
      rcases h with h | h
      · exact absurd h.symm he
      · exact h

theorem key_of_lookup (k u : Val) (kvs : List (Val × Val)) (h : lookup k kvs = some u) :
    k ∈ kvs.map Prod.fst :=
  List.mem_map.mpr ⟨(k, u), lookup_mem k u kvs h, rfl⟩

theorem lookup_insert (k w k2 : Val) : ∀ (E : List (Val × Val)),
    lookup k2 (insert k w E) = if k = k2 then some w else lookup k2 E
  | [] => by simp [insert, lookup]
  | e :: r => by
    rw [insert]
    by_cases he : e.1 = k
    · simp only [he, if_true]
      by_cases hk : k = k2
      · simp [lookup, hk]
      · simp [lookup, hk, he]
    · simp only [he, if_false]
      rw [lookup, lookup_insert k w k2 r]
      by_cases hk : k = k2
      · subst hk; simp [he, lookup]
      · simp only [hk, if_false]
        rw [lookup]

theorem entries_of_load (h : Heap) (v : Value) (a : Nat) (kvs : List (Val × Val))
    (hl : v.load h = .ok (.atom (.map (some a)))) (ha : h[a]? = some (.map kvs)) :
    v.entries h = .ok kvs := by
  simp [Value.entries, hl, Heap.mapAt, ha]

theorem entries_of_nil (h : Heap) (v : Value)
    (hl : v.load h = .ok (.atom (.map none))) : v.entries h = .ok [] := by
  simp [Value.entries, hl]

theorem MapKeys_of (h : Heap) (nm : Option TName) (kt vt : Ty) (st : Store)
    (kvs : List (Val × Val))
    (he : Value.entries h ⟨.map nm kt vt, st, false⟩ = .ok kvs) :
    Value.MapKeys h ⟨.map nm kt vt, st, false⟩ =
      .ok ((kvs.map Prod.fst).map (fun k => ⟨kt, .imm k, false⟩)) := by
  simp [Value.MapKeys, he]

theorem MapIndex_of (h : Heap) (nm : Option TName) (kt vt : Ty) (st : Store)
    (kvs : List (Val × Val)) (k u : Val)
    (he : Value.entries h ⟨.map nm kt vt, st, false⟩ = .ok kvs)
    (hn : hasNaN kt k = false) (hk : lookup k kvs = some u) :
    Value.MapIndex h ⟨.map nm kt vt, st, false⟩ ⟨kt, .imm k, false⟩ =
      .ok (some ⟨vt, .imm u, false⟩) := by
  simp [Value.MapIndex, directlyAssignable_self, he, load_imm, hn, hk]

/-- A key that is not `==` to itself is not found. -/
theorem MapIndex_nan (h : Heap) (nm : Option TName) (kt vt : Ty) (st : Store)
    (kvs : List (Val × Val)) (k : Val)
    (he : Value.entries h ⟨.map nm kt vt, st, false⟩ = .ok kvs)
    (hn : hasNaN kt k = true) :
    Value.MapIndex h ⟨.map nm kt vt, st, false⟩ ⟨kt, .imm k, false⟩ = .ok none := by
  simp [Value.MapIndex, directlyAssignable_self, he, load_imm, hn]

theorem SetMapIndex_of (h : Heap) (nm : Option TName) (kt vt : Ty) (st xst : Store)
    (a1 : Nat) (E : List (Val × Val)) (k w : Val)
    (hl : Value.load h ⟨.map nm kt vt, st, false⟩ = .ok (.atom (.map (some a1))))
    (hx : Value.load h ⟨vt, xst, false⟩ = .ok w)
    (ha : h[a1]? = some (.map E)) (hn : hasNaN kt k = false) :
    Value.SetMapIndex h ⟨.map nm kt vt, st, false⟩ ⟨kt, .imm k, false⟩ ⟨vt, xst, false⟩ =
      .ok (h.set a1 (.map (insert k w E))) := by
  simp [Value.SetMapIndex, directlyAssignable_self, hl, hx, load_imm, Heap.mapAt, ha, hn]

/-- The keys after `insert`: the key is added at the end when it is new. -/
theorem keys_insert (k w : Val) : ∀ (E : List (Val × Val)),
    (insert k w E).map Prod.fst =
      if k ∈ E.map Prod.fst then E.map Prod.fst else E.map Prod.fst ++ [k]
  | [] => by simp [insert]
  | e :: r => by
    rw [insert]
    by_cases he : e.1 = k
    · simp [he]
    · have hne : ¬ k = e.1 := fun x => he x.symm
      simp only [he, if_false, List.map_cons, List.mem_cons, hne, false_or, keys_insert k w r]
      split <;> simp

/-- Inserting keeps the keys of a map distinct. -/
theorem nodup_insert (k w : Val) (E : List (Val × Val)) (hE : (E.map Prod.fst).Nodup) :
    ((insert k w E).map Prod.fst).Nodup := by
  rw [keys_insert]
  split
  · exact hE
  · rename_i hk
    exact List.Nodup.append hE (List.nodup_singleton k) (by simpa using hk)

theorem copyEntries_nil (rc : Heap → Option Value → Option Value → Bool → Res Heap)
    (d s : Value) (h : Heap) : copyEntries rc d s [] h = .ok h := rfl

theorem copyEntries_cons (rc : Heap → Option Value → Option Value → Bool → Res Heap)
    (d s : Value) (k : Value) (rest : List Value) (h : Heap) :
    copyEntries rc d s (k :: rest) h = (do
      let v ← s.MapIndex h k
      match v with
      | none => .panic .callOnZeroValue
      | some sv => do
        let h2 ← rc (h ++ [.cell sv.ty.zero]) (some ⟨sv.ty, .mem h.length [], false⟩)
          (some sv) false
        let h3 ← d.SetMapIndex h2 k ⟨sv.ty, .mem h.length [], false⟩
        copyEntries rc d s rest h3) := rfl

/-- The loop over the keys of a map; `P` holds the keys already copied. -/
theorem copyEntries_spec (rc : Heap → Option Value → Option Value → Bool → Res Heap)
    (hrc : CopySpec rc) (h0 : Heap) (n : Nat) (nm : Option TName) (kt vt : Ty)
    (b : Nat) (p : List Nat) (sst : Store) (a : Nat) (kvs : List (Val × Val)) (a1 : Nat)
    (c1 : Val) (hvt : vt.namesOK = true) (hnb : n ≤ b) (hba : b < a1)
    (hsrc : SrcAt n h0 sst (.atom (.map (some a))))
    (han : a < n) (hkvs : h0[a]? = some (.map kvs))
    (hel : ∀ k u, lookup k kvs = some u → Owned 0 n h0 vt u = true)
    (hkn : ∀ k, k ∈ kvs.map Prod.fst → hasNaN kt k = false)
    (hc1 : c1.get p = some (.atom (.map (some a1)))) :
    ∀ (ks P : List Val) (h h2 : Heap) (E : List (Val × Val)),
      copyEntries rc ⟨.map nm kt vt, .mem b p, false⟩ ⟨.map nm kt vt, sst, false⟩
        (ks.map (fun k => ⟨kt, .imm k, false⟩)) h = .ok h2 →
      (∀ k, k ∈ ks → k ∈ kvs.map Prod.fst) → a1 < h.length → Agree n h h0 →
      h[b]? = some (.cell c1) → h[a1]? = some (.map E) → (E.map Prod.fst).Nodup →
      (∀ k, (k ∈ P → ∃ u w, lookup k kvs = some u ∧ lookup k E = some w ∧
          Image (a1 + 1) h.length h0 h vt u w) ∧ (k ∉ P → lookup k E = none)) →
      h.length ≤ h2.length ∧ (∀ x, x < h.length → x ≠ a1 → h2[x]? = h[x]?) ∧
      ∃ E2, h2[a1]? = some (.map E2) ∧ (E2.map Prod.fst).Nodup ∧
        (∀ k, (k ∈ ks ∨ k ∈ P → ∃ u w, lookup k kvs = some u ∧ lookup k E2 = some w ∧
          Image (a1 + 1) h2.length h0 h2 vt u w) ∧
          (¬ (k ∈ ks ∨ k ∈ P) → lookup k E2 = none))
  | [], P, h, h2, E, hret, _, _, _, _, ha1, hnd, hinv => by
    rw [List.map_nil, copyEntries_nil] at hret
    cases hret
    refine ⟨Nat.le_refl _, fun _ _ _ => rfl, E, ha1, hnd, ?_⟩
    intro k
    refine ⟨fun hk => (hinv k).1 (by simpa using hk), fun hk => (hinv k).2 (by simpa using hk)⟩
  | k :: ks, P, h, h2, E, hret, hks, hal, hag, hb, ha1, hnd, hinv => by
    have hkk : hasNaN kt k = false := hkn k (hks k (List.mem_cons_self _ _))
    obtain ⟨u, hu⟩ := lookup_of_key k kvs (hks k (List.mem_cons_self _ _))
    have hsl : ∀ h3, Agree n h3 h0 →
        Value.load h3 ⟨.map nm kt vt, sst, false⟩ = .ok (.atom (.map (some a))) :=
      fun h3 hg => load_src n h3 h0 _ sst false _ hsrc hg
    have hse : ∀ h3, Agree n h3 h0 →
        Value.entries h3 ⟨.map nm kt vt, sst, false⟩ = .ok kvs :=
      fun h3 hg => entries_of_load h3 _ a kvs (hsl h3 hg) (by rw [hg a han]; exact hkvs)
    rw [List.map_cons, copyEntries_cons,
      MapIndex_of h nm kt vt sst kvs k u (hse h hag) hkk hu] at hret
    simp only [ok_bind] at hret
    obtain ⟨h1, hrc1, hret1⟩ := bind_eq_ok hret
    have hbl : b < h.length := lt_of_cell hb
    obtain ⟨hlen1, hfr1, w, c2, hw, hc2, hiw⟩ :=
      hrc h0 n vt (h ++ [Obj.cell vt.zero]) h.length [] (.imm u) false h1 u vt.zero hrc1 hvt
        (by omega) (hag.alloc _ (by omega)) rfl (hel k u hu)
        (getElem?_alloc_new h _) (Val.get_nil _)
    rw [Val.put_nil] at hw
    cases hw
    simp only [List.length_append, List.length_singleton] at hlen1 hfr1 hiw
    have hold : ∀ x, x < h.length → h1[x]? = h[x]? := by
      intro x hx
      rw [hfr1 x (by omega) (by omega), getElem?_alloc_old h _ x hx]
    have hag1 : Agree n h1 h0 := fun x hx => by rw [hold x (by omega)]; exact hag x hx
    obtain ⟨h3, hset, hret2⟩ := bind_eq_ok hret1
    rw [SetMapIndex_of h1 nm kt vt (.mem b p) (.mem h.length []) a1 E k w
      (load_mem h1 _ b p false c1 _ (by rw [hold b hbl]; exact hb) hc1)
      (load_mem h1 _ h.length [] false w w hc2 (Val.get_nil _))
      (by rw [hold a1 hal]; exact ha1) hkk] at hset
    cases hset
    have hinv1 : ∀ k2, (k2 ∈ k :: P → ∃ u2 w2, lookup k2 kvs = some u2 ∧
          lookup k2 (insert k w E) = some w2 ∧
          Image (a1 + 1) (h1.set a1 (Obj.map (insert k w E))).length h0
            (h1.set a1 (Obj.map (insert k w E))) vt u2 w2) ∧
        (k2 ∉ k :: P → lookup k2 (insert k w E) = none) := by
      intro k2
      rw [lookup_insert]
      constructor
      · intro hk2
        by_cases hkk : k = k2
        · subst hkk
          refine ⟨u, w, hu, by simp, ?_⟩
          refine Image_weaken (by omega) (by simp) ?_ vt u w hiw
          intro x hx1 _
          exact getElem?_set_other h1 a1 x _ (by omega)
        · have hk2P : k2 ∈ P := by
            rcases List.mem_cons.mp hk2 with h4 | h4
            · exact absurd h4.symm hkk
            · exact h4
          obtain ⟨u2, w2, hu2, hw2, hi2⟩ := (hinv k2).1 hk2P
          refine ⟨u2, w2, hu2, by simp [hkk, hw2], ?_⟩
          refine Image_weaken (Nat.le_refl _) (by simp; omega) ?_ vt u2 w2 hi2
          intro x hx1 hx2
          rw [getElem?_set_other h1 a1 x _ (by omega), hold x hx2]
      · intro hk2
        have hkk : k ≠ k2 := fun e => hk2 (by rw [e]; exact List.mem_cons_self _ _)
        simp only [hkk, if_false]
        exact (hinv k2).2 (fun e => hk2 (List.mem_cons_of_mem _ e))
    obtain ⟨hlen2, hfr2, E2, hE2, hnd2, hinv2⟩ :=
      copyEntries_spec rc hrc h0 n nm kt vt b p sst a kvs a1 c1 hvt hnb hba hsrc han hkvs hel
        hkn hc1 ks (k :: P) _ h2 (insert k w E) hret2
        (fun k2 hk2 => hks k2 (List.mem_cons_of_mem _ hk2)) (by simp; omega)
        (hag1.set a1 _ (by omega))
        (by rw [getElem?_set_other h1 a1 b _ (by omega), hold b hbl]; exact hb)
        (getElem?_set_here h1 a1 _ (by omega)) (nodup_insert k w E hnd) hinv1
    simp only [List.length_set] at hlen2 hfr2
    refine ⟨by omega, ?_, E2, hE2, hnd2, ?_⟩
    · intro x hx hne
      rw [hfr2 x (by omega) hne, getElem?_set_other h1 a1 x _ hne, hold x hx]
    · intro k2
      have hiff : (k2 ∈ ks ∨ k2 ∈ k :: P) ↔ (k2 ∈ k :: ks ∨ k2 ∈ P) := by
        simp only [List.mem_cons]
        tauto
      exact ⟨fun hk => (hinv2 k2).1 (hiff.mpr hk), fun hk => (hinv2 k2).2 (fun e => hk (hiff.mp e))⟩

theorem Set_ro (h : Heap) (T : Ty) (st : Store) (x : Option Value) :
    Value.Set h (some ⟨T, st, true⟩) x = .panic .setUnexported := by
  simp [Value.Set]

/-- Below the root, a read-only pair of one type makes `rcopy` panic. -/
theorem rcopy_ro (fuel : Nat) : RoSpec (rcopy fuel) := by
  intro T h dst sst h2 hret
  cases fuel with
  | zero => simp [rcopy] at hret
  | succ fuel =>
    cases T with
    | basic nm bk =>
      rw [rcopy_leaf fuel h ⟨.basic nm bk, dst, true⟩ ⟨.basic nm bk, sst, true⟩ false rfl rfl]
        at hret
      simp [ConvertibleTo_of_assignable, directlyAssignable_self, Set_ro] at hret
    | array nm k e =>
      rw [rcopy_leaf fuel h ⟨.array nm k e, dst, true⟩ ⟨.array nm k e, sst, true⟩ false rfl
        rfl] at hret
      simp [ConvertibleTo_of_assignable, directlyAssignable_self, Set_ro] at hret
    | ptr nm e =>
      rw [rcopy] at hret
      simp [Ty.Kind, Value.Interface] at hret
    | struct nm fs =>
      rw [rcopy] at hret
      simp [Ty.Kind, NewElem, Set_ro] at hret
    | slice nm e =>
      rw [rcopy] at hret
      simp only [Ty.Kind, ne_eq, not_true_eq_false, if_false] at hret
      obtain ⟨_, _, hret⟩ := bind_eq_ok hret
      obtain ⟨_, _, hret⟩ := bind_eq_ok hret
      obtain ⟨_, _, hret⟩ := bind_eq_ok hret
      simp [Set_ro] at hret
    | map nm kt vt =>
      rw [rcopy] at hret
      simp [Ty.Kind, MakeMap, Set_ro] at hret

theorem rcopy_map_eq (fuel : Nat) (h : Heap) (nm : Option TName) (kt vt : Ty) (b : Nat)
    (p : List Nat) (sst : Store) (root : Bool) :
    rcopy (fuel + 1) h (some ⟨.map nm kt vt, .mem b p, false⟩)
        (some ⟨.map nm kt vt, sst, false⟩) root =
      (do
        let h1 ← Value.Set (h ++ [.map []]) (some ⟨.map nm kt vt, .mem b p, false⟩)
          (some ⟨.map nm kt vt, .imm (.atom (.map (some h.length))), false⟩)
        let ks ← Value.MapKeys h1 ⟨.map nm kt vt, sst, false⟩
        copyEntries (rcopy fuel) ⟨.map nm kt vt, .mem b p, false⟩ ⟨.map nm kt vt, sst, false⟩
          ks h1) := by
  rw [rcopy]
  rfl

theorem map_case (fuel : Nat) (hrc : CopySpec (rcopy fuel))
    (nm : Option TName) (kt vt : Ty)
    (h0 : Heap) (n : Nat) (h : Heap) (b : Nat) (p : List Nat) (sst : Store)
    (root : Bool) (h2 : Heap) (vs c : Val)
    (hret : rcopy (fuel + 1) h (some ⟨.map nm kt vt, .mem b p, false⟩)
      (some ⟨.map nm kt vt, sst, false⟩) root = .ok h2)
    (hT : (Ty.map nm kt vt).namesOK = true) (hnb : n ≤ b)
    (hag : Agree n h h0) (hsrc : SrcAt n h0 sst vs)
    (hown : Owned 0 n h0 (.map nm kt vt) vs = true)
    (hb : h[b]? = some (.cell c)) (hz : c.get p = some (Ty.map nm kt vt).zero) :
    h.length ≤ h2.length ∧
    (∀ a, a < h.length → a ≠ b → h2[a]? = h[a]?) ∧
    ∃ w c2, c.put p w = some c2 ∧ h2[b]? = some (.cell c2) ∧
      Image h.length h2.length h0 h2 (.map nm kt vt) vs w := by
  have hbl : b < h.length := lt_of_cell hb
  have hvt : vt.namesOK = true := by rw [Ty.namesOK] at hT; exact hT
  have hls : ∀ h3, Agree n h3 h0 → Value.load h3 ⟨.map nm kt vt, sst, false⟩ = .ok vs :=
    fun h3 ha => load_src n h3 h0 _ sst false vs hsrc ha
  rw [rcopy_map_eq] at hret
  obtain ⟨c1, hc1⟩ := put_of_get p c _ (.atom (.map (some h.length))) hz
  rw [Set_ok (h ++ [Obj.map []]) _ _ b p _ c _ c1 (directlyAssignable_self _)
    (load_imm _ _ _ _) (by rw [getElem?_alloc_old h _ b hbl]; exact hb) hc1] at hret
  simp only [ok_bind] at hret
  have hag1 : Agree n ((h ++ [Obj.map []]).set b (.cell c1)) h0 :=
    (hag.alloc _ (by omega)).set b _ hnb
  have hb1 : ((h ++ [Obj.map []]).set b (.cell c1))[b]? = some (.cell c1) :=
    getElem?_set_here _ b _ (by simp; omega)
  have hnew : ((h ++ [Obj.map []]).set b (.cell c1))[h.length]? = some (.map []) := by
    rw [getElem?_set_other _ b _ _ (by omega)]
    exact getElem?_alloc_new h _
  have hfr0 : ∀ x, x < h.length → x ≠ b →
      ((h ++ [Obj.map []]).set b (.cell c1))[x]? = h[x]? := by
    intro x hx hne
    rw [getElem?_set_other _ b x _ hne, getElem?_alloc_old h _ x hx]
  rcases Owned_map hown with hv | ⟨a, kvs, hv, _, han, hkvs, hel⟩
  · subst hv
    rw [MapKeys_of _ nm kt vt sst [] (entries_of_nil _ _ (hls _ hag1))] at hret
    simp only [ok_bind, List.map_nil, copyEntries_nil, Res.ok.injEq] at hret
    subst hret
    refine ⟨by simp, hfr0, _, c1, hc1, hb1, ?_⟩
    unfold Image
    exact ⟨h.length, [], rfl, Nat.le_refl _, by simp, hnew, List.nodup_nil,
      fun k hk => absurd hk (List.not_mem_nil k), rfl⟩
  · subst hv
    have hkn := Owned_map_keys hown hkvs
    rw [MapKeys_of _ nm kt vt sst kvs (entries_of_load _ _ a kvs (hls _ hag1)
      (by rw [hag1 a han]; exact hkvs))] at hret
    simp only [ok_bind] at hret
    obtain ⟨hlen2, hfr2, E2, hE2, hnd2, hinv2⟩ :=
      copyEntries_spec (rcopy fuel) hrc h0 n nm kt vt b p sst a kvs h.length c1 hvt hnb hbl
        hsrc han hkvs hel hkn (Val.get_put_same p c _ c1 hc1) (kvs.map Prod.fst) [] _ h2 []
        hret (fun _ hk => hk) (by simp) hag1 hb1 hnew List.nodup_nil
        (fun k => ⟨fun hk => absurd hk (List.not_mem_nil k), fun _ => rfl⟩)
    simp only [List.length_set, List.length_append, List.length_singleton] at hlen2 hfr2 hinv2
    refine ⟨by omega, ?_, _, c1, hc1, ?_, ?_⟩
    · intro x hx hne
      rw [hfr2 x (by omega) (by omega), hfr0 x hx hne]
    · rw [hfr2 b (by omega) (by omega)]; exact hb1
    · unfold Image
      have hkeys : ∀ k, k ∈ E2.map Prod.fst → hasNaN kt k = false := by
        intro k hk
        apply hkn
        by_contra hno
        obtain ⟨w, hw⟩ := lookup_of_key k E2 hk
        rw [(hinv2 k).2 (fun e => e.elim hno (List.not_mem_nil k))] at hw
        cases hw
      refine ⟨h.length, E2, rfl, Nat.le_refl _, by omega, hE2, hnd2, hkeys, kvs, hkvs, ?_⟩
      intro k
      cases hk : lookup k kvs with
      | none =>
        simp only
        apply (hinv2 k).2
        intro hmem
        rcases hmem with hm | hm
        · obtain ⟨u, hu⟩ := lookup_of_key k kvs hm
          rw [hk] at hu; cases hu
        · exact absurd hm (List.not_mem_nil k)
      | some u =>
        simp only
        obtain ⟨u2, w, hu2, hw, hiw⟩ := (hinv2 k).1 (Or.inl (key_of_lookup k u kvs hk))
        rw [hk] at hu2
        cases hu2
        exact ⟨w, hw, Image_weaken (by omega) (Nat.le_refl _) (fun _ _ _ => rfl) vt u w hiw⟩

/-- The specification of `rcopy` on a destination that holds the zero value
of the source's type. -/
theorem rcopy_spec : ∀ (fuel : Nat), CopySpec (rcopy fuel)
  | 0 => by
    intro h0 n T h b p sst root h2 vs c hret
    simp [rcopy] at hret
  | fuel + 1 => by
    intro h0 n T h b p sst root h2 vs c hret hT hnb hag hsrc hown hb hz
    cases T with
    | basic nm bk =>
      exact leaf_case fuel (.basic nm bk) rfl h0 n h b p sst root h2 vs c hret hag hsrc hb hz
        (fun _ _ _ _ => by unfold Image; rfl)
    | array nm k e =>
      exact leaf_case fuel (.array nm k e) rfl h0 n h b p sst root h2 vs c hret hag hsrc hb hz
        (fun _ _ _ _ => by unfold Image; rfl)
    | ptr nm e =>
      exact ptr_case fuel (rcopy_spec fuel) nm e h0 n h b p sst root h2 vs c hret hT hnb hag
        hsrc hown hb hz
    | struct nm fs =>
      exact struct_case fuel (rcopy_spec fuel) (rcopy_ro fuel) nm fs h0 n h b p sst root h2
        vs c hret hT hnb hag hsrc hown hb hz
    | slice nm e =>
      exact slice_case fuel (rcopy_spec fuel) nm e h0 n h b p sst root h2 vs c hret hT hnb
        hag hsrc hown hb hz
    | map nm kt vt =>
      exact map_case fuel (rcopy_spec fuel) nm kt vt h0 n h b p sst root h2 vs c hret hT hnb
        hag hsrc hown hb hz

/-! ## `CopyOf` -/

theorem not_assignable_ptr_self (nm : Option TName) (T : Ty) :
    directlyAssignable T (.ptr nm T) = false := by
  have hne : T ≠ Ty.ptr nm T := Ty.ne_ptr_self nm T
  have hu : haveIdenticalUnderlyingType T (.ptr nm T) = false := by
    cases T with
    | ptr nm2 e =>
      simp only [haveIdenticalUnderlyingType, Ty.underlying, decide_eq_false_iff_not,
        Ty.ptr.injEq, true_and]
      exact Ty.ne_ptr_self nm2 e
    | _ => simp [haveIdenticalUnderlyingType, Ty.underlying]
  unfold directlyAssignable
  simp only [hne, if_false, hu]
  split <;> rfl

/-- `CopyOf` of a pointer that is an `io.Reader` does not return. -/
theorem CopyOf_reader (fuel : Nat) (h : Heap) (nm : Option TName) (T : Ty) (p : Nat)
    (hr : (Ty.ptr nm T).isReader = true) (r : (Ty × Val) × Heap) :
    CopyOf fuel h (some (.ptr nm T, .atom (.ptr (some p)))) ≠ .ok r := by
  intro hret
  cases fuel with
  | zero => simp [CopyOf, Ty.Elem, rcopy] at hret
  | succ fuel =>
    simp only [CopyOf, Ty.Elem, ValueOf, New, Heap.alloc] at hret
    rw [rcopy] at hret
    simp [Ty.Kind, Value.Interface, hr, Value.Elem, Value.load, CanSet, Value.addressable,
      Value.Set, not_assignable_ptr_self] at hret

/-- `CopyOf` of a non-nil pointer that is not an `io.Reader`: a zero variable
is allocated and the pointee is copied into it by `rcopy`. -/
theorem CopyOf_eq (fuel : Nat) (h : Heap) (nm : Option TName) (T : Ty) (p : Nat)
    (hr : (Ty.ptr nm T).isReader = false) :
    CopyOf (fuel + 1) h (some (.ptr nm T, .atom (.ptr (some p)))) =
      (rcopy fuel (h ++ [.cell T.zero]) (some ⟨T, .mem h.length [], false⟩)
        (some ⟨T, .mem p [], false⟩) true >>= fun h2 =>
        .ok ((.ptr none T, .atom (.ptr (some h.length))), h2)) := by
  simp only [CopyOf, Ty.Elem, ValueOf, New, Heap.alloc]
  rw [rcopy]
  simp [Ty.Kind, Value.Interface, hr, Value.Elem, Value.load, CanSet, Value.addressable,
    Value.IsNil, Ty.Elem]

/-- What `CopyOf` returns for a well-formed source: a pointer to a new
variable that holds a deep copy of the pointee; the old memory is as before. -/
theorem CopyOf_image (fuel : Nat) (h : Heap) (nm : Option TName) (T : Ty) (p : Nat)
    (res : Ty × Val) (h2 : Heap) (hT : T.namesOK = true)
    (hwf : Owned 0 h.length h (.ptr nm T) (.atom (.ptr (some p))) = true)
    (hret : CopyOf fuel h (some (.ptr nm T, .atom (.ptr (some p)))) = .ok (res, h2)) :
    res = (.ptr none T, .atom (.ptr (some h.length))) ∧ h.length < h2.length ∧
      (∀ a, a < h.length → h2[a]? = h[a]?) ∧
      ∃ vp w, h[p]? = some (.cell vp) ∧ h2[h.length]? = some (.cell w) ∧
        Image (h.length + 1) h2.length h h2 T vp w := by
  cases hr : (Ty.ptr nm T).isReader with
  | true => exact absurd hret (CopyOf_reader fuel h nm T p hr _)
  | false =>
    cases fuel with
    | zero => simp [CopyOf, Ty.Elem, rcopy] at hret
    | succ fuel =>
      rw [CopyOf_eq fuel h nm T p hr] at hret
      obtain ⟨h3, hrc, hres⟩ := bind_eq_ok hret
      cases hres
      rcases Owned_ptr hwf hr with hv | ⟨a, vp, hv, _, hpn, hp, hop⟩
      · cases hv
      · cases hv
        obtain ⟨hlen, hfr, w, c2, hw, hc2, him⟩ :=
          rcopy_spec fuel h h.length T (h ++ [Obj.cell T.zero]) h.length [] (.mem p []) true
            h2 vp T.zero hrc hT (Nat.le_refl _)
            (fun x hx => getElem?_alloc_old h _ x hx) ⟨hpn, vp, hp, Val.get_nil _⟩ hop
            (getElem?_alloc_new h _) (Val.get_nil _)
        rw [Val.put_nil] at hw
        cases hw
        simp only [List.length_append, List.length_singleton] at hlen hfr him
        refine ⟨rfl, by omega, ?_, vp, w, hp, hc2, him⟩
        intro x hx
        rw [hfr x (by omega) (by omega), getElem?_alloc_old h _ x hx]

/-! ## The traversal returns -/

theorem leaf_total (fuel : Nat) (T : Ty) (hl : T.isLeaf = true)
    (h0 : Heap) (n : Nat) (h : Heap) (b : Nat) (p : List Nat) (sst : Store)
    (root : Bool) (vs c : Val)
    (hag : Agree n h h0) (hsrc : SrcAt n h0 sst vs)
    (hb : h[b]? = some (.cell c)) (hz : c.get p = some T.zero) :
    ∃ h2, rcopy (fuel + 1) h (some ⟨T, .mem b p, false⟩) (some ⟨T, sst, false⟩) root =
      .ok h2 := by
  rw [rcopy_leaf_same fuel h T b p sst root hl, load_src n h h0 T sst false vs hsrc hag]
  obtain ⟨c2, hc2⟩ := put_of_get p c _ vs hz
  exact ⟨h.set b (.cell c2), by simp only [ok_bind, store_ok h b p c vs c2 hb hc2]⟩

theorem ptr_total (fuel : Nat) (htot : CopyTotal fuel (rcopy fuel)) (nm : Option TName)
    (e : Ty) (h0 : Heap) (n : Nat) (h : Heap) (b : Nat) (p : List Nat) (sst : Store)
    (root : Bool) (vs c : Val)
    (hd : (Ty.ptr nm e).depth < fuel + 1)
    (hT : (Ty.ptr nm e).namesOK = true) (hE : (Ty.ptr nm e).exportedOnly = true)
    (hnb : n ≤ b) (hag : Agree n h h0) (hsrc : SrcAt n h0 sst vs)
    (hown : Owned 0 n h0 (.ptr nm e) vs = true)
    (hb : h[b]? = some (.cell c)) (hz : c.get p = some (Ty.ptr nm e).zero) :
    ∃ h2, rcopy (fuel + 1) h (some ⟨.ptr nm e, .mem b p, false⟩)
      (some ⟨.ptr nm e, sst, false⟩) root = .ok h2 := by
  have hbl : b < h.length := lt_of_cell hb
  have hls : ∀ h3, Agree n h3 h0 → Value.load h3 ⟨.ptr nm e, sst, false⟩ = .ok vs :=
    fun h3 ha => load_src n h3 h0 _ sst false vs hsrc ha
  rw [rcopy_ptr_eq]
  cases hr : (Ty.ptr nm e).isReader with
  | true =>
    simp only [if_true]
    have hld : Value.load h ⟨.ptr nm e, .mem b p, false⟩ = .ok (.atom (.ptr none)) :=
      load_mem h _ b p false c _ hb hz
    obtain ⟨c2, hc2⟩ := put_of_get p c _ vs hz
    rw [Elem_nil h nm e _ false hld]
    simp only [ok_bind, CanSet, Bool.false_eq_true, if_false]
    exact ⟨_, Set_ok h _ _ b p sst c vs c2 (directlyAssignable_self _) (hls h hag) hb hc2⟩
  | false =>
    simp only [Bool.false_eq_true, if_false]
    rcases Owned_ptr hown hr with hv | ⟨a, u, hv, _, han, hau, hou⟩
    · subst hv
      rw [IsNil_ptr h _ sst false none (hls h hag)]
      simp only [Option.isNone_none, Bool.not_true, Bool.false_eq_true, if_false, ok_bind]
      rw [Elem_nil h nm e sst false (hls h hag)]
      exact ⟨h, rfl⟩
    · subst hv
      rw [IsNil_ptr h _ sst false (some a) (hls h hag)]
      simp only [Option.isNone_some, Bool.not_false, if_true, ok_bind]
      obtain ⟨c1, hc1⟩ := put_of_get p c _ (.atom (.ptr (some h.length))) hz
      have hb1 : (h ++ [Obj.cell e.zero])[b]? = some (.cell c) := by
        rw [getElem?_alloc_old h _ b hbl]; exact hb
      rw [Set_ok (h ++ [Obj.cell e.zero]) _ _ b p _ c _ c1 (directlyAssignable_ptr_none nm e)
        (load_imm _ _ _ _) hb1 hc1]
      simp only [ok_bind]
      have hag1 : Agree n ((h ++ [Obj.cell e.zero]).set b (.cell c1)) h0 :=
        (hag.alloc _ (by omega)).set b _ hnb
      rw [Elem_mem _ nm e sst false a (hls _ hag1)]
      simp only [ok_bind]
      have hb2 : ((h ++ [Obj.cell e.zero]).set b (.cell c1))[b]? = some (.cell c1) :=
        getElem?_set_here _ b _ (by simp; omega)
      rw [Elem_mem _ nm e (.mem b p) false h.length
        (load_mem _ _ b p false c1 _ hb2 (Val.get_put_same p c _ c1 hc1))]
      have hnew : ((h ++ [Obj.cell e.zero]).set b (.cell c1))[h.length]? =
          some (.cell e.zero) := by
        rw [getElem?_set_other _ b _ _ (by omega)]
        exact getElem?_alloc_new h _
      rw [Ty.depth] at hd
      rw [Ty.namesOK] at hT
      rw [Ty.exportedOnly] at hE
      exact htot h0 n e _ h.length [] (.mem a []) root u e.zero (by omega) hT hE (by omega) hag1
        ⟨han, u, hau, Val.get_nil u⟩ hou hnew (Val.get_nil _)

/-- The loop over the fields of a struct returns. -/
theorem copyFields_total (rc : Heap → Option Value → Option Value → Bool → Res Heap)
    (k : Nat) (hrc : CopySpec rc) (htot : CopyTotal k rc) (h0 : Heap) (n : Nat)
    (nm : Option TName) (fs : List (String × Ty)) (b : Nat) (p : List Nat) (sst : Store)
    (hnd : (fieldNames fs).Nodup) (hnb : n ≤ b) :
    ∀ (rest done : List (String × Ty)) (h : Heap) (c : Val) (xd xr ws : List Val),
      fs = done ++ rest → Ty.depthFields rest < k →
      Ty.fieldsOK rest = true → Ty.exportedFields rest = true → Agree n h h0 →
      SrcAt n h0 sst (.agg (xd ++ xr)) → OwnedFields 0 n h0 rest xr = true →
      h[b]? = some (.cell c) → c.get p = some (.agg (ws ++ Ty.zeroFields rest)) →
      xd.length = done.length → ws.length = done.length →
      ∃ h2, copyFields rc ⟨.struct nm fs, .mem b p, false⟩ ⟨.struct nm fs, sst, false⟩ rest
        h = .ok h2
  | [], done, h, c, xd, xr, ws, _, _, _, _, _, _, _, _, _, _, _ => ⟨h, rfl⟩
  | f :: rest, done, h, c, xd, xr, ws, hfs, hdep, hok, hex, hag, hsrc, hown, hb, hz, hlx,
      hlw => by
    obtain ⟨x, xr2, hxr, hox, hor⟩ := OwnedFields_cons hown
    subst hxr
    have hbl : b < h.length := lt_of_cell hb
    have hnot : f.1 ∉ fieldNames done := by
      rw [hfs] at hnd
      simp only [fieldNames, List.map_append, List.map_cons] at hnd
      have := (List.nodup_append.mp hnd).2.2
      intro hmem
      exact this hmem (List.mem_cons_self _ _)
    have hfind : findField f.1 fs = some (done.length, f.2) := by
      rw [hfs]; exact findField_append f.1 f.2 done rest hnot
    have hxj : (xd ++ x :: xr2)[done.length]? = some x := by
      rw [← hlx]; exact getElem?_append_length xd xr2 x
    obtain ⟨sst2, hfb, hsrc2⟩ :=
      FieldByName_src n h0 nm fs sst (xd ++ x :: xr2) f.1 done.length f.2 x hsrc hfind hxj
    rw [Ty.exportedFields] at hex
    simp only [Bool.and_eq_true] at hex
    rw [Ty.depthFields] at hdep
    simp only [Ty.fieldsOK, Bool.and_eq_true] at hok
    rw [copyFields_cons, hfb]
    simp only [ok_bind]
    rw [FieldByName_mem nm fs b p false f.1 done.length f.2 hfind]
    simp only [ok_bind, Bool.false_or, hex.1.1, Bool.not_true]
    have hzj : c.get (p ++ [done.length]) = some f.2.zero := by
      rw [Val.get_field p c _ done.length hz, zeroFields_cons, ← hlw]
      exact getElem?_append_length ws _ _
    obtain ⟨h1, hrc1⟩ := htot h0 n f.2 h b (p ++ [done.length]) sst2 false x c
      (by omega) hok.1 hex.1.2 hnb hag hsrc2 hox hb hzj
    rw [hrc1]
    simp only [ok_bind]
    obtain ⟨hlen1, hfr1, w, c1, hw, hc1, _⟩ :=
      hrc h0 n f.2 h b (p ++ [done.length]) sst2 false h1 x c hrc1 hok.1 hnb hag hsrc2
        hox hb hzj
    have hput : c.put p (.agg (ws ++ w :: Ty.zeroFields rest)) = some c1 := by
      rw [← hw, Val.put_field p c _ done.length w hz
        (by rw [zeroFields_cons]; simp; omega), zeroFields_cons, ← hlw,
        set_append_length]
    exact copyFields_total rc k hrc htot h0 n nm fs b p sst hnd hnb rest (done ++ [f]) h1
      c1 (xd ++ [x]) xr2 (ws ++ [w]) (by rw [hfs]; simp) (by omega) hok.2 hex.2
      (hag.frame b hnb (by omega) hfr1) (by simpa using hsrc) hor hc1
      (by rw [Val.get_put_same p c _ c1 hput]; simp) (by simp [hlx]) (by simp [hlw])

theorem struct_total (fuel : Nat) (hrc : CopySpec (rcopy fuel))
    (htot : CopyTotal fuel (rcopy fuel)) (nm : Option TName) (fs : List (String × Ty))
    (h0 : Heap) (n : Nat) (h : Heap) (b : Nat) (p : List Nat) (sst : Store)
    (root : Bool) (vs c : Val)
    (hd : (Ty.struct nm fs).depth < fuel + 1)
    (hT : (Ty.struct nm fs).namesOK = true) (hE : (Ty.struct nm fs).exportedOnly = true)
    (hnb : n ≤ b) (hag : Agree n h h0) (hsrc : SrcAt n h0 sst vs)
    (hown : Owned 0 n h0 (.struct nm fs) vs = true)
    (hb : h[b]? = some (.cell c)) (hz : c.get p = some (Ty.struct nm fs).zero) :
    ∃ h2, rcopy (fuel + 1) h (some ⟨.struct nm fs, .mem b p, false⟩)
      (some ⟨.struct nm fs, sst, false⟩) root = .ok h2 := by
  have hbl : b < h.length := lt_of_cell hb
  obtain ⟨xs, hvs, hof⟩ := Owned_struct hown
  subst hvs
  rw [Ty.namesOK] at hT
  simp only [Bool.and_eq_true, decide_eq_true_eq] at hT
  rw [Ty.exportedOnly] at hE
  rw [Ty.depth] at hd
  rw [rcopy_struct_eq]
  have hpre : ∃ h1, (if !root then
        Value.Set (h ++ [Obj.cell (Ty.struct nm fs).zero])
          (some ⟨.struct nm fs, .mem b p, false⟩)
          (some ⟨.struct nm fs, .mem h.length [], false⟩)
      else Res.ok h) = .ok h1 ∧ Agree n h1 h0 ∧ h1[b]? = some (.cell c) := by
    cases root with
    | true => exact ⟨h, rfl, hag, hb⟩
    | false =>
      have hb1 : (h ++ [Obj.cell (Ty.struct nm fs).zero])[b]? = some (.cell c) := by
        rw [getElem?_alloc_old h _ b hbl]; exact hb
      refine ⟨(h ++ [Obj.cell (Ty.struct nm fs).zero]).set b (.cell c), ?_,
        (hag.alloc _ (by omega)).set b _ hnb,
        getElem?_set_here _ b (.cell c) (by simp; omega)⟩
      simp only [Bool.not_false, if_true]
      exact Set_ok (h ++ [Obj.cell (Ty.struct nm fs).zero]) _ _ b p _ c _ c
        (directlyAssignable_self _)
        (load_mem _ _ h.length [] false _ _ (getElem?_alloc_new h _) (Val.get_nil _)) hb1
        (Val.put_get_same p c _ hz)
  obtain ⟨h1, hh1, hag1, hb1⟩ := hpre
  rw [hh1]
  simp only [ok_bind]
  rw [zero_struct] at hz
  exact copyFields_total (rcopy fuel) fuel hrc htot h0 n nm fs b p sst hT.1 hnb fs [] h1 c []
    xs [] rfl (by omega) hT.2 hE hag1 hsrc hof hb1 hz rfl rfl

/-- The loop over the elements of a slice returns. -/
theorem copyElems_total (rc : Heap → Option Value → Option Value → Bool → Res Heap)
    (k : Nat) (hrc : CopySpec rc) (htot : CopyTotal k rc) (h0 : Heap) (n : Nat)
    (nm : Option TName) (e : Ty)
    (b : Nat) (p : List Nat) (sst : Store) (s : SliceHdr) (es : List Val) (a1 : Nat)
    (c1 : Val) (hdep : e.depth < k) (he : e.namesOK = true) (hex : e.exportedOnly = true)
    (hnb : n ≤ b) (hba : b < a1) (hcap : s.len ≤ s.cap)
    (hsrc : SrcAt n h0 sst (.atom (.slice (some s))))
    (hsb : s.base < n) (hes : h0[s.base]? = some (.cell (.agg es)))
    (hel : ∀ i, i < s.len → ∃ u, es[s.off + i]? = some u ∧ Owned 0 n h0 e u = true)
    (hc1 : c1.get p = some (.atom (.slice (some ⟨a1, 0, s.len, s.cap⟩)))) :
    ∀ (m i : Nat) (h : Heap) (ws : List Val),
      i + m = s.len → a1 < h.length → Agree n h h0 →
      h[b]? = some (.cell c1) →
      h[a1]? = some (.cell (.agg (ws ++ List.replicate (s.cap - i) e.zero))) →
      ws.length = i →
      ∃ h2, copyElems rc ⟨.slice nm e, .mem b p, false⟩ ⟨.slice nm e, sst, false⟩ m i h =
        .ok h2
  | 0, i, h, ws, _, _, _, _, _, _ => ⟨h, rfl⟩
  | m + 1, i, h, ws, him, hal, hag, hb, ha1, hws => by
    have hi : i < s.len := by omega
    obtain ⟨u, hu, hou⟩ := hel i hi
    rw [copyElems_succ,
      Index_of_load h nm e (.mem b p) false ⟨a1, 0, s.len, s.cap⟩ i hi
        (load_mem h _ b p false c1 _ hb hc1),
      Index_of_load h nm e sst false s i hi (load_src n h h0 _ sst false _ hsrc hag)]
    simp only [ok_bind, Nat.zero_add]
    have hzi : (Val.agg (ws ++ List.replicate (s.cap - i) e.zero)).get [i] = some e.zero := by
      rw [Val.get_agg_one, ← hws]
      exact getElem?_append_replicate ws _ _ (by omega)
    have hsrc2 : SrcAt n h0 (.mem s.base [s.off + i]) u :=
      ⟨hsb, .agg es, hes, by rw [Val.get_agg_one]; exact hu⟩
    obtain ⟨h1, hrc1⟩ := htot h0 n e h a1 [i] (.mem s.base [s.off + i]) false u _ hdep he hex
      (by omega) hag hsrc2 hou ha1 hzi
    rw [hrc1]
    simp only [ok_bind]
    obtain ⟨hlen1, hfr1, w, c2, hw, hc2, _⟩ :=
      hrc h0 n e h a1 [i] (.mem s.base [s.off + i]) false h1 u _ hrc1 he (by omega) hag
        hsrc2 hou ha1 hzi
    rw [Val.put_agg_one _ i w (by simp; omega)] at hw
    cases hw
    have hset : (ws ++ List.replicate (s.cap - i) e.zero).set i w =
        (ws ++ [w]) ++ List.replicate (s.cap - (i + 1)) e.zero := by
      rw [← hws, set_append_replicate ws _ _ w (by omega)]
      congr 2
    rw [hset] at hc2
    exact copyElems_total rc k hrc htot h0 n nm e b p sst s es a1 c1 hdep he hex hnb hba hcap
      hsrc hsb hes hel hc1 m (i + 1) h1 (ws ++ [w]) (by omega) (by omega)
      (hag.frame a1 (by omega) (by omega) hfr1)
      (by rw [hfr1 b (lt_of_cell hb) (by omega)]; exact hb) hc2 (by simp [hws])

theorem slice_total (fuel : Nat) (hrc : CopySpec (rcopy fuel))
    (htot : CopyTotal fuel (rcopy fuel)) (nm : Option TName) (e : Ty)
    (h0 : Heap) (n : Nat) (h : Heap) (b : Nat) (p : List Nat) (sst : Store)
    (root : Bool) (vs c : Val)
    (hd : (Ty.slice nm e).depth < fuel + 1)
    (hT : (Ty.slice nm e).namesOK = true) (hE : (Ty.slice nm e).exportedOnly = true)
    (hnb : n ≤ b) (hag : Agree n h h0) (hsrc : SrcAt n h0 sst vs)
    (hown : Owned 0 n h0 (.slice nm e) vs = true)
    (hb : h[b]? = some (.cell c)) (hz : c.get p = some (Ty.slice nm e).zero) :
    ∃ h2, rcopy (fuel + 1) h (some ⟨.slice nm e, .mem b p, false⟩)
      (some ⟨.slice nm e, sst, false⟩) root = .ok h2 := by
  have hbl : b < h.length := lt_of_cell hb
  have he : e.namesOK = true := by rw [Ty.namesOK] at hT; exact hT
  have hex : e.exportedOnly = true := by rw [Ty.exportedOnly] at hE; exact hE
  have hdep : e.depth < fuel := by rw [Ty.depth] at hd; omega
  have hls : ∀ h3, Agree n h3 h0 → Value.load h3 ⟨.slice nm e, sst, false⟩ = .ok vs :=
    fun h3 ha => load_src n h3 h0 _ sst false vs hsrc ha
  rw [rcopy_slice_eq]
  have hstep : ∀ (len cap : Nat),
      ∃ c1, c.put p (.atom (.slice (some ⟨h.length, 0, len, cap⟩))) = some c1 ∧
        Value.Set (h ++ [Obj.cell (.agg (List.replicate cap e.zero))])
          (some ⟨.slice nm e, .mem b p, false⟩)
          (some ⟨.slice nm e, .imm (.atom (.slice (some ⟨h.length, 0, len, cap⟩))), false⟩) =
        .ok ((h ++ [Obj.cell (.agg (List.replicate cap e.zero))]).set b (.cell c1)) := by
    intro len cap
    obtain ⟨c1, hc1⟩ := put_of_get p c _ (.atom (.slice (some ⟨h.length, 0, len, cap⟩))) hz
    exact ⟨c1, hc1, Set_ok _ _ _ b p _ c _ c1 (directlyAssignable_self _) (load_imm _ _ _ _)
      (by rw [getElem?_alloc_old h _ b hbl]; exact hb) hc1⟩
  rcases Owned_slice hown with hv | ⟨s, es, hv, _, hsb, hes, hel⟩
  · subst hv
    rw [Len_of_nil h _ (hls h hag), Cap_of_nil h _ (hls h hag)]
    simp only [ok_bind]
    rw [MakeSlice_ok h nm e 0 0 (Nat.le_refl _)]
    simp only [ok_bind]
    obtain ⟨c1, hc1, hset⟩ := hstep 0 0
    rw [hset]
    simp only [ok_bind]
    have hag1 : Agree n ((h ++ [Obj.cell (.agg (List.replicate 0 e.zero))]).set b (.cell c1))
        h0 := (hag.alloc _ (by omega)).set b _ hnb
    rw [Len_of_nil _ _ (hls _ hag1)]
    exact ⟨_, rfl⟩
  · subst hv
    have hcap : s.len ≤ s.cap := Owned_slice_cap hown
    rw [Len_of_load h _ s (hls h hag), Cap_of_load h _ s (hls h hag)]
    simp only [ok_bind]
    rw [MakeSlice_ok h nm e _ _ hcap]
    simp only [ok_bind]
    obtain ⟨c1, hc1, hset⟩ := hstep s.len s.cap
    rw [hset]
    simp only [ok_bind]
    have hag1 : Agree n
        ((h ++ [Obj.cell (.agg (List.replicate s.cap e.zero))]).set b (.cell c1)) h0 :=
      (hag.alloc _ (by omega)).set b _ hnb
    rw [Len_of_load _ _ s (hls _ hag1)]
    simp only [ok_bind]
    have hnew : ((h ++ [Obj.cell (.agg (List.replicate s.cap e.zero))]).set b
        (.cell c1))[h.length]? = some (.cell (.agg ([] ++ List.replicate (s.cap - 0) e.zero))) := by
      rw [getElem?_set_other _ b _ _ (by omega)]
      exact getElem?_alloc_new h _
    exact copyElems_total (rcopy fuel) fuel hrc htot h0 n nm e b p sst s es h.length c1 hdep he
      hex hnb hbl hcap hsrc hsb hes hel (Val.get_put_same p c _ c1 hc1) s.len 0 _ []
      (by omega) (by simp) hag1 (getElem?_set_here _ b _ (by simp; omega)) hnew rfl

/-- The loop over the keys of a map returns. -/
theorem copyEntries_total (rc : Heap → Option Value → Option Value → Bool → Res Heap)
    (k0 : Nat) (hrc : CopySpec rc) (htot : CopyTotal k0 rc) (h0 : Heap) (n : Nat)
    (nm : Option TName) (kt vt : Ty)
    (b : Nat) (p : List Nat) (sst : Store) (a : Nat) (kvs : List (Val × Val)) (a1 : Nat)
    (c1 : Val) (hdep : vt.depth < k0) (hvt : vt.namesOK = true)
    (hex : vt.exportedOnly = true) (hnb : n ≤ b) (hba : b < a1)
    (hsrc : SrcAt n h0 sst (.atom (.map (some a))))
    (han : a < n) (hkvs : h0[a]? = some (.map kvs))
    (hel : ∀ k u, lookup k kvs = some u → Owned 0 n h0 vt u = true)
    (hkn : ∀ k, k ∈ kvs.map Prod.fst → hasNaN kt k = false)
    (hc1 : c1.get p = some (.atom (.map (some a1)))) :
    ∀ (ks : List Val) (h : Heap) (E : List (Val × Val)),
      (∀ k, k ∈ ks → k ∈ kvs.map Prod.fst) → a1 < h.length → Agree n h h0 →
      h[b]? = some (.cell c1) → h[a1]? = some (.map E) →
      ∃ h2, copyEntries rc ⟨.map nm kt vt, .mem b p, false⟩ ⟨.map nm kt vt, sst, false⟩
        (ks.map (fun k => ⟨kt, .imm k, false⟩)) h = .ok h2
  | [], h, E, _, _, _, _, _ => ⟨h, rfl⟩
  | k :: ks, h, E, hks, hal, hag, hb, ha1 => by
    have hkk : hasNaN kt k = false := hkn k (hks k (List.mem_cons_self _ _))
    obtain ⟨u, hu⟩ := lookup_of_key k kvs (hks k (List.mem_cons_self _ _))
    have hsl : ∀ h3, Agree n h3 h0 →
        Value.load h3 ⟨.map nm kt vt, sst, false⟩ = .ok (.atom (.map (some a))) :=
      fun h3 hg => load_src n h3 h0 _ sst false _ hsrc hg
    have hse : ∀ h3, Agree n h3 h0 →
        Value.entries h3 ⟨.map nm kt vt, sst, false⟩ = .ok kvs :=
      fun h3 hg => entries_of_load h3 _ a kvs (hsl h3 hg) (by rw [hg a han]; exact hkvs)
    rw [List.map_cons, copyEntries_cons,
      MapIndex_of h nm kt vt sst kvs k u (hse h hag) hkk hu]
    simp only [ok_bind]
    have hbl : b < h.length := lt_of_cell hb
    obtain ⟨h1, hrc1⟩ :=
      htot h0 n vt (h ++ [Obj.cell vt.zero]) h.length [] (.imm u) false u vt.zero hdep hvt hex
        (by omega) (hag.alloc _ (by omega)) rfl (hel k u hu)
        (getElem?_alloc_new h _) (Val.get_nil _)
    rw [hrc1]
    simp only [ok_bind]
    obtain ⟨hlen1, hfr1, w, c2, hw, hc2, _⟩ :=
      hrc h0 n vt (h ++ [Obj.cell vt.zero]) h.length [] (.imm u) false h1 u vt.zero hrc1 hvt
        (by omega) (hag.alloc _ (by omega)) rfl (hel k u hu)
        (getElem?_alloc_new h _) (Val.get_nil _)
    rw [Val.put_nil] at hw
    cases hw
    simp only [List.length_append, List.length_singleton] at hlen1 hfr1
    have hold : ∀ x, x < h.length → h1[x]? = h[x]? := by
      intro x hx
      rw [hfr1 x (by omega) (by omega), getElem?_alloc_old h _ x hx]
    have hag1 : Agree n h1 h0 := fun x hx => by rw [hold x (by omega)]; exact hag x hx
    rw [SetMapIndex_of h1 nm kt vt (.mem b p) (.mem h.length []) a1 E k w
      (load_mem h1 _ b p false c1 _ (by rw [hold b hbl]; exact hb) hc1)
      (load_mem h1 _ h.length [] false w w hc2 (Val.get_nil _))
      (by rw [hold a1 hal]; exact ha1) hkk]
    simp only [ok_bind]
    exact copyEntries_total rc k0 hrc htot h0 n nm kt vt b p sst a kvs a1 c1 hdep hvt hex hnb
      hba hsrc han hkvs hel hkn hc1 ks _ (insert k w E)
      (fun k2 hk2 => hks k2 (List.mem_cons_of_mem _ hk2)) (by simp; omega)
      (hag1.set a1 _ (by omega))
      (by rw [getElem?_set_other h1 a1 b _ (by omega), hold b hbl]; exact hb)
      (getElem?_set_here h1 a1 _ (by omega))

theorem map_total (fuel : Nat) (hrc : CopySpec (rcopy fuel))
    (htot : CopyTotal fuel (rcopy fuel)) (nm : Option TName) (kt vt : Ty)
    (h0 : Heap) (n : Nat) (h : Heap) (b : Nat) (p : List Nat) (sst : Store)
    (root : Bool) (vs c : Val)
    (hd : (Ty.map nm kt vt).depth < fuel + 1)
    (hT : (Ty.map nm kt vt).namesOK = true) (hE : (Ty.map nm kt vt).exportedOnly = true)
    (hnb : n ≤ b) (hag : Agree n h h0) (hsrc : SrcAt n h0 sst vs)
    (hown : Owned 0 n h0 (.map nm kt vt) vs = true)
    (hb : h[b]? = some (.cell c)) (hz : c.get p = some (Ty.map nm kt vt).zero) :
    ∃ h2, rcopy (fuel + 1) h (some ⟨.map nm kt vt, .mem b p, false⟩)
      (some ⟨.map nm kt vt, sst, false⟩) root = .ok h2 := by
  have hbl : b < h.length := lt_of_cell hb
  have hvt : vt.namesOK = true := by rw [Ty.namesOK] at hT; exact hT
  have hex : vt.exportedOnly = true := by rw [Ty.exportedOnly] at hE; exact hE
  have hdep : vt.depth < fuel := by rw [Ty.depth] at hd; omega
  have hls : ∀ h3, Agree n h3 h0 → Value.load h3 ⟨.map nm kt vt, sst, false⟩ = .ok vs :=
    fun h3 ha => load_src n h3 h0 _ sst false vs hsrc ha
  rw [rcopy_map_eq]
  obtain ⟨c1, hc1⟩ := put_of_get p c _ (.atom (.map (some h.length))) hz
  rw [Set_ok (h ++ [Obj.map []]) _ _ b p _ c _ c1 (directlyAssignable_self _)
    (load_imm _ _ _ _) (by rw [getElem?_alloc_old h _ b hbl]; exact hb) hc1]
  simp only [ok_bind]
  have hag1 : Agree n ((h ++ [Obj.map []]).set b (.cell c1)) h0 :=
    (hag.alloc _ (by omega)).set b _ hnb
  have hb1 : ((h ++ [Obj.map []]).set b (.cell c1))[b]? = some (.cell c1) :=
    getElem?_set_here _ b _ (by simp; omega)
  have hnew : ((h ++ [Obj.map []]).set b (.cell c1))[h.length]? = some (.map []) := by
    rw [getElem?_set_other _ b _ _ (by omega)]
    exact getElem?_alloc_new h _
  rcases Owned_map hown with hv | ⟨a, kvs, hv, _, han, hkvs, hel⟩
  · subst hv
    rw [MapKeys_of _ nm kt vt sst [] (entries_of_nil _ _ (hls _ hag1))]
    exact ⟨_, rfl⟩
  · subst hv
    rw [MapKeys_of _ nm kt vt sst kvs (entries_of_load _ _ a kvs (hls _ hag1)
      (by rw [hag1 a han]; exact hkvs))]
    simp only [ok_bind]
    exact copyEntries_total (rcopy fuel) fuel hrc htot h0 n nm kt vt b p sst a kvs h.length c1
      hdep hvt hex hnb hbl hsrc han hkvs hel (Owned_map_keys hown hkvs)
      (Val.get_put_same p c _ c1 hc1)
      (kvs.map Prod.fst) _ [] (fun _ hk => hk) (by simp) hag1 hb1 hnew

/-- With fuel above the depth of the type, `rcopy` returns on a well-formed
source and a zero destination of the same type with exported fields only. -/
theorem rcopy_total : ∀ (fuel : Nat), CopyTotal fuel (rcopy fuel)
  | 0 => by
    intro h0 n T h b p sst root vs c hd
    exact absurd hd (Nat.not_lt_zero _)
  | fuel + 1 => by
    intro h0 n T h b p sst root vs c hd hT hE hnb hag hsrc hown hb hz
    cases T with
    | basic nm bk => exact leaf_total fuel (.basic nm bk) rfl h0 n h b p sst root vs c hag hsrc hb hz
    | array nm k e =>
      exact leaf_total fuel (.array nm k e) rfl h0 n h b p sst root vs c hag hsrc hb hz
    | ptr nm e =>
      exact ptr_total fuel (rcopy_total fuel) nm e h0 n h b p sst root vs c hd hT hE hnb hag
        hsrc hown hb hz
    | struct nm fs =>
      exact struct_total fuel (rcopy_spec fuel) (rcopy_total fuel) nm fs h0 n h b p sst root
        vs c hd hT hE hnb hag hsrc hown hb hz
    | slice nm e =>
      exact slice_total fuel (rcopy_spec fuel) (rcopy_total fuel) nm e h0 n h b p sst root vs
        c hd hT hE hnb hag hsrc hown hb hz
    | map nm kt vt =>
      exact map_total fuel (rcopy_spec fuel) (rcopy_total fuel) nm kt vt h0 n h b p sst root
        vs c hd hT hE hnb hag hsrc hown hb hz

/-- `CopyOf` returns for a well-formed source whose pointer type is not an
`io.Reader` and whose pointee type has exported fields only, with fuel above
the depth of the type. -/
theorem CopyOf_total (fuel : Nat) (h : Heap) (nm : Option TName) (T : Ty) (p : Nat)
    (hr : (Ty.ptr nm T).isReader = false) (hd : T.depth + 1 < fuel)
    (hT : T.namesOK = true) (hE : T.exportedOnly = true)
    (hwf : Owned 0 h.length h (.ptr nm T) (.atom (.ptr (some p))) = true) :
    ∃ res h2, CopyOf fuel h (some (.ptr nm T, .atom (.ptr (some p)))) = .ok (res, h2) := by
  obtain ⟨f, rfl⟩ : ∃ f, fuel = f + 1 := ⟨fuel - 1, by omega⟩
  rcases Owned_ptr hwf hr with hv | ⟨a, vp, hv, _, hpn, hp, hop⟩
  · cases hv
  · cases hv
    obtain ⟨h2, hrc⟩ := rcopy_total f h h.length T (h ++ [Obj.cell T.zero]) h.length []
      (.mem p []) true vp T.zero (by omega) hT hE (Nat.le_refl _)
      (fun x hx => getElem?_alloc_old h _ x hx) ⟨hpn, vp, hp, Val.get_nil _⟩ hop
      (getElem?_alloc_new h _) (Val.get_nil _)
    exact ⟨_, h2, by rw [CopyOf_eq f h nm T p hr, hrc]; rfl⟩

/-! ## Consequences of being a deep copy -/

theorem ImageFields_find {lo hi : Nat} {h0 h : Heap} (name : String) :
    ∀ (fs : List (String × Ty)) (xs ys : List Val) (i : Nat) (t : Ty) (u : Val),
      ImageFields lo hi h0 h fs xs ys → findField name fs = some (i, t) → xs[i]? = some u →
      ∃ w, ys[i]? = some w ∧ Image lo hi h0 h t u w
  | [], _, _, _, _, _, _, hf, _ => by simp [findField] at hf
  | f :: r, [], _, _, _, _, him, _, _ => by simp [ImageFields] at him
  | f :: r, _ :: _, [], _, _, _, him, _, _ => by simp [ImageFields] at him
  | f :: r, x :: xs, y :: ys, i, t, u, him, hf, hx => by
    unfold ImageFields at him
    rw [findField] at hf
    by_cases hn : f.1 = name
    · simp only [hn, if_true, Option.some.injEq, Prod.mk.injEq] at hf
      obtain ⟨hi0, ht⟩ := hf
      subst hi0; subst ht
      simp only [List.getElem?_cons_zero, Option.some.injEq] at hx
      subst hx
      exact ⟨y, by simp, him.1⟩
    · simp only [hn, if_false] at hf
      cases hr : findField name r with
      | none => simp [hr] at hf
      | some jt =>
        obtain ⟨j, t2⟩ := jt
        simp only [hr, Option.some.injEq, Prod.mk.injEq] at hf
        obtain ⟨hi1, ht⟩ := hf
        subst hi1; subst ht
        simp only [List.getElem?_cons_succ] at hx ⊢
        exact ImageFields_find name r xs ys j t2 u him.2 hr hx

/-- A nil pointer that is not an `io.Reader`, at any path in the source, is
nil at the same path in a deep copy. -/
theorem resolve_image {lo hi : Nat} {h0 h : Heap} (nm2 : Option TName) (e2 : Ty)
    (hnr : (Ty.ptr nm2 e2).isReader = false) :
    ∀ (π : List Sel) (T : Ty) (x y : Val), Image lo hi h0 h T x y →
      resolve h0 T x π = some (.ptr nm2 e2, .atom (.ptr none)) →
      resolve h T y π = some (.ptr nm2 e2, .atom (.ptr none))
  | [], T, x, y, him, hres => by
    simp only [resolve, Option.some.injEq, Prod.mk.injEq] at hres
    obtain ⟨hT, hx⟩ := hres
    subst hT; subst hx
    unfold Image at him
    simp only [hnr, Bool.false_eq_true, if_false] at him
    subst him
    simp [resolve]
  | .field name :: π, T, x, y, him, hres => by
    cases T with
    | struct nm fs =>
      unfold Image at him
      obtain ⟨xs, ys, hx, hy, hf⟩ := him
      subst hx; subst hy
      rw [resolve] at hres ⊢
      cases hfind : findField name fs with
      | none => simp [hfind] at hres
      | some jt =>
        obtain ⟨j, t⟩ := jt
        simp only [hfind] at hres ⊢
        cases hxj : xs[j]? with
        | none => simp [hxj] at hres
        | some u =>
          simp only [hxj] at hres
          obtain ⟨w, hw, hiw⟩ := ImageFields_find name fs xs ys j t u hf hfind hxj
          simp only [hw]
          exact resolve_image nm2 e2 hnr π t u w hiw hres
    | _ => cases x <;> simp [resolve] at hres
  | .deref :: π, T, x, y, him, hres => by
    cases T with
    | ptr nm e =>
      cases x with
      | agg xs => simp [resolve] at hres
      | atom ax =>
        cases ax with
        | ptr ao =>
          cases ao with
          | none => simp [resolve] at hres
          | some a =>
            rw [resolve] at hres
            cases hr : (Ty.ptr nm e).isReader with
            | true => simp [hr] at hres
            | false =>
              simp only [hr, Bool.false_eq_true, if_false] at hres
              unfold Image at him
              simp only [hr, Bool.false_eq_true, if_false] at him
              obtain ⟨a2, u, w, hy, _, _, hu, hw, hiw⟩ := him
              subst hy
              rw [resolve]
              simp only [hr, Bool.false_eq_true, if_false, hw]
              simp only [hu] at hres
              exact resolve_image nm2 e2 hnr π e u w hiw hres
        | _ => simp [resolve] at hres
    | _ => cases x <;> simp [resolve] at hres
  | .index i :: π, T, x, y, him, hres => by
    cases T with
    | slice nm e =>
      cases x with
      | agg xs => simp [resolve] at hres
      | atom ax =>
        cases ax with
        | slice so =>
          cases so with
          | none => simp [resolve] at hres
          | some s =>
            rw [resolve] at hres
            by_cases hi : i < s.len
            · simp only [hi, if_true] at hres
              unfold Image at him
              obtain ⟨a2, es2, _, _, ha2, hy, _, es, hes, hel, _⟩ := him
              subst hy
              obtain ⟨u, w, hu, hw, hiw⟩ := hel i hi
              simp only [hes, hu] at hres
              rw [resolve]
              simp only [hi, if_true, ha2, Nat.zero_add, hw]
              exact resolve_image nm2 e2 hnr π e u w hiw hres
            · simp [hi] at hres
        | _ => simp [resolve] at hres
    | _ => cases x <;> simp [resolve] at hres
  | .key k :: π, T, x, y, him, hres => by
    cases T with
    | map nm kt vt =>
      cases x with
      | agg xs => simp [resolve] at hres
      | atom ax =>
        cases ax with
        | map ao =>
          cases ao with
          | none => simp [resolve] at hres
          | some a =>
            rw [resolve] at hres
            unfold Image at him
            obtain ⟨a2, kvs2, hy, _, _, ha2, _, _, kvs, hkvs, hall⟩ := him
            subst hy
            simp only [hkvs] at hres
            have hk := hall k
            cases hlk : lookup k kvs with
            | none => simp [hlk] at hres
            | some u =>
              simp only [hlk] at hres hk
              obtain ⟨w, hw, hiw⟩ := hk
              rw [resolve]
              simp only [ha2, hw]
              exact resolve_image nm2 e2 hnr π vt u w hiw hres
        | _ => simp [resolve] at hres
    | _ => cases x <;> simp [resolve] at hres

theorem key_lookup (kv : Val × Val) : ∀ (kvs : List (Val × Val)), kv ∈ kvs →
    ∃ u, lookup kv.1 kvs = some u
  | kvs, hm => lookup_of_key kv.1 kvs (List.mem_map.mpr ⟨kv, hm, rfl⟩)

mutual
/-- A deep copy of a value without arrays owns all its memory. -/
theorem Image_owned {lo hi : Nat} {h0 h : Heap} :
    ∀ (T : Ty) (x y : Val), T.noArray = true → Image lo hi h0 h T x y →
      Owned lo hi h T y = true
  | .basic _ _, x, y, _, _ => by rw [Owned]
  | .array _ _ _, x, y, hA, _ => by simp [Ty.noArray] at hA
  | .ptr nm e, x, y, hA, him => by
    rw [Ty.noArray] at hA
    unfold Image at him
    unfold Owned
    cases hr : (Ty.ptr nm e).isReader with
    | true => simp
    | false =>
      simp only [hr, Bool.false_eq_true, if_false] at him
      simp only [Bool.false_or]
      split at him
      · subst him; rfl
      · obtain ⟨a2, u, w, hy, h1, h2, _, hw, hiw⟩ := him
        subst hy
        simp only [h1, h2, hw, decide_True, Bool.and_self, Bool.true_and]
        exact Image_owned e u w hA hiw
      · exact him.elim
  | .struct _ fs, x, y, hA, him => by
    rw [Ty.noArray] at hA
    unfold Image at him
    obtain ⟨xs, ys, _, hy, hf⟩ := him
    subst hy
    rw [Owned]
    exact ImageFields_owned fs xs ys hA hf
  | .slice _ e, x, y, hA, him => by
    rw [Ty.noArray] at hA
    unfold Image at him
    obtain ⟨a2, es2, h1, h2, ha2, hm⟩ := him
    split at hm
    · obtain ⟨hy, _⟩ := hm
      subst hy
      rw [Owned]
      simp [h1, h2, ha2]
    · rename_i s
      obtain ⟨hy, hl2, es, _, hel, _⟩ := hm
      subst hy
      have hcap : s.len ≤ s.cap := by
        rcases Nat.eq_zero_or_pos s.len with h0 | hpos
        · omega
        · obtain ⟨_, w, _, hw, _⟩ := hel (s.len - 1) (by omega)
          have := lt_of_getElem?_eq_some hw
          omega
      rw [Owned]
      simp only [h1, h2, hcap, ha2, decide_True, Bool.and_self, Bool.true_and]
      apply List.all_eq_true.mpr
      intro i hi
      obtain ⟨u, w, _, hw, hiw⟩ := hel i (List.mem_range.mp hi)
      simp only [Nat.zero_add, hw]
      exact Image_owned e u w hA hiw
    · exact hm.elim
  | .map _ _ vt, x, y, hA, him => by
    rw [Ty.noArray] at hA
    unfold Image at him
    obtain ⟨a2, kvs2, hy, h1, h2, ha2, _, hnn, hm⟩ := him
    subst hy
    rw [Owned]
    simp only [h1, h2, ha2, decide_True, Bool.and_self, Bool.true_and]
    apply List.all_eq_true.mpr
    intro kv hkv
    obtain ⟨w, hw⟩ := key_lookup kv kvs2 hkv
    simp only [hw, hnn kv.1 (List.mem_map.mpr ⟨kv, hkv, rfl⟩), Bool.not_false, Bool.true_and]
    split at hm
    · subst hm; cases hkv
    · obtain ⟨kvs, _, hall⟩ := hm
      have hk := hall kv.1
      split at hk
      · rw [hw] at hk; cases hk
      · obtain ⟨w2, hw2, hiw⟩ := hk
        rw [hw] at hw2
        cases hw2
        exact Image_owned vt _ w hA hiw
    · exact hm.elim
/-- See `Image_owned`. -/
theorem ImageFields_owned {lo hi : Nat} {h0 h : Heap} :
    ∀ (fs : List (String × Ty)) (xs ys : List Val), Ty.noArrayFields fs = true →
      ImageFields lo hi h0 h fs xs ys → OwnedFields lo hi h fs ys = true
  | [], [], [], _, _ => by rw [OwnedFields]
  | f :: r, x :: xs, y :: ys, hA, him => by
    unfold ImageFields at him
    rw [Ty.noArrayFields] at hA
    simp only [Bool.and_eq_true] at hA
    rw [OwnedFields]
    simp only [Bool.and_eq_true]
    exact ⟨Image_owned f.2 x y hA.1 him.1, ImageFields_owned r xs ys hA.2 him.2⟩
  | [], _ :: _, _, _, him => by simp [ImageFields] at him
  | [], [], _ :: _, _, him => by simp [ImageFields] at him
  | _ :: _, [], _, _, him => by simp [ImageFields] at him
  | _ :: _, _ :: _, [], _, him => by simp [ImageFields] at him
end

mutual
/-- What a value owns depends only on the memory in its range. -/
theorem Owned_congr {lo hi : Nat} {h h2 : Heap}
    (hag : ∀ a, lo ≤ a → a < hi → h2[a]? = h[a]?) :
    ∀ (T : Ty) (v : Val), Owned lo hi h T v = true → Owned lo hi h2 T v = true
  | .basic _ _, v, _ => by rw [Owned]
  | .ptr nm e, v, ho => by
    cases hr : (Ty.ptr nm e).isReader with
    | true => unfold Owned; simp [hr]
    | false =>
      rcases Owned_ptr ho hr with hv | ⟨a, u, hv, h1, h2', hu, hou⟩
      · subst hv; unfold Owned; simp
      · subst hv
        unfold Owned
        simp only [hr, Bool.false_or, h1, h2', decide_True, Bool.and_self, Bool.true_and,
          hag a h1 h2', hu]
        exact Owned_congr hag e u hou
  | .struct _ fs, v, ho => by
    obtain ⟨xs, hv, hf⟩ := Owned_struct ho
    subst hv
    rw [Owned]
    exact OwnedFields_congr hag fs xs hf
  | .array _ _ e, v, ho => by
    cases v with
    | atom a => simp [Owned] at ho
    | agg xs =>
      rw [Owned] at ho ⊢
      apply List.all_eq_true.mpr
      intro u hu
      exact Owned_congr hag e u (List.all_eq_true.mp ho u hu)
  | .slice _ e, v, ho => by
    rcases Owned_slice ho with hv | ⟨s, es, hv, h1, h2', hes, hel⟩
    · subst hv; rw [Owned]
    · subst hv
      have hcap := Owned_slice_cap ho
      rw [Owned]
      simp only [h1, h2', hcap, decide_True, Bool.and_self, Bool.true_and, hag s.base h1 h2',
        hes]
      apply List.all_eq_true.mpr
      intro i hi
      obtain ⟨u, hu, hou⟩ := hel i (List.mem_range.mp hi)
      simp only [hu]
      exact Owned_congr hag e u hou
  | .map _ _ vt, v, ho => by
    rcases Owned_map ho with hv | ⟨a, kvs, hv, h1, h2', hk, hel⟩
    · subst hv; rw [Owned]
    · subst hv
      rw [Owned]
      simp only [h1, h2', decide_True, Bool.and_self, Bool.true_and, hag a h1 h2', hk]
      apply List.all_eq_true.mpr
      intro kv hkv
      obtain ⟨u, hu⟩ := key_lookup kv kvs hkv
      simp only [hu, Owned_map_keys ho hk kv.1 (List.mem_map.mpr ⟨kv, hkv, rfl⟩),
        Bool.not_false, Bool.true_and]
      exact Owned_congr hag vt u (hel kv.1 u hu)
/-- See `Owned_congr`. -/
theorem OwnedFields_congr {lo hi : Nat} {h h2 : Heap}
    (hag : ∀ a, lo ≤ a → a < hi → h2[a]? = h[a]?) :
    ∀ (fs : List (String × Ty)) (xs : List Val),
      OwnedFields lo hi h fs xs = true → OwnedFields lo hi h2 fs xs = true
  | [], [], _ => by rw [OwnedFields]
  | f :: r, x :: xs, ho => by
    rw [OwnedFields] at ho ⊢
    simp only [Bool.and_eq_true] at ho ⊢
    exact ⟨Owned_congr hag f.2 x ho.1, OwnedFields_congr hag r xs ho.2⟩
  | [], _ :: _, ho => by simp [OwnedFields] at ho
  | _ :: _, [], ho => by simp [OwnedFields] at ho
end

/-! ## Termination -/

theorem bind_ne_nofuel {α β : Type} (x : Res α) (f : α → Res β) (hx : x ≠ .nofuel)
    (hf : ∀ a, x = .ok a → f a ≠ .nofuel) : (x >>= f) ≠ .nofuel := by
  cases x with
  | ok a => exact hf a rfl
  | panic p => simp
  | stuck => simp
  | nofuel => exact absurd rfl hx

theorem cellAt_ne_nofuel (h : Heap) (a : Nat) : h.cellAt a ≠ .nofuel := by
  unfold Heap.cellAt; split <;> simp

theorem mapAt_ne_nofuel (h : Heap) (a : Nat) : h.mapAt a ≠ .nofuel := by
  unfold Heap.mapAt; split <;> simp

theorem load_ne_nofuel (h : Heap) (v : Value) : v.load h ≠ .nofuel := by
  unfold Value.load
  split
  · simp
  · exact bind_ne_nofuel _ _ (cellAt_ne_nofuel _ _) (fun c _ => by split <;> simp)

theorem store_ne_nofuel (h : Heap) (a : Nat) (p : List Nat) (x : Val) :
    h.store a p x ≠ .nofuel := by
  unfold Heap.store
  exact bind_ne_nofuel _ _ (cellAt_ne_nofuel _ _) (fun c _ => by split <;> simp)

theorem Set_ne_nofuel (h : Heap) (v x : Option Value) : Value.Set h v x ≠ .nofuel := by
  unfold Value.Set
  split
  · simp
  · split
    · simp
    · split
      · simp
      · split
        · simp
        · split
          · simp
          · split
            · exact bind_ne_nofuel _ _ (load_ne_nofuel _ _) (fun w _ => store_ne_nofuel _ _ _ _)
            · simp

theorem Interface_ne_nofuel (v : Value) : v.Interface ≠ .nofuel := by
  unfold Value.Interface; split <;> simp

theorem Elem_ne_nofuel (h : Heap) (v : Value) : v.Elem h ≠ .nofuel := by
  unfold Value.Elem
  split
  · exact bind_ne_nofuel _ _ (load_ne_nofuel _ _) (fun x _ => by split <;> simp)
  · simp

theorem IsNil_ne_nofuel (h : Heap) (v : Value) : v.IsNil h ≠ .nofuel := by
  unfold Value.IsNil
  exact bind_ne_nofuel _ _ (load_ne_nofuel _ _) (fun x _ => by split <;> simp)

theorem FieldByName_ne_nofuel (v : Value) (name : String) : v.FieldByName name ≠ .nofuel := by
  unfold Value.FieldByName
  split
  · split
    · simp
    · split
      · simp
      · split <;> simp
  · simp

theorem hdr_ne_nofuel (h : Heap) (v : Value) : v.hdr h ≠ .nofuel := by
  unfold Value.hdr
  exact bind_ne_nofuel _ _ (load_ne_nofuel _ _) (fun x _ => by split <;> simp)

theorem Len_ne_nofuel (h : Heap) (v : Value) : v.Len h ≠ .nofuel := by
  unfold Value.Len
  exact bind_ne_nofuel _ _ (hdr_ne_nofuel _ _) (fun x _ => by split <;> simp)

theorem Cap_ne_nofuel (h : Heap) (v : Value) : v.Cap h ≠ .nofuel := by
  unfold Value.Cap
  exact bind_ne_nofuel _ _ (hdr_ne_nofuel _ _) (fun x _ => by split <;> simp)

theorem MakeSlice_ne_nofuel (h : Heap) (t : Ty) (n c : Nat) : MakeSlice h t n c ≠ .nofuel := by
  unfold MakeSlice
  split
  · split <;> simp
  · simp

theorem Index_ne_nofuel (h : Heap) (v : Value) (i : Nat) : v.Index h i ≠ .nofuel := by
  unfold Value.Index
  split
  · exact bind_ne_nofuel _ _ (hdr_ne_nofuel _ _) (fun x _ => by
      split
      · simp
      · split <;> simp)
  · simp

theorem entries_ne_nofuel (h : Heap) (v : Value) : v.entries h ≠ .nofuel := by
  unfold Value.entries
  exact bind_ne_nofuel _ _ (load_ne_nofuel _ _) (fun x _ => by
    split
    · simp
    · exact mapAt_ne_nofuel _ _
    · simp)

theorem MapKeys_ne_nofuel (h : Heap) (v : Value) : v.MapKeys h ≠ .nofuel := by
  unfold Value.MapKeys
  split
  · exact bind_ne_nofuel _ _ (entries_ne_nofuel _ _) (fun x _ => by simp)
  · simp

theorem MapIndex_ne_nofuel (h : Heap) (v k : Value) : v.MapIndex h k ≠ .nofuel := by
  unfold Value.MapIndex
  split
  · split
    · exact bind_ne_nofuel _ _ (entries_ne_nofuel _ _) (fun x _ =>
        bind_ne_nofuel _ _ (load_ne_nofuel _ _) (fun y _ => by
          split
          · simp
          · split <;> simp))
    · simp
  · simp

theorem SetMapIndex_ne_nofuel (h : Heap) (v k x : Value) : v.SetMapIndex h k x ≠ .nofuel := by
  unfold Value.SetMapIndex
  split
  · split
    · simp
    · split
      · simp
      · split
        · simp
        · split
          · simp
          · exact bind_ne_nofuel _ _ (load_ne_nofuel _ _) (fun m _ =>
              bind_ne_nofuel _ _ (load_ne_nofuel _ _) (fun kv _ =>
                bind_ne_nofuel _ _ (load_ne_nofuel _ _) (fun xv _ => by
                  split
                  · simp
                  · exact bind_ne_nofuel _ _ (mapAt_ne_nofuel _ _) (fun _ _ => by simp)
                  · simp)))
  · simp

theorem findField_depth (name : String) : ∀ (fs : List (String × Ty)) (i : Nat) (t : Ty),
    findField name fs = some (i, t) → t.depth ≤ Ty.depthFields fs
  | [], _, _, h => by simp [findField] at h
  | f :: r, i, t, h => by
    rw [findField] at h
    rw [Ty.depthFields]
    split at h
    · simp only [Option.some.injEq, Prod.mk.injEq] at h
      rw [← h.2]
      exact Nat.le_max_left _ _
    · cases hr : findField name r with
      | none => simp [hr] at h
      | some jt =>
        obtain ⟨j, t2⟩ := jt
        simp only [hr, Option.some.injEq, Prod.mk.injEq] at h
        rw [← h.2]
        exact Nat.le_trans (findField_depth name r j t2 hr) (Nat.le_max_right _ _)

/-- The type of a field that `FieldByName` finds is less deep than the struct. -/
theorem FieldByName_depth (v : Value) (name : String) (sv : Value)
    (h : v.FieldByName name = .ok (some sv)) : sv.ty.depth < v.ty.depth := by
  unfold Value.FieldByName at h
  split at h
  · rename_i nm fs hty
    rw [hty, Ty.depth]
    split at h
    · simp at h
    · rename_i i t hf
      have := findField_depth name fs i t hf
      split at h
      · simp only [Res.ok.injEq, Option.some.injEq] at h
        rw [← h]; simp only; omega
      · split at h
        · simp only [Res.ok.injEq, Option.some.injEq] at h
          rw [← h]; simp only; omega
        · simp at h
  · simp at h

/-- The type of the pointee that `Elem` gives is less deep than the pointer. -/
theorem Elem_depth (h : Heap) (v sv : Value) (he : v.Elem h = .ok (some sv)) :
    sv.ty.depth < v.ty.depth := by
  unfold Value.Elem at he
  split at he
  · rename_i nm e hty
    rw [hty, Ty.depth]
    cases hl : v.load h with
    | ok x =>
      simp only [hl, ok_bind] at he
      split at he
      · simp at he
      · simp only [Res.ok.injEq, Option.some.injEq] at he
        rw [← he]; simp
      · simp at he
    | _ => simp [hl] at he
  · simp at he

/-- The type of the element that `Index` gives is less deep than the slice. -/
theorem Index_depth (h : Heap) (v sv : Value) (i : Nat) (he : v.Index h i = .ok (some sv)) :
    sv.ty.depth < v.ty.depth := by
  unfold Value.Index at he
  split at he
  · rename_i nm e hty
    rw [hty, Ty.depth]
    cases hl : v.hdr h with
    | ok x =>
      simp only [hl, ok_bind] at he
      split at he
      · simp at he
      · split at he
        · simp only [Res.ok.injEq, Option.some.injEq] at he
          rw [← he]; simp
        · simp at he
    | _ => simp [hl] at he
  · simp at he

/-- The type of the value that `MapIndex` gives is less deep than the map. -/
theorem MapIndex_depth (h : Heap) (v k sv : Value) (he : v.MapIndex h k = .ok (some sv)) :
    sv.ty.depth < v.ty.depth := by
  unfold Value.MapIndex at he
  split at he
  · rename_i nm kt vt hty
    rw [hty, Ty.depth]
    split at he
    · cases hl : v.entries h with
      | ok x =>
        simp only [hl, ok_bind] at he
        cases hk : k.load h with
        | ok y =>
          simp only [hk, ok_bind] at he
          split at he
          · simp at he
          · split at he
            · simp only [Res.ok.injEq, Option.some.injEq] at he
              rw [← he]; simp
            · simp at he
        | _ => simp [hk] at he
      | _ => simp [hl] at he
    · simp at he
  · simp at he

/-- The loop over the fields ends when the calls one level down do. -/
theorem copyFields_ne_nofuel (rc : Heap → Option Value → Option Value → Bool → Res Heap)
    (d s : Value)
    (hrc : ∀ h dv sv, sv.ty.depth < s.ty.depth → rc h dv (some sv) false ≠ .nofuel) :
    ∀ (fs : List (String × Ty)) (h : Heap), copyFields rc d s fs h ≠ .nofuel
  | [], h => by simp [copyFields]
  | f :: rest, h => by
    rw [copyFields]
    refine bind_ne_nofuel _ _ (FieldByName_ne_nofuel _ _) (fun srcval hs => ?_)
    cases srcval with
    | none => exact copyFields_ne_nofuel rc d s hrc rest h
    | some sv =>
      simp only
      refine bind_ne_nofuel _ _ (FieldByName_ne_nofuel _ _) (fun dv _ => ?_)
      refine bind_ne_nofuel _ _ (hrc h dv sv (FieldByName_depth s f.1 sv hs)) (fun h2 _ => ?_)
      exact copyFields_ne_nofuel rc d s hrc rest h2

/-- `Index` does not give the zero `Value`. -/
theorem Index_ne_none (h : Heap) (v : Value) (i : Nat) : v.Index h i ≠ .ok none := by
  unfold Value.Index
  split
  · cases hl : v.hdr h with
    | ok x =>
      simp only [hl, ok_bind]
      split
      · simp
      · split <;> simp
    | _ => simp [hl]
  · simp

/-- The loop over the elements ends when the calls one level down do. -/
theorem copyElems_ne_nofuel (rc : Heap → Option Value → Option Value → Bool → Res Heap)
    (d s : Value)
    (hrc : ∀ h dv sv, sv.ty.depth < s.ty.depth → rc h dv (some sv) false ≠ .nofuel) :
    ∀ (n i : Nat) (h : Heap), copyElems rc d s n i h ≠ .nofuel
  | 0, i, h => by simp [copyElems]
  | n + 1, i, h => by
    rw [copyElems]
    refine bind_ne_nofuel _ _ (Index_ne_nofuel _ _ _) (fun dv _ => ?_)
    refine bind_ne_nofuel _ _ (Index_ne_nofuel _ _ _) (fun sv hs => ?_)
    cases sv with
    | none => exact absurd hs (Index_ne_none h s i)
    | some sv =>
      exact bind_ne_nofuel _ _ (hrc h dv sv (Index_depth h s sv i hs))
        (fun h2 _ => copyElems_ne_nofuel rc d s hrc n _ h2)

/-- The loop over the keys ends when the calls one level down do. -/
theorem copyEntries_ne_nofuel (rc : Heap → Option Value → Option Value → Bool → Res Heap)
    (d s : Value)
    (hrc : ∀ h dv sv, sv.ty.depth < s.ty.depth → rc h dv (some sv) false ≠ .nofuel) :
    ∀ (ks : List Value) (h : Heap), copyEntries rc d s ks h ≠ .nofuel
  | [], h => by simp [copyEntries]
  | k :: rest, h => by
    rw [copyEntries]
    refine bind_ne_nofuel _ _ (MapIndex_ne_nofuel _ _ _) (fun v hv => ?_)
    cases v with
    | none => simp
    | some sv =>
      simp only
      refine bind_ne_nofuel _ _ (hrc _ _ sv (MapIndex_depth h s k sv hv)) (fun h2 _ => ?_)
      refine bind_ne_nofuel _ _ (SetMapIndex_ne_nofuel _ _ _ _) (fun h3 _ => ?_)
      exact copyEntries_ne_nofuel rc d s hrc rest h3

/-- With a bound above the depth of the source's type `rcopy` does not run out
of fuel, whatever the memory and the destination. -/
theorem rcopy_ne_nofuel : ∀ (fuel : Nat) (h : Heap) (dst : Option Value) (s : Value)
    (root : Bool), s.ty.depth < fuel → rcopy fuel h dst (some s) root ≠ .nofuel
  | 0, _, _, _, _, hd => by omega
  | fuel + 1, h, dst, s, root, hd => by
    cases dst with
    | none => simp [rcopy]
    | some d =>
      rw [rcopy]
      simp only
      split
      · simp
      · have hrc : ∀ h dv sv, sv.ty.depth < s.ty.depth →
            rcopy fuel h dv (some sv) false ≠ .nofuel :=
          fun h dv sv hlt => rcopy_ne_nofuel fuel h dv sv false (by omega)
        split
        · -- pointer
          refine bind_ne_nofuel _ _ (Interface_ne_nofuel _) (fun _ _ => ?_)
          split
          · refine bind_ne_nofuel _ _ (Elem_ne_nofuel _ _) (fun de _ => ?_)
            split
            · exact Set_ne_nofuel _ _ _
            · split
              · exact Set_ne_nofuel _ _ _
              · simp
          · split
            · simp
            · refine bind_ne_nofuel _ _ (IsNil_ne_nofuel _ _) (fun isnil _ => ?_)
              refine bind_ne_nofuel _ _ ?_ (fun h1 _ => ?_)
              · split
                · exact Set_ne_nofuel _ _ _
                · simp
              · refine bind_ne_nofuel _ _ (Elem_ne_nofuel _ _) (fun se hse => ?_)
                cases se with
                | none => simp
                | some sv =>
                  simp only
                  refine bind_ne_nofuel _ _ (Elem_ne_nofuel _ _) (fun de _ => ?_)
                  exact rcopy_ne_nofuel fuel h1 de sv root
                    (by have := Elem_depth h1 s sv hse; omega)
        · -- struct
          refine bind_ne_nofuel _ _ ?_ (fun h1 _ => ?_)
          · split
            · exact Set_ne_nofuel _ _ _
            · simp
          · split
            · exact copyFields_ne_nofuel _ d s hrc _ h1
            · simp
        · -- slice
          refine bind_ne_nofuel _ _ (Len_ne_nofuel _ _) (fun n _ => ?_)
          refine bind_ne_nofuel _ _ (Cap_ne_nofuel _ _) (fun c _ => ?_)
          refine bind_ne_nofuel _ _ (MakeSlice_ne_nofuel _ _ _ _) (fun r _ => ?_)
          refine bind_ne_nofuel _ _ (Set_ne_nofuel _ _ _) (fun h1 _ => ?_)
          refine bind_ne_nofuel _ _ (Len_ne_nofuel _ _) (fun n2 _ => ?_)
          exact copyElems_ne_nofuel _ d s hrc _ _ h1
        · -- map
          refine bind_ne_nofuel _ _ (Set_ne_nofuel _ _ _) (fun h1 _ => ?_)
          refine bind_ne_nofuel _ _ (MapKeys_ne_nofuel _ _) (fun ks _ => ?_)
          exact copyEntries_ne_nofuel _ d s hrc ks h1
        · -- leaf
          split
          · simp
          · exact Set_ne_nofuel _ _ _

theorem rcopy_succ (fuel : Nat) (h : Heap) (dst src : Option Value) (root : Bool) :
    rcopy (fuel + 1) h dst src root = rcopyStep (rcopy fuel) h dst src root := by
  cases src <;> cases dst <;> rfl

theorem bind_mono {α β : Type} {x y : Res α} {f g : α → Res β}
    (hne : (x >>= f) ≠ .nofuel) (hxy : x ≠ .nofuel → y = x)
    (hfg : ∀ a, x = .ok a → f a ≠ .nofuel → g a = f a) : (y >>= g) = (x >>= f) := by
  cases x with
  | ok a => rw [hxy (by simp)]; exact hfg a rfl hne
  | panic p => rw [hxy (by simp)]; rfl
  | stuck => rw [hxy (by simp)]; rfl
  | nofuel => exact absurd rfl hne

theorem copyFields_mono (rc rc2 : Heap → Option Value → Option Value → Bool → Res Heap)
    (H : ∀ h dv sv root, rc h dv sv root ≠ .nofuel → rc2 h dv sv root = rc h dv sv root)
    (d s : Value) : ∀ (fs : List (String × Ty)) (h : Heap),
    copyFields rc d s fs h ≠ .nofuel → copyFields rc2 d s fs h = copyFields rc d s fs h
  | [], h, _ => rfl
  | f :: rest, h, hne => by
    rw [copyFields] at hne ⊢
    conv_rhs => rw [copyFields]
    refine bind_mono hne (fun _ => rfl) (fun srcval _ hne1 => ?_)
    cases srcval with
    | none => exact copyFields_mono rc rc2 H d s rest h hne1
    | some sv =>
      simp only at hne1 ⊢
      refine bind_mono hne1 (fun _ => rfl) (fun dv _ hne2 => ?_)
      refine bind_mono hne2 (H _ _ _ _) (fun h2 _ hne3 => ?_)
      exact copyFields_mono rc rc2 H d s rest h2 hne3

theorem copyElems_mono (rc rc2 : Heap → Option Value → Option Value → Bool → Res Heap)
    (H : ∀ h dv sv root, rc h dv sv root ≠ .nofuel → rc2 h dv sv root = rc h dv sv root)
    (d s : Value) : ∀ (n i : Nat) (h : Heap),
    copyElems rc d s n i h ≠ .nofuel → copyElems rc2 d s n i h = copyElems rc d s n i h
  | 0, i, h, _ => rfl
  | n + 1, i, h, hne => by
    rw [copyElems] at hne ⊢
    conv_rhs => rw [copyElems]
    refine bind_mono hne (fun _ => rfl) (fun dv _ hne1 => ?_)
    refine bind_mono hne1 (fun _ => rfl) (fun sv _ hne2 => ?_)
    refine bind_mono hne2 (H _ _ _ _) (fun h2 _ hne3 => ?_)
    exact copyElems_mono rc rc2 H d s n _ h2 hne3

theorem copyEntries_mono (rc rc2 : Heap → Option Value → Option Value → Bool → Res Heap)
    (H : ∀ h dv sv root, rc h dv sv root ≠ .nofuel → rc2 h dv sv root = rc h dv sv root)
    (d s : Value) : ∀ (ks : List Value) (h : Heap),
    copyEntries rc d s ks h ≠ .nofuel → copyEntries rc2 d s ks h = copyEntries rc d s ks h
  | [], h, _ => rfl
  | k :: rest, h, hne => by
    rw [copyEntries] at hne ⊢
    conv_rhs => rw [copyEntries]
    refine bind_mono hne (fun _ => rfl) (fun v _ hne1 => ?_)
    cases v with
    | none => rfl
    | some sv =>
      simp only at hne1 ⊢
      refine bind_mono hne1 (H _ _ _ _) (fun h2 _ hne2 => ?_)
      refine bind_mono hne2 (fun _ => rfl) (fun h3 _ hne3 => ?_)
      exact copyEntries_mono rc rc2 H d s rest h3 hne3

theorem rcopyStep_mono (rc rc2 : Heap → Option Value → Option Value → Bool → Res Heap)
    (H : ∀ h dv sv root, rc h dv sv root ≠ .nofuel → rc2 h dv sv root = rc h dv sv root)
    (h : Heap) (dst src : Option Value) (root : Bool)
    (hne : rcopyStep rc h dst src root ≠ .nofuel) :
    rcopyStep rc2 h dst src root = rcopyStep rc h dst src root := by
  unfold rcopyStep at hne ⊢
  split
  · rfl
  · rfl
  · rename_i s d
    simp only at hne
    split
    · rfl
    · rename_i hk
      simp only [hk, if_false] at hne
      split
      · rename_i hkp
        simp only [hkp] at hne
        refine bind_mono hne (fun _ => rfl) (fun _ _ hne1 => ?_)
        split
        · rfl
        · rename_i hr
          simp only [hr, if_false] at hne1
          split
          · rfl
          · rename_i e he
            simp only [he] at hne1
            refine bind_mono hne1 (fun _ => rfl) (fun isnil _ hne2 => ?_)
            refine bind_mono hne2 (fun _ => rfl) (fun h1 _ hne3 => ?_)
            refine bind_mono hne3 (fun _ => rfl) (fun se _ hne4 => ?_)
            cases se with
            | none => rfl
            | some sv =>
              simp only at hne4 ⊢
              refine bind_mono hne4 (fun _ => rfl) (fun de _ hne5 => ?_)
              exact H _ _ _ _ hne5
      · rename_i hks
        simp only [hks] at hne
        refine bind_mono hne (fun _ => rfl) (fun h1 _ hne1 => ?_)
        split
        · rename_i nm fs hty
          simp only [hty] at hne1
          exact copyFields_mono rc rc2 H d s fs h1 hne1
        · rfl
      · rename_i hks
        simp only [hks] at hne
        refine bind_mono hne (fun _ => rfl) (fun n _ hne1 => ?_)
        refine bind_mono hne1 (fun _ => rfl) (fun c _ hne2 => ?_)
        refine bind_mono hne2 (fun _ => rfl) (fun r _ hne3 => ?_)
        refine bind_mono hne3 (fun _ => rfl) (fun h1 _ hne4 => ?_)
        refine bind_mono hne4 (fun _ => rfl) (fun n2 _ hne5 => ?_)
        exact copyElems_mono rc rc2 H d s n2 0 h1 hne5
      · rename_i hks
        simp only [hks] at hne
        refine bind_mono hne (fun _ => rfl) (fun h1 _ hne1 => ?_)
        refine bind_mono hne1 (fun _ => rfl) (fun ks _ hne2 => ?_)
        exact copyEntries_mono rc rc2 H d s ks h1 hne2
      · rfl

/-- When `rcopy` ends within a bound it gives the same result within every
larger bound. -/
theorem rcopy_fuel_succ : ∀ (fuel : Nat) (h : Heap) (dst src : Option Value) (root : Bool),
    rcopy fuel h dst src root ≠ .nofuel →
    rcopy (fuel + 1) h dst src root = rcopy fuel h dst src root
  | 0, h, dst, src, root, hne => by simp [rcopy] at hne
  | fuel + 1, h, dst, src, root, hne => by
    rw [rcopy_succ] at hne
    rw [rcopy_succ, rcopy_succ]
    exact rcopyStep_mono (rcopy fuel) (rcopy (fuel + 1))
      (fun h dv sv root hn => rcopy_fuel_succ fuel h dv sv root hn) h dst src root hne

theorem rcopy_fuel_add (fuel : Nat) (h : Heap) (dst src : Option Value) (root : Bool)
    (hne : rcopy fuel h dst src root ≠ .nofuel) :
    ∀ k, rcopy (fuel + k) h dst src root = rcopy fuel h dst src root
  | 0 => rfl
  | k + 1 => by
    have ih := rcopy_fuel_add fuel h dst src root hne k
    rw [← Nat.add_assoc, rcopy_fuel_succ (fuel + k) h dst src root (by rw [ih]; exact hne), ih]

/-! ## Where the traversal writes -/

theorem Within.refl (p : List Nat) (c : Val) : Within p c c := Or.inl rfl

theorem Within.of_put {p : List Nat} {c w c2 : Val} (h : c.put p w = some c2) :
    Within p c c2 := Or.inr ⟨w, h⟩

theorem Within.trans {p : List Nat} {c c1 c2 : Val} (h1 : Within p c c1)
    (h2 : Within p c1 c2) : Within p c c2 := by
  rcases h1 with h1 | ⟨w, hw⟩
  · subst h1; exact h2
  · rcases h2 with h2 | ⟨w2, hw2⟩
    · subst h2; exact Or.inr ⟨w, hw⟩
    · exact Or.inr ⟨w2, by rw [← Val.put_put p c w c1 w2 hw]; exact hw2⟩

/-- Writing below a path needs something at the path. -/
theorem Val.get_of_put_append : ∀ (p q : List Nat) (c x c2 : Val),
    c.put (p ++ q) x = some c2 → ∃ u, c.get p = some u
  | [], q, c, x, c2, _ => ⟨c, Val.get_nil c⟩
  | i :: p, q, .atom _, x, c2, h => by simp [Val.put] at h
  | i :: p, q, .agg vs, x, c2, h => by
    rw [List.cons_append, Val.put_agg_cons] at h
    rw [Val.get_agg_cons]
    cases hv : vs[i]? with
    | none => simp [hv] at h
    | some w =>
      simp only [hv] at h ⊢
      cases hw : w.put (p ++ q) x with
      | none => simp [hw] at h
      | some w2 => exact Val.get_of_put_append p q w x w2 hw

/-- A change below a path is a change at the path. -/
theorem Within.weaken {p q : List Nat} {c c2 : Val} (h : Within (p ++ q) c c2) :
    Within p c c2 := by
  rcases h with h | ⟨w, hw⟩
  · exact Or.inl h
  · obtain ⟨u, hu⟩ := Val.get_of_put_append p q c w c2 hw
    have h1 := Val.put_append p q c u c w (Val.put_get_same p c u hu)
    rw [hw] at h1
    cases hq : u.put q w with
    | none => simp [hq] at h1
    | some u2 =>
      simp only [hq] at h1
      exact Or.inr ⟨u2, h1.symm⟩

/-- Writing at a path leaves what is at a path that branches off as it is. -/
theorem Val.get_put_diverge : ∀ (r : List Nat) (g i : Nat) (q q2 : List Nat) (c w c2 : Val),
    g ≠ i → c.put (r ++ g :: q2) w = some c2 → c2.get (r ++ i :: q) = c.get (r ++ i :: q)
  | [], g, i, q, q2, .atom _, w, c2, _, h => by simp [Val.put] at h
  | [], g, i, q, q2, .agg vs, w, c2, hne, h => by
    simp only [List.nil_append] at h ⊢
    rw [Val.put_agg_cons] at h
    cases hv : vs[g]? with
    | none => simp [hv] at h
    | some u =>
      simp only [hv] at h
      cases hu : u.put q2 w with
      | none => simp [hu] at h
      | some u2 =>
        simp only [hu, Option.some.injEq] at h
        subst h
        rw [Val.get_agg_cons, Val.get_agg_cons, List.getElem?_set_ne hne]
  | j :: r, g, i, q, q2, .atom _, w, c2, _, h => by simp [Val.put] at h
  | j :: r, g, i, q, q2, .agg vs, w, c2, hne, h => by
    rw [List.cons_append, Val.put_agg_cons] at h
    rw [List.cons_append]
    cases hv : vs[j]? with
    | none => simp [hv] at h
    | some u =>
      simp only [hv] at h
      cases hu : u.put (r ++ g :: q2) w with
      | none => simp [hu] at h
      | some u2 =>
        simp only [hu, Option.some.injEq] at h
        subst h
        have hlt : j < vs.length := lt_of_getElem?_eq_some hv
        rw [Val.get_agg_cons, Val.get_agg_cons, List.getElem?_set_self hlt, hv]
        simp only
        exact Val.get_put_diverge r g i q q2 u w u2 hne hu

/-- A change at one field leaves what is below another field as it is. -/
theorem Within.get_other {r : List Nat} {g i : Nat} {c c2 : Val} (q : List Nat)
    (hne : g ≠ i) (h : Within (r ++ [g]) c c2) :
    c2.get (r ++ i :: q) = c.get (r ++ i :: q) := by
  rcases h with h | ⟨w, hw⟩
  · rw [h]
  · exact Val.get_put_diverge r g i q [] c w c2 hne hw

theorem store_inv {h : Heap} {b : Nat} {p : List Nat} {x c : Val} {h2 : Heap}
    (hs : h.store b p x = .ok h2) (hb : h[b]? = some (.cell c)) :
    ∃ c2, c.put p x = some c2 ∧ h2 = h.set b (.cell c2) := by
  simp only [Heap.store, Heap.cellAt, hb, ok_bind] at hs
  cases hp : c.put p x with
  | none => simp [hp] at hs
  | some c2 =>
    simp only [hp, Res.ok.injEq] at hs
    exact ⟨c2, rfl, hs.symm⟩

theorem Set_inv {h : Heap} {T : Ty} {b : Nat} {p : List Nat} {x : Value} {c : Val} {h2 : Heap}
    (hs : Value.Set h (some ⟨T, .mem b p, false⟩) (some x) = .ok h2)
    (hb : h[b]? = some (.cell c)) :
    ∃ w c2, x.load h = .ok w ∧ c.put p w = some c2 ∧ h2 = h.set b (.cell c2) := by
  simp only [Value.Set, Bool.false_eq_true, if_false] at hs
  split at hs
  · simp at hs
  · split at hs
    · obtain ⟨w, hw, hst⟩ := bind_eq_ok hs
      obtain ⟨c2, hc2, h2e⟩ := store_inv hst hb
      exact ⟨w, c2, hw, hc2, h2e⟩
    · simp at hs

/-- What a successful `Set` on a place of the variable at `b` does to memory. -/
theorem Set_frame {h : Heap} {T : Ty} {b : Nat} {p : List Nat} {x : Value} {c : Val}
    {h2 : Heap}
    (hs : Value.Set h (some ⟨T, .mem b p, false⟩) (some x) = .ok h2)
    (hb : h[b]? = some (.cell c)) :
    h2.length = h.length ∧ (∀ a, a ≠ b → h2[a]? = h[a]?) ∧
    ∃ w c2, x.load h = .ok w ∧ c.put p w = some c2 ∧ h2[b]? = some (.cell c2) := by
  obtain ⟨w, c2, hw, hc2, h2e⟩ := Set_inv hs hb
  subst h2e
  exact ⟨by simp, fun a ha => getElem?_set_other h b a _ ha, w, c2, hw, hc2,
    getElem?_set_here h b _ (lt_of_cell hb)⟩

theorem Elem_inv {h : Heap} {nm : Option TName} {e : Ty} {st : Store} {ro : Bool}
    {de : Option Value} (he : Value.Elem h ⟨.ptr nm e, st, ro⟩ = .ok de) :
    (de = none ∧ Value.load h ⟨.ptr nm e, st, ro⟩ = .ok (.atom (.ptr none))) ∨
    ∃ a, de = some ⟨e, .mem a [], ro⟩ ∧
      Value.load h ⟨.ptr nm e, st, ro⟩ = .ok (.atom (.ptr (some a))) := by
  simp only [Value.Elem] at he
  obtain ⟨x, hx, hm⟩ := bind_eq_ok he
  split at hm
  · simp only [Res.ok.injEq] at hm
    exact Or.inl ⟨hm.symm, hx⟩
  · simp only [Res.ok.injEq] at hm
    exact Or.inr ⟨_, hm.symm, hx⟩
  · simp at hm

theorem leaf_write (fuel : Nat) (T : Ty) (hl : T.isLeaf = true) (h : Heap) (b : Nat)
    (p : List Nat) (sst : Store) (root : Bool) (h2 : Heap) (c : Val)
    (hret : rcopy (fuel + 1) h (some ⟨T, .mem b p, false⟩) (some ⟨T, sst, false⟩) root = .ok h2)
    (hb : h[b]? = some (.cell c)) :
    h.length ≤ h2.length ∧ (∀ a, a < h.length → a ≠ b → h2[a]? = h[a]?) ∧
    ∃ c2, h2[b]? = some (.cell c2) ∧ Within p c c2 := by
  rw [rcopy_leaf_same fuel h T b p sst root hl] at hret
  obtain ⟨w, _, hst⟩ := bind_eq_ok hret
  obtain ⟨c2, hc2, h2e⟩ := store_inv hst hb
  subst h2e
  exact ⟨by simp, fun a _ ha => getElem?_set_other h b a _ ha, c2,
    getElem?_set_here h b _ (lt_of_cell hb), Within.of_put hc2⟩

/-- A pointer that `IsNil` reports as nil has no pointee. -/
theorem Elem_of_IsNil {h : Heap} {nm : Option TName} {e : Ty} {st : Store} {ro : Bool}
    {se : Option Value}
    (hn : Value.IsNil h ⟨.ptr nm e, st, ro⟩ = .ok true)
    (he : Value.Elem h ⟨.ptr nm e, st, ro⟩ = .ok se) : se = none := by
  rcases Elem_inv he with ⟨h1, _⟩ | ⟨a, _, hl⟩
  · exact h1
  · rw [IsNil_ptr h _ st ro (some a) hl] at hn
    simp at hn

theorem ptr_write (fuel : Nat) (hw : WriteSpec (rcopy fuel)) (nm : Option TName) (e : Ty)
    (h : Heap) (b : Nat) (p : List Nat) (sst : Store) (root : Bool) (h2 : Heap) (c : Val)
    (hret : rcopy (fuel + 1) h (some ⟨.ptr nm e, .mem b p, false⟩)
      (some ⟨.ptr nm e, sst, false⟩) root = .ok h2)
    (hb : h[b]? = some (.cell c)) :
    h.length ≤ h2.length ∧ (∀ a, a < h.length → a ≠ b → h2[a]? = h[a]?) ∧
    ∃ c2, h2[b]? = some (.cell c2) ∧ Within p c c2 := by
  have hbl : b < h.length := lt_of_cell hb
  rw [rcopy_ptr_eq] at hret
  cases hr : (Ty.ptr nm e).isReader with
  | true =>
    simp only [hr, if_true] at hret
    obtain ⟨de, hde, hset⟩ := bind_eq_ok hret
    rcases Elem_inv hde with ⟨hd, _⟩ | ⟨a, hd, _⟩
    · subst hd
      simp only [CanSet, Bool.false_eq_true, if_false] at hset
      obtain ⟨hlen, hfr, w, c2, _, hc2, hb2⟩ := Set_frame hset hb
      exact ⟨by omega, fun x _ hx => hfr x hx, c2, hb2, Within.of_put hc2⟩
    · subst hd
      simp [CanSet, Value.addressable, Value.Set, not_assignable_ptr_self] at hset
  | false =>
    simp only [hr, Bool.false_eq_true, if_false] at hret
    obtain ⟨isnil, hnil, hret⟩ := bind_eq_ok hret
    obtain ⟨h1, hset, hret⟩ := bind_eq_ok hret
    obtain ⟨se, hse, hret⟩ := bind_eq_ok hret
    cases isnil with
    | true =>
      simp only [Bool.not_true, Bool.false_eq_true, if_false, Res.ok.injEq] at hset
      subst hset
      have := Elem_of_IsNil hnil hse
      subst this
      simp only [Res.ok.injEq] at hret
      subst hret
      exact ⟨Nat.le_refl _, fun _ _ _ => rfl, c, hb, Within.refl p c⟩
    | false =>
      simp only [Bool.not_false, if_true] at hset
      obtain ⟨hlen, hfr, w, c1, hwl, hc1, hb1⟩ :=
        Set_frame hset (by rw [getElem?_alloc_old h _ b hbl]; exact hb)
      rw [load_imm] at hwl
      cases hwl
      simp only [List.length_append, List.length_singleton] at hlen
      have hold : ∀ x, x < h.length → x ≠ b → h1[x]? = h[x]? := by
        intro x hx hne
        rw [hfr x hne, getElem?_alloc_old h _ x hx]
      have hnew : h1[h.length]? = some (.cell e.zero) := by
        rw [hfr _ (by omega)]; exact getElem?_alloc_new h _
      cases se with
      | none =>
        simp only [Res.ok.injEq] at hret
        subst hret
        exact ⟨by omega, hold, c1, hb1, Within.of_put hc1⟩
      | some sv =>
        simp only at hret
        obtain ⟨de, hde, hrc⟩ := bind_eq_ok hret
        rw [Elem_mem h1 nm e (.mem b p) false h.length
          (load_mem h1 _ b p false c1 _ hb1 (Val.get_put_same p c _ c1 hc1))] at hde
        cases hde
        rcases Elem_inv hse with ⟨hd, _⟩ | ⟨a, hd, _⟩
        · cases hd
        · cases hd
          obtain ⟨hlen2, hfr2, _, _, _⟩ := hw e h1 h.length [] (.mem a []) root h2 e.zero hrc hnew
          refine ⟨by omega, ?_, c1, ?_, Within.of_put hc1⟩
          · intro x hx hne
            rw [hfr2 x (by omega) (by omega), hold x hx hne]
          · rw [hfr2 b (by omega) (by omega)]; exact hb1

theorem FieldByName_inv {nm : Option TName} {fs : List (String × Ty)} {st : Store}
    {ro : Bool} {name : String} {sv : Value}
    (hf : Value.FieldByName ⟨.struct nm fs, st, ro⟩ name = .ok (some sv)) :
    ∃ j t st2, findField name fs = some (j, t) ∧ sv = ⟨t, st2, ro || !exported name⟩ ∧
      (∀ a q, st = .mem a q → st2 = .mem a (q ++ [j])) := by
  simp only [Value.FieldByName] at hf
  cases hfi : findField name fs with
  | none => simp [hfi] at hf
  | some jt =>
    obtain ⟨j, t⟩ := jt
    simp only [hfi] at hf
    cases st with
    | mem a q =>
      simp only [Res.ok.injEq, Option.some.injEq] at hf
      exact ⟨j, t, _, rfl, hf.symm, fun a2 q2 e => by cases e; rfl⟩
    | imm x =>
      simp only at hf
      cases hx : x.get [j] with
      | none => simp [hx] at hf
      | some w =>
        simp only [hx, Res.ok.injEq, Option.some.injEq] at hf
        exact ⟨j, t, _, rfl, hf.symm, fun a2 q2 e => by cases e⟩

/-- The loop over the fields of a struct writes inside the struct only. -/
theorem copyFields_write (rc : Heap → Option Value → Option Value → Bool → Res Heap)
    (hw : WriteSpec rc) (hro : RoSpec rc) (nm : Option TName) (fs : List (String × Ty))
    (b : Nat) (p : List Nat) (sst : Store) :
    ∀ (rest : List (String × Ty)) (h h2 : Heap) (c : Val),
      copyFields rc ⟨.struct nm fs, .mem b p, false⟩ ⟨.struct nm fs, sst, false⟩ rest h =
        .ok h2 →
      h[b]? = some (.cell c) →
      h.length ≤ h2.length ∧ (∀ a, a < h.length → a ≠ b → h2[a]? = h[a]?) ∧
      ∃ c2, h2[b]? = some (.cell c2) ∧ Within p c c2
  | [], h, h2, c, hret, hb => by
    rw [copyFields_nil] at hret
    cases hret
    exact ⟨Nat.le_refl _, fun _ _ _ => rfl, c, hb, Within.refl p c⟩
  | f :: rest, h, h2, c, hret, hb => by
    rw [copyFields_cons] at hret
    obtain ⟨srcval, hsv, hret⟩ := bind_eq_ok hret
    cases srcval with
    | none => exact copyFields_write rc hw hro nm fs b p sst rest h h2 c hret hb
    | some sv =>
      simp only at hret
      obtain ⟨j, t, st2, hfi, hsve, _⟩ := FieldByName_inv hsv
      subst hsve
      rw [FieldByName_mem nm fs b p false f.1 j t hfi] at hret
      simp only [ok_bind, Bool.false_or] at hret
      obtain ⟨h1, hrc, hret⟩ := bind_eq_ok hret
      cases hex : exported f.1 with
      | false =>
        simp only [hex, Bool.not_false] at hrc
        exact absurd hrc (hro t h _ _ h1)
      | true =>
        simp only [hex, Bool.not_true] at hrc
        obtain ⟨hlen1, hfr1, c1, hb1, hw1⟩ := hw t h b (p ++ [j]) st2 false h1 c hrc hb
        obtain ⟨hlen2, hfr2, c2, hb2, hw2⟩ :=
          copyFields_write rc hw hro nm fs b p sst rest h1 h2 c1 hret hb1
        refine ⟨by omega, ?_, c2, hb2, hw1.weaken.trans hw2⟩
        intro a ha hne
        rw [hfr2 a (by omega) hne, hfr1 a ha hne]

theorem struct_write (fuel : Nat) (hw : WriteSpec (rcopy fuel)) (hro : RoSpec (rcopy fuel))
    (nm : Option TName) (fs : List (String × Ty))
    (h : Heap) (b : Nat) (p : List Nat) (sst : Store) (root : Bool) (h2 : Heap) (c : Val)
    (hret : rcopy (fuel + 1) h (some ⟨.struct nm fs, .mem b p, false⟩)
      (some ⟨.struct nm fs, sst, false⟩) root = .ok h2)
    (hb : h[b]? = some (.cell c)) :
    h.length ≤ h2.length ∧ (∀ a, a < h.length → a ≠ b → h2[a]? = h[a]?) ∧
    ∃ c2, h2[b]? = some (.cell c2) ∧ Within p c c2 := by
  have hbl : b < h.length := lt_of_cell hb
  rw [rcopy_struct_eq] at hret
  cases root with
  | true =>
    obtain ⟨h1, hset, hret⟩ := bind_eq_ok hret
    simp only [Bool.not_true, Bool.false_eq_true, if_false, Res.ok.injEq] at hset
    subst hset
    exact copyFields_write (rcopy fuel) hw hro nm fs b p sst fs h h2 c hret hb
  | false =>
    obtain ⟨h1, hset, hret⟩ := bind_eq_ok hret
    simp only [Bool.not_false, if_true] at hset
    obtain ⟨hlen, hfr, w, c1, _, hc1, hb1⟩ :=
      Set_frame hset (by rw [getElem?_alloc_old h _ b hbl]; exact hb)
    simp only [List.length_append, List.length_singleton] at hlen
    obtain ⟨hlen2, hfr2, c2, hb2, hw2⟩ :=
      copyFields_write (rcopy fuel) hw hro nm fs b p sst fs h1 h2 c1 hret hb1
    refine ⟨by omega, ?_, c2, hb2, (Within.of_put hc1).trans hw2⟩
    intro a ha hne
    rw [hfr2 a (by omega) hne, hfr a hne, getElem?_alloc_old h _ a ha]

theorem Index_inv {h : Heap} {nm : Option TName} {e : Ty} {st : Store} {ro : Bool} {i : Nat}
    {r : Option Value} (hi : Value.Index h ⟨.slice nm e, st, ro⟩ i = .ok r) :
    ∃ s, Value.hdr h ⟨.slice nm e, st, ro⟩ = .ok (some s) ∧
      r = some ⟨e, .mem s.base [s.off + i], ro⟩ := by
  simp only [Value.Index] at hi
  obtain ⟨s, hs, hm⟩ := bind_eq_ok hi
  cases s with
  | none => simp at hm
  | some s =>
    simp only at hm
    split at hm
    · simp only [Res.ok.injEq] at hm
      exact ⟨s, hs, hm.symm⟩
    · simp at hm

theorem MakeSlice_inv {h : Heap} {nm : Option TName} {e : Ty} {n c : Nat} {r : Value × Heap}
    (hm : MakeSlice h (.slice nm e) n c = .ok r) :
    r = (⟨.slice nm e, .imm (.atom (.slice (some ⟨h.length, 0, n, c⟩))), false⟩,
      h ++ [.cell (.agg (List.replicate c e.zero))]) := by
  simp only [MakeSlice, Heap.alloc] at hm
  split at hm
  · simp at hm
  · simp only [Res.ok.injEq] at hm
    exact hm.symm

/-- The loop over the elements of a slice writes in the new array only. -/
theorem copyElems_write (rc : Heap → Option Value → Option Value → Bool → Res Heap)
    (hw : WriteSpec rc) (nm : Option TName) (e : Ty) (b : Nat) (p : List Nat) (sst : Store)
    (c1 : Val) (s1 : SliceHdr) (hc1 : c1.get p = some (.atom (.slice (some s1))))
    (hne : b ≠ s1.base) :
    ∀ (m i : Nat) (h h2 : Heap) (ca : Val),
      copyElems rc ⟨.slice nm e, .mem b p, false⟩ ⟨.slice nm e, sst, false⟩ m i h = .ok h2 →
      h[b]? = some (.cell c1) → h[s1.base]? = some (.cell ca) →
      h.length ≤ h2.length ∧ (∀ x, x < h.length → x ≠ s1.base → h2[x]? = h[x]?) ∧
      ∃ ca2, h2[s1.base]? = some (.cell ca2)
  | 0, i, h, h2, ca, hret, _, ha => by
    rw [copyElems_zero] at hret
    cases hret
    exact ⟨Nat.le_refl _, fun _ _ _ => rfl, ca, ha⟩
  | m + 1, i, h, h2, ca, hret, hb, ha => by
    rw [copyElems_succ] at hret
    obtain ⟨dv, hdv, hret1⟩ := bind_eq_ok hret
    obtain ⟨sv, hsv, hret2⟩ := bind_eq_ok hret1
    obtain ⟨h1, hrc, hret3⟩ := bind_eq_ok hret2
    obtain ⟨sd, hsd, hdve⟩ := Index_inv hdv
    rw [hdr_of_load h _ _ (load_mem h _ b p false c1 _ hb hc1)] at hsd
    cases hsd
    obtain ⟨ss, _, hsve⟩ := Index_inv hsv
    subst hdve; subst hsve
    obtain ⟨hlen1, hfr1, ca1, ha1, _⟩ := hw e h s1.base _ _ false h1 ca hrc ha
    have hbl : b < h.length := lt_of_cell hb
    obtain ⟨hlen2, hfr2, ca2, ha2⟩ :=
      copyElems_write rc hw nm e b p sst c1 s1 hc1 hne m (i + 1) h1 h2 ca1 hret3
        (by rw [hfr1 b hbl hne]; exact hb) ha1
    refine ⟨by omega, ?_, ca2, ha2⟩
    intro x hx hxe
    rw [hfr2 x (by omega) hxe, hfr1 x hx hxe]

theorem slice_write (fuel : Nat) (hw : WriteSpec (rcopy fuel)) (nm : Option TName) (e : Ty)
    (h : Heap) (b : Nat) (p : List Nat) (sst : Store) (root : Bool) (h2 : Heap) (c : Val)
    (hret : rcopy (fuel + 1) h (some ⟨.slice nm e, .mem b p, false⟩)
      (some ⟨.slice nm e, sst, false⟩) root = .ok h2)
    (hb : h[b]? = some (.cell c)) :
    h.length ≤ h2.length ∧ (∀ a, a < h.length → a ≠ b → h2[a]? = h[a]?) ∧
    ∃ c2, h2[b]? = some (.cell c2) ∧ Within p c c2 := by
  have hbl : b < h.length := lt_of_cell hb
  rw [rcopy_slice_eq] at hret
  obtain ⟨n, _, hret1⟩ := bind_eq_ok hret
  obtain ⟨cp, _, hret2⟩ := bind_eq_ok hret1
  obtain ⟨r, hr, hret3⟩ := bind_eq_ok hret2
  obtain ⟨h1, hset, hret4⟩ := bind_eq_ok hret3
  obtain ⟨n2, _, hret5⟩ := bind_eq_ok hret4
  have hre := MakeSlice_inv hr
  subst hre
  simp only at hset
  obtain ⟨hlen, hfr, w, c1, hwl, hc1, hb1⟩ :=
    Set_frame hset (by rw [getElem?_alloc_old h _ b hbl]; exact hb)
  rw [load_imm] at hwl
  cases hwl
  simp only [List.length_append, List.length_singleton] at hlen
  have hnew : h1[h.length]? = some (.cell (.agg (List.replicate cp e.zero))) := by
    rw [hfr _ (by omega)]; exact getElem?_alloc_new h _
  obtain ⟨hlen2, hfr2, _, _⟩ :=
    copyElems_write (rcopy fuel) hw nm e b p sst c1 ⟨h.length, 0, n, cp⟩
      (Val.get_put_same p c _ c1 hc1) (by simp; omega) n2 0 h1 h2 _ hret5 hb1 hnew
  simp only at hfr2
  refine ⟨by omega, ?_, c1, ?_, Within.of_put hc1⟩
  · intro x hx hxe
    rw [hfr2 x (by omega) (by omega), hfr x hxe, getElem?_alloc_old h _ x hx]
  · rw [hfr2 b (by omega) (by omega)]; exact hb1

theorem MapKeys_inv {h : Heap} {nm : Option TName} {kt vt : Ty} {st : Store}
    {ks : List Value} (hk : Value.MapKeys h ⟨.map nm kt vt, st, false⟩ = .ok ks) :
    ∃ kvs : List (Val × Val), ks = (kvs.map Prod.fst).map (fun k => ⟨kt, .imm k, false⟩) := by
  simp only [Value.MapKeys] at hk
  obtain ⟨kvs, _, hm⟩ := bind_eq_ok hk
  simp only [Res.ok.injEq] at hm
  exact ⟨kvs, by rw [← hm, List.map_map]; rfl⟩

theorem MapIndex_inv {h : Heap} {nm : Option TName} {kt vt : Ty} {st : Store} {ro : Bool}
    {k sv : Value} (hi : Value.MapIndex h ⟨.map nm kt vt, st, ro⟩ k = .ok (some sv)) :
    ∃ x, sv = ⟨vt, .imm x, ro || k.ro⟩ := by
  simp only [Value.MapIndex] at hi
  split at hi
  · obtain ⟨kvs, _, hi⟩ := bind_eq_ok hi
    obtain ⟨kv, _, hi⟩ := bind_eq_ok hi
    split at hi
    · simp at hi
    · split at hi
      · simp only [Res.ok.injEq, Option.some.injEq] at hi
        exact ⟨_, hi.symm⟩
      · simp at hi
  · simp at hi

theorem SetMapIndex_inv {h : Heap} {nm : Option TName} {kt vt : Ty} {st : Store}
    {k x : Value} {h3 : Heap}
    (hs : Value.SetMapIndex h ⟨.map nm kt vt, st, false⟩ k x = .ok h3) :
    ∃ a E E2, Value.load h ⟨.map nm kt vt, st, false⟩ = .ok (.atom (.map (some a))) ∧
      h[a]? = some (.map E) ∧ h3 = h.set a (.map E2) := by
  simp only [Value.SetMapIndex] at hs
  split at hs
  · simp at hs
  · split at hs
    · simp at hs
    · split at hs
      · simp at hs
      · split at hs
        · simp at hs
        · obtain ⟨m, hm, hs1⟩ := bind_eq_ok hs
          obtain ⟨kv, _, hs2⟩ := bind_eq_ok hs1
          obtain ⟨xv, _, hs3⟩ := bind_eq_ok hs2
          cases m with
          | agg xs => simp at hs3
          | atom x =>
            cases x with
            | map ao =>
              cases ao with
              | none => simp at hs3
              | some a =>
                simp only at hs3
                obtain ⟨E, hE, hs4⟩ := bind_eq_ok hs3
                simp only [Res.ok.injEq] at hs4
                refine ⟨a, E, _, hm, ?_, hs4.symm⟩
                simp only [Heap.mapAt] at hE
                split at hE
                · rename_i kvs hkvs
                  simp only [Res.ok.injEq] at hE
                  rw [← hE]; exact hkvs
                · simp at hE
            | _ => simp at hs3

/-- The loop over the keys of a map writes in the new map and in new
variables only. -/
theorem copyEntries_write (rc : Heap → Option Value → Option Value → Bool → Res Heap)
    (hw : WriteSpec rc) (nm : Option TName) (kt vt : Ty) (b : Nat) (p : List Nat)
    (sst : Store) (c1 : Val) (a1 : Nat) (hc1 : c1.get p = some (.atom (.map (some a1))))
    (hne : b ≠ a1) :
    ∀ (ks : List Val) (h h2 : Heap) (E : List (Val × Val)),
      copyEntries rc ⟨.map nm kt vt, .mem b p, false⟩ ⟨.map nm kt vt, sst, false⟩
        (ks.map (fun k => ⟨kt, .imm k, false⟩)) h = .ok h2 →
      h[b]? = some (.cell c1) → h[a1]? = some (.map E) →
      h.length ≤ h2.length ∧ (∀ x, x < h.length → x ≠ a1 → h2[x]? = h[x]?) ∧
      ∃ E2, h2[a1]? = some (.map E2)
  | [], h, h2, E, hret, _, ha => by
    rw [List.map_nil, copyEntries_nil] at hret
    cases hret
    exact ⟨Nat.le_refl _, fun _ _ _ => rfl, E, ha⟩
  | k :: ks, h, h2, E, hret, hb, ha => by
    have hbl : b < h.length := lt_of_cell hb
    have hal : a1 < h.length := lt_of_cell ha
    rw [List.map_cons, copyEntries_cons] at hret
    obtain ⟨v, hv, hret1⟩ := bind_eq_ok hret
    cases v with
    | none => simp at hret1
    | some sv =>
      simp only at hret1
      obtain ⟨x, hsv⟩ := MapIndex_inv hv
      subst hsv
      simp only [Bool.or_false] at hret1
      obtain ⟨h1, hrc, hret2⟩ := bind_eq_ok hret1
      obtain ⟨h3, hset, hret3⟩ := bind_eq_ok hret2
      obtain ⟨hlen1, hfr1, _, _, _⟩ :=
        hw vt (h ++ [Obj.cell vt.zero]) h.length [] (.imm x) false h1 vt.zero hrc
          (getElem?_alloc_new h _)
      simp only [List.length_append, List.length_singleton] at hlen1 hfr1
      have hold : ∀ y, y < h.length → h1[y]? = h[y]? := by
        intro y hy
        rw [hfr1 y (by omega) (by omega), getElem?_alloc_old h _ y hy]
      obtain ⟨a, E1, E2, hl, hE1, h3e⟩ := SetMapIndex_inv hset
      rw [load_mem h1 _ b p false c1 _ (by rw [hold b hbl]; exact hb) hc1] at hl
      cases hl
      subst h3e
      obtain ⟨hlen2, hfr2, E3, hE3⟩ :=
        copyEntries_write rc hw nm kt vt b p sst c1 a1 hc1 hne ks _ h2 E2 hret3
          (by rw [getElem?_set_other h1 a1 b _ hne, hold b hbl]; exact hb)
          (getElem?_set_here h1 a1 _ (by omega))
      simp only [List.length_set] at hlen2 hfr2
      refine ⟨by omega, ?_, E3, hE3⟩
      intro y hy hye
      rw [hfr2 y (by omega) hye, getElem?_set_other h1 a1 y _ hye, hold y hy]

theorem map_write (fuel : Nat) (hw : WriteSpec (rcopy fuel)) (nm : Option TName) (kt vt : Ty)
    (h : Heap) (b : Nat) (p : List Nat) (sst : Store) (root : Bool) (h2 : Heap) (c : Val)
    (hret : rcopy (fuel + 1) h (some ⟨.map nm kt vt, .mem b p, false⟩)
      (some ⟨.map nm kt vt, sst, false⟩) root = .ok h2)
    (hb : h[b]? = some (.cell c)) :
    h.length ≤ h2.length ∧ (∀ a, a < h.length → a ≠ b → h2[a]? = h[a]?) ∧
    ∃ c2, h2[b]? = some (.cell c2) ∧ Within p c c2 := by
  have hbl : b < h.length := lt_of_cell hb
  rw [rcopy_map_eq] at hret
  obtain ⟨h1, hset, hret1⟩ := bind_eq_ok hret
  obtain ⟨ks, hks, hret2⟩ := bind_eq_ok hret1
  obtain ⟨hlen, hfr, w, c1, hwl, hc1, hb1⟩ :=
    Set_frame hset (by rw [getElem?_alloc_old h _ b hbl]; exact hb)
  rw [load_imm] at hwl
  cases hwl
  simp only [List.length_append, List.length_singleton] at hlen
  have hnew : h1[h.length]? = some (.map []) := by
    rw [hfr _ (by omega)]; exact getElem?_alloc_new h _
  obtain ⟨kvs, hkse⟩ := MapKeys_inv hks
  subst hkse
  obtain ⟨hlen2, hfr2, _, _⟩ :=
    copyEntries_write (rcopy fuel) hw nm kt vt b p sst c1 h.length
      (Val.get_put_same p c _ c1 hc1) (by omega) (kvs.map Prod.fst) h1 h2 [] hret2 hb1 hnew
  refine ⟨by omega, ?_, c1, ?_, Within.of_put hc1⟩
  · intro x hx hxe
    rw [hfr2 x (by omega) (by omega), hfr x hxe, getElem?_alloc_old h _ x hx]
  · rw [hfr2 b (by omega) (by omega)]; exact hb1

/-- On a destination of the source's type that is a place in a variable,
`rcopy` writes in that place and in new variables and maps only. -/
theorem rcopy_write : ∀ (fuel : Nat), WriteSpec (rcopy fuel)
  | 0 => by
    intro T h b p sst root h2 c hret
    simp [rcopy] at hret
  | fuel + 1 => by
    intro T h b p sst root h2 c hret hb
    cases T with
    | basic nm bk => exact leaf_write fuel (.basic nm bk) rfl h b p sst root h2 c hret hb
    | array nm k e => exact leaf_write fuel (.array nm k e) rfl h b p sst root h2 c hret hb
    | ptr nm e => exact ptr_write fuel (rcopy_write fuel) nm e h b p sst root h2 c hret hb
    | struct nm fs =>
      exact struct_write fuel (rcopy_write fuel) (rcopy_ro fuel) nm fs h b p sst root h2 c
        hret hb
    | slice nm e => exact slice_write fuel (rcopy_write fuel) nm e h b p sst root h2 c hret hb
    | map nm kt vt =>
      exact map_write fuel (rcopy_write fuel) nm kt vt h b p sst root h2 c hret hb

/-! ## What a nil source pointer does -/

theorem get_of_load {h : Heap} {T : Ty} {b : Nat} {p : List Nat} {ro : Bool} {c x : Val}
    (hl : Value.load h ⟨T, .mem b p, ro⟩ = .ok x) (hb : h[b]? = some (.cell c)) :
    c.get p = some x := by
  simp only [Value.load, Heap.cellAt, hb, ok_bind] at hl
  split at hl
  · rename_i y hy
    simp only [Res.ok.injEq] at hl
    rw [hy, hl]
  · simp at hl

theorem set_same_cell {h : Heap} {b : Nat} {c : Val} (hb : h[b]? = some (.cell c)) :
    h.set b (.cell c) = h :=
  set_same_of_getElem? h b _ hb

/-- A nil source pointer paired with a settable destination pointer of the
same type: when `rcopy` returns, memory is as before. -/
theorem rcopy_nil_src (fuel : Nat) (h : Heap) (nm : Option TName) (e : Ty) (b : Nat)
    (p : List Nat) (sst : Store) (root : Bool) (h2 : Heap) (c : Val)
    (hret : rcopy (fuel + 1) h (some ⟨.ptr nm e, .mem b p, false⟩)
      (some ⟨.ptr nm e, sst, false⟩) root = .ok h2)
    (hs : Value.load h ⟨.ptr nm e, sst, false⟩ = .ok (.atom (.ptr none)))
    (hb : h[b]? = some (.cell c)) : h2 = h := by
  rw [rcopy_ptr_eq] at hret
  cases hr : (Ty.ptr nm e).isReader with
  | true =>
    simp only [hr, if_true] at hret
    obtain ⟨de, hde, hset⟩ := bind_eq_ok hret
    rcases Elem_inv hde with ⟨hd, hdl⟩ | ⟨a, hd, _⟩
    · subst hd
      simp only [CanSet, Bool.false_eq_true, if_false] at hset
      obtain ⟨w, c2, hwl, hc2, h2e⟩ := Set_inv hset hb
      rw [hs] at hwl
      cases hwl
      rw [Val.put_get_same p c _ (get_of_load hdl hb)] at hc2
      cases hc2
      rw [h2e, set_same_cell hb]
    · subst hd
      simp [CanSet, Value.addressable, Value.Set, not_assignable_ptr_self] at hset
  | false =>
    simp only [hr, Bool.false_eq_true, if_false] at hret
    rw [IsNil_ptr h _ sst false none hs] at hret
    simp only [Option.isNone, ok_bind, Bool.not_true, Bool.false_eq_true, if_false] at hret
    rw [Elem_nil h nm e sst false hs] at hret
    simp only [ok_bind, Res.ok.injEq] at hret
    exact hret.symm

theorem findField_index (name : String) : ∀ (fs : List (String × Ty)) (j : Nat) (t : Ty),
    findField name fs = some (j, t) → fs[j]? = some (name, t)
  | [], _, _, h => by simp [findField] at h
  | f :: r, j, t, h => by
    rw [findField] at h
    split at h
    · rename_i hn
      simp only [Option.some.injEq, Prod.mk.injEq] at h
      obtain ⟨hj, ht⟩ := h
      subst hj; subst ht
      simp [← hn]
    · cases hr : findField name r with
      | none => simp [hr] at h
      | some jt =>
        obtain ⟨j2, t2⟩ := jt
        simp only [hr, Option.some.injEq, Prod.mk.injEq] at h
        obtain ⟨hj, ht⟩ := h
        subst hj; subst ht
        simp only [List.getElem?_cons_succ]
        exact findField_index name r j2 t2 hr

theorem findField_none (name : String) : ∀ (fs : List (String × Ty)),
    findField name fs = none → name ∉ fieldNames fs
  | [], _ => by simp [fieldNames]
  | f :: r, h => by
    rw [findField] at h
    split at h
    · simp at h
    · rename_i hn
      cases hr : findField name r with
      | none =>
        have := findField_none name r hr
        simp only [fieldNames, List.map_cons, List.mem_cons, not_or] at this ⊢
        exact ⟨fun e => hn e.symm, this⟩
      | some jt => simp [hr] at h

/-- The loop over the fields of a struct and one place `p ++ i0 :: q1` below
its field `F`: when the call on `F` leaves (`strict`) or makes (not `strict`)
the value `vK` there, the value is there after the loop. -/
theorem copyFields_field (rc : Heap → Option Value → Option Value → Bool → Res Heap)
    (hw : WriteSpec rc) (hro : RoSpec rc) (nm : Option TName) (fs : List (String × Ty))
    (b : Nat) (p : List Nat) (ps : Nat) (q : List Nat) (F : String) (i0 : Nat) (tF : Ty)
    (q1 : List Nat) (vK cs : Val) (strict : Prop)
    (hF : findField F fs = some (i0, tF)) (hne : ps ≠ b)
    (hin : ∀ h h2 c, h[b]? = some (.cell c) → h[ps]? = some (.cell cs) →
      (strict → c.get (p ++ i0 :: q1) = some vK) →
      rc h (some ⟨tF, .mem b (p ++ [i0]), false⟩) (some ⟨tF, .mem ps (q ++ [i0]), false⟩)
        false = .ok h2 →
      ∃ c2, h2[b]? = some (.cell c2) ∧ c2.get (p ++ i0 :: q1) = some vK) :
    ∀ (rest : List (String × Ty)) (h h2 : Heap) (c : Val),
      copyFields rc ⟨.struct nm fs, .mem b p, false⟩ ⟨.struct nm fs, .mem ps q, false⟩ rest h =
        .ok h2 →
      h[b]? = some (.cell c) → h[ps]? = some (.cell cs) →
      ((¬ strict ∧ F ∈ fieldNames rest) ∨ c.get (p ++ i0 :: q1) = some vK) →
      h.length ≤ h2.length ∧ (∀ a, a < h.length → a ≠ b → h2[a]? = h[a]?) ∧
      ∃ c2, h2[b]? = some (.cell c2) ∧ c2.get (p ++ i0 :: q1) = some vK
  | [], h, h2, c, hret, hb, _, hK => by
    rw [copyFields_nil] at hret
    cases hret
    rcases hK with ⟨_, hm⟩ | hK
    · simp [fieldNames] at hm
    · exact ⟨Nat.le_refl _, fun _ _ _ => rfl, c, hb, hK⟩
  | f :: rest, h, h2, c, hret, hb, hs, hK => by
    have hpl : ps < h.length := lt_of_cell hs
    rw [copyFields_cons] at hret
    cases hfi : findField f.1 fs with
    | none =>
      have hsk : Value.FieldByName ⟨.struct nm fs, .mem ps q, false⟩ f.1 = .ok none := by
        simp [Value.FieldByName, hfi]
      rw [hsk] at hret
      simp only [ok_bind] at hret
      refine copyFields_field rc hw hro nm fs b p ps q F i0 tF q1 vK cs strict hF hne hin rest
        h h2 c hret hb hs ?_
      rcases hK with ⟨hns, hm⟩ | hK
      · left
        refine ⟨hns, ?_⟩
        simp only [fieldNames, List.map_cons, List.mem_cons] at hm
        rcases hm with hm | hm
        · rw [hm, hfi] at hF; cases hF
        · exact hm
      · exact Or.inr hK
    | some jt =>
      obtain ⟨j, t⟩ := jt
      rw [FieldByName_mem nm fs ps q false f.1 j t hfi,
        FieldByName_mem nm fs b p false f.1 j t hfi] at hret
      simp only [ok_bind, Bool.false_or] at hret
      obtain ⟨h1, hrc, hret1⟩ := bind_eq_ok hret
      cases hex : exported f.1 with
      | false =>
        simp only [hex, Bool.not_false] at hrc
        exact absurd hrc (hro t h _ _ h1)
      | true =>
        simp only [hex, Bool.not_true] at hrc
        obtain ⟨hlen1, hfr1, c1, hb1, hw1⟩ := hw t h b (p ++ [j]) _ false h1 c hrc hb
        have hs1 : h1[ps]? = some (.cell cs) := by rw [hfr1 ps hpl hne]; exact hs
        have hK1 : (¬ strict ∧ F ∈ fieldNames rest) ∨ c1.get (p ++ i0 :: q1) = some vK := by
          by_cases hj : j = i0
          · subst hj
            have h1' := findField_index f.1 fs j t hfi
            rw [findField_index F fs j tF hF] at h1'
            simp only [Option.some.injEq, Prod.mk.injEq] at h1'
            obtain ⟨_, ht⟩ := h1'
            subst ht
            obtain ⟨c2, hb2, hK2⟩ := hin h h1 c hb hs (fun hst => by
              rcases hK with ⟨hns, _⟩ | hK
              · exact absurd hst hns
              · exact hK) hrc
            rw [hb1] at hb2
            cases hb2
            exact Or.inr hK2
          · rcases hK with ⟨hns, hm⟩ | hK
            · left
              refine ⟨hns, ?_⟩
              simp only [fieldNames, List.map_cons, List.mem_cons] at hm
              rcases hm with hm | hm
              · rw [hm, hfi] at hF
                simp only [Option.some.injEq, Prod.mk.injEq] at hF
                exact absurd hF.1 hj
              · exact hm
            · right
              rw [Within.get_other q1 hj hw1]
              exact hK
        obtain ⟨hlen2, hfr2, c2, hb2, hK2⟩ :=
          copyFields_field rc hw hro nm fs b p ps q F i0 tF q1 vK cs strict hF hne hin rest
            h1 h2 c1 hret1 hb1 hs1 hK1
        refine ⟨by omega, ?_, c2, hb2, hK2⟩
        intro a ha hae
        rw [hfr2 a (by omega) hae, hfr1 a ha hae]

theorem zeroFields_get (name : String) : ∀ (fs : List (String × Ty)) (j : Nat) (t : Ty),
    findField name fs = some (j, t) → (Ty.zeroFields fs)[j]? = some t.zero
  | [], _, _, h => by simp [findField] at h
  | f :: r, j, t, h => by
    rw [findField] at h
    rw [zeroFields_cons]
    split at h
    · simp only [Option.some.injEq, Prod.mk.injEq] at h
      obtain ⟨hj, ht⟩ := h
      subst hj; subst ht
      simp
    · cases hr : findField name r with
      | none => simp [hr] at h
      | some jt =>
        obtain ⟨j2, t2⟩ := jt
        simp only [hr, Option.some.injEq, Prod.mk.injEq] at h
        obtain ⟨hj, ht⟩ := h
        subst hj; subst ht
        simp only [List.getElem?_cons_succ]
        exact zeroFields_get name r j2 t2 hr

/-- Below the root, the copy of a struct whose pointer field `F` is nil in the
source has a nil `F`, whatever the destination held. -/
theorem rcopy_struct_nil_field (fuel : Nat) (nmU : Option TName) (fsU : List (String × Ty))
    (b : Nat) (p : List Nat) (ps : Nat) (q : List Nat) (F : String) (j : Nat)
    (nmF : Option TName) (eF : Ty) (cs : Val) (h h2 : Heap) (c : Val)
    (hF : findField F fsU = some (j, .ptr nmF eF)) (hne : ps ≠ b)
    (hsF : cs.get (q ++ [j]) = some (.atom (.ptr none)))
    (hret : rcopy (fuel + 1) h (some ⟨.struct nmU fsU, .mem b p, false⟩)
      (some ⟨.struct nmU fsU, .mem ps q, false⟩) false = .ok h2)
    (hb : h[b]? = some (.cell c)) (hs : h[ps]? = some (.cell cs)) :
    ∃ c2, h2[b]? = some (.cell c2) ∧ c2.get (p ++ [j]) = some (.atom (.ptr none)) := by
  have hbl : b < h.length := lt_of_cell hb
  have hpl : ps < h.length := lt_of_cell hs
  rw [rcopy_struct_eq] at hret
  obtain ⟨h1, hset, hret1⟩ := bind_eq_ok hret
  simp only [Bool.not_false, if_true] at hset
  obtain ⟨hlen, hfr, w, c1, hwl, hc1, hb1⟩ :=
    Set_frame hset (by rw [getElem?_alloc_old h _ b hbl]; exact hb)
  rw [load_mem (h ++ [Obj.cell (Ty.struct nmU fsU).zero]) _ h.length [] false _ _
    (getElem?_alloc_new h _) (Val.get_nil _)] at hwl
  cases hwl
  have hs1 : h1[ps]? = some (.cell cs) := by
    rw [hfr ps hne, getElem?_alloc_old h _ ps hpl]; exact hs
  have hK1 : c1.get (p ++ [j]) = some (.atom (.ptr none)) := by
    rw [Val.get_append, Val.get_put_same p c _ c1 hc1, zero_struct]
    simp only
    rw [Val.get_agg_one, zeroFields_get F fsU j _ hF]
    rfl
  obtain ⟨_, _, c2, hb2, hK2⟩ :=
    copyFields_field (rcopy fuel) (rcopy_write fuel) (rcopy_ro fuel) nmU fsU b p ps q F j
      (.ptr nmF eF) [] (.atom (.ptr none)) cs True hF hne
      (by
        intro h3 h4 c3 hb3 hs3 hK3 hrc
        cases fuel with
        | zero => simp [rcopy] at hrc
        | succ k =>
          have := rcopy_nil_src k h3 nmF eF b (p ++ [j]) (.mem ps (q ++ [j])) false h4 c3 hrc
            (load_mem h3 _ ps (q ++ [j]) false cs _ hs3 hsF) hb3
          subst this
          exact ⟨c3, hb3, hK3 trivial⟩)
      fsU h1 h2 c1 hret1 hb1 hs1 (Or.inr hK1)
  exact ⟨c2, hb2, hK2⟩

/-- `Copy(&dst, &src)` when `&src` is not an `io.Reader`: `rcopy` on the two
variables, at the root. -/
theorem Copy_ptr_eq (fuel : Nat) (h : Heap) (nmd nms : Option TName) (T : Ty) (b ps : Nat)
    (hr : (Ty.ptr nms T).isReader = false) :
    Copy (fuel + 1) h (some (.ptr nmd T, .atom (.ptr (some b))))
        (some (.ptr nms T, .atom (.ptr (some ps)))) =
      rcopy fuel h (some ⟨T, .mem b [], false⟩) (some ⟨T, .mem ps [], false⟩) true := by
  simp only [Copy, ValueOf]
  rw [rcopy]
  simp [Ty.Kind, Value.Interface, hr, Value.Elem, Value.load, CanSet, Value.addressable,
    Value.IsNil, Ty.Elem]

/-- `Copy(&dst, &src)` when `&src` is an `io.Reader` does not return. -/
theorem Copy_ptr_reader (fuel : Nat) (h : Heap) (nmd nms : Option TName) (T : Ty) (b ps : Nat)
    (hr : (Ty.ptr nms T).isReader = true) (h2 : Heap) :
    Copy fuel h (some (.ptr nmd T, .atom (.ptr (some b))))
        (some (.ptr nms T, .atom (.ptr (some ps)))) ≠ .ok h2 := by
  intro hret
  cases fuel with
  | zero => simp [Copy, ValueOf, rcopy] at hret
  | succ fuel =>
    simp only [Copy, ValueOf] at hret
    rw [rcopy] at hret
    simp [Ty.Kind, Value.Interface, hr, Value.Elem, Value.load, CanSet, Value.addressable,
      Value.Set, not_assignable_ptr_self] at hret

/-! ## Streams and results of `CopyOf` -/

/-- A source pointer that is an `io.Reader`, paired with a settable
destination of its type: when `rcopy` returns, the destination holds the
source pointer. -/
theorem rcopy_reader_set (fuel : Nat) (h : Heap) (tF : Ty) (b : Nat) (p : List Nat)
    (sst : Store) (root : Bool) (h2 : Heap) (c v : Val) (hR : tF.isReader = true)
    (hret : rcopy (fuel + 1) h (some ⟨tF, .mem b p, false⟩) (some ⟨tF, sst, false⟩) root =
      .ok h2)
    (hs : Value.load h ⟨tF, sst, false⟩ = .ok v) (hb : h[b]? = some (.cell c)) :
    ∃ c2, h2[b]? = some (.cell c2) ∧ c2.get p = some v := by
  cases tF with
  | ptr nm e =>
    rw [rcopy_ptr_eq] at hret
    simp only [hR, if_true] at hret
    obtain ⟨de, hde, hset⟩ := bind_eq_ok hret
    rcases Elem_inv hde with ⟨hd, _⟩ | ⟨a, hd, _⟩
    · subst hd
      simp only [CanSet, Bool.false_eq_true, if_false] at hset
      obtain ⟨_, _, w, c2, hwl, hc2, hb2⟩ := Set_frame hset hb
      rw [hs] at hwl
      cases hwl
      exact ⟨c2, hb2, Val.get_put_same p c _ c2 hc2⟩
    · subst hd
      simp [CanSet, Value.addressable, Value.Set, not_assignable_ptr_self] at hset
  | _ => simp [Ty.isReader] at hR

/-- The struct case at the root and a field `F` that is an `io.Reader`: when
`rcopy` returns, the destination's `F` is the source's pointer and the old
memory outside the destination is as before. -/
theorem rcopy_reader_field (fuel : Nat) (h : Heap) (nmT : Option TName)
    (fs : List (String × Ty)) (b ps : Nat) (cd cs : Val) (F : String) (i : Nat) (tF : Ty)
    (v : Val) (h2 : Heap)
    (hF : findField F fs = some (i, tF)) (hR : tF.isReader = true)
    (hb : h[b]? = some (.cell cd)) (hs : h[ps]? = some (.cell cs)) (hne : ps ≠ b)
    (hx : cs.get [i] = some v)
    (hret : rcopy fuel h (some ⟨.struct nmT fs, .mem b [], false⟩)
      (some ⟨.struct nmT fs, .mem ps [], false⟩) true = .ok h2) :
    (∀ x, x < h.length → x ≠ b → h2[x]? = h[x]?) ∧
    ∃ c2, h2[b]? = some (.cell c2) ∧ c2.get [i] = some v := by
  cases fuel with
  | zero => simp [rcopy] at hret
  | succ fuel =>
    rw [rcopy_struct_eq] at hret
    simp only [Bool.not_true, Bool.false_eq_true, if_false, ok_bind] at hret
    obtain ⟨_, hfr, c2, hb2, hK2⟩ :=
      copyFields_field (rcopy fuel) (rcopy_write fuel) (rcopy_ro fuel) nmT fs b [] ps []
        F i tF [] v cs False hF hne
        (by
          intro h3 h4 c3 hb3 hs3 _ hrc
          cases fuel with
          | zero => simp [rcopy] at hrc
          | succ k =>
            exact rcopy_reader_set k h3 tF b [i] (.mem ps [i]) false h4 c3 v hR hrc
              (load_mem h3 _ ps [i] false cs _ hs3 hx) hb3)
        fs h h2 cd hret hb hs
        (Or.inl ⟨not_false, by
          have := findField_index F fs i _ hF
          exact List.mem_map.mpr ⟨_, List.mem_iff_getElem?.mpr ⟨i, this⟩, rfl⟩⟩)
    exact ⟨hfr, c2, hb2, hK2⟩

/-- `Copy(&dst, &src)` returns for a well-formed source whose memory lies
below the variable `dst`, which holds the zero value. -/
theorem Copy_total (fuel : Nat) (h : Heap) (nmd nm : Option TName) (T : Ty) (b p : Nat)
    (hr : (Ty.ptr nm T).isReader = false) (hd : T.depth + 1 < fuel)
    (hT : T.namesOK = true) (hE : T.exportedOnly = true)
    (hwf : Owned 0 b h (.ptr nm T) (.atom (.ptr (some p))) = true)
    (hb : h[b]? = some (.cell T.zero)) :
    ∃ h2, Copy fuel h (some (.ptr nmd T, .atom (.ptr (some b))))
      (some (.ptr nm T, .atom (.ptr (some p)))) = .ok h2 := by
  obtain ⟨k, rfl⟩ : ∃ k, fuel = k + 1 := ⟨fuel - 1, by omega⟩
  rw [Copy_ptr_eq k h nmd nm T b p hr]
  rcases Owned_ptr hwf hr with hv | ⟨a, vp, hv, _, hpn, hp, hop⟩
  · cases hv
  · cases hv
    exact rcopy_total k h b T h b [] (.mem p []) true vp T.zero (by omega) hT hE
      (Nat.le_refl _) (fun _ _ => rfl) ⟨hpn, vp, hp, Val.get_nil _⟩ hop hb (Val.get_nil _)

/-! ## Values without NaN -/

theorem floatEq_self (ew mw n : Nat) (hn : nanBits ew mw n = false) :
    floatEq ew mw n n = true := by
  simp [floatEq, hn]

theorem eqBasic_self (b : Basic) (v : Val)
    (hn : ∀ n, v = .atom (.float n) → isNaN b n = false) : eqBasic b v v = true := by
  cases v with
  | agg xs => cases b <;> simp [eqBasic]
  | atom a =>
    cases a with
    | float n =>
      have := hn n rfl
      cases b <;> simp [eqBasic] <;> simp [isNaN] at this <;>
        simp [floatEq_self, this]
    | _ => cases b <;> simp [eqBasic]

theorem NoNaN_basic {h : Heap} {nm : Option TName} {b : Basic} {v : Val}
    (hv : NoNaN h (.basic nm b) v = true) :
    ∀ n, v = .atom (.float n) → isNaN b n = false := by
  intro n hn
  subst hn
  simpa [NoNaN] using hv

theorem NoNaN_ptr {h : Heap} {nm : Option TName} {e : Ty} {v : Val}
    (hv : NoNaN h (.ptr nm e) v = true) :
    v = .atom (.ptr none) ∨ ∃ a, v = .atom (.ptr (some a)) ∧
      ((Ty.ptr nm e).isReader = true ∨ ∃ u, h[a]? = some (.cell u) ∧ NoNaN h e u = true) := by
  cases v with
  | agg xs => simp [NoNaN] at hv
  | atom x =>
    cases x with
    | ptr ao =>
      cases ao with
      | none => exact Or.inl rfl
      | some a =>
        refine Or.inr ⟨a, rfl, ?_⟩
        rw [NoNaN, Bool.or_eq_true] at hv
        rcases hv with hv | hv
        · exact Or.inl hv
        · right
          split at hv
          · rename_i u hu
            exact ⟨u, hu, hv⟩
          · cases hv
    | _ => simp [NoNaN] at hv

theorem NoNaN_struct {h : Heap} {nm : Option TName} {fs : List (String × Ty)} {v : Val}
    (hv : NoNaN h (.struct nm fs) v = true) :
    ∃ xs, v = .agg xs ∧ NoNaNFields h fs xs = true := by
  cases v with
  | atom x => simp [NoNaN] at hv
  | agg xs => exact ⟨xs, rfl, by simpa [NoNaN] using hv⟩

theorem NoNaN_array {h : Heap} {nm : Option TName} {n : Nat} {e : Ty} {v : Val}
    (hv : NoNaN h (.array nm n e) v = true) :
    ∃ xs, v = .agg xs ∧ ∀ u, u ∈ xs → NoNaN h e u = true := by
  cases v with
  | atom x => simp [NoNaN] at hv
  | agg xs =>
    refine ⟨xs, rfl, ?_⟩
    rw [NoNaN, List.all_eq_true] at hv
    exact hv

theorem NoNaN_slice {h : Heap} {nm : Option TName} {e : Ty} {v : Val}
    (hv : NoNaN h (.slice nm e) v = true) :
    v = .atom (.slice none) ∨ ∃ s es, v = .atom (.slice (some s)) ∧
      h[s.base]? = some (.cell (.agg es)) ∧
      ∀ i, i < s.len → ∃ u, es[s.off + i]? = some u ∧ NoNaN h e u = true := by
  cases v with
  | agg xs => simp [NoNaN] at hv
  | atom x =>
    cases x with
    | slice so =>
      cases so with
      | none => exact Or.inl rfl
      | some s =>
        right
        rw [NoNaN] at hv
        split at hv
        · rename_i es hes
          refine ⟨s, es, rfl, hes, ?_⟩
          intro i hi
          rw [List.all_eq_true] at hv
          have := hv i (List.mem_range.mpr hi)
          split at this
          · rename_i u hu
            exact ⟨u, hu, this⟩
          · cases this
        · cases hv
    | _ => simp [NoNaN] at hv

theorem NoNaN_map {h : Heap} {nm : Option TName} {kt vt : Ty} {v : Val}
    (hv : NoNaN h (.map nm kt vt) v = true) :
    v = .atom (.map none) ∨ ∃ a kvs, v = .atom (.map (some a)) ∧
      h[a]? = some (.map kvs) ∧
      ∀ k u, lookup k kvs = some u → NoNaN h vt u = true := by
  cases v with
  | agg xs => simp [NoNaN] at hv
  | atom x =>
    cases x with
    | map ao =>
      cases ao with
      | none => exact Or.inl rfl
      | some a =>
        right
        rw [NoNaN] at hv
        split at hv
        · rename_i kvs hkvs
          refine ⟨a, kvs, rfl, hkvs, ?_⟩
          intro k u hk
          rw [List.all_eq_true] at hv
          have := hv (k, u) (lookup_mem k u kvs hk)
          simp only [Bool.and_eq_true] at this
          have h2 := this.2
          rw [hk] at h2
          exact h2
        · cases hv
    | _ => simp [NoNaN] at hv

mutual
/-- A value of the shape of its type that holds no NaN is deeply equal to
itself, whatever the memory. -/
theorem DeepEqual_self {h h2 : Heap} :
    ∀ (T : Ty) (v : Val), NoNaN h T v = true → DeepEqual h2 T v v = true
  | .basic _ b, v, hv => by
    rw [DeepEqual]
    exact eqBasic_self b v (NoNaN_basic hv)
  | .ptr nm e, v, hv => by
    rcases NoNaN_ptr hv with hv | ⟨a, hv, _⟩
    · subst hv; rw [DeepEqual]
    · subst hv; simp [DeepEqual]
  | .struct _ fs, v, hv => by
    obtain ⟨xs, hx, hf⟩ := NoNaN_struct hv
    subst hx
    rw [DeepEqual]
    exact DeepEqualFields_self fs xs hf
  | .array _ _ e, v, hv => by
    obtain ⟨xs, hx, hf⟩ := NoNaN_array hv
    subst hx
    rw [DeepEqual]
    simp only [beq_self_eq_true, Bool.true_and, List.all_eq_true, List.mem_range]
    intro i hi
    rw [List.getElem?_eq_getElem hi]
    exact DeepEqual_self e _ (hf _ (List.getElem_mem _))
  | .slice _ e, v, hv => by
    rcases NoNaN_slice hv with hv | ⟨s, es, hv, _⟩
    · subst hv; rw [DeepEqual]
    · subst hv; simp [DeepEqual]
  | .map _ kt vt, v, hv => by
    rcases NoNaN_map hv with hv | ⟨a, kvs, hv, _⟩
    · subst hv; rw [DeepEqual]
    · subst hv; simp [DeepEqual]
/-- See `DeepEqual_self`. -/
theorem DeepEqualFields_self {h h2 : Heap} :
    ∀ (fs : List (String × Ty)) (xs : List Val), NoNaNFields h fs xs = true →
      DeepEqualFields h2 fs xs xs = true
  | [], [], _ => by rw [DeepEqualFields]
  | [], _ :: _, hv => by simp [NoNaNFields] at hv
  | _ :: _, [], hv => by simp [NoNaNFields] at hv
  | f :: r, x :: xs, hv => by
    rw [NoNaNFields, Bool.and_eq_true] at hv
    rw [DeepEqualFields, Bool.and_eq_true]
    exact ⟨DeepEqual_self f.2 x hv.1, DeepEqualFields_self r xs hv.2⟩
end

theorem lookup_of_mem_nodup : ∀ (kvs : List (Val × Val)) (kv : Val × Val),
    (kvs.map Prod.fst).Nodup → kv ∈ kvs → lookup kv.1 kvs = some kv.2
  | [], kv, _, hm => by simp at hm
  | e :: r, kv, hnd, hm => by
    rw [lookup]
    simp only [List.map_cons, List.nodup_cons] at hnd
    rcases List.mem_cons.mp hm with hm | hm
    · subst hm; simp
    · have : e.1 ≠ kv.1 := by
        intro he
        exact hnd.1 (he ▸ List.mem_map_of_mem Prod.fst hm)
      simp only [this, if_false]
      exact lookup_of_mem_nodup r kv hnd.2 hm

theorem lookup_none_of_not_key (k : Val) : ∀ (kvs : List (Val × Val)),
    lookup k kvs = none → k ∉ kvs.map Prod.fst := by
  intro kvs hl hk
  obtain ⟨u, hu⟩ := lookup_of_key k kvs hk
  rw [hl] at hu
  cases hu

theorem length_eq_of_same_keys (l1 l2 : List (Val × Val))
    (h1 : (l1.map Prod.fst).Nodup) (h2 : (l2.map Prod.fst).Nodup)
    (hk : ∀ k, k ∈ l1.map Prod.fst ↔ k ∈ l2.map Prod.fst) : l1.length = l2.length := by
  have := ((List.perm_ext_iff_of_nodup h1 h2).mpr hk).length_eq
  simpa using this

theorem nil_of_lookup_none (l : List (Val × Val)) (hl : ∀ k, lookup k l = none) : l = [] := by
  cases l with
  | nil => rfl
  | cons e r =>
    have := hl e.1
    simp [lookup] at this

mutual
/-- What a value owns stays owned in a wider range of addresses and in a
memory that holds the same in the old range. -/
theorem Owned_weaken {lo hi lo2 hi2 : Nat} {h h2 : Heap} (hlo : lo2 ≤ lo) (hhi : hi ≤ hi2)
    (hag : ∀ a, lo ≤ a → a < hi → h2[a]? = h[a]?) :
    ∀ (T : Ty) (v : Val), Owned lo hi h T v = true → Owned lo2 hi2 h2 T v = true
  | .basic _ _, v, _ => by rw [Owned]
  | .ptr nm e, v, ho => by
    cases hr : (Ty.ptr nm e).isReader with
    | true => unfold Owned; simp [hr]
    | false =>
      rcases Owned_ptr ho hr with hv | ⟨a, u, hv, h1, h2', hu, hou⟩
      · subst hv; unfold Owned; simp
      · subst hv
        unfold Owned
        have g1 : lo2 ≤ a := by omega
        have g2 : a < hi2 := by omega
        simp only [hr, Bool.false_or, g1, g2, decide_True, Bool.and_self, Bool.true_and,
          hag a h1 h2', hu]
        exact Owned_weaken hlo hhi hag e u hou
  | .struct _ fs, v, ho => by
    obtain ⟨xs, hv, hf⟩ := Owned_struct ho
    subst hv
    rw [Owned]
    exact OwnedFields_weaken hlo hhi hag fs xs hf
  | .array _ _ e, v, ho => by
    cases v with
    | atom a => simp [Owned] at ho
    | agg xs =>
      rw [Owned] at ho ⊢
      apply List.all_eq_true.mpr
      intro u hu
      exact Owned_weaken hlo hhi hag e u (List.all_eq_true.mp ho u hu)
  | .slice _ e, v, ho => by
    rcases Owned_slice ho with hv | ⟨s, es, hv, h1, h2', hes, hel⟩
    · subst hv; rw [Owned]
    · subst hv
      have hcap := Owned_slice_cap ho
      have g1 : lo2 ≤ s.base := by omega
      have g2 : s.base < hi2 := by omega
      rw [Owned]
      simp only [g1, g2, hcap, decide_True, Bool.and_self, Bool.true_and, hag s.base h1 h2',
        hes]
      apply List.all_eq_true.mpr
      intro i hi
      obtain ⟨u, hu, hou⟩ := hel i (List.mem_range.mp hi)
      simp only [hu]
      exact Owned_weaken hlo hhi hag e u hou
  | .map _ _ vt, v, ho => by
    rcases Owned_map ho with hv | ⟨a, kvs, hv, h1, h2', hk, hel⟩
    · subst hv; rw [Owned]
    · subst hv
      have g1 : lo2 ≤ a := by omega
      have g2 : a < hi2 := by omega
      rw [Owned]
      simp only [g1, g2, decide_True, Bool.and_self, Bool.true_and, hag a h1 h2', hk]
      apply List.all_eq_true.mpr
      intro kv hkv
      obtain ⟨u, hu⟩ := key_lookup kv kvs hkv
      simp only [hu, Owned_map_keys ho hk kv.1 (List.mem_map.mpr ⟨kv, hkv, rfl⟩),
        Bool.not_false, Bool.true_and]
      exact Owned_weaken hlo hhi hag vt u (hel kv.1 u hu)
/-- See `Owned_weaken`. -/
theorem OwnedFields_weaken {lo hi lo2 hi2 : Nat} {h h2 : Heap} (hlo : lo2 ≤ lo)
    (hhi : hi ≤ hi2) (hag : ∀ a, lo ≤ a → a < hi → h2[a]? = h[a]?) :
    ∀ (fs : List (String × Ty)) (xs : List Val),
      OwnedFields lo hi h fs xs = true → OwnedFields lo2 hi2 h2 fs xs = true
  | [], [], _ => by rw [OwnedFields]
  | f :: r, x :: xs, ho => by
    rw [OwnedFields] at ho ⊢
    simp only [Bool.and_eq_true] at ho ⊢
    exact ⟨Owned_weaken hlo hhi hag f.2 x ho.1, OwnedFields_weaken hlo hhi hag r xs ho.2⟩
  | [], _ :: _, ho => by simp [OwnedFields] at ho
  | _ :: _, [], ho => by simp [OwnedFields] at ho
end

mutual
/-- A deep copy of a well-formed value is well formed: it owns new memory
and, below arrays, what the source owns. -/
theorem Image_wf {n lo hi : Nat} {h0 h : Heap} (hn : n ≤ hi)
    (hag : ∀ a, a < n → h[a]? = h0[a]?) :
    ∀ (T : Ty) (x y : Val), Owned 0 n h0 T x = true → Image lo hi h0 h T x y →
      Owned 0 hi h T y = true
  | .basic _ _, x, y, _, _ => by rw [Owned]
  | .array nm k e, x, y, ho, him => by
    unfold Image at him
    rw [him]
    exact Owned_weaken (Nat.le_refl 0) hn (fun a _ ha => hag a ha) _ x ho
  | .ptr nm e, x, y, ho, him => by
    cases hr : (Ty.ptr nm e).isReader with
    | true => unfold Owned; simp [hr]
    | false =>
      unfold Image at him
      simp only [hr, Bool.false_eq_true, if_false] at him
      rcases Owned_ptr ho hr with hv | ⟨a, u, hv, _, _, hu, hou⟩
      · subst hv
        simp only at him
        subst him
        unfold Owned; simp
      · subst hv
        simp only at him
        obtain ⟨a2, u2, w, hy, _, g2, hu2, hw, hiw⟩ := him
        subst hy
        rw [hu] at hu2
        cases hu2
        unfold Owned
        simp only [hr, Bool.false_or, g2, Nat.zero_le, decide_True, Bool.and_self,
          Bool.true_and, hw]
        exact Image_wf hn hag e u w hou hiw
  | .struct _ fs, x, y, ho, him => by
    unfold Image at him
    obtain ⟨xs, ys, hx, hy, hf⟩ := him
    subst hx hy
    rw [Owned] at ho ⊢
    exact ImageFields_wf hn hag fs xs ys ho hf
  | .slice _ e, x, y, ho, him => by
    unfold Image at him
    obtain ⟨a2, es2, _, g2, ha2, hm⟩ := him
    rcases Owned_slice ho with hv | ⟨s, es, hv, _, _, hes, hel⟩
    · subst hv
      simp only at hm
      obtain ⟨hy, _⟩ := hm
      subst hy
      rw [Owned]
      simp [g2, ha2]
    · subst hv
      simp only at hm
      obtain ⟨hy, hl2, es', hes', hel2, _⟩ := hm
      subst hy
      rw [hes] at hes'
      cases hes'
      have hcap := Owned_slice_cap ho
      rw [Owned]
      simp only [g2, hcap, ha2, Nat.zero_le, decide_True, Bool.and_self, Bool.true_and]
      apply List.all_eq_true.mpr
      intro i hi
      obtain ⟨u, w, hu, hw, hiw⟩ := hel2 i (List.mem_range.mp hi)
      obtain ⟨u', hu', hou⟩ := hel i (List.mem_range.mp hi)
      rw [hu] at hu'
      cases hu'
      simp only [Nat.zero_add, hw]
      exact Image_wf hn hag e u w hou hiw
  | .map _ kt vt, x, y, ho, him => by
    unfold Image at him
    obtain ⟨a2, kvs2, hy, _, g2, ha2, _, hnn, hm⟩ := him
    subst hy
    rw [Owned]
    simp only [g2, ha2, Nat.zero_le, decide_True, Bool.and_self, Bool.true_and]
    apply List.all_eq_true.mpr
    intro kv hkv
    obtain ⟨w, hw⟩ := key_lookup kv kvs2 hkv
    simp only [hw, hnn kv.1 (List.mem_map.mpr ⟨kv, hkv, rfl⟩), Bool.not_false, Bool.true_and]
    rcases Owned_map ho with hv | ⟨a, kvs, hv, _, _, hk, hel⟩
    · subst hv
      simp only at hm
      subst hm; cases hkv
    · subst hv
      simp only at hm
      obtain ⟨kvs', hk', hall⟩ := hm
      rw [hk] at hk'
      cases hk'
      have hkk := hall kv.1
      split at hkk
      · rw [hw] at hkk; cases hkk
      · rename_i u hu
        obtain ⟨w2, hw2, hiw⟩ := hkk
        rw [hw] at hw2
        cases hw2
        exact Image_wf hn hag vt u w (hel kv.1 u hu) hiw
/-- See `Image_wf`. -/
theorem ImageFields_wf {n lo hi : Nat} {h0 h : Heap} (hn : n ≤ hi)
    (hag : ∀ a, a < n → h[a]? = h0[a]?) :
    ∀ (fs : List (String × Ty)) (xs ys : List Val), OwnedFields 0 n h0 fs xs = true →
      ImageFields lo hi h0 h fs xs ys → OwnedFields 0 hi h fs ys = true
  | [], [], [], _, _ => by rw [OwnedFields]
  | f :: r, x :: xs, y :: ys, ho, him => by
    unfold ImageFields at him
    rw [OwnedFields] at ho ⊢
    simp only [Bool.and_eq_true] at ho ⊢
    exact ⟨Image_wf hn hag f.2 x y ho.1 him.1, ImageFields_wf hn hag r xs ys ho.2 him.2⟩
  | [], _ :: _, _, _, him => by simp [ImageFields] at him
  | [], [], _ :: _, _, him => by simp [ImageFields] at him
  | _ :: _, [], _, _, him => by simp [ImageFields] at him
  | _ :: _, _ :: _, [], _, him => by simp [ImageFields] at him
end

mutual
/-- A deep copy `z` of a deep copy `y` of a value `x` that holds no NaN is
deeply equal to `y`, in a memory that holds what the first copy is made of. -/
theorem Image_twice {lo1 hi1 lo2 hi2 : Nat} {h0 h1 h2 : Heap}
    (hag : ∀ a, a < hi1 → h2[a]? = h1[a]?) :
    ∀ (T : Ty) (x y z : Val), NoNaN h0 T x = true → Image lo1 hi1 h0 h1 T x y →
      Image lo2 hi2 h1 h2 T y z → DeepEqual h2 T z y = true
  | .basic _ b, x, y, z, hx, h1y, h2z => by
    unfold Image at h1y h2z
    rw [h2z, h1y, DeepEqual]
    exact eqBasic_self b x (NoNaN_basic hx)
  | .array nm k e, x, y, z, hx, h1y, h2z => by
    unfold Image at h1y h2z
    rw [h2z, h1y]
    exact DeepEqual_self _ x hx
  | .ptr nm e, x, y, z, hx, h1y, h2z => by
    unfold Image at h1y h2z
    cases hr : (Ty.ptr nm e).isReader with
    | true =>
      simp only [hr, if_true] at h1y h2z
      rw [h2z, h1y]
      exact DeepEqual_self _ x hx
    | false =>
      simp only [hr, Bool.false_eq_true, if_false] at h1y h2z
      rcases NoNaN_ptr hx with hv | ⟨a, hv, hp⟩
      · subst hv
        simp only at h1y
        subst h1y
        simp only at h2z
        subst h2z
        rw [DeepEqual]
      · subst hv
        simp only at h1y
        obtain ⟨a2, u, w, hy, _, g2, hu, hw, hiw⟩ := h1y
        subst hy
        simp only at h2z
        obtain ⟨a3, u2, w2, hz, _, _, hu2, hw2, hiw2⟩ := h2z
        subst hz
        rw [hw] at hu2
        cases hu2
        rcases hp with hp | ⟨u', hu', hnu⟩
        · rw [hr] at hp; cases hp
        · rw [hu] at hu'
          cases hu'
          rw [DeepEqual]
          simp only [hw2, hag a2 g2, hw, Bool.or_eq_true]
          exact Or.inr (Image_twice hag e u w w2 hnu hiw hiw2)
  | .struct _ fs, x, y, z, hx, h1y, h2z => by
    unfold Image at h1y h2z
    obtain ⟨xs, ys, hxs, hys, hf1⟩ := h1y
    obtain ⟨ys', zs, hys', hzs, hf2⟩ := h2z
    subst hxs hys hzs
    cases hys'
    obtain ⟨xs', hxs', hnf⟩ := NoNaN_struct hx
    cases hxs'
    rw [DeepEqual]
    exact ImageFields_twice hag fs xs ys zs hnf hf1 hf2
  | .slice _ e, x, y, z, hx, h1y, h2z => by
    unfold Image at h1y h2z
    obtain ⟨a2, es2, _, g2, ha2, hm1⟩ := h1y
    obtain ⟨a3, es3, _, _, ha3, hm2⟩ := h2z
    rcases NoNaN_slice hx with hv | ⟨s, es, hv, hes, hel⟩
    · subst hv
      simp only at hm1
      obtain ⟨hy, _⟩ := hm1
      subst hy
      simp only at hm2
      obtain ⟨hz, _⟩ := hm2
      subst hz
      rw [DeepEqual]
      simp [ha3, hag a2 g2, ha2]
    · subst hv
      simp only at hm1
      obtain ⟨hy, _, es', hes', hel1, _⟩ := hm1
      subst hy
      rw [hes] at hes'
      cases hes'
      simp only at hm2
      obtain ⟨hz, _, es2', hes2', hel2, _⟩ := hm2
      subst hz
      rw [ha2] at hes2'
      cases hes2'
      rw [DeepEqual]
      simp only [beq_self_eq_true, Bool.true_and, ha3, hag a2 g2, ha2, Bool.or_eq_true]
      right
      apply List.all_eq_true.mpr
      intro i hi
      have hi' := List.mem_range.mp hi
      obtain ⟨u, w, hu, hw, hiw⟩ := hel1 i hi'
      obtain ⟨w', w2, hw', hw2, hiw2⟩ := hel2 i hi'
      obtain ⟨u', hu', hnu⟩ := hel i hi'
      rw [hu] at hu'
      cases hu'
      simp only [Nat.zero_add] at hw' ⊢
      rw [hw] at hw'
      cases hw'
      simp only [hw2, hw]
      exact Image_twice hag e u w w2 hnu hiw hiw2
  | .map _ kt vt, x, y, z, hx, h1y, h2z => by
    unfold Image at h1y h2z
    obtain ⟨a2, kvs2, hy, _, g2, ha2, hnd2, hnn2, hm1⟩ := h1y
    obtain ⟨a3, kvs3, hz, _, _, ha3, hnd3, hnn3, hm2⟩ := h2z
    subst hy hz
    simp only at hm2
    obtain ⟨kvs2', ha2', hall2⟩ := hm2
    rw [ha2] at ha2'
    cases ha2'
    have hkeys : ∀ k, k ∈ kvs3.map Prod.fst ↔ k ∈ kvs2.map Prod.fst := by
      intro k
      have hk := hall2 k
      constructor
      · intro h3
        cases hl : lookup k kvs2 with
        | none =>
          rw [hl] at hk
          exact absurd h3 (lookup_none_of_not_key k kvs3 hk)
        | some u => exact key_of_lookup k u kvs2 hl
      · intro h2'
        obtain ⟨u, hl⟩ := lookup_of_key k kvs2 h2'
        rw [hl] at hk
        obtain ⟨w, hw, _⟩ := hk
        exact key_of_lookup k w kvs3 hw
    rw [DeepEqual]
    simp only [ha3, hag a2 g2, ha2, Bool.or_eq_true, Bool.and_eq_true, beq_iff_eq]
    right
    refine ⟨length_eq_of_same_keys kvs3 kvs2 hnd3 hnd2 hkeys, ?_⟩
    apply List.all_eq_true.mpr
    intro kv hkv
    have hk3 := lookup_of_mem_nodup kvs3 kv hnd3 hkv
    simp only [hnn3 kv.1 (List.mem_map.mpr ⟨kv, hkv, rfl⟩), Bool.not_false, Bool.true_and]
    have hk := hall2 kv.1
    cases hl : lookup kv.1 kvs2 with
    | none =>
      rw [hl] at hk
      simp only at hk
      rw [hk3] at hk
      cases hk
    | some w =>
      rw [hl] at hk
      simp only at hk ⊢
      obtain ⟨w2, hw2, hiw2⟩ := hk
      rw [hk3] at hw2
      cases hw2
      rcases NoNaN_map hx with hv | ⟨a, kvs, hv, hka, hel⟩
      · subst hv
        simp only at hm1
        subst hm1
        simp [lookup] at hl
      · subst hv
        simp only at hm1
        obtain ⟨kvs', hka', hall1⟩ := hm1
        rw [hka] at hka'
        cases hka'
        have hk1 := hall1 kv.1
        cases hl1 : lookup kv.1 kvs with
        | none =>
          rw [hl1] at hk1
          simp only at hk1
          rw [hl] at hk1
          cases hk1
        | some u =>
          rw [hl1] at hk1
          simp only at hk1
          obtain ⟨w', hw', hiw⟩ := hk1
          rw [hl] at hw'
          cases hw'
          exact Image_twice hag vt u w kv.2 (hel kv.1 u hl1) hiw hiw2
/-- See `Image_twice`. -/
theorem ImageFields_twice {lo1 hi1 lo2 hi2 : Nat} {h0 h1 h2 : Heap}
    (hag : ∀ a, a < hi1 → h2[a]? = h1[a]?) :
    ∀ (fs : List (String × Ty)) (xs ys zs : List Val), NoNaNFields h0 fs xs = true →
      ImageFields lo1 hi1 h0 h1 fs xs ys → ImageFields lo2 hi2 h1 h2 fs ys zs →
      DeepEqualFields h2 fs zs ys = true
  | [], [], [], [], _, _, _ => by rw [DeepEqualFields]
  | f :: r, x :: xs, y :: ys, z :: zs, hx, h1y, h2z => by
    unfold ImageFields at h1y h2z
    rw [NoNaNFields, Bool.and_eq_true] at hx
    rw [DeepEqualFields, Bool.and_eq_true]
    exact ⟨Image_twice hag f.2 x y z hx.1 h1y.1 h2z.1,
      ImageFields_twice hag r xs ys zs hx.2 h1y.2 h2z.2⟩
  | [], _ :: _, _, _, _, h1y, _ => by simp [ImageFields] at h1y
  | [], [], _ :: _, _, _, h1y, _ => by simp [ImageFields] at h1y
  | [], [], [], _ :: _, _, _, h2z => by simp [ImageFields] at h2z
  | _ :: _, [], _, _, _, h1y, _ => by simp [ImageFields] at h1y
  | _ :: _, _ :: _, [], _, _, h1y, _ => by simp [ImageFields] at h1y
  | _ :: _, _ :: _, _ :: _, [], _, _, h2z => by simp [ImageFields] at h2z
end

/-! ## The depth of the recursion -/

/-- Below the root, a read-only pair of one type makes `rcopy` end at once. -/
theorem rcopy_ro_ne_nofuel (fuel : Nat) (T : Ty) (h : Heap) (dst sst : Store) :
    rcopy (fuel + 1) h (some ⟨T, dst, true⟩) (some ⟨T, sst, true⟩) false ≠ .nofuel := by
  cases T with
  | basic nm bk =>
    rw [rcopy_leaf fuel h ⟨.basic nm bk, dst, true⟩ ⟨.basic nm bk, sst, true⟩ false rfl rfl]
    simp [ConvertibleTo_of_assignable, directlyAssignable_self, Set_ro]
  | array nm k e =>
    rw [rcopy_leaf fuel h ⟨.array nm k e, dst, true⟩ ⟨.array nm k e, sst, true⟩ false rfl rfl]
    simp [ConvertibleTo_of_assignable, directlyAssignable_self, Set_ro]
  | ptr nm e =>
    rw [rcopy]
    simp [Ty.Kind, Value.Interface]
  | struct nm fs =>
    rw [rcopy]
    simp [Ty.Kind, NewElem, Set_ro]
  | slice nm e =>
    rw [rcopy]
    simp only [Ty.Kind, ne_eq, not_true_eq_false, if_false]
    refine bind_ne_nofuel _ _ (Len_ne_nofuel _ _) (fun n _ => ?_)
    refine bind_ne_nofuel _ _ (Cap_ne_nofuel _ _) (fun c _ => ?_)
    refine bind_ne_nofuel _ _ (MakeSlice_ne_nofuel _ _ _ _) (fun r _ => ?_)
    simp [Set_ro]
  | map nm kt vt =>
    rw [rcopy]
    simp [Ty.Kind, MakeMap, Set_ro]

theorem nests_ptr {n : Nat} {h : Heap} {nm : Option TName} {e : Ty} {a : Nat} {u : Val}
    (hn : nests n h (.ptr nm e) (.atom (.ptr (some a))) = true)
    (hr : (Ty.ptr nm e).isReader = false) (hu : h[a]? = some (.cell u)) :
    ∃ m, n = m + 1 ∧ nests m h e u = true := by
  cases n with
  | zero => simp [nests, hr] at hn
  | succ m =>
    refine ⟨m, rfl, ?_⟩
    simpa [nests, hr, hu] using hn

theorem zip_all_at {P : (String × Ty) × Val → Bool} (name : String) :
    ∀ (fs : List (String × Ty)) (xs : List Val) (j : Nat) (t : Ty) (x : Val),
      (fs.zip xs).all P = true → findField name fs = some (j, t) → xs[j]? = some x →
      P ((name, t), x) = true := by
  intro fs xs j t x hall hf hx
  have hfj := findField_index name fs j t hf
  have hz : (fs.zip xs)[j]? = some ((name, t), x) := by
    rw [List.getElem?_zip_eq_some]
    exact ⟨hfj, hx⟩
  exact List.all_eq_true.mp hall _ (List.mem_iff_getElem?.mpr ⟨j, hz⟩)

theorem nests_struct_zero {h : Heap} {nm : Option TName} {fs : List (String × Ty)}
    {xs : List Val} (hn : nests 0 h (.struct nm fs) (.agg xs) = true) : fs = [] := by
  simpa [nests] using hn

theorem nests_struct {m : Nat} {h : Heap} {nm : Option TName} {fs : List (String × Ty)}
    {xs : List Val} (hn : nests (m + 1) h (.struct nm fs) (.agg xs) = true)
    (name : String) (j : Nat) (t : Ty) (x : Val)
    (hf : findField name fs = some (j, t)) (hx : xs[j]? = some x) :
    nests m h t x = true := by
  rw [nests] at hn
  exact zip_all_at name fs xs j t x hn hf hx

theorem OwnedFields_at {lo hi : Nat} {h : Heap} (name : String) :
    ∀ (fs : List (String × Ty)) (xs : List Val) (j : Nat) (t : Ty),
      OwnedFields lo hi h fs xs = true → findField name fs = some (j, t) →
      ∃ x, xs[j]? = some x ∧ Owned lo hi h t x = true
  | [], _, _, _, _, hf => by simp [findField] at hf
  | f :: r, xs, j, t, ho, hf => by
    obtain ⟨x, xr, hxs, hox, hor⟩ := OwnedFields_cons ho
    subst hxs
    rw [findField] at hf
    split at hf
    · simp only [Option.some.injEq, Prod.mk.injEq] at hf
      obtain ⟨hj, ht⟩ := hf
      subst hj; subst ht
      exact ⟨x, by simp, hox⟩
    · cases hr : findField name r with
      | none => simp [hr] at hf
      | some jt =>
        obtain ⟨j2, t2⟩ := jt
        simp only [hr, Option.some.injEq, Prod.mk.injEq] at hf
        obtain ⟨hj, ht⟩ := hf
        subst hj; subst ht
        obtain ⟨x2, hx2, ho2⟩ := OwnedFields_at name r xr j2 t2 hor hr
        exact ⟨x2, by simpa using hx2, ho2⟩

theorem nests_slice_zero {h : Heap} {nm : Option TName} {e : Ty} {s : SliceHdr}
    (hn : nests 0 h (.slice nm e) (.atom (.slice (some s))) = true) : s.len = 0 := by
  simpa [nests] using hn

theorem nests_slice {m : Nat} {h : Heap} {nm : Option TName} {e : Ty} {s : SliceHdr}
    {es : List Val} (hn : nests (m + 1) h (.slice nm e) (.atom (.slice (some s))) = true)
    (hes : h[s.base]? = some (.cell (.agg es))) (i : Nat) (hi : i < s.len) (u : Val)
    (hu : es[s.off + i]? = some u) : nests m h e u = true := by
  rw [nests] at hn
  simp only [hes] at hn
  have := List.all_eq_true.mp hn i (List.mem_range.mpr hi)
  simpa [hu] using this

theorem nests_map_zero {h : Heap} {nm : Option TName} {kt vt : Ty} {a : Nat}
    {kvs : List (Val × Val)} (hn : nests 0 h (.map nm kt vt) (.atom (.map (some a))) = true)
    (hk : h[a]? = some (.map kvs)) : kvs = [] := by
  simpa [nests, hk] using hn

theorem nests_map {m : Nat} {h : Heap} {nm : Option TName} {kt vt : Ty} {a : Nat}
    {kvs : List (Val × Val)}
    (hn : nests (m + 1) h (.map nm kt vt) (.atom (.map (some a))) = true)
    (hk : h[a]? = some (.map kvs)) (k u : Val) (hu : lookup k kvs = some u) :
    nests m h vt u = true := by
  rw [nests] at hn
  simp only [hk] at hn
  have := List.all_eq_true.mp hn (k, u) (lookup_mem k u kvs hu)
  simpa [hu] using this

theorem load_out (b : Nat) (h h0 : Heap) (T : Ty) (sst : Store) (ro : Bool) (vs : Val)
    (hs : SrcOut b h0 sst vs) (hag : AgreeOut b h h0) :
    Value.load h ⟨T, sst, ro⟩ = .ok vs := by
  cases sst with
  | imm v => simp only [SrcOut] at hs; subst hs; rfl
  | mem a q =>
    obtain ⟨ha, c, hc, hg⟩ := hs
    exact load_mem h T a q ro c vs (by rw [hag a (lt_of_cell hc) ha]; exact hc) hg

theorem FieldByName_out (b : Nat) (h0 : Heap) (nm : Option TName)
    (fs : List (String × Ty)) (sst : Store) (xs : List Val) (name : String) (j : Nat)
    (t : Ty) (x : Val) (hs : SrcOut b h0 sst (.agg xs))
    (hf : findField name fs = some (j, t)) (hx : xs[j]? = some x) :
    ∃ sst2, Value.FieldByName ⟨.struct nm fs, sst, false⟩ name =
        .ok (some ⟨t, sst2, !exported name⟩) ∧ SrcOut b h0 sst2 x := by
  cases sst with
  | imm v =>
    simp only [SrcOut] at hs
    subst hs
    exact ⟨.imm x, by rw [FieldByName_imm nm fs xs false name j t x hf hx]; simp, rfl⟩
  | mem a q =>
    obtain ⟨ha, c, hc, hg⟩ := hs
    refine ⟨.mem a (q ++ [j]), by rw [FieldByName_mem nm fs a q false name j t hf]; simp,
      ha, c, hc, ?_⟩
    rw [Val.get_field q c xs j hg]; exact hx

/-- A write to the destination leaves the rest of the old memory as it was. -/
theorem AgreeOut_write {b0 : Nat} {h h0 h1 : Heap} {b : Nat} {o : Obj}
    (hag : AgreeOut b0 h h0) (hb : b = b0 ∨ h0.length ≤ b) (hl : h0.length ≤ h.length)
    (hfr : ∀ a, a ≠ b → h1[a]? = (h ++ [o])[a]?) : AgreeOut b0 h1 h0 := by
  intro a ha hne
  rw [hfr a (by omega), getElem?_alloc_old h _ a (by omega)]
  exact hag a ha hne

theorem AgreeOut_frame {b0 : Nat} {h h0 h1 : Heap} {b : Nat}
    (hag : AgreeOut b0 h h0) (hb : b = b0 ∨ h0.length ≤ b) (hl : h0.length ≤ h.length)
    (hfr : ∀ a, a < h.length → a ≠ b → h1[a]? = h[a]?) : AgreeOut b0 h1 h0 := by
  intro a ha hne
  rw [hfr a (by omega) (by omega)]
  exact hag a ha hne

theorem AgreeOut_alloc {b0 : Nat} {h h0 : Heap} (hag : AgreeOut b0 h h0) (o : Obj)
    (hl : h0.length ≤ h.length) : AgreeOut b0 (h ++ [o]) h0 := by
  intro a ha hne
  rw [getElem?_alloc_old h o a (by omega)]
  exact hag a ha hne

theorem AgreeOut_set {b0 : Nat} {h h0 : Heap} (hag : AgreeOut b0 h h0) (b : Nat) (o : Obj)
    (hb : h0.length ≤ b) : AgreeOut b0 (h.set b o) h0 := by
  intro a ha hne
  rw [getElem?_set_other h b a o (by omega)]
  exact hag a ha hne

theorem apart_ptr {b : Nat} {h : Heap} {nm : Option TName} {e : Ty} {a : Nat} {u : Val}
    (hn : apart b h (.ptr nm e) (.atom (.ptr (some a))) = true)
    (hr : (Ty.ptr nm e).isReader = false) (hu : h[a]? = some (.cell u)) :
    a ≠ b ∧ apart b h e u = true := by
  simpa [apart, hr, hu] using hn

theorem apartFields_at {b : Nat} {h : Heap} (name : String) :
    ∀ (fs : List (String × Ty)) (xs : List Val) (j : Nat) (t : Ty) (x : Val),
      apartFields b h fs xs = true → findField name fs = some (j, t) → xs[j]? = some x →
      apart b h t x = true
  | [], _, _, _, _, _, hf, _ => by simp [findField] at hf
  | f :: r, [], j, t, x, _, _, hx => by simp at hx
  | f :: r, y :: ys, j, t, x, ha, hf, hx => by
    rw [apartFields, Bool.and_eq_true] at ha
    rw [findField] at hf
    split at hf
    · simp only [Option.some.injEq, Prod.mk.injEq] at hf
      obtain ⟨hj, ht⟩ := hf
      subst hj; subst ht
      simp only [List.getElem?_cons_zero, Option.some.injEq] at hx
      subst hx
      exact ha.1
    · cases hr : findField name r with
      | none => simp [hr] at hf
      | some jt =>
        obtain ⟨j2, t2⟩ := jt
        simp only [hr, Option.some.injEq, Prod.mk.injEq] at hf
        obtain ⟨hj, ht⟩ := hf
        subst hj; subst ht
        exact apartFields_at name r ys j2 t2 x ha.2 hr (by simpa using hx)

theorem apart_slice {b : Nat} {h : Heap} {nm : Option TName} {e : Ty} {s : SliceHdr}
    {es : List Val} (hn : apart b h (.slice nm e) (.atom (.slice (some s))) = true)
    (hes : h[s.base]? = some (.cell (.agg es))) :
    s.base ≠ b ∧ ∀ i, i < s.len → ∀ u, es[s.off + i]? = some u → apart b h e u = true := by
  rw [apart] at hn
  simp only [hes, Bool.and_eq_true, bne_iff_ne, ne_eq] at hn
  refine ⟨hn.1, fun i hi u hu => ?_⟩
  have := List.all_eq_true.mp hn.2 i (List.mem_range.mpr hi)
  simpa [hu] using this

theorem apart_map {b : Nat} {h : Heap} {nm : Option TName} {kt vt : Ty} {a : Nat}
    {kvs : List (Val × Val)}
    (hn : apart b h (.map nm kt vt) (.atom (.map (some a))) = true)
    (hk : h[a]? = some (.map kvs)) :
    a ≠ b ∧ ∀ k u, lookup k kvs = some u → apart b h vt u = true := by
  rw [apart] at hn
  simp only [hk, Bool.and_eq_true, bne_iff_ne, ne_eq] at hn
  refine ⟨hn.1, fun k u hu => ?_⟩
  have := List.all_eq_true.mp hn.2 (k, u) (lookup_mem k u kvs hu)
  simpa [hu] using this

theorem ptr_nests (fuel n : Nat) (hns : ∀ m, n = m + 1 → NestSpec m (rcopy fuel))
    (nm : Option TName) (e : Ty) (h0 : Heap) (b0 : Nat) (h : Heap) (b : Nat) (p : List Nat)
    (sst : Store) (root : Bool) (vs c : Val)
    (hbb : b = b0 ∨ h0.length ≤ b) (hl : h0.length ≤ h.length) (hag : AgreeOut b0 h h0)
    (hsrc : SrcOut b0 h0 sst vs)
    (hown : Owned 0 h0.length h0 (.ptr nm e) vs = true)
    (hap : apart b0 h0 (.ptr nm e) vs = true) (hn : nests n h0 (.ptr nm e) vs = true)
    (hb : h[b]? = some (.cell c)) :
    rcopy (fuel + 1) h (some ⟨.ptr nm e, .mem b p, false⟩)
      (some ⟨.ptr nm e, sst, false⟩) root ≠ .nofuel := by
  have hbl : b < h.length := lt_of_cell hb
  have hls : ∀ h3, AgreeOut b0 h3 h0 → Value.load h3 ⟨.ptr nm e, sst, false⟩ = .ok vs :=
    fun h3 ha => load_out b0 h3 h0 _ sst false vs hsrc ha
  rw [rcopy_ptr_eq]
  cases hr : (Ty.ptr nm e).isReader with
  | true =>
    simp only [if_true]
    refine bind_ne_nofuel _ _ (Elem_ne_nofuel _ _) (fun de _ => ?_)
    split
    · exact Set_ne_nofuel _ _ _
    · exact Set_ne_nofuel _ _ _
  | false =>
    simp only [Bool.false_eq_true, if_false]
    rcases Owned_ptr hown hr with hv | ⟨a, u, hv, _, _, hau, hou⟩
    · subst hv
      rw [IsNil_ptr h _ sst false none (hls h hag)]
      simp only [Option.isNone_none, Bool.not_true, Bool.false_eq_true, if_false, ok_bind]
      rw [Elem_nil h nm e sst false (hls h hag)]
      simp
    · subst hv
      obtain ⟨m, hnm, hnu⟩ := nests_ptr hn hr hau
      obtain ⟨hab, hau2⟩ := apart_ptr hap hr hau
      rw [IsNil_ptr h _ sst false (some a) (hls h hag)]
      simp only [Option.isNone_some, Bool.not_false, if_true, ok_bind]
      refine bind_ne_nofuel _ _ (Set_ne_nofuel _ _ _) (fun h1 hset => ?_)
      obtain ⟨hlen, hfr, w, c1, hwl, hc1, hb1⟩ :=
        Set_frame hset (by rw [getElem?_alloc_old h _ b hbl]; exact hb)
      rw [load_imm] at hwl
      cases hwl
      simp only [List.length_append, List.length_singleton] at hlen
      have hag1 : AgreeOut b0 h1 h0 := AgreeOut_write hag hbb hl hfr
      have hnew : h1[h.length]? = some (.cell e.zero) := by
        rw [hfr _ (by omega)]; exact getElem?_alloc_new h _
      rw [Elem_mem h1 nm e sst false a (hls h1 hag1)]
      simp only [ok_bind]
      rw [Elem_mem h1 nm e (.mem b p) false h.length
        (load_mem h1 _ b p false c1 _ hb1 (Val.get_put_same p c _ c1 hc1))]
      simp only [ok_bind]
      exact hns m hnm h0 b0 e h1 h.length [] (.mem a []) root u e.zero (Or.inr hl)
        (by omega) hag1 ⟨hab, u, hau, Val.get_nil u⟩ hou hau2 hnu hnew

/-- The loop over the fields of a struct ends when the calls on the fields
do. -/
theorem copyFields_nests (rc : Heap → Option Value → Option Value → Bool → Res Heap)
    (m : Nat) (hw : WriteSpec rc) (hro : RoSpec rc)
    (hrn : ∀ T h dst sst, rc h (some ⟨T, dst, true⟩) (some ⟨T, sst, true⟩) false ≠ .nofuel)
    (hns : NestSpec m rc) (h0 : Heap) (b0 : Nat) (nm : Option TName)
    (fs : List (String × Ty)) (b : Nat) (p : List Nat) (sst : Store) (xs : List Val)
    (hbb : b = b0 ∨ h0.length ≤ b) (hsrc : SrcOut b0 h0 sst (.agg xs))
    (hof : OwnedFields 0 h0.length h0 fs xs = true)
    (hnf : ∀ name j t x, findField name fs = some (j, t) → xs[j]? = some x →
      apart b0 h0 t x = true ∧ nests m h0 t x = true) :
    ∀ (rest : List (String × Ty)) (h : Heap) (c : Val),
      h0.length ≤ h.length → AgreeOut b0 h h0 → h[b]? = some (.cell c) →
      copyFields rc ⟨.struct nm fs, .mem b p, false⟩ ⟨.struct nm fs, sst, false⟩ rest h ≠
        .nofuel
  | [], h, c, _, _, _ => by simp [copyFields_nil]
  | f :: rest, h, c, hl, hag, hb => by
    have hbl : b < h.length := lt_of_cell hb
    rw [copyFields_cons]
    cases hfi : findField f.1 fs with
    | none =>
      have hsk : Value.FieldByName ⟨.struct nm fs, sst, false⟩ f.1 = .ok none := by
        simp [Value.FieldByName, hfi]
      rw [hsk]
      simp only [ok_bind]
      exact copyFields_nests rc m hw hro hrn hns h0 b0 nm fs b p sst xs hbb hsrc hof hnf rest
        h c hl hag hb
    | some jt =>
      obtain ⟨j, t⟩ := jt
      obtain ⟨x, hxj, hox⟩ := OwnedFields_at f.1 fs xs j t hof hfi
      obtain ⟨sst2, hfb, hsrc2⟩ := FieldByName_out b0 h0 nm fs sst xs f.1 j t x hsrc hfi hxj
      rw [hfb]
      simp only [ok_bind]
      rw [FieldByName_mem nm fs b p false f.1 j t hfi]
      simp only [ok_bind, Bool.false_or]
      cases hex : exported f.1 with
      | false =>
        simp only [Bool.not_false]
        exact bind_ne_nofuel _ _ (hrn _ _ _ _) (fun h1 hrc => absurd hrc (hro t h _ _ h1))
      | true =>
        simp only [Bool.not_true]
        refine bind_ne_nofuel _ _
          (hns h0 b0 t h b (p ++ [j]) sst2 false x c hbb hl hag hsrc2 hox
            (hnf f.1 j t x hfi hxj).1 (hnf f.1 j t x hfi hxj).2 hb) (fun h1 hrc => ?_)
        obtain ⟨hlen1, hfr1, c1, hb1, _⟩ := hw t h b (p ++ [j]) sst2 false h1 c hrc hb
        exact copyFields_nests rc m hw hro hrn hns h0 b0 nm fs b p sst xs hbb hsrc hof hnf
          rest h1 c1 (by omega) (AgreeOut_frame hag hbb hl hfr1) hb1

theorem struct_nests (fuel n : Nat)
    (hns : ∀ m, n = m + 1 → NestSpec m (rcopy fuel) ∧ 0 < fuel)
    (nm : Option TName) (fs : List (String × Ty)) (h0 : Heap) (b0 : Nat) (h : Heap) (b : Nat)
    (p : List Nat) (sst : Store) (root : Bool) (vs c : Val)
    (hbb : b = b0 ∨ h0.length ≤ b) (hl : h0.length ≤ h.length) (hag : AgreeOut b0 h h0)
    (hsrc : SrcOut b0 h0 sst vs)
    (hown : Owned 0 h0.length h0 (.struct nm fs) vs = true)
    (hap : apart b0 h0 (.struct nm fs) vs = true)
    (hn : nests n h0 (.struct nm fs) vs = true) (hb : h[b]? = some (.cell c)) :
    rcopy (fuel + 1) h (some ⟨.struct nm fs, .mem b p, false⟩)
      (some ⟨.struct nm fs, sst, false⟩) root ≠ .nofuel := by
  have hbl : b < h.length := lt_of_cell hb
  obtain ⟨xs, hvs, hof⟩ := Owned_struct hown
  subst hvs
  rw [apart] at hap
  rw [rcopy_struct_eq]
  have hloop : ∀ h1 c1, h0.length ≤ h1.length → AgreeOut b0 h1 h0 →
      h1[b]? = some (.cell c1) →
      copyFields (rcopy fuel) ⟨.struct nm fs, .mem b p, false⟩ ⟨.struct nm fs, sst, false⟩ fs
        h1 ≠ .nofuel := by
    intro h1 c1 hl1 hag1 hb1
    cases n with
    | zero =>
      rw [nests_struct_zero hn]
      simp [copyFields_nil]
    | succ m =>
      obtain ⟨hm, hf⟩ := hns m rfl
      obtain ⟨f, rfl⟩ : ∃ f, fuel = f + 1 := ⟨fuel - 1, by omega⟩
      exact copyFields_nests (rcopy (f + 1)) m (rcopy_write (f + 1)) (rcopy_ro (f + 1))
        (fun T h dst sst => rcopy_ro_ne_nofuel f T h dst sst) hm h0 b0 nm fs b p sst xs hbb
        hsrc hof
        (fun name j t x hfi hxj =>
          ⟨apartFields_at name fs xs j t x hap hfi hxj, nests_struct hn name j t x hfi hxj⟩)
        fs h1 c1 hl1 hag1 hb1
  cases root with
  | true =>
    simp only [Bool.not_true, Bool.false_eq_true, if_false, ok_bind]
    exact hloop h c hl hag hb
  | false =>
    simp only [Bool.not_false, if_true]
    refine bind_ne_nofuel _ _ (Set_ne_nofuel _ _ _) (fun h1 hset => ?_)
    obtain ⟨hlen, hfr, w, c1, _, hc1, hb1⟩ :=
      Set_frame hset (by rw [getElem?_alloc_old h _ b hbl]; exact hb)
    simp only [List.length_append, List.length_singleton] at hlen
    exact hloop h1 c1 (by omega) (AgreeOut_write hag hbb hl hfr) hb1

/-- The loop over the elements of a slice ends when the calls on the elements
do. -/
theorem copyElems_nests (rc : Heap → Option Value → Option Value → Bool → Res Heap)
    (m : Nat) (hw : WriteSpec rc) (hns : NestSpec m rc) (h0 : Heap) (b0 : Nat)
    (nm : Option TName) (e : Ty) (b : Nat) (p : List Nat) (sst : Store) (s : SliceHdr)
    (es : List Val) (a1 : Nat) (c1 : Val) (hba : b < a1) (hla : h0.length ≤ a1)
    (hsrc : SrcOut b0 h0 sst (.atom (.slice (some s))))
    (hsb : s.base ≠ b0) (hes : h0[s.base]? = some (.cell (.agg es)))
    (hel : ∀ i, i < s.len → ∃ u, es[s.off + i]? = some u ∧
      Owned 0 h0.length h0 e u = true ∧ apart b0 h0 e u = true ∧ nests m h0 e u = true)
    (hc1 : c1.get p = some (.atom (.slice (some ⟨a1, 0, s.len, s.cap⟩)))) :
    ∀ (k i : Nat) (h : Heap) (ca : Val),
      i + k = s.len → h0.length ≤ h.length → AgreeOut b0 h h0 → h[b]? = some (.cell c1) →
      h[a1]? = some (.cell ca) →
      copyElems rc ⟨.slice nm e, .mem b p, false⟩ ⟨.slice nm e, sst, false⟩ k i h ≠ .nofuel
  | 0, i, h, ca, _, _, _, _, _ => by simp [copyElems_zero]
  | k + 1, i, h, ca, hik, hl, hag, hb, ha1 => by
    have hi : i < s.len := by omega
    have hbl : b < h.length := lt_of_cell hb
    obtain ⟨u, hu, hou, hau, hnu⟩ := hel i hi
    rw [copyElems_succ,
      Index_of_load h nm e (.mem b p) false ⟨a1, 0, s.len, s.cap⟩ i hi
        (load_mem h _ b p false c1 _ hb hc1),
      Index_of_load h nm e sst false s i hi (load_out b0 h h0 _ sst false _ hsrc hag)]
    simp only [ok_bind, Nat.zero_add]
    have hsrc2 : SrcOut b0 h0 (.mem s.base [s.off + i]) u :=
      ⟨hsb, .agg es, hes, by rw [Val.get_agg_one]; exact hu⟩
    refine bind_ne_nofuel _ _
      (hns h0 b0 e h a1 [i] (.mem s.base [s.off + i]) false u ca (Or.inr hla) hl hag hsrc2
        hou hau hnu ha1) (fun h1 hrc => ?_)
    obtain ⟨hlen1, hfr1, ca1, ha2, _⟩ :=
      hw e h a1 [i] (.mem s.base [s.off + i]) false h1 ca hrc ha1
    exact copyElems_nests rc m hw hns h0 b0 nm e b p sst s es a1 c1 hba hla hsrc hsb hes hel
      hc1 k (i + 1) h1 ca1 (by omega) (by omega) (AgreeOut_frame hag (Or.inr hla) hl hfr1)
      (by rw [hfr1 b hbl (by omega)]; exact hb) ha2

theorem slice_nests (fuel n : Nat) (hns : ∀ m, n = m + 1 → NestSpec m (rcopy fuel))
    (nm : Option TName) (e : Ty) (h0 : Heap) (b0 : Nat) (h : Heap) (b : Nat) (p : List Nat)
    (sst : Store) (root : Bool) (vs c : Val)
    (hbb : b = b0 ∨ h0.length ≤ b) (hl : h0.length ≤ h.length) (hag : AgreeOut b0 h h0)
    (hsrc : SrcOut b0 h0 sst vs)
    (hown : Owned 0 h0.length h0 (.slice nm e) vs = true)
    (hap : apart b0 h0 (.slice nm e) vs = true) (hn : nests n h0 (.slice nm e) vs = true)
    (hb : h[b]? = some (.cell c)) :
    rcopy (fuel + 1) h (some ⟨.slice nm e, .mem b p, false⟩)
      (some ⟨.slice nm e, sst, false⟩) root ≠ .nofuel := by
  have hbl : b < h.length := lt_of_cell hb
  have hls : ∀ h3, AgreeOut b0 h3 h0 → Value.load h3 ⟨.slice nm e, sst, false⟩ = .ok vs :=
    fun h3 ha => load_out b0 h3 h0 _ sst false vs hsrc ha
  rw [rcopy_slice_eq]
  rcases Owned_slice hown with hv | ⟨s, es, hv, _, _, hes, hel⟩
  · subst hv
    rw [Len_of_nil h _ (hls h hag), Cap_of_nil h _ (hls h hag)]
    simp only [ok_bind]
    rw [MakeSlice_ok h nm e 0 0 (Nat.le_refl _)]
    simp only [ok_bind]
    refine bind_ne_nofuel _ _ (Set_ne_nofuel _ _ _) (fun h1 hset => ?_)
    obtain ⟨_, hfr, _, _, _, _, _⟩ :=
      Set_frame hset (by rw [getElem?_alloc_old h _ b hbl]; exact hb)
    rw [Len_of_nil h1 _ (hls h1 (AgreeOut_write hag hbb hl hfr))]
    simp [copyElems_zero]
  · subst hv
    have hcap : s.len ≤ s.cap := Owned_slice_cap hown
    obtain ⟨hsb, hae⟩ := apart_slice hap hes
    rw [Len_of_load h _ s (hls h hag), Cap_of_load h _ s (hls h hag)]
    simp only [ok_bind]
    rw [MakeSlice_ok h nm e _ _ hcap]
    simp only [ok_bind]
    refine bind_ne_nofuel _ _ (Set_ne_nofuel _ _ _) (fun h1 hset => ?_)
    obtain ⟨hlen, hfr, w, c1, hwl, hc1, hb1⟩ :=
      Set_frame hset (by rw [getElem?_alloc_old h _ b hbl]; exact hb)
    rw [load_imm] at hwl
    cases hwl
    simp only [List.length_append, List.length_singleton] at hlen
    have hag1 : AgreeOut b0 h1 h0 := AgreeOut_write hag hbb hl hfr
    rw [Len_of_load h1 _ s (hls h1 hag1)]
    simp only [ok_bind]
    cases n with
    | zero =>
      rw [nests_slice_zero hn]
      simp [copyElems_zero]
    | succ m =>
      have hnew : h1[h.length]? = some (.cell (.agg (List.replicate s.cap e.zero))) := by
        rw [hfr _ (by omega)]; exact getElem?_alloc_new h _
      exact copyElems_nests (rcopy fuel) m (rcopy_write fuel) (hns m rfl) h0 b0 nm e b p sst s
        es h.length c1 hbl hl hsrc hsb hes
        (fun i hi => by
          obtain ⟨u, hu, hou⟩ := hel i hi
          exact ⟨u, hu, hou, hae i hi u hu, nests_slice hn hes i hi u hu⟩)
        (Val.get_put_same p c _ c1 hc1) s.len 0 h1 _ (by omega) (by omega) hag1 hb1 hnew

/-- The loop over the keys of a map ends when the calls on the values do. -/
theorem copyEntries_nests (rc : Heap → Option Value → Option Value → Bool → Res Heap)
    (m : Nat) (hw : WriteSpec rc) (hns : NestSpec m rc) (h0 : Heap) (b0 : Nat)
    (nm : Option TName) (kt vt : Ty) (b : Nat) (p : List Nat) (sst : Store) (a : Nat)
    (kvs : List (Val × Val)) (a1 : Nat) (c1 : Val) (hba : b < a1) (hla : h0.length ≤ a1)
    (hsrc : SrcOut b0 h0 sst (.atom (.map (some a))))
    (han : a ≠ b0) (hkvs : h0[a]? = some (.map kvs))
    (hel : ∀ k u, lookup k kvs = some u → Owned 0 h0.length h0 vt u = true ∧
      apart b0 h0 vt u = true ∧ nests m h0 vt u = true)
    (hkn : ∀ k, k ∈ kvs.map Prod.fst → hasNaN kt k = false)
    (hc1 : c1.get p = some (.atom (.map (some a1)))) :
    ∀ (ks : List Val) (h : Heap) (E : List (Val × Val)),
      (∀ k, k ∈ ks → k ∈ kvs.map Prod.fst) → a1 < h.length → AgreeOut b0 h h0 →
      h[b]? = some (.cell c1) → h[a1]? = some (.map E) →
      copyEntries rc ⟨.map nm kt vt, .mem b p, false⟩ ⟨.map nm kt vt, sst, false⟩
        (ks.map (fun k => ⟨kt, .imm k, false⟩)) h ≠ .nofuel
  | [], h, E, _, _, _, _, _ => by simp [copyEntries_nil]
  | k :: ks, h, E, hks, hal, hag, hb, ha1 => by
    have hkk : hasNaN kt k = false := hkn k (hks k (List.mem_cons_self _ _))
    obtain ⟨u, hu⟩ := lookup_of_key k kvs (hks k (List.mem_cons_self _ _))
    have hl : h0.length ≤ h.length := by omega
    have hse : Value.entries h ⟨.map nm kt vt, sst, false⟩ = .ok kvs :=
      entries_of_load h _ a kvs (load_out b0 h h0 _ sst false _ hsrc hag)
        (by rw [hag a (lt_of_getElem?_eq_some hkvs) han]; exact hkvs)
    rw [List.map_cons, copyEntries_cons, MapIndex_of h nm kt vt sst kvs k u hse hkk hu]
    simp only [ok_bind]
    have hbl : b < h.length := lt_of_cell hb
    obtain ⟨hou, hau, hnu⟩ := hel k u hu
    refine bind_ne_nofuel _ _
      (hns h0 b0 vt (h ++ [Obj.cell vt.zero]) h.length [] (.imm u) false u vt.zero
        (Or.inr hl) (by simp; omega) (AgreeOut_alloc hag _ hl) rfl hou hau hnu
        (getElem?_alloc_new h _))
      (fun h1 hrc => ?_)
    obtain ⟨hlen1, hfr1, _, _, _⟩ :=
      hw vt (h ++ [Obj.cell vt.zero]) h.length [] (.imm u) false h1 vt.zero hrc
        (getElem?_alloc_new h _)
    simp only [List.length_append, List.length_singleton] at hlen1 hfr1
    have hold : ∀ y, y < h.length → h1[y]? = h[y]? := by
      intro y hy
      rw [hfr1 y (by omega) (by omega), getElem?_alloc_old h _ y hy]
    have hag1 : AgreeOut b0 h1 h0 := fun x hx hne => by
      rw [hold x (by omega)]; exact hag x hx hne
    refine bind_ne_nofuel _ _ (SetMapIndex_ne_nofuel _ _ _ _) (fun h3 hset => ?_)
    obtain ⟨a2, E1, E2, hl2, hE1, h3e⟩ := SetMapIndex_inv hset
    rw [load_mem h1 _ b p false c1 _ (by rw [hold b hbl]; exact hb) hc1] at hl2
    cases hl2
    subst h3e
    exact copyEntries_nests rc m hw hns h0 b0 nm kt vt b p sst a kvs a1 c1 hba hla hsrc han
      hkvs hel hkn hc1 ks _ E2 (fun k2 hk2 => hks k2 (List.mem_cons_of_mem _ hk2))
      (by simp; omega) (AgreeOut_set hag1 a1 _ hla)
      (by rw [getElem?_set_other h1 a1 b _ (by omega), hold b hbl]; exact hb)
      (getElem?_set_here h1 a1 _ (by omega))

theorem map_nests (fuel n : Nat) (hns : ∀ m, n = m + 1 → NestSpec m (rcopy fuel))
    (nm : Option TName) (kt vt : Ty) (h0 : Heap) (b0 : Nat) (h : Heap) (b : Nat)
    (p : List Nat) (sst : Store) (root : Bool) (vs c : Val)
    (hbb : b = b0 ∨ h0.length ≤ b) (hl : h0.length ≤ h.length) (hag : AgreeOut b0 h h0)
    (hsrc : SrcOut b0 h0 sst vs)
    (hown : Owned 0 h0.length h0 (.map nm kt vt) vs = true)
    (hap : apart b0 h0 (.map nm kt vt) vs = true)
    (hn : nests n h0 (.map nm kt vt) vs = true) (hb : h[b]? = some (.cell c)) :
    rcopy (fuel + 1) h (some ⟨.map nm kt vt, .mem b p, false⟩)
      (some ⟨.map nm kt vt, sst, false⟩) root ≠ .nofuel := by
  have hbl : b < h.length := lt_of_cell hb
  have hls : ∀ h3, AgreeOut b0 h3 h0 → Value.load h3 ⟨.map nm kt vt, sst, false⟩ = .ok vs :=
    fun h3 ha => load_out b0 h3 h0 _ sst false vs hsrc ha
  rw [rcopy_map_eq]
  refine bind_ne_nofuel _ _ (Set_ne_nofuel _ _ _) (fun h1 hset => ?_)
  obtain ⟨hlen, hfr, w, c1, hwl, hc1, hb1⟩ :=
    Set_frame hset (by rw [getElem?_alloc_old h _ b hbl]; exact hb)
  rw [load_imm] at hwl
  cases hwl
  simp only [List.length_append, List.length_singleton] at hlen
  have hag1 : AgreeOut b0 h1 h0 := AgreeOut_write hag hbb hl hfr
  have hnew : h1[h.length]? = some (.map []) := by
    rw [hfr _ (by omega)]; exact getElem?_alloc_new h _
  rcases Owned_map hown with hv | ⟨a, kvs, hv, _, _, hkvs, hel⟩
  · subst hv
    rw [MapKeys_of h1 nm kt vt sst [] (entries_of_nil _ _ (hls h1 hag1))]
    simp [copyEntries_nil]
  · subst hv
    obtain ⟨han, hav⟩ := apart_map hap hkvs
    rw [MapKeys_of h1 nm kt vt sst kvs (entries_of_load h1 _ a kvs (hls h1 hag1)
      (by rw [hag1 a (lt_of_getElem?_eq_some hkvs) han]; exact hkvs))]
    simp only [ok_bind]
    cases n with
    | zero =>
      rw [nests_map_zero hn hkvs]
      simp [copyEntries_nil]
    | succ m =>
      exact copyEntries_nests (rcopy fuel) m (rcopy_write fuel) (hns m rfl) h0 b0 nm kt vt b p
        sst a kvs h.length c1 hbl hl hsrc han hkvs
        (fun k u hu => ⟨hel k u hu, hav k u hu, nests_map hn hkvs k u hu⟩)
        (Owned_map_keys hown hkvs) (Val.get_put_same p c _ c1 hc1)
        (kvs.map Prod.fst) h1 [] (fun _ hk => hk) (by omega) hag1 hb1 hnew

/-- With a bound above the nesting depth of the source, `rcopy` ends on a
well-formed source and a destination of the same type that is a place in a
variable the source does not reach. -/
theorem rcopy_nests : ∀ (fuel n : Nat), n < fuel → NestSpec n (rcopy fuel)
  | 0, n, hlt => absurd hlt (Nat.not_lt_zero _)
  | fuel + 1, n, hlt => by
    intro h0 b0 T h b p sst root vs c hbb hl hag hsrc hown hap hn hb
    have hns : ∀ m, n = m + 1 → NestSpec m (rcopy fuel) ∧ 0 < fuel :=
      fun m hm => ⟨rcopy_nests fuel m (by omega), by omega⟩
    cases T with
    | basic nm bk =>
      exact rcopy_ne_nofuel (fuel + 1) h _ ⟨.basic nm bk, sst, false⟩ root
        (by simp [Ty.depth])
    | array nm k e =>
      exact rcopy_ne_nofuel (fuel + 1) h _ ⟨.array nm k e, sst, false⟩ root
        (by simp [Ty.depth])
    | ptr nm e =>
      exact ptr_nests fuel n (fun m hm => (hns m hm).1) nm e h0 b0 h b p sst root vs c hbb hl
        hag hsrc hown hap hn hb
    | struct nm fs =>
      exact struct_nests fuel n hns nm fs h0 b0 h b p sst root vs c hbb hl hag hsrc hown hap
        hn hb
    | slice nm e =>
      exact slice_nests fuel n (fun m hm => (hns m hm).1) nm e h0 b0 h b p sst root vs c hbb
        hl hag hsrc hown hap hn hb
    | map nm kt vt =>
      exact map_nests fuel n (fun m hm => (hns m hm).1) nm kt vt h0 b0 h b p sst root vs c
        hbb hl hag hsrc hown hap hn hb

/-! ## A destination that the source reaches -/

theorem Link_not_reader (k : Nat) : (Ty.ptr none (Sample.Link k)).isReader = false := by
  cases k <;> simp [Sample.Link, Ty.isReader, Ty.declName]

theorem Link_zero (k : Nat) : (Sample.Link (k + 1)).zero = .agg [.atom (.ptr none)] := by
  simp [Sample.Link, Ty.zero, Ty.zeroFields]

/-- The call on the field `Next` when the source's `Next` points to the
destination's struct: the destination's `Next` is pointed to a new `Link`, and
the traversal goes on with the destination as the source. -/
theorem link_field (k g : Nat)
    (ih : ∀ (H : Heap) (x y : Nat) (cy : Val), x ≠ y →
      H[x]? = some (.cell (.agg [.atom (.ptr (some y))])) → H[y]? = some (.cell cy) →
      rcopy g H (some ⟨Sample.Link k, .mem y [], false⟩)
        (some ⟨Sample.Link k, .mem x [], false⟩) false = .nofuel)
    (H : Heap) (x y : Nat) (v0 : Val) (hne : x ≠ y)
    (hx : H[x]? = some (.cell (.agg [.atom (.ptr (some y))])))
    (hy : H[y]? = some (.cell (.agg [v0]))) :
    rcopy (g + 1) H (some ⟨.ptr none (Sample.Link k), .mem y [0], false⟩)
      (some ⟨.ptr none (Sample.Link k), .mem x [0], false⟩) false = .nofuel := by
  have hxl : x < H.length := lt_of_cell hx
  have hyl : y < H.length := lt_of_cell hy
  rw [rcopy_ptr_eq]
  simp only [Link_not_reader k, Bool.false_eq_true, if_false]
  rw [IsNil_ptr H _ _ false (some y)
    (load_mem H _ x [0] false _ _ hx (by rw [Val.get_agg_one]; rfl))]
  simp only [Option.isNone_some, Bool.not_false, if_true, ok_bind]
  rw [Set_ok (H ++ [Obj.cell (Sample.Link k).zero]) _ _ y [0] _ (.agg [v0]) _
    (.agg [.atom (.ptr (some H.length))]) (directlyAssignable_self _) (load_imm _ _ _ _)
    (by rw [getElem?_alloc_old H _ y hyl]; exact hy)
    (by rw [Val.put_agg_one _ 0 _ (by simp)]; rfl)]
  simp only [ok_bind]
  have h2x : ((H ++ [Obj.cell (Sample.Link k).zero]).set y
      (.cell (.agg [.atom (.ptr (some H.length))])))[x]? =
      some (.cell (.agg [.atom (.ptr (some y))])) := by
    rw [getElem?_set_other _ y x _ hne, getElem?_alloc_old H _ x hxl]; exact hx
  have h2y : ((H ++ [Obj.cell (Sample.Link k).zero]).set y
      (.cell (.agg [.atom (.ptr (some H.length))])))[y]? =
      some (.cell (.agg [.atom (.ptr (some H.length))])) :=
    getElem?_set_here _ y _ (by simp; omega)
  have h2n : ((H ++ [Obj.cell (Sample.Link k).zero]).set y
      (.cell (.agg [.atom (.ptr (some H.length))])))[H.length]? =
      some (.cell (Sample.Link k).zero) := by
    rw [getElem?_set_other _ y _ _ (by omega)]; exact getElem?_alloc_new H _
  rw [Elem_mem _ none _ (.mem x [0]) false y
    (load_mem _ _ x [0] false _ _ h2x (by rw [Val.get_agg_one]; rfl))]
  simp only [ok_bind]
  rw [Elem_mem _ none _ (.mem y [0]) false H.length
    (load_mem _ _ y [0] false _ _ h2y (by rw [Val.get_agg_one]; rfl))]
  simp only [ok_bind]
  exact ih _ y H.length _ (by omega) h2y h2n

theorem link_fields (k g : Nat) (H : Heap) (x y : Nat)
    (hf : rcopy g H (some ⟨.ptr none (Sample.Link k), .mem y [0], false⟩)
      (some ⟨.ptr none (Sample.Link k), .mem x [0], false⟩) false = .nofuel) :
    copyFields (rcopy g) ⟨Sample.Link (k + 1), .mem y [], false⟩
      ⟨Sample.Link (k + 1), .mem x [], false⟩ [("Next", .ptr none (Sample.Link k))] H =
      .nofuel := by
  have e1 : exported "Next" = true := by decide
  have f1 : findField "Next" [("Next", Ty.ptr none (Sample.Link k))] =
      some (0, .ptr none (Sample.Link k)) := by simp [findField]
  rw [copyFields_cons]
  simp only [Sample.Link]
  rw [FieldByName_mem _ _ x [] false "Next" 0 _ f1]
  simp only [ok_bind]
  rw [FieldByName_mem _ _ y [] false "Next" 0 _ f1]
  simp only [ok_bind, e1, Bool.not_true, Bool.or_false, List.nil_append, hf, nofuel_bind]

/-- The traversal from a `Link` whose `Next` points to the destination runs
out of every recursion bound that the unfolding of the type allows. -/
theorem link_chase : ∀ (k g : Nat) (H : Heap) (x y : Nat) (cy : Val), g ≤ 2 * k → x ≠ y →
    H[x]? = some (.cell (.agg [.atom (.ptr (some y))])) → H[y]? = some (.cell cy) →
    rcopy g H (some ⟨Sample.Link k, .mem y [], false⟩)
      (some ⟨Sample.Link k, .mem x [], false⟩) false = .nofuel
  | k, 0, H, x, y, cy, _, _, _, _ => rfl
  | 0, g + 1, H, x, y, cy, hg, _, _, _ => by omega
  | k + 1, g + 1, H, x, y, cy, hg, hne, hx, hy => by
    have hxl : x < H.length := lt_of_cell hx
    have hyl : y < H.length := lt_of_cell hy
    have hT : Sample.Link (k + 1) =
        .struct (some ⟨"Link", false⟩) [("Next", .ptr none (Sample.Link k))] := rfl
    rw [hT, rcopy_struct_eq, ← hT]
    simp only [Bool.not_false, if_true]
    rw [Set_ok (H ++ [Obj.cell (Sample.Link (k + 1)).zero]) _ _ y [] _ cy _
      (Sample.Link (k + 1)).zero (directlyAssignable_self _)
      (load_mem _ _ H.length [] false _ _ (getElem?_alloc_new H _) (Val.get_nil _))
      (by rw [getElem?_alloc_old H _ y hyl]; exact hy) (Val.put_nil _ _)]
    simp only [ok_bind]
    apply link_fields
    cases g with
    | zero => rfl
    | succ g =>
      refine link_field k g
        (fun H2 x2 y2 cy2 hne2 hx2 hy2 => link_chase k g H2 x2 y2 cy2 (by omega) hne2 hx2 hy2)
        _ x y (.atom (.ptr none)) hne ?_ ?_
      · rw [getElem?_set_other _ y x _ hne, getElem?_alloc_old H _ x hxl]; exact hx
      · rw [getElem?_set_here _ y _ (by simp; omega), Link_zero]

/-! ## A cyclic source -/

/-- The call on the field `Next` of a `Link` that points to itself: the
destination's `Next` is pointed to a new `Link`, and the traversal goes on
with the same source. -/
theorem ring_field (k g : Nat)
    (ih : ∀ (H : Heap) (x y : Nat) (cy : Val), x ≠ y →
      H[x]? = some (.cell (.agg [.atom (.ptr (some x))])) → H[y]? = some (.cell cy) →
      rcopy g H (some ⟨Sample.Link k, .mem y [], false⟩)
        (some ⟨Sample.Link k, .mem x [], false⟩) false = .nofuel)
    (H : Heap) (x y : Nat) (v0 : Val) (hne : x ≠ y)
    (hx : H[x]? = some (.cell (.agg [.atom (.ptr (some x))])))
    (hy : H[y]? = some (.cell (.agg [v0]))) :
    rcopy (g + 1) H (some ⟨.ptr none (Sample.Link k), .mem y [0], false⟩)
      (some ⟨.ptr none (Sample.Link k), .mem x [0], false⟩) false = .nofuel := by
  have hxl : x < H.length := lt_of_cell hx
  have hyl : y < H.length := lt_of_cell hy
  rw [rcopy_ptr_eq]
  simp only [Link_not_reader k, Bool.false_eq_true, if_false]
  rw [IsNil_ptr H _ _ false (some x)
    (load_mem H _ x [0] false _ _ hx (by rw [Val.get_agg_one]; rfl))]
  simp only [Option.isNone_some, Bool.not_false, if_true, ok_bind]
  rw [Set_ok (H ++ [Obj.cell (Sample.Link k).zero]) _ _ y [0] _ (.agg [v0]) _
    (.agg [.atom (.ptr (some H.length))]) (directlyAssignable_self _) (load_imm _ _ _ _)
    (by rw [getElem?_alloc_old H _ y hyl]; exact hy)
    (by rw [Val.put_agg_one _ 0 _ (by simp)]; rfl)]
  simp only [ok_bind]
  have h2x : ((H ++ [Obj.cell (Sample.Link k).zero]).set y
      (.cell (.agg [.atom (.ptr (some H.length))])))[x]? =
      some (.cell (.agg [.atom (.ptr (some x))])) := by
    rw [getElem?_set_other _ y x _ hne, getElem?_alloc_old H _ x hxl]; exact hx
  have h2y : ((H ++ [Obj.cell (Sample.Link k).zero]).set y
      (.cell (.agg [.atom (.ptr (some H.length))])))[y]? =
      some (.cell (.agg [.atom (.ptr (some H.length))])) :=
    getElem?_set_here _ y _ (by simp; omega)
  have h2n : ((H ++ [Obj.cell (Sample.Link k).zero]).set y
      (.cell (.agg [.atom (.ptr (some H.length))])))[H.length]? =
      some (.cell (Sample.Link k).zero) := by
    rw [getElem?_set_other _ y _ _ (by omega)]; exact getElem?_alloc_new H _
  rw [Elem_mem _ none _ (.mem x [0]) false x
    (load_mem _ _ x [0] false _ _ h2x (by rw [Val.get_agg_one]; rfl))]
  simp only [ok_bind]
  rw [Elem_mem _ none _ (.mem y [0]) false H.length
    (load_mem _ _ y [0] false _ _ h2y (by rw [Val.get_agg_one]; rfl))]
  simp only [ok_bind]
  exact ih _ x H.length _ (by omega) h2x h2n

/-- The traversal from a `Link` that points to itself runs out of every
recursion bound that the unfolding of the type allows, whatever the
destination. -/
theorem ring_chase : ∀ (k g : Nat) (H : Heap) (x y : Nat) (cy : Val), g ≤ 2 * k → x ≠ y →
    H[x]? = some (.cell (.agg [.atom (.ptr (some x))])) → H[y]? = some (.cell cy) →
    rcopy g H (some ⟨Sample.Link k, .mem y [], false⟩)
      (some ⟨Sample.Link k, .mem x [], false⟩) false = .nofuel
  | k, 0, H, x, y, cy, _, _, _, _ => rfl
  | 0, g + 1, H, x, y, cy, hg, _, _, _ => by omega
  | k + 1, g + 1, H, x, y, cy, hg, hne, hx, hy => by
    have hxl : x < H.length := lt_of_cell hx
    have hyl : y < H.length := lt_of_cell hy
    have hT : Sample.Link (k + 1) =
        .struct (some ⟨"Link", false⟩) [("Next", .ptr none (Sample.Link k))] := rfl
    rw [hT, rcopy_struct_eq, ← hT]
    simp only [Bool.not_false, if_true]
    rw [Set_ok (H ++ [Obj.cell (Sample.Link (k + 1)).zero]) _ _ y [] _ cy _
      (Sample.Link (k + 1)).zero (directlyAssignable_self _)
      (load_mem _ _ H.length [] false _ _ (getElem?_alloc_new H _) (Val.get_nil _))
      (by rw [getElem?_alloc_old H _ y hyl]; exact hy) (Val.put_nil _ _)]
    simp only [ok_bind]
    apply link_fields
    cases g with
    | zero => rfl
    | succ g =>
      refine ring_field k g
        (fun H2 x2 y2 cy2 hne2 hx2 hy2 => ring_chase k g H2 x2 y2 cy2 (by omega) hne2 hx2 hy2)
        _ x y (.atom (.ptr none)) hne ?_ ?_
      · rw [getElem?_set_other _ y x _ hne, getElem?_alloc_old H _ x hxl]; exact hx
      · rw [getElem?_set_here _ y _ (by simp; omega), Link_zero]

/-- On the cyclic source `a = Link{Next: &a}` the traversal does not end,
although the destination is a new variable: `CopyOf(&a)` runs out of every
recursion bound `f`, on the type unfolded `f` times. -/
theorem CopyOf_cyclic_source_recurses (f : Nat) :
    CopyOf f Sample.ringHeap (some (.ptr none (Sample.Link f), .atom (.ptr (some 0)))) =
      .nofuel := by
  cases f with
  | zero => rfl
  | succ f =>
    rw [CopyOf_eq f _ none _ 0 (Link_not_reader _)]
    cases f with
    | zero => rfl
    | succ f =>
      have hT : Sample.Link (f + 1 + 1) =
          .struct (some ⟨"Link", false⟩) [("Next", .ptr none (Sample.Link (f + 1)))] := rfl
      have hz : (Sample.ringHeap ++ [Obj.cell (Sample.Link (f + 1 + 1)).zero])[1]? =
          some (.cell (.agg [.atom (.ptr none)])) := by
        rw [Link_zero]; rfl
      have hf : rcopy f (Sample.ringHeap ++ [Obj.cell (Sample.Link (f + 1 + 1)).zero])
          (some ⟨.ptr none (Sample.Link (f + 1)), .mem 1 [0], false⟩)
          (some ⟨.ptr none (Sample.Link (f + 1)), .mem 0 [0], false⟩) false = .nofuel := by
        cases f with
        | zero => rfl
        | succ f =>
          exact ring_field (f + 1 + 1) f
            (fun H x y cy hne hx hy =>
              ring_chase (f + 1 + 1) f H x y cy (by omega) hne hx hy)
            _ 0 1 (.atom (.ptr none)) (by decide) rfl hz
      have hs := link_fields (f + 1) f _ 0 1 hf
      rw [hT, rcopy_struct_eq, ← hT]
      simp only [Bool.not_true, Bool.false_eq_true, if_false, ok_bind]
      show (copyFields (rcopy f) ⟨Sample.Link (f + 1 + 1), .mem 1 [], false⟩
        ⟨Sample.Link (f + 1 + 1), .mem 0 [], false⟩
        [("Next", .ptr none (Sample.Link (f + 1)))] _ >>= _) = _
      rw [hs]
      rfl

/-! ## C1: identity round trip -/

/-- C1, evaluated at `CopyOf(&Foo{A: 1})`: the call returns a pointer to a
struct whose `B` is an empty, non-nil slice and whose `C` is an empty, non-nil
map, where the source has nil; the copy is not `DeepEqual` to the source. -/
theorem CopyOf_nil_slice_not_deep_equal :
    CopyOf 3 Sample.fooHeap (some (.ptr none Sample.Foo, .atom (.ptr (some 0)))) =
        .ok ((.ptr none Sample.Foo, .atom (.ptr (some 1))), Sample.fooHeapAfter) ∧
      DeepEqual Sample.fooHeapAfter (.ptr none Sample.Foo)
        (.atom (.ptr (some 1))) (.atom (.ptr (some 0))) = false := by
  decide

/-! ## C2: cross-type field subset copy -/

/-- C2 as stated fails when the source's pointer type is an `io.Reader`:
`Copy(&dst, &src)` then takes the stream branch, tries to store the pointer
`&src` in the struct `dst`, and panics; `dst.A` is not set. -/
theorem Copy_field_subset_reader_panics :
    Copy 3 Sample.subsetHeap
        (some (.ptr none Sample.Dst, .atom (.ptr (some 1))))
        (some (.ptr none Sample.SrcReader, .atom (.ptr (some 0)))) =
      .panic .notAssignable := by
  decide

/-- C2, amended: let the source struct type declare the named fields
`{A, B, C}` and the destination struct type the named fields `{A, C, D}`, none
of them embedded (so that no field `D` is promoted to the source out of `B`).
When the pointer to the source struct type is not an `io.Reader` and `A`, `C`
have the same leaf type on both sides, `Copy(&dst, &src)` returns with
`dst.A = src.A`, `dst.C = src.C` and `dst.D` as it was; the memory after the
call does not depend on `src.B`. -/
theorem Copy_field_subset (fuel : Nat) (h : Heap) (nS nD nmS nmD : Option TName)
    (tA tB tC tD : Ty) (s d : Nat) (a b c a0 c0 d0 : Val)
    (hA : tA.isLeaf = true) (hC : tC.isLeaf = true)
    (hr : (Ty.ptr nS (.struct nmS [("A", tA), ("B", tB), ("C", tC)])).isReader = false)
    (hs : h[s]? = some (.cell (.agg [a, b, c])))
    (hd : h[d]? = some (.cell (.agg [a0, c0, d0]))) :
    Copy (fuel + 3) h
        (some (.ptr nD (.struct nmD [("A", tA), ("C", tC), ("D", tD)]), .atom (.ptr (some d))))
        (some (.ptr nS (.struct nmS [("A", tA), ("B", tB), ("C", tC)]), .atom (.ptr (some s))))
      = .ok (h.set d (.cell (.agg [a, c, d0]))) := by
  have hdl : d < h.length := by
    rcases Nat.lt_or_ge d h.length with h1 | h1
    · exact h1
    · rw [List.getElem?_eq_none h1] at hd; cases hd
  simp only [Copy, ValueOf]
  rw [rcopy]
  simp only [Ty.Kind, ne_eq, not_true_eq_false, if_false, hr, Value.Interface, Ty.Elem,
    Value.IsNil, Value.load, CanSet, Value.addressable, Bool.false_and, ok_bind, Value.Elem,
    Option.isNone, Bool.false_eq_true, if_false]
  rw [rcopy]
  have eA : exported "A" = true := by decide
  have eC : exported "C" = true := by decide
  have f1 : findField "A" [("A", tA), ("B", tB), ("C", tC)] = some (0, tA) := by
    simp [findField]
  have f2 : findField "C" [("A", tA), ("B", tB), ("C", tC)] = some (2, tC) := by
    simp [findField]
  have f3 : findField "D" [("A", tA), ("B", tB), ("C", tC)] = none := by simp [findField]
  have g1 : findField "A" [("A", tA), ("C", tC), ("D", tD)] = some (0, tA) := by
    simp [findField]
  have g2 : findField "C" [("A", tA), ("C", tC), ("D", tD)] = some (1, tC) := by
    simp [findField]
  simp only [Ty.Kind, ne_eq, not_true_eq_false, if_false, Bool.not_true, Bool.false_eq_true,
    ok_bind, copyFields, Value.FieldByName, f1, f2, f3, g1, g2, List.nil_append, eA, eC,
    Bool.or_false]
  rw [rcopy_leaf_same _ _ _ _ _ _ _ hA]
  simp only [Value.load, Heap.cellAt, hs, hd, Val.get, ok_bind, Heap.store, Val.put]
  simp only [List.getElem?_cons_zero, List.set_cons_zero, ok_bind]
  rw [rcopy_leaf_same _ _ _ _ _ _ _ hC]
  simp only [Value.load, Heap.cellAt, Heap.store]
  by_cases hsd : s = d
  · subst hsd
    rw [hs] at hd
    injection hd with hd; injection hd with hd; injection hd with hd
    simp only [List.cons.injEq, and_true] at hd
    obtain ⟨h1, h2, h3⟩ := hd
    subst h1; subst h2; subst h3
    simp [List.getElem?_set_self hdl, Val.get, Val.put, List.set_set]
  · have hne : d ≠ s := fun e => hsd e.symm
    simp [List.getElem?_set_ne hne, List.getElem?_set_self hdl, hs, Val.get, Val.put,
      List.set_set]

/-- C2, at `Src{1, "b", 3}` copied into the zero `Dst`: `dst` becomes
`{A: 1, C: 3, D: ""}`. -/
theorem Copy_field_subset_witness :
    Copy 3 Sample.subsetHeap
        (some (.ptr none Sample.Dst, .atom (.ptr (some 1))))
        (some (.ptr none (.struct (some ⟨"Src", false⟩)
          [("A", Sample.tInt), ("B", Sample.tString), ("C", Sample.tInt)]),
          .atom (.ptr (some 0)))) =
      .ok (Sample.subsetHeap.set 1
        (.cell (.agg [.atom (.int 1), .atom (.int 3), .atom (.str "")]))) :=
  Copy_field_subset 0 Sample.subsetHeap none none (some ⟨"Src", false⟩) (some ⟨"Dst", false⟩)
    Sample.tInt Sample.tString Sample.tInt Sample.tString 0 1
    (.atom (.int 1)) (.atom (.str "b")) (.atom (.int 3))
    (.atom (.int 0)) (.atom (.int 0)) (.atom (.str ""))
    (by decide) (by decide) (by decide) (by decide) (by decide)

/-! ## C3: no-fail traversal -/

/-- C3, evaluated: `Copy(&dst, &src)` panics in `Value.Set` when a pointer
field has another element type in the destination (`*string` into `*int`),
and when a leaf field has another type of the same kind (`MyInt` into `int`). -/
theorem Copy_panics_on_nested_type_mismatch :
    Copy 4 Sample.ptrHeap
        (some (.ptr none Sample.PInt, .atom (.ptr (some 2))))
        (some (.ptr none Sample.PString, .atom (.ptr (some 0)))) = .panic .notAssignable ∧
      Copy 4 Sample.leafHeap
        (some (.ptr none Sample.HasInt, .atom (.ptr (some 1))))
        (some (.ptr none Sample.HasMyInt, .atom (.ptr (some 0)))) = .panic .notAssignable := by
  decide

/-! ## C4: structural independence -/

/-- C4 as stated fails for a map whose keys are pointers: after
`CopyOf(&KeyPtr{K: {&seven: "v"}})` the new map (at 4) and the source's map
(at 2) both have the key `&seven`, the address 1 of a variable of the old
memory, so the pointee of the key is shared and a write through it on one side
is seen on the other. -/
theorem CopyOf_shares_map_key_pointee :
    CopyOf 4 Sample.keyHeap (some (.ptr none Sample.KeyPtr, .atom (.ptr (some 0)))) =
        .ok ((.ptr none Sample.KeyPtr, .atom (.ptr (some 3))), Sample.keyHeapAfter) ∧
      Sample.keyHeapAfter[2]? = some (.map [(.atom (.ptr (some 1)), .atom (.str "v"))]) ∧
      Sample.keyHeapAfter[4]? = some (.map [(.atom (.ptr (some 1)), .atom (.str "v"))]) ∧
      Sample.keyHeap.length = 3 := by
  decide

/-- C4, amended: for a well-formed source `p` whose pointee type has no
arrays on the way of the traversal, whenever `CopyOf(p)` returns `q`, the old
memory is as before and still holds the whole source; `q` points to a new
variable, and every variable, slice array and map that belongs to the copy
(reached without going through an `io.Reader` pointer or a map key) was
allocated by the call.  Hence a later write in the old part of memory leaves
the copy as it is, and a later write in the new part leaves the source as it
is.  And `CopyOf(p)` does return when `p` is not an `io.Reader`, all fields
on the way are exported and the fuel exceeds the depth of the type. -/
theorem CopyOf_shares_no_memory (fuel : Nat) (h : Heap) (nm : Option TName) (T : Ty)
    (p : Nat) (hT : T.namesOK = true) (hA : T.noArray = true)
    (hwf : Owned 0 h.length h (.ptr nm T) (.atom (.ptr (some p))) = true) :
    (∀ (res : Ty × Val) (h2 : Heap),
      CopyOf fuel h (some (.ptr nm T, .atom (.ptr (some p)))) = .ok (res, h2) →
      (∀ a, a < h.length → h2[a]? = h[a]?) ∧
      Owned 0 h.length h2 (.ptr nm T) (.atom (.ptr (some p))) = true ∧
      ∃ q w, res = (.ptr none T, .atom (.ptr (some q))) ∧ h.length ≤ q ∧ q < h2.length ∧
        h2[q]? = some (.cell w) ∧ Owned h.length h2.length h2 T w = true ∧
        (∀ h3 : Heap, (∀ a, h.length ≤ a → a < h2.length → h3[a]? = h2[a]?) →
          h3[q]? = some (.cell w) ∧ Owned h.length h2.length h3 T w = true) ∧
        (∀ h3 : Heap, (∀ a, a < h.length → h3[a]? = h2[a]?) →
          Owned 0 h.length h3 (.ptr nm T) (.atom (.ptr (some p))) = true)) ∧
    ((Ty.ptr nm T).isReader = false → T.exportedOnly = true → T.depth + 1 < fuel →
      ∃ res h2, CopyOf fuel h (some (.ptr nm T, .atom (.ptr (some p)))) = .ok (res, h2)) := by
  refine ⟨?_, fun hr hE hd => CopyOf_total fuel h nm T p hr hd hT hE hwf⟩
  intro res h2 hret
  obtain ⟨hres, hlen, hfr, vp, w, _, hw, him⟩ := CopyOf_image fuel h nm T p res h2 hT hwf hret
  have hsrc : Owned 0 h.length h2 (.ptr nm T) (.atom (.ptr (some p))) = true :=
    Owned_congr (fun a _ ha => hfr a ha) _ _ hwf
  have hown : Owned h.length h2.length h2 T w = true :=
    Image_owned T vp w hA
      (Image_weaken (Nat.le_succ _) (Nat.le_refl _) (fun _ _ _ => rfl) T vp w him)
  refine ⟨hfr, hsrc, h.length, w, hres, Nat.le_refl _, hlen, hw, hown, ?_, ?_⟩
  · intro h3 hag
    exact ⟨by rw [hag _ (Nat.le_refl _) hlen]; exact hw, Owned_congr hag T w hown⟩
  · intro h3 hag
    exact Owned_congr (fun a _ ha => hag a ha) _ _ hsrc

/-- C4, at `CopyOf(&node)` for the `Node` of `Sample.nodeHeap`, with a slice
of structs and a map of pointers: the call returns, the copy is at address 4
and owns the addresses from 4 on, the source those below 4. -/
theorem CopyOf_shares_no_memory_witness :
    ((∀ a, a < Sample.nodeHeap.length → Sample.nodeHeapAfter[a]? = Sample.nodeHeap[a]?) ∧
      Owned 0 Sample.nodeHeap.length Sample.nodeHeapAfter (.ptr none Sample.Node)
        (.atom (.ptr (some 0))) = true ∧
      ∃ q w, ((.ptr none Sample.Node, .atom (.ptr (some 4))) : Ty × Val) =
          (.ptr none Sample.Node, .atom (.ptr (some q))) ∧
        Sample.nodeHeap.length ≤ q ∧ q < Sample.nodeHeapAfter.length ∧
        Sample.nodeHeapAfter[q]? = some (.cell w) ∧
        Owned Sample.nodeHeap.length Sample.nodeHeapAfter.length Sample.nodeHeapAfter
          Sample.Node w = true ∧
        (∀ h3 : Heap, (∀ a, Sample.nodeHeap.length ≤ a → a < Sample.nodeHeapAfter.length →
            h3[a]? = Sample.nodeHeapAfter[a]?) →
          h3[q]? = some (.cell w) ∧
          Owned Sample.nodeHeap.length Sample.nodeHeapAfter.length h3 Sample.Node w = true) ∧
        (∀ h3 : Heap, (∀ a, a < Sample.nodeHeap.length → h3[a]? = Sample.nodeHeapAfter[a]?) →
          Owned 0 Sample.nodeHeap.length h3 (.ptr none Sample.Node)
            (.atom (.ptr (some 0))) = true)) ∧
    ∃ res h2, CopyOf 7 Sample.nodeHeap
      (some (.ptr none Sample.Node, .atom (.ptr (some 0)))) = .ok (res, h2) :=
  ⟨(CopyOf_shares_no_memory 7 Sample.nodeHeap none Sample.Node 0
      (by decide) (by decide) (by decide)).1
      (.ptr none Sample.Node, .atom (.ptr (some 4))) Sample.nodeHeapAfter (by decide),
    (CopyOf_shares_no_memory 7 Sample.nodeHeap none Sample.Node 0
      (by decide) (by decide) (by decide)).2 (by decide) (by decide) (by decide)⟩

/-! ## C5: mismatch skip -/

/-- C5: when the source is the zero `Value`, or the kinds of source and
destination differ, or both are leaves of one kind and the source's type is
not convertible to the destination's, `rcopy` returns and the memory, hence
the destination, is as before. -/
theorem rcopy_mismatch_skip (fuel : Nat) (h : Heap) (dst src : Option Value) (root : Bool)
    (hm : src = none ∨ KindOf src ≠ KindOf dst ∨
      (∃ s d, src = some s ∧ dst = some d ∧ s.ty.Kind = d.ty.Kind ∧ s.ty.isLeaf = true ∧
        s.ty.ConvertibleTo d.ty = false)) :
    rcopy (fuel + 1) h dst src root = .ok h := by
  rcases hm with hm | hm | ⟨s, d, hs, hd, hk, hl, hc⟩
  · subst hm; simp [rcopy]
  · cases src with
    | none => simp [rcopy]
    | some s =>
      cases dst with
      | none => simp [rcopy]
      | some d =>
        simp only [KindOf] at hm
        simp [rcopy, hm]
  · subst hs; subst hd
    rw [rcopy_leaf fuel h d s root hl hk]
    simp [hc]

/-- C5, at a `[2]int` source and a `[3]int` destination, leaves of kind Array
that are not convertible. -/
theorem rcopy_mismatch_skip_witness :
    rcopy 1 Sample.arrHeap (some ⟨Sample.tArr3, .mem 1 [], false⟩)
      (some ⟨Sample.tArr2, .mem 0 [], false⟩) false = .ok Sample.arrHeap :=
  rcopy_mismatch_skip 0 Sample.arrHeap _ _ false
    (Or.inr (Or.inr ⟨_, _, rfl, rfl, by decide, by decide, by decide⟩))

/-! ## C6: convertible leaf assignment -/

/-- C6 fails on the code, which never converts.  `Copy` is documented to copy
the fields that are convertible, and the default case of `rcopy` asks
`ConvertibleTo`, but then calls `Set` on the unconverted source.  `int32` is
convertible to `int64`, yet the kinds differ, `rcopy` returns at its first
test and the `int64` destination keeps its 0 instead of receiving the
source's 5; `MyInt` is convertible to `int` and of the same kind, and `Set`
panics because a `MyInt` is not assignable to an `int`. -/
theorem rcopy_convertible_leaf_not_assigned :
    Sample.tInt32.ConvertibleTo Sample.tInt64 = true ∧
      rcopy 2 Sample.widenHeap (some ⟨Sample.tInt64, .mem 1 [], false⟩)
        (some ⟨Sample.tInt32, .mem 0 [], false⟩) false = .ok Sample.widenHeap ∧
      Value.load Sample.widenHeap ⟨Sample.tInt64, .mem 1 [], false⟩ = .ok (.atom (.int 0)) ∧
      Value.load Sample.widenHeap ⟨Sample.tInt32, .mem 0 [], false⟩ = .ok (.atom (.int 5)) ∧
    Sample.tMyInt.ConvertibleTo Sample.tInt = true ∧
      rcopy 2 Sample.leafHeap (some ⟨Sample.tInt, .mem 1 [0], false⟩)
        (some ⟨Sample.tMyInt, .mem 0 [0], false⟩) false = .panic .notAssignable := by
  decide

/-- What the code does store at a leaf: a source whose type is assignable to
the type of a settable leaf destination of the same kind is stored in the
destination as it is; when the kinds differ nothing is stored. -/
theorem rcopy_assignable_leaf (fuel : Nat) (h : Heap) (S D : Ty) (sst : Store) (a : Nat)
    (p : List Nat) (root : Bool) (x c c2 : Val)
    (hl : S.isLeaf = true)
    (hx : Value.load h ⟨S, sst, false⟩ = .ok x)
    (hc : h[a]? = some (.cell c)) (hp : c.put p x = some c2) :
    (S.Kind = D.Kind → directlyAssignable D S = true →
      rcopy (fuel + 1) h (some ⟨D, .mem a p, false⟩) (some ⟨S, sst, false⟩) root =
        .ok (h.set a (.cell c2))) ∧
    (S.Kind ≠ D.Kind →
      rcopy (fuel + 1) h (some ⟨D, .mem a p, false⟩) (some ⟨S, sst, false⟩) root = .ok h) := by
  constructor
  · intro hk ha
    rw [rcopy_leaf fuel h ⟨D, .mem a p, false⟩ ⟨S, sst, false⟩ root hl hk]
    simp [ConvertibleTo_of_assignable S D ha, Value.Set, ha, hx, Heap.store, Heap.cellAt, hc, hp]
  · intro hk
    simp [rcopy, hk]

/-- The default case at a `[2]int` source `{7, 8}` and a destination of the
declared type `Pair`, whose underlying type is `[2]int`. -/
theorem rcopy_assignable_leaf_witness :
    rcopy 1 Sample.arrHeap (some ⟨Sample.tPair, .mem 1 [], false⟩)
        (some ⟨Sample.tArr2, .mem 0 [], false⟩) false =
      .ok (Sample.arrHeap.set 1 (.cell (.agg [.atom (.int 7), .atom (.int 8)]))) :=
  (rcopy_assignable_leaf 0 Sample.arrHeap Sample.tArr2 Sample.tPair (.mem 0 []) 1 [] false
    (.agg [.atom (.int 7), .atom (.int 8)]) (.agg [.atom (.int 0), .atom (.int 0)])
    (.agg [.atom (.int 7), .atom (.int 8)]) (by decide) (by decide) (by decide)
    (by decide)).1 (by decide) (by decide)

/-! ## C7: nested-aggregate cleanliness -/

/-- C7, evaluated at `dst = OuterD{In: InnerD{X: 4, Y: &nine}}` and
`src = OuterS{In: InnerS{X: 1}}`: the nested structs have different types, the
zero value that `rcopy` makes for `dst.In` has the source's type `InnerS`, and
storing it panics; `dst.In.Y` is not cleared. -/
theorem Copy_nested_struct_of_other_type_panics :
    Copy 4 Sample.nestedHeap
        (some (.ptr none Sample.OuterD, .atom (.ptr (some 2))))
        (some (.ptr none Sample.OuterS, .atom (.ptr (some 0)))) = .panic .notAssignable := by
  decide

/-! ## C8: null indirection propagation -/

/-- C8: for a well-formed source `p`, whenever `CopyOf(p)` returns, every
path of field, pointer, index and key steps that leads in the source struct to
a nil pointer that is not an `io.Reader` leads in the returned struct to a
pointer of the same type that is nil.  And `CopyOf(p)` does return when `p`
is not an `io.Reader`, all fields on the way are exported and the fuel exceeds
the depth of the type. -/
theorem CopyOf_nil_pointer_stays_nil (fuel : Nat) (h : Heap) (nm : Option TName) (T : Ty)
    (p : Nat) (vp : Val) (π : List Sel) (nm2 : Option TName) (e2 : Ty)
    (hT : T.namesOK = true)
    (hwf : Owned 0 h.length h (.ptr nm T) (.atom (.ptr (some p))) = true)
    (hp : h[p]? = some (.cell vp))
    (hnil : resolve h T vp π = some (.ptr nm2 e2, .atom (.ptr none)))
    (hnr : (Ty.ptr nm2 e2).isReader = false) :
    (∀ (res : Ty × Val) (h2 : Heap),
      CopyOf fuel h (some (.ptr nm T, .atom (.ptr (some p)))) = .ok (res, h2) →
      ∃ q w, res = (.ptr none T, .atom (.ptr (some q))) ∧ h2[q]? = some (.cell w) ∧
        resolve h2 T w π = some (.ptr nm2 e2, .atom (.ptr none))) ∧
    ((Ty.ptr nm T).isReader = false → T.exportedOnly = true → T.depth + 1 < fuel →
      ∃ res h2, CopyOf fuel h (some (.ptr nm T, .atom (.ptr (some p)))) = .ok (res, h2)) := by
  refine ⟨?_, fun hr hE hd => CopyOf_total fuel h nm T p hr hd hT hE hwf⟩
  intro res h2 hret
  obtain ⟨hres, _, _, vp2, w, hp2, hw, him⟩ := CopyOf_image fuel h nm T p res h2 hT hwf hret
  rw [hp] at hp2
  cases hp2
  exact ⟨h.length, w, hres, hw, resolve_image nm2 e2 hnr π T vp w him hnil⟩

/-- C8, at `CopyOf(&node)` for the `Node` of `Sample.nodeHeap` and the nil
pointer `node.Index["k"].P`, below a map and a pointer: the call returns and
the pointer at that path of the copy is nil. -/
theorem CopyOf_nil_pointer_stays_nil_witness :
    (∃ q w, ((.ptr none Sample.Node, .atom (.ptr (some 4))) : Ty × Val) =
        (.ptr none Sample.Node, .atom (.ptr (some q))) ∧
      Sample.nodeHeapAfter[q]? = some (.cell w) ∧
      resolve Sample.nodeHeapAfter Sample.Node w
        [.field "Index", .key (.atom (.str "k")), .deref, .field "P"] =
        some (.ptr none Sample.tInt, .atom (.ptr none))) ∧
    ∃ res h2, CopyOf 7 Sample.nodeHeap
      (some (.ptr none Sample.Node, .atom (.ptr (some 0)))) = .ok (res, h2) :=
  ⟨(CopyOf_nil_pointer_stays_nil 7 Sample.nodeHeap none Sample.Node 0 Sample.nodeVal
      [.field "Index", .key (.atom (.str "k")), .deref, .field "P"] none Sample.tInt
      (by decide) (by decide) (by decide) (by decide) (by decide)).1
      (.ptr none Sample.Node, .atom (.ptr (some 4))) Sample.nodeHeapAfter (by decide),
    (CopyOf_nil_pointer_stays_nil 7 Sample.nodeHeap none Sample.Node 0 Sample.nodeVal
      [.field "Index", .key (.atom (.str "k")), .deref, .field "P"] none Sample.tInt
      (by decide) (by decide) (by decide) (by decide) (by decide)).2
      (by decide) (by decide) (by decide)⟩

/-! ## C9: slice copy -/

/-- C9, evaluated at a source of type `IDs` and a settable destination of type
`Nums`, both declared as `[]int`: the slice that `rcopy` makes has the
source's type and storing it in the destination panics, although `IDs` is
convertible to `Nums`. -/
theorem rcopy_slice_of_other_type_panics :
    Sample.tIDs.ConvertibleTo Sample.tNums = true ∧
      rcopy 2 Sample.sliceHeap (some ⟨Sample.tNums, .mem 2 [], false⟩)
        (some ⟨Sample.tIDs, .mem 1 [], false⟩) false = .panic .notAssignable := by
  decide

/-! ## C10: map copy -/

/-- C10, evaluated at a source of type `Ages` and a settable destination of
type `Counts`, both declared as `map[string]int`: the map that `rcopy` makes
has the source's type and storing it in the destination panics, although
`Ages` is convertible to `Counts`. -/
theorem rcopy_map_of_other_type_panics :
    Sample.tAges.ConvertibleTo Sample.tCounts = true ∧
      rcopy 2 Sample.mapHeap (some ⟨Sample.tCounts, .mem 2 [], false⟩)
        (some ⟨Sample.tAges, .mem 1 [], false⟩) false = .panic .notAssignable := by
  decide

/-! ## C11: stream aliasing -/

/-- C11: let `src` be a struct whose field `F` has a pointer type that is an
`io.Reader` and holds a non-nil pointer.  Whenever `CopyOf(&src)` returns, and
whenever `Copy(&dst, &src)` returns for another variable `dst` of the same
type (zero or not), the field `F` of the result is the very pointer of
`src.F`, and the memory that existed before the call, the pointee included, is
unchanged outside `dst`: nothing was allocated for the pointee and nothing
written to it.  Both calls do return for a well-formed source when `&src` is
not itself an `io.Reader`, the fields on the way are exported, the recursion
bound exceeds the depth of the type and, for `Copy`, `dst` is a zero variable
allocated after the source. -/
theorem reader_field_shared (fuel : Nat) (h : Heap) (nms nmT : Option TName)
    (fs : List (String × Ty)) (ps : Nat) (cs : Val) (F : String) (i : Nat) (tF : Ty) (a : Nat)
    (hs : h[ps]? = some (.cell cs)) (hF : findField F fs = some (i, tF))
    (hR : tF.isReader = true) (hx : cs.get [i] = some (.atom (.ptr (some a)))) :
    (∀ res h2,
      CopyOf fuel h (some (.ptr nms (.struct nmT fs), .atom (.ptr (some ps)))) = .ok (res, h2) →
      res = (.ptr none (.struct nmT fs), .atom (.ptr (some h.length))) ∧
      (∀ x, x < h.length → h2[x]? = h[x]?) ∧
      ∃ c2, h2[h.length]? = some (.cell c2) ∧ c2.get [i] = some (.atom (.ptr (some a)))) ∧
    (∀ nmd b cd h2, h[b]? = some (.cell cd) → ps ≠ b →
      Copy fuel h (some (.ptr nmd (.struct nmT fs), .atom (.ptr (some b))))
        (some (.ptr nms (.struct nmT fs), .atom (.ptr (some ps)))) = .ok h2 →
      (∀ x, x < h.length → x ≠ b → h2[x]? = h[x]?) ∧
      ∃ c2, h2[b]? = some (.cell c2) ∧ c2.get [i] = some (.atom (.ptr (some a)))) ∧
    ((Ty.ptr nms (.struct nmT fs)).isReader = false → (Ty.struct nmT fs).namesOK = true →
      (Ty.struct nmT fs).exportedOnly = true → (Ty.struct nmT fs).depth + 1 < fuel →
      (Owned 0 h.length h (.ptr nms (.struct nmT fs)) (.atom (.ptr (some ps))) = true →
        ∃ res h2, CopyOf fuel h
          (some (.ptr nms (.struct nmT fs), .atom (.ptr (some ps)))) = .ok (res, h2)) ∧
      (∀ nmd b, Owned 0 b h (.ptr nms (.struct nmT fs)) (.atom (.ptr (some ps))) = true →
        h[b]? = some (.cell (Ty.struct nmT fs).zero) →
        ∃ h2, Copy fuel h (some (.ptr nmd (.struct nmT fs), .atom (.ptr (some b))))
          (some (.ptr nms (.struct nmT fs), .atom (.ptr (some ps)))) = .ok h2)) := by
  have hpl : ps < h.length := lt_of_cell hs
  refine ⟨?_, ?_, ?_⟩
  · intro res h2 hret
    cases hr : (Ty.ptr nms (.struct nmT fs)).isReader with
    | true => exact absurd hret (CopyOf_reader fuel h nms _ ps hr _)
    | false =>
      cases fuel with
      | zero => simp [CopyOf, Ty.Elem, rcopy] at hret
      | succ fuel =>
        rw [CopyOf_eq fuel h nms _ ps hr] at hret
        obtain ⟨h3, hrc, hres⟩ := bind_eq_ok hret
        cases hres
        obtain ⟨hfr, c2, hb2, hK2⟩ :=
          rcopy_reader_field fuel (h ++ [Obj.cell (Ty.struct nmT fs).zero]) nmT fs h.length ps
            _ cs F i tF _ h2 hF hR (getElem?_alloc_new h _)
            (by rw [getElem?_alloc_old h _ ps hpl]; exact hs) (by omega) hx hrc
        refine ⟨rfl, ?_, c2, hb2, hK2⟩
        intro x hx'
        rw [hfr x (by simp; omega) (by omega), getElem?_alloc_old h _ x hx']
  · intro nmd b cd h2 hb hne hret
    cases hr : (Ty.ptr nms (.struct nmT fs)).isReader with
    | true => exact absurd hret (Copy_ptr_reader fuel h nmd nms _ b ps hr h2)
    | false =>
      cases fuel with
      | zero => simp [Copy, ValueOf, rcopy] at hret
      | succ fuel =>
        rw [Copy_ptr_eq fuel h nmd nms _ b ps hr] at hret
        exact rcopy_reader_field fuel h nmT fs b ps cd cs F i tF _ h2 hF hR hb hs hne hx hret
  · intro hr hT hE hd
    exact ⟨fun hwf => CopyOf_total fuel h nms _ ps hr hd hT hE hwf,
      fun nmd b hwf hb => Copy_total fuel h nmd nms _ b ps hr hd hT hE hwf hb⟩

/-- C11, at `req = Req{Body: &body, N: 3}` of `Sample.reqHeap`: `CopyOf(&req)`
and `Copy(&dst, &req)` into a zero `dst` return, and the `Body` of the result
at address 2 is `&body`, the address 0. -/
theorem reader_field_shared_witness :
    ((((.ptr none Sample.Req, .atom (.ptr (some 2))) : Ty × Val) =
        (.ptr none Sample.Req, .atom (.ptr (some Sample.reqHeap.length)))) ∧
      (∀ x, x < Sample.reqHeap.length → Sample.reqHeapAfter[x]? = Sample.reqHeap[x]?) ∧
      ∃ c2, Sample.reqHeapAfter[Sample.reqHeap.length]? = some (.cell c2) ∧
        c2.get [0] = some (.atom (.ptr (some 0)))) ∧
    ((∀ x, x < Sample.reqHeap2.length → x ≠ 2 →
        Sample.reqHeapAfter[x]? = Sample.reqHeap2[x]?) ∧
      ∃ c2, Sample.reqHeapAfter[2]? = some (.cell c2) ∧
        c2.get [0] = some (.atom (.ptr (some 0)))) ∧
    (∃ res h2, CopyOf 5 Sample.reqHeap
      (some (.ptr none Sample.Req, .atom (.ptr (some 1)))) = .ok (res, h2)) ∧
    (∃ h2, Copy 5 Sample.reqHeap2 (some (.ptr none Sample.Req, .atom (.ptr (some 2))))
      (some (.ptr none Sample.Req, .atom (.ptr (some 1)))) = .ok h2) :=
  ⟨(reader_field_shared 5 Sample.reqHeap none (some ⟨"Req", false⟩)
      [("Body", .ptr none Sample.Body), ("N", Sample.tInt)] 1
      (.agg [.atom (.ptr (some 0)), .atom (.int 3)]) "Body" 0 (.ptr none Sample.Body) 0
      (by decide) (by decide) (by decide) (by decide)).1
      (.ptr none Sample.Req, .atom (.ptr (some 2))) Sample.reqHeapAfter (by decide),
    (reader_field_shared 5 Sample.reqHeap2 none (some ⟨"Req", false⟩)
      [("Body", .ptr none Sample.Body), ("N", Sample.tInt)] 1
      (.agg [.atom (.ptr (some 0)), .atom (.int 3)]) "Body" 0 (.ptr none Sample.Body) 0
      (by decide) (by decide) (by decide) (by decide)).2.1 none 2
      (.agg [.atom (.ptr none), .atom (.int 0)]) Sample.reqHeapAfter
      (by decide) (by decide) (by decide),
    ((reader_field_shared 5 Sample.reqHeap none (some ⟨"Req", false⟩)
      [("Body", .ptr none Sample.Body), ("N", Sample.tInt)] 1
      (.agg [.atom (.ptr (some 0)), .atom (.int 3)]) "Body" 0 (.ptr none Sample.Body) 0
      (by decide) (by decide) (by decide) (by decide)).2.2
      (by decide) (by decide) (by decide) (by decide)).1 (by decide),
    ((reader_field_shared 5 Sample.reqHeap2 none (some ⟨"Req", false⟩)
      [("Body", .ptr none Sample.Body), ("N", Sample.tInt)] 1
      (.agg [.atom (.ptr (some 0)), .atom (.int 3)]) "Body" 0 (.ptr none Sample.Body) 0
      (by decide) (by decide) (by decide) (by decide)).2.2
      (by decide) (by decide) (by decide) (by decide)).2 none 2 (by decide) (by decide)⟩

/-! ## C12: nil destination -/

/-- C12: for every source, `Copy(nil, src)` panics with "Copy dst cannot be
nil"; `rcopy` is not called, whatever the recursion bound. -/
theorem Copy_nil_dst_panics (fuel : Nat) (h : Heap) (src : Option (Ty × Val)) :
    Copy fuel h none src = .panic .copyDstNil := rfl

/-! ## C13: `CopyOf` of a non-pointer -/

/-- C13 fails on the code for a slice.  `CopyOf` is documented to fail when
`src` is not a pointer, and it has no test of its own: it relies on
`Type.Elem()` to panic.  `Type.Elem()` is defined for a slice type, so
`CopyOf(IDs{1, 2})` allocates a zero `int`, `rcopy` returns at once because
the kinds Ptr and Slice differ, and `CopyOf` returns a `*int` to that zero
instead of failing. -/
theorem CopyOf_slice_returns :
    CopyOf 1 Sample.sliceHeap (some (Sample.tIDs, .atom (.slice (some ⟨0, 0, 2, 2⟩)))) =
      .ok ((.ptr none Sample.tInt, .atom (.ptr (some 3))),
        Sample.sliceHeap ++ [.cell (.atom (.int 0))]) := by
  decide

/-- Where `CopyOf` of a non-pointer does fail and where it does not:
`CopyOf(src)` panics in `Type.Elem()` for every source whose kind is none of
pointer, slice, map and array, that is for a struct, a number, a bool or a
string (and for the nil interface, on the nil `Type`); for a slice, a map or
an array it returns a pointer to a new zero value of the element type. -/
theorem CopyOf_non_pointer (fuel : Nat) (h : Heap) (t : Ty) (v : Val) (hk : t.Kind ≠ .Ptr) :
    (t.Kind ≠ .Slice → t.Kind ≠ .Map → t.Kind ≠ .Array →
      CopyOf fuel h (some (t, v)) = .panic .elemOfInvalidType) ∧
    (∀ e, t.Elem = some e →
      CopyOf (fuel + 1) h (some (t, v)) =
        .ok ((.ptr none e, .atom (.ptr (some h.length))), h ++ [.cell e.zero])) ∧
    CopyOf fuel h none = .panic .nilType := by
  refine ⟨?_, ?_, rfl⟩
  · intro h1 h2 h3
    cases t <;> simp [Ty.Kind] at hk h1 h2 h3 <;> simp [CopyOf, Ty.Elem]
  · intro e he
    cases t with
    | ptr nm e2 => simp [Ty.Kind] at hk
    | basic nm b => simp [Ty.Elem] at he
    | struct nm fs => simp [Ty.Elem] at he
    | slice nm e2 =>
      simp only [Ty.Elem, Option.some.injEq] at he
      subst he
      simp [CopyOf, Ty.Elem, ValueOf, New, Heap.alloc, rcopy, Ty.Kind, Value.load]
    | map nm k e2 =>
      simp only [Ty.Elem, Option.some.injEq] at he
      subst he
      simp [CopyOf, Ty.Elem, ValueOf, New, Heap.alloc, rcopy, Ty.Kind, Value.load]
    | array nm n e2 =>
      simp only [Ty.Elem, Option.some.injEq] at he
      subst he
      simp [CopyOf, Ty.Elem, ValueOf, New, Heap.alloc, rcopy, Ty.Kind, Value.load]

/-- `CopyOf` at the struct `Foo{A: 1}` passed by value, which panics, and at
the map `Ages{"k": 7}`, for which it returns a pointer to a zero `int`. -/
theorem CopyOf_non_pointer_witness :
    CopyOf 1 Sample.fooHeap
        (some (Sample.Foo, .agg [.atom (.int 1), .atom (.slice none), .atom (.map none)])) =
      .panic .elemOfInvalidType ∧
    CopyOf 1 Sample.mapHeap (some (Sample.tAges, .atom (.map (some 0)))) =
      .ok ((.ptr none Sample.tInt, .atom (.ptr (some Sample.mapHeap.length))),
        Sample.mapHeap ++ [.cell Sample.tInt.zero]) :=
  ⟨(CopyOf_non_pointer 1 Sample.fooHeap Sample.Foo _ (by decide)).1
      (by decide) (by decide) (by decide),
    (CopyOf_non_pointer 0 Sample.mapHeap Sample.tAges _ (by decide)).2.1 Sample.tInt rfl⟩

/-! ## C14: result of `CopyOf` -/

/-- C14: let `src` be a pointer of type `*T` that is not an `io.Reader`.  For
the nil pointer `CopyOf(src)` returns a pointer of type `*T` to a new variable
that holds the zero value of `T`, and memory is otherwise as before.  For a
pointer to a variable, whenever `CopyOf(src)` returns, the result is a non-nil
pointer of type `*T` to a variable that did not exist before the call, hence
is not `src`'s pointee, and the memory that existed before is unchanged; and
`CopyOf(src)` does return for a well-formed source whose fields on the way are
exported, with a recursion bound above the depth of the type. -/
theorem CopyOf_result_shape (fuel : Nat) (h : Heap) (T : Ty)
    (hr : (Ty.ptr none T).isReader = false) :
    CopyOf (fuel + 1) h (some (.ptr none T, .atom (.ptr none))) =
      .ok ((.ptr none T, .atom (.ptr (some h.length))), h ++ [.cell T.zero]) ∧
    (∀ p vp res h2, h[p]? = some (.cell vp) →
      CopyOf fuel h (some (.ptr none T, .atom (.ptr (some p)))) = .ok (res, h2) →
      res = (.ptr none T, .atom (.ptr (some h.length))) ∧ h.length ≠ p ∧
      h[h.length]? = none ∧ (∃ w, h2[h.length]? = some (.cell w)) ∧
      (∀ a, a < h.length → h2[a]? = h[a]?)) ∧
    (∀ p, T.namesOK = true → T.exportedOnly = true → T.depth + 1 < fuel →
      Owned 0 h.length h (.ptr none T) (.atom (.ptr (some p))) = true →
      ∃ res h2, CopyOf fuel h (some (.ptr none T, .atom (.ptr (some p)))) = .ok (res, h2)) := by
  refine ⟨?_, ?_, ?_⟩
  · simp only [CopyOf, Ty.Elem, ValueOf, New, Heap.alloc]
    rw [rcopy]
    simp [Ty.Kind, Value.Interface, hr, Value.Elem, Value.load, CanSet, Value.addressable,
      Value.IsNil, Ty.Elem]
  · intro p vp res h2 hp hret
    have hpl : p < h.length := lt_of_cell hp
    cases fuel with
    | zero => simp [CopyOf, Ty.Elem, rcopy] at hret
    | succ fuel =>
      rw [CopyOf_eq fuel h none T p hr] at hret
      obtain ⟨h3, hrc, hres⟩ := bind_eq_ok hret
      cases hres
      obtain ⟨_, hfr, c2, hb2, _⟩ :=
        rcopy_write fuel T (h ++ [Obj.cell T.zero]) h.length [] (.mem p []) true h2 T.zero hrc
          (getElem?_alloc_new h _)
      refine ⟨rfl, by omega, by simp, ⟨c2, hb2⟩, ?_⟩
      intro a ha
      rw [hfr a (by simp; omega) (by omega), getElem?_alloc_old h _ a ha]
  · intro p hT hE hd hwf
    exact CopyOf_total fuel h none T p hr hd hT hE hwf

/-- C14, at `CopyOf(&node)` for the `Node` of `Sample.nodeHeap`: the call
returns a `*Node` to the new variable at address 4. -/
theorem CopyOf_result_shape_witness :
    (((.ptr none Sample.Node, .atom (.ptr (some 4))) : Ty × Val) =
        (.ptr none Sample.Node, .atom (.ptr (some Sample.nodeHeap.length))) ∧
      Sample.nodeHeap.length ≠ 0 ∧ Sample.nodeHeap[Sample.nodeHeap.length]? = none ∧
      (∃ w, Sample.nodeHeapAfter[Sample.nodeHeap.length]? = some (.cell w)) ∧
      (∀ a, a < Sample.nodeHeap.length → Sample.nodeHeapAfter[a]? = Sample.nodeHeap[a]?)) ∧
    ∃ res h2, CopyOf 7 Sample.nodeHeap
      (some (.ptr none Sample.Node, .atom (.ptr (some 0)))) = .ok (res, h2) :=
  ⟨(CopyOf_result_shape 7 Sample.nodeHeap Sample.Node (by decide)).2.1 0 Sample.nodeVal
      (.ptr none Sample.Node, .atom (.ptr (some 4))) Sample.nodeHeapAfter
      (by decide) (by decide),
    (CopyOf_result_shape 7 Sample.nodeHeap Sample.Node (by decide)).2.2 0
      (by decide) (by decide) (by decide) (by decide)⟩

/-! ## C15: unwritable destination -/

/-- C15, evaluated: `Copy(dst, src)` with the struct `dst` passed by value
panics in `Value.Set` on the first field, which is not addressable, and
`Copy(&dst, &src)` on a struct with the unexported field `n` panics in
`Value.Set` on that field; neither write is skipped. -/
theorem Copy_unsettable_destination_panics :
    Copy 3 Sample.leafHeap
        (some (Sample.HasInt, .agg [.atom (.int 0)]))
        (some (Sample.HasInt, .agg [.atom (.int 5)])) = .panic .setUnaddressable ∧
      Copy 4 Sample.hiddenHeap
        (some (.ptr none Sample.Hidden, .atom (.ptr (some 1))))
        (some (.ptr none Sample.Hidden, .atom (.ptr (some 0)))) = .panic .setUnexported := by
  decide

/-! ## C16: arrays -/

/-- C16 fails on the code: `Copy` is documented to copy deeply and `rcopy`
copies a slice element by element, but its switch has no case for an array,
which falls in the default case.  `CopyOf(&PtrArr{Ps: [1]*int{&seven}})`
stores the source array in the copy by one `Set`; the pointer in the copy's
array is the source's pointer `&seven` (address 1) and no new `int` is
allocated. -/
theorem CopyOf_array_shares_pointers :
    CopyOf 3 Sample.ptrArrHeap (some (.ptr none Sample.PtrArr, .atom (.ptr (some 0)))) =
      .ok ((.ptr none Sample.PtrArr, .atom (.ptr (some 2))),
        Sample.ptrArrHeap ++ [.cell (.agg [.agg [.atom (.ptr (some 1))]])]) := by
  decide

/-- What the code does with an array: for every source array and every
settable destination of the same array type, `rcopy` stores the source's array
value in the destination by one assignment and changes nothing else, so every
element of the destination array is equal to the source's element, a pointer
element being the source's pointer. -/
theorem rcopy_array_assigned_whole (fuel : Nat) (h : Heap) (nm : Option TName) (n : Nat)
    (e : Ty) (sst : Store) (a : Nat) (p : List Nat) (root : Bool) (x c c2 : Val)
    (hx : Value.load h ⟨.array nm n e, sst, false⟩ = .ok x)
    (hc : h[a]? = some (.cell c)) (hp : c.put p x = some c2) :
    rcopy (fuel + 1) h (some ⟨.array nm n e, .mem a p, false⟩)
        (some ⟨.array nm n e, sst, false⟩) root = .ok (h.set a (.cell c2)) ∧
      Value.load (h.set a (.cell c2)) ⟨.array nm n e, .mem a p, false⟩ = .ok x := by
  constructor
  · rw [rcopy_leaf_same fuel h (.array nm n e) a p sst root rfl, hx]
    simp [Heap.store, Heap.cellAt, hc, hp]
  · have hal : a < h.length := lt_of_cell hc
    simp [Value.load, Heap.cellAt, List.getElem?_set_self hal, Val.get_put_same p c x c2 hp]

/-- The field `Ps` of the source at 0 copied into the field `Ps` of the zero
`PtrArr` at 2: the destination array holds the pointer `&seven`. -/
theorem rcopy_array_assigned_whole_witness :
    rcopy 1 Sample.ptrArrHeap2
        (some ⟨.array none 1 (.ptr none Sample.tInt), .mem 2 [0], false⟩)
        (some ⟨.array none 1 (.ptr none Sample.tInt), .mem 0 [0], false⟩) false =
      .ok (Sample.ptrArrHeap2.set 2 (.cell (.agg [.agg [.atom (.ptr (some 1))]]))) ∧
    Value.load (Sample.ptrArrHeap2.set 2 (.cell (.agg [.agg [.atom (.ptr (some 1))]])))
      ⟨.array none 1 (.ptr none Sample.tInt), .mem 2 [0], false⟩ =
      .ok (.agg [.atom (.ptr (some 1))]) :=
  rcopy_array_assigned_whole 0 Sample.ptrArrHeap2 none 1 (.ptr none Sample.tInt) (.mem 0 [0])
    2 [0] false (.agg [.atom (.ptr (some 1))]) (.agg [.agg [.atom (.ptr none)]])
    (.agg [.agg [.atom (.ptr (some 1))]]) (by decide) (by decide) (by decide)

/-! ## C17: termination -/

/-- A bound that is never exhausted in this model, whatever the source, the
destination and the memory: one more than the depth of the source's type,
which is a finite tree.  Every larger bound gives the same result, and an
invalid source returns at once. -/
theorem rcopy_terminates (h : Heap) (dst : Option Value) (s : Value) (root : Bool) :
    rcopy (s.ty.depth + 1) h dst (some s) root ≠ .nofuel ∧
    (∀ k, rcopy (s.ty.depth + 1 + k) h dst (some s) root =
      rcopy (s.ty.depth + 1) h dst (some s) root) ∧
    (∀ k, rcopy (k + 1) h dst none root = .ok h) := by
  have h1 := rcopy_ne_nofuel (s.ty.depth + 1) h dst s root (Nat.lt_succ_self _)
  exact ⟨h1, rcopy_fuel_add _ h dst (some s) root h1, fun k => by simp [rcopy]⟩

/-- C17 as stated fails for a destination that the source reaches.  With
`type Link struct { Next *Link }`, `d := Link{}` and `a := Link{Next: &d}`, the
source `a` is finite and acyclic and nests three deep, yet `Copy(&d, &a)` does
not end: copying `a.Next` sets `d.Next` to a new `Link` and goes on with `d`,
now one `Link` longer, as the source, and so on.  For every recursion bound
`f` the traversal of the types unfolded `f` times runs out of the bound. -/
theorem Copy_into_reachable_destination_recurses :
    (∀ k, nests 3 Sample.linkHeap (Sample.Link k) (.agg [.atom (.ptr (some 1))]) = true) ∧
    (∀ k, apart 1 Sample.linkHeap (Sample.Link (k + 1)) (.agg [.atom (.ptr (some 1))]) =
      false) ∧
    (∀ f, Copy f Sample.linkHeap (some (.ptr none (Sample.Link f), .atom (.ptr (some 1))))
      (some (.ptr none (Sample.Link f), .atom (.ptr (some 0)))) = .nofuel) := by
  refine ⟨?_, ?_, ?_⟩
  · intro k
    rcases k with _ | _ | _ | k <;>
      simp [nests, Sample.Link, Sample.linkHeap, Ty.isReader, Ty.declName]
  · intro k
    simp [apart, apartFields, Sample.Link, Sample.linkHeap, Link_not_reader k]
  · intro f
    cases f with
    | zero => rfl
    | succ f =>
      rw [Copy_ptr_eq f _ none none _ 1 0 (Link_not_reader _)]
      cases f with
      | zero => rfl
      | succ f =>
        have hT : Sample.Link (f + 1 + 1) =
            .struct (some ⟨"Link", false⟩) [("Next", .ptr none (Sample.Link (f + 1)))] := rfl
        rw [hT, rcopy_struct_eq, ← hT]
        simp only [Bool.not_true, Bool.false_eq_true, if_false, ok_bind]
        apply link_fields
        cases f with
        | zero => rfl
        | succ f =>
          exact link_field (f + 1 + 1) f
            (fun H x y cy hne hx hy =>
              link_chase (f + 1 + 1) f H x y cy (by omega) hne hx hy)
            Sample.linkHeap 0 1 (.atom (.ptr none)) (by decide) rfl rfl

/-- C17, amended: let the source be well formed, nest at most `n` deep (its
graph of pointers, struct fields, slice elements and map values is finite and
acyclic) and not reach the variable that holds the destination, a settable
place of the source's type.  Then `rcopy(dst, src, root)` ends, by a return or
by a panic, and its recursion is at most `n + 1` calls deep: no bound above
`n` is exhausted, and every larger bound gives the same result. -/
theorem rcopy_terminates_apart (n fuel : Nat) (T : Ty) (h : Heap) (b : Nat) (p : List Nat)
    (sst : Store) (root : Bool) (vs c : Val) (hfuel : n < fuel)
    (hsrc : SrcOut b h sst vs) (hown : Owned 0 h.length h T vs = true)
    (hap : apart b h T vs = true) (hn : nests n h T vs = true)
    (hb : h[b]? = some (.cell c)) :
    rcopy fuel h (some ⟨T, .mem b p, false⟩) (some ⟨T, sst, false⟩) root ≠ .nofuel ∧
    ∀ k, rcopy (fuel + k) h (some ⟨T, .mem b p, false⟩) (some ⟨T, sst, false⟩) root =
      rcopy fuel h (some ⟨T, .mem b p, false⟩) (some ⟨T, sst, false⟩) root := by
  have h1 := rcopy_nests fuel n hfuel h b T h b p sst root vs c (Or.inl rfl) (Nat.le_refl _)
    (fun _ _ _ => rfl) hsrc hown hap hn hb
  exact ⟨h1, rcopy_fuel_add _ h _ _ root h1⟩

/-- C17, amended, at the source `a = Link{Next: &d}` of `Sample.linkHeap` and a
new zero `Link` at 2 as the destination, which `a` does not reach: the source
nests three deep, and with the bound 4 the traversal returns. -/
theorem rcopy_terminates_apart_witness :
    rcopy 4 Sample.linkHeap2 (some ⟨Sample.Link 9, .mem 2 [], false⟩)
        (some ⟨Sample.Link 9, .mem 0 [], false⟩) true ≠ .nofuel ∧
    ∀ k, rcopy (4 + k) Sample.linkHeap2 (some ⟨Sample.Link 9, .mem 2 [], false⟩)
        (some ⟨Sample.Link 9, .mem 0 [], false⟩) true =
      rcopy 4 Sample.linkHeap2 (some ⟨Sample.Link 9, .mem 2 [], false⟩)
        (some ⟨Sample.Link 9, .mem 0 [], false⟩) true :=
  rcopy_terminates_apart 3 4 (Sample.Link 9) Sample.linkHeap2 2 [] (.mem 0 []) true
    (.agg [.atom (.ptr (some 1))]) (.agg [.atom (.ptr none)]) (by decide)
    ⟨by decide, .agg [.atom (.ptr (some 1))], by decide, by decide⟩ (by decide) (by decide)
    (by decide) (by decide)

/-! ## C18: stale root pointer -/

/-- C18: let `dst` and `src` be variables of one struct type, and let
`Copy(&dst, &src)` return.  When a pointer field `F` is nil in `src` and was
non-nil in `dst`, `dst.F` is the pointer it was before, and `src` is as
before, so `dst.F` differs from `src.F`.  When `F` is a pointer field of a
nested struct field `In`, nil in `src.In` and non-nil in `dst.In` before the
call, `dst.In.F` is nil after the call. -/
theorem Copy_stale_root_pointer (fuel : Nat) (h : Heap) (nmd nms nmT : Option TName)
    (fs : List (String × Ty)) (b ps : Nat) (cd cs : Val) (h2 : Heap)
    (hb : h[b]? = some (.cell cd)) (hs : h[ps]? = some (.cell cs))
    (hret : Copy fuel h (some (.ptr nmd (.struct nmT fs), .atom (.ptr (some b))))
      (some (.ptr nms (.struct nmT fs), .atom (.ptr (some ps)))) = .ok h2) :
    (∀ F i nmF eF a, findField F fs = some (i, .ptr nmF eF) →
      cs.get [i] = some (.atom (.ptr none)) → cd.get [i] = some (.atom (.ptr (some a))) →
      ∃ c2, h2[b]? = some (.cell c2) ∧ c2.get [i] = some (.atom (.ptr (some a))) ∧
        h2[ps]? = some (.cell cs)) ∧
    (∀ In i nmU fsU F j nmF eF a, findField In fs = some (i, .struct nmU fsU) →
      findField F fsU = some (j, .ptr nmF eF) →
      cs.get [i, j] = some (.atom (.ptr none)) →
      cd.get [i, j] = some (.atom (.ptr (some a))) →
      ∃ c2, h2[b]? = some (.cell c2) ∧ c2.get [i, j] = some (.atom (.ptr none))) := by
  have hbl : b < h.length := lt_of_cell hb
  have hpl : ps < h.length := lt_of_cell hs
  cases hr : (Ty.ptr nms (.struct nmT fs)).isReader with
  | true => exact absurd hret (Copy_ptr_reader fuel h nmd nms _ b ps hr h2)
  | false =>
    cases fuel with
    | zero => simp [Copy, ValueOf, rcopy] at hret
    | succ fuel =>
      rw [Copy_ptr_eq fuel h nmd nms _ b ps hr] at hret
      cases fuel with
      | zero => simp [rcopy] at hret
      | succ fuel =>
        rw [rcopy_struct_eq] at hret
        simp only [Bool.not_true, Bool.false_eq_true, if_false, ok_bind] at hret
        constructor
        · intro F i nmF eF a hF hsF hdF
          have hne : ps ≠ b := by
            intro e
            subst e
            rw [hs] at hb
            cases hb
            rw [hsF] at hdF
            cases hdF
          obtain ⟨_, hfr, c2, hb2, hK2⟩ :=
            copyFields_field (rcopy fuel) (rcopy_write fuel) (rcopy_ro fuel) nmT fs b [] ps []
              F i (.ptr nmF eF) [] (.atom (.ptr (some a))) cs True hF hne
              (by
                intro h3 h4 c3 hb3 hs3 hK3 hrc
                cases fuel with
                | zero => simp [rcopy] at hrc
                | succ k =>
                  have := rcopy_nil_src k h3 nmF eF b [i] (.mem ps [i]) false h4 c3 hrc
                    (load_mem h3 _ ps [i] false cs _ hs3 hsF) hb3
                  subst this
                  exact ⟨c3, hb3, hK3 trivial⟩)
              fs h h2 cd hret hb hs (Or.inr hdF)
          exact ⟨c2, hb2, hK2, by rw [hfr ps hpl hne]; exact hs⟩
        · intro In i nmU fsU F j nmF eF a hIn hF hsF hdF
          have hne : ps ≠ b := by
            intro e
            subst e
            rw [hs] at hb
            cases hb
            rw [hsF] at hdF
            cases hdF
          obtain ⟨_, _, c2, hb2, hK2⟩ :=
            copyFields_field (rcopy fuel) (rcopy_write fuel) (rcopy_ro fuel) nmT fs b [] ps []
              In i (.struct nmU fsU) [j] (.atom (.ptr none)) cs False hIn hne
              (by
                intro h3 h4 c3 hb3 hs3 _ hrc
                cases fuel with
                | zero => simp [rcopy] at hrc
                | succ k =>
                  exact rcopy_struct_nil_field k nmU fsU b [i] ps [i] F j nmF eF cs h3 h4 c3
                    hF hne hsF hrc hb3 hs3)
              fs h h2 cd hret hb hs
              (Or.inl ⟨not_false, by
                have := findField_index In fs i _ hIn
                exact List.mem_map.mpr ⟨_, List.mem_iff_getElem?.mpr ⟨i, this⟩, rfl⟩⟩)
          exact ⟨c2, hb2, hK2⟩

/-- C18, at `Copy(&dst, &src)` in `Sample.treeHeap`: the call returns,
`dst.P` is still `&nine` where `src.P` is nil, and `dst.In.P`, which was
`&nine`, is nil. -/
theorem Copy_stale_root_pointer_witness :
    Copy 4 Sample.treeHeap (some (.ptr none Sample.Tree, .atom (.ptr (some 2))))
        (some (.ptr none Sample.Tree, .atom (.ptr (some 0)))) = .ok Sample.treeHeapAfter ∧
    (∃ c2, Sample.treeHeapAfter[2]? = some (.cell c2) ∧
      c2.get [0] = some (.atom (.ptr (some 1))) ∧
      Sample.treeHeapAfter[0]? = some (.cell
        (.agg [.atom (.ptr none), .agg [.atom (.ptr none), .atom (.int 2)]]))) ∧
    (∃ c2, Sample.treeHeapAfter[2]? = some (.cell c2) ∧
      c2.get [1, 0] = some (.atom (.ptr none))) :=
  ⟨by decide,
    (Copy_stale_root_pointer 4 Sample.treeHeap none none (some ⟨"Tree", false⟩)
      [("P", .ptr none Sample.tInt), ("In", Sample.Leaf)] 2 0
      (.agg [.atom (.ptr (some 1)), .agg [.atom (.ptr (some 1)), .atom (.int 4)]])
      (.agg [.atom (.ptr none), .agg [.atom (.ptr none), .atom (.int 2)]])
      Sample.treeHeapAfter
      (by decide) (by decide) (by decide)).1 "P" 0 none Sample.tInt 1
      (by decide) (by decide) (by decide),
    (Copy_stale_root_pointer 4 Sample.treeHeap none none (some ⟨"Tree", false⟩)
      [("P", .ptr none Sample.tInt), ("In", Sample.Leaf)] 2 0
      (.agg [.atom (.ptr (some 1)), .agg [.atom (.ptr (some 1)), .atom (.int 4)]])
      (.agg [.atom (.ptr none), .agg [.atom (.ptr none), .atom (.int 2)]])
      Sample.treeHeapAfter
      (by decide) (by decide) (by decide)).2 "In" 1 (some ⟨"Leaf", false⟩)
      [("P", .ptr none Sample.tInt), ("N", Sample.tInt)] "P" 0 none Sample.tInt 1
      (by decide) (by decide) (by decide) (by decide)⟩

/-! ## C19: a stream at the root -/

/-- C19 as stated fails in its second half: a non-nil, addressable destination
of type `**Body` paired with a source `*Body` that is an `io.Reader` does not
make `rcopy` panic.  The pointee of the destination is a `*Body` variable, the
source pointer is assignable to it, and `dst.Elem().Set(src)` stores it there
(address 1); `Copy(&dst, &src)` on `struct{B **Body}` and `struct{B *Body}`
reaches that call and returns. -/
theorem rcopy_reader_into_pointer_variable_returns :
    rcopy 1 Sample.streamHeap
        (some ⟨.ptr none (.ptr none Sample.Body), .mem 2 [0], false⟩)
        (some ⟨.ptr none Sample.Body, .mem 3 [0], false⟩) false =
      .ok (Sample.streamHeap.set 1 (.cell (.atom (.ptr (some 0))))) ∧
    Copy 3 Sample.streamHeap
        (some (.ptr none Sample.HoldPP, .atom (.ptr (some 2))))
        (some (.ptr none Sample.HoldP, .atom (.ptr (some 3)))) =
      .ok (Sample.streamHeap.set 1 (.cell (.atom (.ptr (some 0))))) := by
  decide

/-- C19, amended: for every pointer `src`, nil or not, whose type is an
`io.Reader`, `CopyOf(src)` panics: the new destination pointer has a settable
pointee of type `T` and `rcopy` assigns the source, of type `*T`, to it.
Likewise `rcopy` panics whenever a source pointer that is an `io.Reader` is
paired with a non-nil destination pointer, neither reached through an
unexported field, and the source's type is not assignable to the type of the
destination's pointee, as is the case when both have the same type; whether
the destination pointer itself is addressable plays no role.  When the
source's type is assignable to the pointee's type, `rcopy` stores the source
pointer in the pointee and returns. -/
theorem rcopy_reader_panics (fuel : Nat) (h : Heap) :
    (∀ nm T po, (Ty.ptr nm T).isReader = true →
      CopyOf (fuel + 1) h (some (.ptr nm T, .atom (.ptr po))) = .panic .notAssignable) ∧
    (∀ (d s : Value) (root : Bool) (nmd : Option TName) (e : Ty) (a : Nat),
      s.ty.isReader = true → s.ro = false → d.ro = false → d.ty = .ptr nmd e →
      d.load h = .ok (.atom (.ptr (some a))) →
      (directlyAssignable e s.ty = false →
        rcopy (fuel + 1) h (some d) (some s) root = .panic .notAssignable) ∧
      (d.ty = s.ty → rcopy (fuel + 1) h (some d) (some s) root = .panic .notAssignable) ∧
      (directlyAssignable e s.ty = true →
        rcopy (fuel + 1) h (some d) (some s) root =
          (s.load h >>= fun w => h.store a [] w))) := by
  constructor
  · intro nm T po hr
    simp only [CopyOf, Ty.Elem, ValueOf, New, Heap.alloc]
    rw [rcopy]
    simp [Ty.Kind, Value.Interface, hr, Value.Elem, Value.load, CanSet, Value.addressable,
      Value.Set, not_assignable_ptr_self]
  · intro d s root nmd e a hs hsro hdro hd hload
    obtain ⟨dty, dst, dro⟩ := d
    obtain ⟨sty, sst, sro⟩ := s
    simp only at hs hsro hdro hd
    subst hsro; subst hdro; subst hd
    have hgen : rcopy (fuel + 1) h (some ⟨.ptr nmd e, dst, false⟩) (some ⟨sty, sst, false⟩)
        root = Value.Set h (some ⟨e, .mem a [], false⟩) (some ⟨sty, sst, false⟩) := by
      cases sty with
      | ptr nms es =>
        rw [rcopy]
        simp [Ty.Kind, Value.Interface, hs, Value.Elem, hload, CanSet, Value.addressable]
      | _ => simp [Ty.isReader] at hs
    refine ⟨?_, ?_, ?_⟩
    · intro hna
      rw [hgen]
      simp [Value.Set, hna]
    · intro hty
      simp only at hty
      subst hty
      rw [hgen]
      simp [Value.Set, not_assignable_ptr_self]
    · intro hya
      rw [hgen]
      simp [Value.Set, hya]

/-- C19, at the reader `&body` of `Sample.streamHeap`: `CopyOf(&body)` panics,
and so does `rcopy` on the field `B *Body`, which points to `body`, paired
with itself. -/
theorem rcopy_reader_panics_witness :
    CopyOf 1 Sample.streamHeap (some (.ptr none Sample.Body, .atom (.ptr (some 0)))) =
      .panic .notAssignable ∧
    rcopy 1 Sample.streamHeap (some ⟨.ptr none Sample.Body, .mem 3 [0], false⟩)
      (some ⟨.ptr none Sample.Body, .mem 3 [0], false⟩) false = .panic .notAssignable :=
  ⟨(rcopy_reader_panics 0 Sample.streamHeap).1 none Sample.Body (some 0) (by decide),
    ((rcopy_reader_panics 0 Sample.streamHeap).2 ⟨.ptr none Sample.Body, .mem 3 [0], false⟩
      ⟨.ptr none Sample.Body, .mem 3 [0], false⟩ false none Sample.Body 0
      (by decide) rfl rfl rfl (by decide)).2.1 rfl⟩

/-! ## C20: copying a copy -/

/-- C20 as stated fails for a struct that holds a NaN: `q := CopyOf(&Gauge{F:
NaN})` and `CopyOf(q)` both return, each copy holds the bits of the source,
and `reflect.DeepEqual` compares the two `F` with `==`, which is false for a
NaN; neither the pointees nor the pointers are deeply equal. -/
theorem CopyOf_twice_nan_not_deep_equal :
    CopyOf 3 Sample.nanHeap (some (.ptr none Sample.Gauge, .atom (.ptr (some 0)))) =
      .ok ((.ptr none Sample.Gauge, .atom (.ptr (some 1))), Sample.nanHeap1) ∧
    CopyOf 3 Sample.nanHeap1 (some (.ptr none Sample.Gauge, .atom (.ptr (some 1)))) =
      .ok ((.ptr none Sample.Gauge, .atom (.ptr (some 2))), Sample.nanHeap2) ∧
    DeepEqual Sample.nanHeap2 Sample.Gauge (.agg [.atom (.float Sample.nanBits64)])
      (.agg [.atom (.float Sample.nanBits64)]) = false ∧
    DeepEqual Sample.nanHeap2 (.ptr none Sample.Gauge) (.atom (.ptr (some 2)))
      (.atom (.ptr (some 1))) = false := by
  decide

/-- C20 (amended): let `p` be a non-nil pointer of type `*T` to a well-formed
value that holds no NaN.  Whenever `q := CopyOf(p)` and then `CopyOf(q)`
return, both results are non-nil pointers of type `*T` to variables, and the
pointee of `CopyOf(q)` is deeply equal (`reflect.DeepEqual`, nil distinguished
from empty) to the pointee of `q`, as are the two pointers.  Both calls do
return when `*T` is not an `io.Reader`, the fields on the way are exported and
the recursion bound is above the depth of the type. -/
theorem CopyOf_twice_deep_equal (fuel : Nat) (h : Heap) (nm : Option TName) (T : Ty)
    (p : Nat) (vp : Val) (hT : T.namesOK = true)
    (hwf : Owned 0 h.length h (.ptr nm T) (.atom (.ptr (some p))) = true)
    (hp : h[p]? = some (.cell vp)) (hnn : NoNaN h T vp = true) :
    (∀ r1 h1 r2 h2,
      CopyOf fuel h (some (.ptr nm T, .atom (.ptr (some p)))) = .ok (r1, h1) →
      CopyOf fuel h1 (some r1) = .ok (r2, h2) →
      ∃ q1 q2 w1 w2, r1 = (.ptr none T, .atom (.ptr (some q1))) ∧
        r2 = (.ptr none T, .atom (.ptr (some q2))) ∧
        h2[q1]? = some (.cell w1) ∧ h2[q2]? = some (.cell w2) ∧
        DeepEqual h2 T w2 w1 = true ∧ DeepEqual h2 (.ptr none T) r2.2 r1.2 = true) ∧
    ((Ty.ptr nm T).isReader = false → (Ty.ptr none T).isReader = false →
      T.exportedOnly = true → T.depth + 1 < fuel →
      ∃ r1 h1 r2 h2,
        CopyOf fuel h (some (.ptr nm T, .atom (.ptr (some p)))) = .ok (r1, h1) ∧
        CopyOf fuel h1 (some r1) = .ok (r2, h2)) := by
  have key : ∀ r1 h1, CopyOf fuel h (some (.ptr nm T, .atom (.ptr (some p)))) = .ok (r1, h1) →
      r1 = (.ptr none T, .atom (.ptr (some h.length))) ∧ h.length < h1.length ∧
      (∃ w1, h1[h.length]? = some (.cell w1) ∧
        Image (h.length + 1) h1.length h h1 T vp w1) ∧
      Owned 0 h1.length h1 (.ptr none T) (.atom (.ptr (some h.length))) = true := by
    intro r1 h1 hret1
    have hr : (Ty.ptr nm T).isReader = false := by
      cases hr : (Ty.ptr nm T).isReader with
      | true => exact absurd hret1 (CopyOf_reader fuel h nm T p hr _)
      | false => rfl
    obtain ⟨hr1, hlen1, hfr1, vp', w1, hp', hw1, him1⟩ :=
      CopyOf_image fuel h nm T p r1 h1 hT hwf hret1
    rw [hp] at hp'
    cases hp'
    refine ⟨hr1, hlen1, ⟨w1, hw1, him1⟩, ?_⟩
    rcases Owned_ptr hwf hr with hv | ⟨a, u, hv, _, _, hu, hou⟩
    · cases hv
    · cases hv
      rw [hp] at hu
      cases hu
      unfold Owned
      simp only [hlen1, hw1, Nat.zero_le, decide_True, Bool.and_self, Bool.true_and,
        Bool.or_eq_true]
      exact Or.inr (Image_wf (Nat.le_of_lt hlen1) hfr1 T vp w1 hou him1)
  refine ⟨?_, ?_⟩
  · intro r1 h1 r2 h2 hret1 hret2
    obtain ⟨hr1, hlen1, ⟨w1, hw1, him1⟩, hwf1⟩ := key r1 h1 hret1
    subst hr1
    obtain ⟨hr2, hlen2, hfr2, w1', w2, hw1', hw2, him2⟩ :=
      CopyOf_image fuel h1 none T h.length r2 h2 hT hwf1 hret2
    subst hr2
    rw [hw1] at hw1'
    cases hw1'
    have hq1 : h2[h.length]? = some (.cell w1) := by rw [hfr2 _ hlen1, hw1]
    have hde := Image_twice hfr2 T vp w1 w2 hnn him1 him2
    refine ⟨h.length, h1.length, w1, w2, rfl, rfl, hq1, hw2, hde, ?_⟩
    rw [DeepEqual]
    simp only [hw2, hq1, hde, Bool.or_true]
  · intro hr hr0 hE hd
    obtain ⟨r1, h1, hret1⟩ := CopyOf_total fuel h nm T p hr hd hT hE hwf
    obtain ⟨hr1, _, _, hwf1⟩ := key r1 h1 hret1
    subst hr1
    obtain ⟨r2, h2, hret2⟩ := CopyOf_total fuel h1 none T h.length hr0 hd hT hE hwf1
    exact ⟨_, h1, r2, h2, hret1, hret2⟩

/-- C20 (amended), at `q := CopyOf(&Gauge{F: 1.0})` and `CopyOf(q)`: the copy
at 2 is deeply equal to the copy at 1; and both calls return for the `Node` of
`Sample.nodeHeap`. -/
theorem CopyOf_twice_deep_equal_witness :
    (∃ q1 q2 w1 w2,
        ((.ptr none Sample.Gauge, .atom (.ptr (some 1))) : Ty × Val) =
          (.ptr none Sample.Gauge, .atom (.ptr (some q1))) ∧
        ((.ptr none Sample.Gauge, .atom (.ptr (some 2))) : Ty × Val) =
          (.ptr none Sample.Gauge, .atom (.ptr (some q2))) ∧
        Sample.gaugeHeap2[q1]? = some (.cell w1) ∧ Sample.gaugeHeap2[q2]? = some (.cell w2) ∧
        DeepEqual Sample.gaugeHeap2 Sample.Gauge w2 w1 = true ∧
        DeepEqual Sample.gaugeHeap2 (.ptr none Sample.Gauge) (.atom (.ptr (some 2)))
          (.atom (.ptr (some 1))) = true) ∧
    ∃ r1 h1 r2 h2,
      CopyOf 7 Sample.nodeHeap (some (.ptr none Sample.Node, .atom (.ptr (some 0)))) =
        .ok (r1, h1) ∧
      CopyOf 7 h1 (some r1) = .ok (r2, h2) :=
  ⟨(CopyOf_twice_deep_equal 3 Sample.gaugeHeap none Sample.Gauge 0
      (.agg [.atom (.float Sample.oneBits64)]) (by decide) (by decide) (by decide)
      (by decide)).1
      (.ptr none Sample.Gauge, .atom (.ptr (some 1))) Sample.gaugeHeap1
      (.ptr none Sample.Gauge, .atom (.ptr (some 2))) Sample.gaugeHeap2
      (by decide) (by decide),
    (CopyOf_twice_deep_equal 7 Sample.nodeHeap none Sample.Node 0 Sample.nodeVal
      (by decide) (by decide) (by decide) (by decide)).2
      (by decide) (by decide) (by decide) (by decide)⟩

end Awsutil
